import Mathlib

/-!
AshuDB SQL front end: lexer and parser.

A shallow embedding of `src/internal/lexer.go` and `src/internal/parser.go`, and of the method
`CreateTable` of `src/internal/memory.go`.

* A Go `string` is a sequence of bytes; it is modelled as `List Nat`, one number per byte.
* `Cursor.Pointer` is a Go `uint`.  Every increment of it in the lexer happens after a successful
  bounds test against `len(source)`, so it never wraps and is kept as a plain natural number.
  `Location.Line` and `Location.Col` are `uint` counters that a caller may hand in with any value;
  their increments are taken modulo `2 ^ 64`, the width of `uint` on 64-bit platforms.
* A Go call either returns, or aborts with a run-time panic (index or slice out of range, nil
  dereference).  Loops are run with an explicit iteration bound; reaching the bound is a third,
  separate outcome, so that a theorem with a result `Outcome.ret` states that the call returns.
-/

namespace Ashudb

/-- Result of running a Go function: a normal return, a run-time panic, or an exhausted
iteration bound of the embedding. -/
inductive Outcome (α : Type) where
  | ret (a : α)
  | panic
  | timeout
deriving DecidableEq, Repr

/-- The bytes of an ASCII text. -/
def ascii (s : String) : List Nat := s.toList.map Char.toNat

/-- Location of `lexer.go`: zero-based line and column. -/
structure Location where
  Line : Nat
  Col : Nat
deriving DecidableEq, Repr

/-- Token kinds of `lexer.go`, in the order of the `iota` block. -/
inductive TokenKind where
  | KeywordKind
  | SymbolKind
  | IdentifierKind
  | StringKind
  | NumericKind
deriving DecidableEq, Repr

/-- Token of `lexer.go`. -/
structure Token where
  Value : List Nat
  Kind : TokenKind
  Loc : Location
deriving DecidableEq, Repr

/-- Cursor of `lexer.go`: byte offset into the source and the location there. -/
structure Cursor where
  Pointer : Nat
  Loc : Location
deriving DecidableEq, Repr

/-- The triple `(*Token, Cursor, bool)` every scanner returns; a nil token is `none`. -/
abbrev ScanResult := Option Token × Cursor × Bool

/-- The `uint` increment `x++`. -/
def uintSucc (x : Nat) : Nat := (x + 1) % 2 ^ 64

/-- The `uint` addition `x + y`. -/
def uintAdd (x y : Nat) : Nat := (x + y) % 2 ^ 64

/-- The statement `cur.Loc.Col++`. -/
def Cursor.colInc (cur : Cursor) : Cursor :=
  ⟨cur.Pointer, ⟨cur.Loc.Line, uintSucc cur.Loc.Col⟩⟩

/-- The statement `cur.Pointer++`. -/
def Cursor.ptrInc (cur : Cursor) : Cursor :=
  ⟨cur.Pointer + 1, cur.Loc⟩

/-- Lower-casing of one ASCII byte. -/
def asciiLower (c : Nat) : Nat := if 65 ≤ c ∧ c ≤ 90 then c + 32 else c

/-- The expression `strings.ToLower(string(b))` for a byte `b`: the byte is converted to the
rune of the same number, lower-cased, and encoded in UTF-8 (one byte below 128, two bytes from
128 on; among the runes 128..255 the capital letters are 192..222 without 215). -/
def toLowerByte (b : Nat) : List Nat :=
  if b < 128 then [asciiLower b]
  else
    let r := if 192 ≤ b ∧ b ≤ 222 ∧ b ≠ 215 then b + 32 else b
    [192 + r / 64, 128 + r % 64]

/-- The call `strings.ToLower(s)` on a string of ASCII bytes. -/
def toLowerASCII (s : List Nat) : List Nat := s.map asciiLower

/-- The slice expression `s[lo:hi]`; `none` is the out-of-range panic. -/
def slice (s : List Nat) (lo hi : Nat) : Option (List Nat) :=
  if lo ≤ hi ∧ hi ≤ s.length then some ((s.drop lo).take (hi - lo)) else none

/-- The keywords, in the order of the list built in `lexKeyword`. -/
def keywords : List (List Nat) :=
  [ascii "select", ascii "from", ascii "as", ascii "table", ascii "create", ascii "where",
   ascii "insert", ascii "into", ascii "values", ascii "int", ascii "text"]

/-- The symbols, in the order of the list built in `lexSymbol`. -/
def symbols : List (List Nat) :=
  [ascii ",", ascii "(", ascii ")", ascii ";", ascii "*"]

/-- The inner loop `for i, option := range options` of `longestMatch`, from index `i` on.
`value` is the text accumulated so far and `n` is `cur.Pointer - ic.Pointer`.  It returns the
updated `skipList` and `match`. -/
def longestMatchOptions (value : List Nat) (n : Nat) :
    List (List Nat) → Nat → List Nat → List Nat → Outcome (List Nat × List Nat)
  | [], _, skipList, mtch => .ret (skipList, mtch)
  | option :: rest, i, skipList, mtch =>
    if i ∈ skipList then
      longestMatchOptions value n rest (i + 1) skipList mtch
    else if option = value then
      longestMatchOptions value n rest (i + 1) (skipList ++ [i])
        (if option.length > mtch.length then option else mtch)
    else
      match slice option 0 n with
      | none => .panic
      | some pre =>
        let sharesPrefix := decide (value = pre)
        let tooLong := decide (value.length > option.length)
        if tooLong || !sharesPrefix then
          longestMatchOptions value n rest (i + 1) (skipList ++ [i]) mtch
        else
          longestMatchOptions value n rest (i + 1) skipList mtch

/-- The outer loop `for cur.Pointer < uint(len(source))` of `longestMatch`. -/
def longestMatchLoop (source : List Nat) (ic : Cursor) (options : List (List Nat)) :
    Nat → Cursor → List Nat → List Nat → List Nat → Outcome (List Nat)
  | 0, _, _, _, _ => .timeout
  | fuel + 1, cur, value, skipList, mtch =>
    if cur.Pointer < source.length then
      match source[cur.Pointer]? with
      | none => .panic
      | some c =>
        let value := value ++ toLowerByte c
        let cur := cur.ptrInc
        match longestMatchOptions value (cur.Pointer - ic.Pointer) options 0 skipList mtch with
        | .ret (skipList, mtch) =>
          if skipList.length = options.length then .ret mtch
          else longestMatchLoop source ic options fuel cur value skipList mtch
        | .panic => .panic
        | .timeout => .timeout
    else .ret mtch

/-- The function `longestMatch` of `lexer.go`. -/
def longestMatch (source : List Nat) (ic : Cursor) (options : List (List Nat)) :
    Outcome (List Nat) :=
  longestMatchLoop source ic options (source.length + 1) ic [] [] []

/-- The function `lexKeyword` of `lexer.go`. -/
def lexKeyword (source : List Nat) (ic : Cursor) : Outcome ScanResult :=
  match longestMatch source ic keywords with
  | .ret mtch =>
    if mtch = [] then .ret (none, ic, false)
    else
      .ret (some ⟨mtch, .KeywordKind, ic.Loc⟩,
        ⟨ic.Pointer + mtch.length, ⟨ic.Loc.Line, uintAdd ic.Loc.Col mtch.length⟩⟩, true)
  | .panic => .panic
  | .timeout => .timeout

/-- The function `lexSymbol` of `lexer.go`. -/
def lexSymbol (source : List Nat) (ic : Cursor) : Outcome ScanResult :=
  match source[ic.Pointer]? with
  | none => .panic
  | some c =>
    let cur := ic.ptrInc.colInc
    if c = 10 then
      .ret (none, ⟨cur.Pointer, ⟨uintSucc cur.Loc.Line, 0⟩⟩, true)
    else if c = 9 then .ret (none, cur, true)
    else if c = 32 then .ret (none, cur, true)
    else
      match longestMatch source ic symbols with
      | .ret mtch =>
        if mtch = [] then .ret (none, ic, false)
        else
          .ret (some ⟨mtch, .SymbolKind, ic.Loc⟩,
            ⟨ic.Pointer + mtch.length, ⟨ic.Loc.Line, uintAdd ic.Loc.Col mtch.length⟩⟩, true)
      | .panic => .panic
      | .timeout => .timeout

/-- The tail of `lexNumeric` after its loop: the test for an empty run and the token. -/
def lexNumericFinish (source : List Nat) (ic cur : Cursor) : Outcome ScanResult :=
  if cur.Pointer = ic.Pointer then .ret (none, ic, false)
  else
    match slice source ic.Pointer cur.Pointer with
    | none => .panic
    | some v => .ret (some ⟨v, .NumericKind, ic.Loc⟩, cur, true)

/-- The loop `for ; cur.Pointer < uint(len(source)); cur.Pointer++` of `lexNumeric`, followed by
the tail of the function. -/
def lexNumericLoop (source : List Nat) (ic : Cursor) :
    Nat → Cursor → Bool → Bool → Outcome ScanResult
  | 0, _, _, _ => .timeout
  | fuel + 1, cur, periodFound, expMarkerFound =>
    if cur.Pointer < source.length then
      match source[cur.Pointer]? with
      | none => .panic
      | some c =>
        let cur := cur.colInc
        let isDigit := decide (48 ≤ c ∧ c ≤ 57)
        let isPeriod := decide (c = 46)
        let isExpMarker := decide (c = 101)
        if cur.Pointer = ic.Pointer then
          if !isDigit && !isPeriod then .ret (none, ic, false)
          else lexNumericLoop source ic fuel cur.ptrInc isPeriod expMarkerFound
        else if isPeriod then
          if periodFound then .ret (none, ic, false)
          else lexNumericLoop source ic fuel cur.ptrInc true expMarkerFound
        else if isExpMarker then
          if expMarkerFound then .ret (none, ic, false)
          else if cur.Pointer = source.length - 1 then .ret (none, ic, false)
          else
            match source[cur.Pointer + 1]? with
            | none => .panic
            | some cNext =>
              if cNext = 45 ∨ cNext = 43 then
                lexNumericLoop source ic fuel cur.ptrInc.colInc.ptrInc true true
              else
                lexNumericLoop source ic fuel cur.ptrInc true true
        else if !isDigit then lexNumericFinish source ic cur
        else lexNumericLoop source ic fuel cur.ptrInc periodFound expMarkerFound
    else lexNumericFinish source ic cur

/-- The function `lexNumeric` of `lexer.go`. -/
def lexNumeric (source : List Nat) (ic : Cursor) : Outcome ScanResult :=
  lexNumericLoop source ic (source.length + 1) ic false false

/-- The loop of `lexCharacterDelimited`, followed by the final `return nil, ic, false`. -/
def lexCharacterDelimitedLoop (source : List Nat) (ic : Cursor) (delimiter : Nat) :
    Nat → Cursor → List Nat → Outcome ScanResult
  | 0, _, _ => .timeout
  | fuel + 1, cur, value =>
    if cur.Pointer < source.length then
      match source[cur.Pointer]? with
      | none => .panic
      | some c =>
        if c = delimiter then
          if cur.Pointer + 1 ≥ source.length then
            .ret (some ⟨value, .StringKind, ic.Loc⟩, cur.ptrInc, true)
          else
            match source[cur.Pointer + 1]? with
            | none => .panic
            | some c1 =>
              if c1 ≠ delimiter then
                .ret (some ⟨value, .StringKind, ic.Loc⟩, cur.ptrInc, true)
              else
                lexCharacterDelimitedLoop source ic delimiter fuel cur.colInc.ptrInc
                  (value ++ [c])
        else
          lexCharacterDelimitedLoop source ic delimiter fuel cur.colInc.ptrInc (value ++ [c])
    else .ret (none, ic, false)

/-- The function `lexCharacterDelimited` of `lexer.go`. -/
def lexCharacterDelimited (source : List Nat) (ic : Cursor) (delimiter : Nat) :
    Outcome ScanResult :=
  if source.length < ic.Pointer then .panic
  else if source.length - ic.Pointer = 0 then .ret (none, ic, false)
  else
    match source[ic.Pointer]? with
    | none => .panic
    | some c =>
      if c ≠ delimiter then .ret (none, ic, false)
      else
        lexCharacterDelimitedLoop source ic delimiter (source.length + 1) ic.colInc.ptrInc []

/-- The function `lexString` of `lexer.go`; 39 is the single quote. -/
def lexString (source : List Nat) (ic : Cursor) : Outcome ScanResult :=
  lexCharacterDelimited source ic 39

/-- The test `isAlphabetical` of `lexIdentifier`. -/
def isAlphabetical (c : Nat) : Bool := (65 ≤ c && c ≤ 90) || (97 ≤ c && c ≤ 122)

/-- The test `isAlphabetical || isNumeric || c == '$' || c == '_'` of `lexIdentifier`. -/
def isIdentifierByte (c : Nat) : Bool :=
  isAlphabetical c || (48 ≤ c && c ≤ 57) || c = 36 || c = 95

/-- The loop of `lexIdentifier`, followed by the tail of the function.  The bytes of `value`
are ASCII letters, digits, the dollar sign and the underscore, so that `strings.ToLower` is
`toLowerASCII` on it. -/
def lexIdentifierLoop (source : List Nat) (ic : Cursor) :
    Nat → Cursor → List Nat → Outcome ScanResult
  | 0, _, _ => .timeout
  | fuel + 1, cur, value =>
    let finish : Outcome ScanResult :=
      if value.length = 0 then .ret (none, ic, false)
      else .ret (some ⟨toLowerASCII value, .IdentifierKind, ic.Loc⟩, cur, true)
    if cur.Pointer < source.length then
      match source[cur.Pointer]? with
      | none => .panic
      | some c =>
        if isIdentifierByte c then
          lexIdentifierLoop source ic fuel cur.colInc.ptrInc (value ++ [c])
        else finish
    else finish

/-- The function `lexIdentifier` of `lexer.go`; 34 is the double quote. -/
def lexIdentifier (source : List Nat) (ic : Cursor) : Outcome ScanResult :=
  match lexCharacterDelimited source ic 34 with
  | .ret (token, newCursor, true) => .ret (token, newCursor, true)
  | .panic => .panic
  | .timeout => .timeout
  | .ret (_, _, false) =>
    match source[ic.Pointer]? with
    | none => .panic
    | some c =>
      if !isAlphabetical c then .ret (none, ic, false)
      else lexIdentifierLoop source ic (source.length + 1) ic.ptrInc.colInc [c]

/-- The scanners of `lex`, in the order in which they are tried. -/
def lexers : List (List Nat → Cursor → Outcome ScanResult) :=
  [lexKeyword, lexSymbol, lexString, lexNumeric, lexIdentifier]

/-- The loop `for _, l := range lexers` of `lex`: the result of the first scanner that
matches, or a result with flag `false` when none does. -/
def runLexers (source : List Nat) (cur : Cursor) :
    List (List Nat → Cursor → Outcome ScanResult) → Outcome ScanResult
  | [] => .ret (none, cur, false)
  | l :: ls =>
    match l source cur with
    | .ret (token, newCursor, true) => .ret (token, newCursor, true)
    | .ret (_, _, false) => runLexers source cur ls
    | .panic => .panic
    | .timeout => .timeout

/-- The pair `([]*Token, error)` returned by `lex`: the tokens, or the error with the hint
(the value of the last token, if any) and the location it prints. -/
inductive LexResult where
  | tokens (ts : List Token)
  | error (hint : Option (List Nat)) (loc : Location)
deriving DecidableEq, Repr

/-- The loop `for cur.Pointer < uint(len(source))` of `lex`. -/
def lexLoop (source : List Nat) : Nat → Cursor → List Token → Outcome LexResult
  | 0, _, _ => .timeout
  | fuel + 1, cur, tokens =>
    if cur.Pointer < source.length then
      match runLexers source cur lexers with
      | .ret (some token, newCursor, true) => lexLoop source fuel newCursor (tokens ++ [token])
      | .ret (none, newCursor, true) => lexLoop source fuel newCursor tokens
      | .ret (_, _, false) => .ret (.error (tokens.getLast?.map Token.Value) cur.Loc)
      | .panic => .panic
      | .timeout => .timeout
    else .ret (.tokens tokens)

/-- The function `lex` of `lexer.go`. -/
def lex (source : List Nat) : Outcome LexResult :=
  lexLoop source (source.length + 1) ⟨0, ⟨0, 0⟩⟩ []

/-! ## Parser

A shallow embedding of `src/internal/parser.go`.  A Go pointer that may be nil is an `Option`; a
slice of pointers is a list of options.  The token slice handed to the parser comes from `lex`
and holds no nil pointer, so it is a `List Token`.  The cursor into the tokens is a `uint` that
is only incremented below `len(tokens)`, so it is a plain natural number. -/

/-- Statement kinds of `parser.go`, in the order of the `iota` block. -/
inductive AstKind where
  | SelectKind
  | CreateTableKind
  | InsertKind
deriving DecidableEq, Repr

/-- Expression kinds of `parser.go`. -/
inductive expressionKind where
  | literalKind
deriving DecidableEq, Repr

/-- The struct `expression` of `parser.go`. -/
structure expression where
  literal : Option Token
  kind : expressionKind
deriving DecidableEq, Repr

/-- The struct `selectItem` of `parser.go`. -/
structure selectItem where
  exp : Option expression
  asterisk : Bool
  as : Option Token
deriving DecidableEq, Repr

/-- The struct `fromItem` of `parser.go`. -/
structure fromItem where
  table : Option Token
deriving DecidableEq, Repr

/-- The struct `columnDefinition` of `parser.go`. -/
structure columnDefinition where
  name : Token
  datatype : Token
deriving DecidableEq, Repr

/-- The struct `InsertStatement` of `parser.go`. -/
structure InsertStatement where
  table : Token
  values : Option (List (Option expression))
deriving DecidableEq, Repr

/-- The struct `CreateTableStatement` of `parser.go`. -/
structure CreateTableStatement where
  name : Token
  cols : Option (List (Option columnDefinition))
deriving DecidableEq, Repr

/-- The struct `SelectStatement` of `parser.go`. -/
structure SelectStatement where
  item : Option (List (Option selectItem))
  «from» : Option fromItem
deriving DecidableEq, Repr

/-- The struct `Statement` of `parser.go`. -/
structure Statement where
  SelectStatement : Option SelectStatement
  CreateTableStatement : Option CreateTableStatement
  InsertStatement : Option InsertStatement
  Kind : AstKind
deriving DecidableEq, Repr

/-- The struct `Ast` of `parser.go`. -/
structure Ast where
  Statements : List (Option Statement)
deriving DecidableEq, Repr

/-- The triple `(payload, cursor, ok)` every parsing function returns. -/
abbrev ParseStep (α : Type) := Option α × Nat × Bool

/-- The function `tokenFromKeyword` of `parser.go`; the location is the zero value. -/
def tokenFromKeyword (k : List Nat) : Token := ⟨k, .KeywordKind, ⟨0, 0⟩⟩

/-- The function `tokenFromSymbol` of `parser.go`; the location is the zero value. -/
def tokenFromSymbol (s : List Nat) : Token := ⟨s, .SymbolKind, ⟨0, 0⟩⟩

/-- The method `equals` of `lexer.go`: value and kind agree; the location is not compared. -/
def Token.equals (t other : Token) : Bool :=
  decide (t.Value = other.Value) && decide (t.Kind = other.Kind)

/-- The function `expectToken` of `parser.go`. -/
def expectToken (tokens : List Token) (cursor : Nat) (t : Token) : Bool :=
  if cursor ≥ tokens.length then false
  else
    match tokens[cursor]? with
    | some current => t.equals current
    | none => false

/-- The function `helpMessage` of `parser.go`, without the line it prints: it returns when
the index it reads is in range.  For `cursor >= len(tokens)` the index is `cursor - 1`, which
for `cursor = 0` wraps around to the largest `uint`. -/
def helpMessage (tokens : List Token) (cursor : Nat) : Outcome Unit :=
  if cursor < tokens.length then .ret ()
  else if cursor = 0 then .panic
  else if cursor - 1 < tokens.length then .ret ()
  else .panic

/-- The statements `helpMessage(tokens, cursor, msg); return r`. -/
def helpThenReturn {α : Type} (tokens : List Token) (cursor : Nat) (r : α) : Outcome α :=
  match helpMessage tokens cursor with
  | .ret _ => .ret r
  | .panic => .panic
  | .timeout => .timeout

/-- The function `parseToken` of `parser.go`. -/
def parseToken (tokens : List Token) (initialCursor : Nat) (kind : TokenKind) :
    ParseStep Token :=
  if initialCursor ≥ tokens.length then (none, initialCursor, false)
  else
    match tokens[initialCursor]? with
    | none => (none, initialCursor, false)
    | some current =>
      if current.Kind = kind then (some current, initialCursor + 1, true)
      else (none, initialCursor, false)

/-- The loop `for _, kind := range kinds` of `parseExpression`. -/
def parseExpressionKinds (tokens : List Token) (initialCursor : Nat) :
    List TokenKind → ParseStep expression
  | [] => (none, initialCursor, false)
  | kind :: kinds =>
    match parseToken tokens initialCursor kind with
    | (t, newCursor, true) => (some ⟨t, .literalKind⟩, newCursor, true)
    | (_, _, false) => parseExpressionKinds tokens initialCursor kinds

/-- The function `parseExpression` of `parser.go`; its third argument is not used. -/
def parseExpression (tokens : List Token) (initialCursor : Nat) (_ : Token) :
    ParseStep expression :=
  parseExpressionKinds tokens initialCursor [.IdentifierKind, .NumericKind, .StringKind]

/-- The loop of `parseExpressions`, followed by the final `return &exps, cursor, true`. -/
def parseExpressionsLoop (tokens : List Token) (initialCursor : Nat) (delimiters : List Token) :
    Nat → Nat → List (Option expression) → Outcome (ParseStep (List (Option expression)))
  | 0, _, _ => .timeout
  | fuel + 1, cursor, exps =>
    if cursor ≥ tokens.length then .ret (none, initialCursor, false)
    else
      match tokens[cursor]? with
      | none => .panic
      | some current =>
        if delimiters.any (fun delimiter => delimiter.equals current) then
          .ret (some exps, cursor, true)
        else if exps.length > 0 ∧ expectToken tokens cursor (tokenFromSymbol (ascii ",")) = false
        then helpThenReturn tokens cursor (none, initialCursor, false)
        else
          let cursor := if exps.length > 0 then cursor + 1 else cursor
          match parseExpression tokens cursor (tokenFromSymbol (ascii ",")) with
          | (exp, newCursor, true) =>
            parseExpressionsLoop tokens initialCursor delimiters fuel newCursor (exps ++ [exp])
          | (_, _, false) => helpThenReturn tokens cursor (none, initialCursor, false)

/-- The function `parseExpressions` of `parser.go`. -/
def parseExpressions (tokens : List Token) (initialCursor : Nat) (delimiters : List Token) :
    Outcome (ParseStep (List (Option expression))) :=
  parseExpressionsLoop tokens initialCursor delimiters (tokens.length + 1) initialCursor []

/-- The loop of `parseSelectItem`, followed by the final `return &s, cursor, true`. -/
def parseSelectItemLoop (tokens : List Token) (initialCursor : Nat) (delimiters : List Token) :
    Nat → Nat → List (Option selectItem) → Outcome (ParseStep (List (Option selectItem)))
  | 0, _, _ => .timeout
  | fuel + 1, cursor, s =>
    if cursor ≥ tokens.length then .ret (none, initialCursor, false)
    else
      match tokens[cursor]? with
      | none => .panic
      | some current =>
        if delimiters.any (fun delimiter => delimiter.equals current) then
          .ret (some s, cursor, true)
        else if s.length > 0 ∧ expectToken tokens cursor (tokenFromSymbol (ascii ",")) = false
        then helpThenReturn tokens cursor (none, initialCursor, false)
        else
          let cursor := if s.length > 0 then cursor + 1 else cursor
          if expectToken tokens cursor (tokenFromSymbol (ascii "*")) then
            parseSelectItemLoop tokens initialCursor delimiters fuel (cursor + 1)
              (s ++ [some ⟨none, true, none⟩])
          else
            match parseExpression tokens cursor (tokenFromSymbol (ascii ",")) with
            | (_, _, false) => helpThenReturn tokens cursor (none, initialCursor, false)
            | (exp, newCursor, true) =>
              let cursor := newCursor
              if expectToken tokens cursor (tokenFromKeyword (ascii "as")) then
                let cursor := cursor + 1
                match parseToken tokens cursor .IdentifierKind with
                | (_, _, false) => helpThenReturn tokens cursor (none, initialCursor, false)
                | (id, newCursor, true) =>
                  parseSelectItemLoop tokens initialCursor delimiters fuel newCursor
                    (s ++ [some ⟨exp, false, id⟩])
              else
                parseSelectItemLoop tokens initialCursor delimiters fuel cursor
                  (s ++ [some ⟨exp, false, none⟩])

/-- The function `parseSelectItem` of `parser.go`. -/
def parseSelectItem (tokens : List Token) (initialCursor : Nat) (delimiters : List Token) :
    Outcome (ParseStep (List (Option selectItem))) :=
  parseSelectItemLoop tokens initialCursor delimiters (tokens.length + 1) initialCursor []

/-- The function `parseFromItem` of `parser.go`; its third argument is not used. -/
def parseFromItem (tokens : List Token) (initialCursor : Nat) (_ : Token) :
    ParseStep fromItem :=
  match parseToken tokens initialCursor .IdentifierKind with
  | (_, _, false) => (none, initialCursor, false)
  | (ident, newCursor, true) => (some ⟨ident⟩, newCursor, true)

/-- The function `parseSelectStatement` of `parser.go`. -/
def parseSelectStatement (tokens : List Token) (initialCursor : Nat) (delimiter : Token) :
    Outcome (ParseStep SelectStatement) :=
  if expectToken tokens initialCursor (tokenFromKeyword (ascii "select")) = false then
    .ret (none, initialCursor, false)
  else
    let cursor := initialCursor + 1
    match parseSelectItem tokens cursor [tokenFromKeyword (ascii "from"), delimiter] with
    | .panic => .panic
    | .timeout => .timeout
    | .ret (_, _, false) => .ret (none, initialCursor, false)
    | .ret (exps, newCursor, true) =>
      let cursor := newCursor
      if expectToken tokens cursor (tokenFromKeyword (ascii "from")) then
        let cursor := cursor + 1
        match parseFromItem tokens cursor delimiter with
        | (_, _, false) => helpThenReturn tokens cursor (none, initialCursor, false)
        | (fromIt, newCursor, true) => .ret (some ⟨exps, fromIt⟩, newCursor, true)
      else .ret (some ⟨exps, none⟩, cursor, true)

/-- The function `parseInsertStatement` of `parser.go`.  The table token is dereferenced
(`*table`), which panics on a nil pointer. -/
def parseInsertStatement (tokens : List Token) (initialCursor : Nat) (_ : Token) :
    Outcome (ParseStep InsertStatement) :=
  if expectToken tokens initialCursor (tokenFromKeyword (ascii "insert")) = false then
    .ret (none, initialCursor, false)
  else
    let cursor := initialCursor + 1
    if expectToken tokens cursor (tokenFromKeyword (ascii "into")) = false then
      helpThenReturn tokens cursor (none, initialCursor, false)
    else
      let cursor := cursor + 1
      match parseToken tokens cursor .IdentifierKind with
      | (_, _, false) => helpThenReturn tokens cursor (none, initialCursor, false)
      | (table, newCursor, true) =>
        let cursor := newCursor
        if expectToken tokens cursor (tokenFromKeyword (ascii "values")) = false then
          helpThenReturn tokens cursor (none, initialCursor, false)
        else
          let cursor := cursor + 1
          if expectToken tokens cursor (tokenFromSymbol (ascii "(")) = false then
            helpThenReturn tokens cursor (none, initialCursor, false)
          else
            let cursor := cursor + 1
            match parseExpressions tokens cursor [tokenFromSymbol (ascii ")")] with
            | .panic => .panic
            | .timeout => .timeout
            | .ret (_, _, false) => .ret (none, initialCursor, false)
            | .ret (values, newCursor, true) =>
              let cursor := newCursor
              if expectToken tokens cursor (tokenFromSymbol (ascii ")")) = false then
                helpThenReturn tokens cursor (none, initialCursor, false)
              else
                match table with
                | none => .panic
                | some table => .ret (some ⟨table, values⟩, cursor + 1, true)

/-- The loop of `parseColumnDefinitions`, followed by the final `return &cds, cursor, true`.
The name and type tokens are dereferenced (`*id`, `*ty`), which panics on a nil pointer. -/
def parseColumnDefinitionsLoop (tokens : List Token) (initialCursor : Nat) (delimiter : Token) :
    Nat → Nat → List (Option columnDefinition) →
      Outcome (ParseStep (List (Option columnDefinition)))
  | 0, _, _ => .timeout
  | fuel + 1, cursor, cds =>
    if cursor ≥ tokens.length then .ret (none, initialCursor, false)
    else
      match tokens[cursor]? with
      | none => .panic
      | some current =>
        if delimiter.equals current then .ret (some cds, cursor, true)
        else if cds.length > 0 ∧ expectToken tokens cursor (tokenFromSymbol (ascii ",")) = false
        then helpThenReturn tokens cursor (none, initialCursor, false)
        else
          let cursor := if cds.length > 0 then cursor + 1 else cursor
          match parseToken tokens cursor .IdentifierKind with
          | (_, _, false) => helpThenReturn tokens cursor (none, initialCursor, false)
          | (id, newCursor, true) =>
            let cursor := newCursor
            match parseToken tokens cursor .KeywordKind with
            | (_, _, false) => helpThenReturn tokens cursor (none, initialCursor, false)
            | (ty, newCursor, true) =>
              match id, ty with
              | some id, some ty =>
                parseColumnDefinitionsLoop tokens initialCursor delimiter fuel newCursor
                  (cds ++ [some ⟨id, ty⟩])
              | _, _ => .panic

/-- The function `parseColumnDefinitions` of `parser.go`. -/
def parseColumnDefinitions (tokens : List Token) (initialCursor : Nat) (delimiter : Token) :
    Outcome (ParseStep (List (Option columnDefinition))) :=
  parseColumnDefinitionsLoop tokens initialCursor delimiter (tokens.length + 1) initialCursor []

/-- The function `parseCreateTableStatement` of `parser.go`.  The name token is dereferenced
(`*name`), which panics on a nil pointer. -/
def parseCreateTableStatement (tokens : List Token) (initialCursor : Nat) (_ : Token) :
    Outcome (ParseStep CreateTableStatement) :=
  if expectToken tokens initialCursor (tokenFromKeyword (ascii "create")) = false then
    .ret (none, initialCursor, false)
  else
    let cursor := initialCursor + 1
    if expectToken tokens cursor (tokenFromKeyword (ascii "table")) = false then
      .ret (none, initialCursor, false)
    else
      let cursor := cursor + 1
      match parseToken tokens cursor .IdentifierKind with
      | (_, _, false) => helpThenReturn tokens cursor (none, initialCursor, false)
      | (name, newCursor, true) =>
        let cursor := newCursor
        if expectToken tokens cursor (tokenFromSymbol (ascii "(")) = false then
          helpThenReturn tokens cursor (none, initialCursor, false)
        else
          let cursor := cursor + 1
          match parseColumnDefinitions tokens cursor (tokenFromSymbol (ascii ")")) with
          | .panic => .panic
          | .timeout => .timeout
          | .ret (_, _, false) => .ret (none, initialCursor, false)
          | .ret (cols, newCursor, true) =>
            let cursor := newCursor
            if expectToken tokens cursor (tokenFromSymbol (ascii ")")) = false then
              helpThenReturn tokens cursor (none, initialCursor, false)
            else
              match name with
              | none => .panic
              | some name => .ret (some ⟨name, cols⟩, cursor + 1, true)

/-- The function `parseStatement` of `parser.go`. -/
def parseStatement (tokens : List Token) (initialCursor : Nat) (delimiter : Token) :
    Outcome (ParseStep Statement) :=
  match parseSelectStatement tokens initialCursor delimiter with
  | .panic => .panic
  | .timeout => .timeout
  | .ret (slct, newCursor, true) =>
    .ret (some ⟨slct, none, none, .SelectKind⟩, newCursor, true)
  | .ret (_, _, false) =>
    match parseInsertStatement tokens initialCursor delimiter with
    | .panic => .panic
    | .timeout => .timeout
    | .ret (inst, newCursor, true) =>
      .ret (some ⟨none, none, inst, .InsertKind⟩, newCursor, true)
    | .ret (_, _, false) =>
      match parseCreateTableStatement tokens initialCursor delimiter with
      | .panic => .panic
      | .timeout => .timeout
      | .ret (crtTbl, newCursor, true) =>
        .ret (some ⟨none, crtTbl, none, .CreateTableKind⟩, newCursor, true)
      | .ret (_, _, false) => .ret (none, initialCursor, false)

/-- The pair `(*Ast, error)` returned by `Parse`: the tree, the error of `lex`, or one of the
two errors of `Parse` with its message. -/
inductive ParseResult where
  | ast (a : Ast)
  | lexError (hint : Option (List Nat)) (loc : Location)
  | error (msg : String)
deriving DecidableEq, Repr

/-- The loop `for expectToken(tokens, cursor, semicolon)` of `Parse`: the cursor after the
semicolons and the flag `atLeastOneSemicolon`. -/
def skipSemicolons (tokens : List Token) : Nat → Nat → Bool → Outcome (Nat × Bool)
  | 0, _, _ => .timeout
  | fuel + 1, cursor, atLeastOneSemicolon =>
    if expectToken tokens cursor (tokenFromSymbol (ascii ";")) then
      skipSemicolons tokens fuel (cursor + 1) true
    else .ret (cursor, atLeastOneSemicolon)

/-- The loop `for cursor < uint(len(tokens))` of `Parse`. -/
def ParseLoop (tokens : List Token) : Nat → Nat → List (Option Statement) → Outcome ParseResult
  | 0, _, _ => .timeout
  | fuel + 1, cursor, statements =>
    if cursor < tokens.length then
      match parseStatement tokens cursor (tokenFromSymbol (ascii ";")) with
      | .panic => .panic
      | .timeout => .timeout
      | .ret (_, _, false) =>
        helpThenReturn tokens cursor (.error "failed to parse, expected statement")
      | .ret (stmt, newCursor, true) =>
        match skipSemicolons tokens (tokens.length + 1) newCursor false with
        | .panic => .panic
        | .timeout => .timeout
        | .ret (cursor, atLeastOneSemicolon) =>
          if atLeastOneSemicolon = false then
            helpThenReturn tokens cursor (.error "missing semi-colon between statements")
          else ParseLoop tokens fuel cursor (statements ++ [stmt])
    else .ret (.ast ⟨statements⟩)

/-- The function `Parse` of `parser.go`. -/
def Parse (source : List Nat) : Outcome ParseResult :=
  match lex source with
  | .panic => .panic
  | .timeout => .timeout
  | .ret (.error hint loc) => .ret (.lexError hint loc)
  | .ret (.tokens tokens) => ParseLoop tokens (tokens.length + 1) 0 []

/-! ## Definitions used in the statements -/

/-- The loop of `lex` with a record of offsets: next to the tokens it keeps, for every token,
the `Pointer` of the cursor at which the token was scanned. -/
def lexLoopAt (source : List Nat) :
    Nat → Cursor → List Token → List Nat → Outcome (LexResult × List Nat)
  | 0, _, _, _ => .timeout
  | fuel + 1, cur, tokens, offsets =>
    if cur.Pointer < source.length then
      match runLexers source cur lexers with
      | .ret (some token, newCursor, true) =>
        lexLoopAt source fuel newCursor (tokens ++ [token]) (offsets ++ [cur.Pointer])
      | .ret (none, newCursor, true) => lexLoopAt source fuel newCursor tokens offsets
      | .ret (_, _, false) => .ret (.error (tokens.getLast?.map Token.Value) cur.Loc, offsets)
      | .panic => .panic
      | .timeout => .timeout
    else .ret (.tokens tokens, offsets)

/-- The function `lex` with the record of offsets of `lexLoopAt`. -/
def lexAt (source : List Nat) : Outcome (LexResult × List Nat) :=
  lexLoopAt source (source.length + 1) ⟨0, ⟨0, 0⟩⟩ [] []

/-- The result of an outcome, transformed. -/
def Outcome.map {α β : Type} (f : α → β) : Outcome α → Outcome β
  | .ret a => .ret (f a)
  | .panic => .panic
  | .timeout => .timeout

/-- The token `t` lies at byte offset `p` of a one-line source: its location is line 0,
column `p`, and the source text of the length of its value at `p`, lower-cased as ASCII, is its
value. -/
def tokenAt (source : List Nat) (p : Nat) (t : Token) : Prop :=
  t.Loc = ⟨0, p⟩ ∧ toLowerASCII ((source.drop p).take t.Value.length) = t.Value

instance (source : List Nat) (p : Nat) (t : Token) : Decidable (tokenAt source p t) :=
  inferInstanceAs (Decidable (t.Loc = ⟨0, p⟩ ∧
    toLowerASCII ((source.drop p).take t.Value.length) = t.Value))

/-- The tokens that `TestLex` of `lexer_test.go` expects for
`CREATE TABLE u (id INT, name TEXT)`. -/
def createTableTokens : List Token :=
  [⟨ascii "create", .KeywordKind, ⟨0, 0⟩⟩, ⟨ascii "table", .KeywordKind, ⟨0, 7⟩⟩,
    ⟨ascii "u", .IdentifierKind, ⟨0, 13⟩⟩, ⟨ascii "(", .SymbolKind, ⟨0, 15⟩⟩,
    ⟨ascii "id", .IdentifierKind, ⟨0, 16⟩⟩, ⟨ascii "int", .KeywordKind, ⟨0, 19⟩⟩,
    ⟨ascii ",", .SymbolKind, ⟨0, 22⟩⟩, ⟨ascii "name", .IdentifierKind, ⟨0, 24⟩⟩,
    ⟨ascii "text", .KeywordKind, ⟨0, 29⟩⟩, ⟨ascii ")", .SymbolKind, ⟨0, 33⟩⟩]

/-- The candidate `o` stands at the head of the text `r`: the first `o.length` bytes of `r`,
lower-cased as ASCII, are `o`. -/
def matchesText (r o : List Nat) : Prop := (r.take o.length).map asciiLower = o

instance (r o : List Nat) : Decidable (matchesText r o) :=
  inferInstanceAs (Decidable ((r.take o.length).map asciiLower = o))

/-- Invariant of the outer loop of `longestMatch` after `j` rounds on the text `r` that
starts at the initial cursor. -/
def MatchInv (r : List Nat) (opts : List (List Nat)) (j : Nat) (value sk m : List Nat) : Prop :=
  ((∀ i, i < opts.length → i ∈ sk) ∨
      (value.length = j ∧ value = (r.take j).map asciiLower)) ∧
    (∀ i o, opts[i]? = some o → i ∉ sk → ∃ s, s ≠ [] ∧ o = value ++ s) ∧
    (∀ i o, opts[i]? = some o → i ∈ sk → matchesText r o → o.length ≤ m.length) ∧
    (m = [] ∨ (m ∈ opts ∧ matchesText r m)) ∧
    m.length ≤ j ∧ sk.Nodup ∧ (∀ i ∈ sk, i < opts.length)

/-- The cursor after `n` rounds of `cur.Loc.Col++; cur.Pointer++`. -/
def Cursor.advance (cur : Cursor) (n : Nat) : Cursor :=
  ⟨cur.Pointer + n, ⟨cur.Loc.Line, uintSucc^[n] cur.Loc.Col⟩⟩

/-- A run of ASCII digits. -/
def IsDigits (l : List Nat) : Prop := ∀ d ∈ l, 48 ≤ d ∧ d ≤ 57

instance (l : List Nat) : Decidable (IsDigits l) :=
  inferInstanceAs (Decidable (∀ d ∈ l, 48 ≤ d ∧ d ≤ 57))

/-- The fraction part of a number: empty, or a period followed by a run of digits. -/
def IsFraction (F : List Nat) : Prop := F = [] ∨ ∃ Fd, F = 46 :: Fd ∧ IsDigits Fd

instance (F : List Nat) : Decidable (IsFraction F) :=
  match F with
  | [] => isTrue (Or.inl rfl)
  | c :: Fd =>
    if h : c = 46 ∧ IsDigits Fd then isTrue (Or.inr ⟨Fd, by rw [h.1], h.2⟩)
    else isFalse (by
      rintro (h1 | ⟨Fd', h1, h2⟩)
      · cases h1
      · cases h1
        exact h ⟨rfl, h2⟩)

/-- The exponent part of a number: empty, or the marker `e`, an optional single sign `+` or
`-`, and a non-empty run of digits. -/
def IsExponent (E : List Nat) : Prop :=
  E = [] ∨ ∃ sg Ed, E = 101 :: (sg ++ Ed) ∧ (sg = [] ∨ sg = [43] ∨ sg = [45]) ∧ Ed ≠ [] ∧
    IsDigits Ed

instance (E : List Nat) : Decidable (IsExponent E) :=
  match E with
  | [] => isTrue (Or.inl rfl)
  | c :: r =>
    if h : c = 101 ∧ r ≠ [] ∧ IsDigits r then
      isTrue (Or.inr ⟨[], r, by rw [h.1]; rfl, Or.inl rfl, h.2.1, h.2.2⟩)
    else if h' : c = 101 ∧ (r.head? = some 43 ∨ r.head? = some 45) ∧ r.tail ≠ [] ∧
        IsDigits r.tail then
      isTrue (Or.inr ⟨[r.head?.getD 0], r.tail, by
        obtain ⟨h1, h2, -, -⟩ := h'
        cases r with
        | nil => simp at h2
        | cons x r => rw [h1]; rfl, by
        obtain ⟨-, h2, -, -⟩ := h'
        rcases h2 with h2 | h2
        · exact Or.inr (Or.inl (by rw [h2]; rfl))
        · exact Or.inr (Or.inr (by rw [h2]; rfl)), h'.2.2.1, h'.2.2.2⟩)
    else isFalse (by
      rintro (h1 | ⟨sg, Ed, h1, hsg, hne, hd⟩)
      · cases h1
      · rcases hsg with rfl | rfl | rfl
        · simp only [List.nil_append, List.cons.injEq] at h1
          obtain ⟨rfl, rfl⟩ := h1
          exact h ⟨rfl, hne, hd⟩
        · simp only [List.singleton_append, List.cons.injEq] at h1
          obtain ⟨rfl, rfl⟩ := h1
          exact h' ⟨rfl, Or.inl rfl, hne, hd⟩
        · simp only [List.singleton_append, List.cons.injEq] at h1
          obtain ⟨rfl, rfl⟩ := h1
          exact h' ⟨rfl, Or.inr rfl, hne, hd⟩)

/-- The byte `t` ends a numeric run without rejecting it. -/
def endsNumber (t : Nat) : Prop := ¬ (48 ≤ t ∧ t ≤ 57) ∧ t ≠ 46 ∧ t ≠ 101

instance (t : Nat) : Decidable (endsNumber t) :=
  inferInstanceAs (Decidable (¬ (48 ≤ t ∧ t ≤ 57) ∧ t ≠ 46 ∧ t ≠ 101))

/-- A parse step keeps the backtracking contract for the cursor `c`: when its flag is false it
carries no payload and its cursor is `c`. -/
def Backtracks {α : Type} (c : Nat) (r : ParseStep α) : Prop :=
  r.2.2 = false → r.1 = none ∧ r.2.1 = c

/-- Every step a parsing function returns keeps the backtracking contract for the cursor `c`. -/
def BacktracksAll {α : Type} (c : Nat) (o : Outcome (ParseStep α)) : Prop :=
  ∀ r, o = .ret r → Backtracks c r

/-- The tokens of a source that `lex` accepts, and no token for a source it rejects. -/
def lexTokens (source : List Nat) : List Token :=
  match lex source with
  | .ret (.tokens ts) => ts
  | _ => []

/-- Exactly one payload of the statement is populated, the one its `Kind` names. -/
def Statement.WellTagged (st : Statement) : Prop :=
  match st.Kind with
  | .SelectKind =>
    st.SelectStatement ≠ none ∧ st.InsertStatement = none ∧ st.CreateTableStatement = none
  | .InsertKind =>
    st.InsertStatement ≠ none ∧ st.SelectStatement = none ∧ st.CreateTableStatement = none
  | .CreateTableKind =>
    st.CreateTableStatement ≠ none ∧ st.SelectStatement = none ∧ st.InsertStatement = none

/-- A keyword token with the text `k` at the location `loc`. -/
def keywordAt (k : String) (loc : Location) : Token := ⟨ascii k, .KeywordKind, loc⟩

/-- A symbol token with the text `s` at the location `loc`. -/
def symbolAt (s : String) (loc : Location) : Token := ⟨ascii s, .SymbolKind, loc⟩

/-- The token is of one of the three kinds an expression is made of. -/
def Token.IsLiteral (t : Token) : Prop :=
  t.Kind = .IdentifierKind ∨ t.Kind = .NumericKind ∨ t.Kind = .StringKind

instance (t : Token) : Decidable t.IsLiteral :=
  inferInstanceAs (Decidable (_ ∨ _ ∨ _))

/-- The literal expression of a token. -/
def literalOf (t : Token) : Option expression := some ⟨some t, .literalKind⟩

/-- The tokens `, v` of the values after the first one, each comma at its own location. -/
def valuesTail : List (Location × Token) → List Token
  | [] => []
  | (l, v) :: rest => symbolAt "," l :: v :: valuesTail rest

/-- The tokens of `INSERT INTO t VALUES (v, ...)`: the value `v` and the further values `rest`,
each keyword, parenthesis and comma at a location of its own. -/
def insertTokens (l1 l2 l3 l4 l5 : Location) (t v : Token) (rest : List (Location × Token)) :
    List Token :=
  [keywordAt "insert" l1, keywordAt "into" l2, t, keywordAt "values" l3, symbolAt "(" l4, v] ++
    valuesTail rest ++ [symbolAt ")" l5]

/-- The column definition of a name token and a type token. -/
def columnOf (p : Token × Token) : Option columnDefinition := some ⟨p.1, p.2⟩

/-- The tokens `, n k` of the columns after the first one, each comma at its own location. -/
def columnsTail : List (Location × Token × Token) → List Token
  | [] => []
  | (l, n, k) :: rest => symbolAt "," l :: n :: k :: columnsTail rest

/-- The tokens of `CREATE TABLE t (n k, ...)`: the column `n k` and the further columns
`rest`, each keyword, parenthesis and comma at a location of its own. -/
def createTokens (l1 l2 l3 l4 : Location) (t n k : Token)
    (rest : List (Location × Token × Token)) : List Token :=
  [keywordAt "create" l1, keywordAt "table" l2, t, symbolAt "(" l3, n, k] ++
    columnsTail rest ++ [symbolAt ")" l4]

/-- A select item as it stands in the token sequence: the symbol `*`, a literal token, or a
literal token followed by the keyword `as` and a name. -/
inductive SelectItemText where
  | star (loc : Location)
  | lit (v : Token)
  | aliased (v : Token) (asLoc : Location) (name : Token)

/-- The tokens of a select item. -/
def SelectItemText.tokens : SelectItemText → List Token
  | .star l => [symbolAt "*" l]
  | .lit v => [v]
  | .aliased v l n => [v, keywordAt "as" l, n]

/-- The `selectItem` a select item stands for: the asterisk flag and no expression for `*`,
otherwise the literal expression and the alias if there is one. -/
def SelectItemText.item : SelectItemText → Option selectItem
  | .star _ => some ⟨none, true, none⟩
  | .lit v => some ⟨literalOf v, false, none⟩
  | .aliased v _ n => some ⟨literalOf v, false, some n⟩

/-- The tokens of the select item have the kinds the grammar asks for. -/
def SelectItemText.Valid : SelectItemText → Prop
  | .star _ => True
  | .lit v => v.IsLiteral
  | .aliased v _ n => v.IsLiteral ∧ n.Kind = .IdentifierKind

instance (i : SelectItemText) : Decidable i.Valid :=
  match i with
  | .star _ => inferInstanceAs (Decidable True)
  | .lit v => inferInstanceAs (Decidable v.IsLiteral)
  | .aliased v _ n => inferInstanceAs (Decidable (v.IsLiteral ∧ n.Kind = .IdentifierKind))

/-- The tokens `, item` of the select items after the first one, each comma at the location
paired with its item. -/
def itemsTail : List (Location × SelectItemText) → List Token
  | [] => []
  | (l, i) :: rest => symbolAt "," l :: i.tokens ++ itemsTail rest

/-- The tokens of a comma-separated list of select items; the location paired with the first
item is not used, as no comma stands before it. -/
def itemsTokens : List (Location × SelectItemText) → List Token
  | [] => []
  | (_, i) :: rest => i.tokens ++ itemsTail rest

/-- The tokens of an optional clause `FROM t`. -/
def fromTokens : Option (Location × Token) → List Token
  | none => []
  | some (l, t) => [keywordAt "from" l, t]

/-- The tokens of `SELECT item, ... FROM t;`, up to and with the semicolon. -/
def selectTokens (l0 ls : Location) (items : List (Location × SelectItemText))
    (fromPart : Option (Location × Token)) : List Token :=
  keywordAt "select" l0 :: itemsTokens items ++ fromTokens fromPart ++ [symbolAt ";" ls]

/-- The two delimiters `parseSelectStatement` hands to `parseSelectItem` when its own
delimiter is the semicolon. -/
def selectDelimiters : List Token := [tokenFromKeyword (ascii "from"), tokenFromSymbol (ascii ";")]

/-- Reference for `longestMatch`: the longest candidate that stands at the head of the text
`r`, the first such among those of equal length, and the empty text when there is none. -/
def bestOption (opts : List (List Nat)) (r : List Nat) : List Nat :=
  opts.foldl (fun best o => if matchesText r o ∧ best.length < o.length then o else best) []

/-- Reference for the loop of `lexCharacterDelimited` on the text after the opening delimiter:
the value and the number of bytes before the closing delimiter, or nothing when the text ends
first.  A delimiter closes the token unless another delimiter follows it. -/
def delimitedRun (d : Nat) : List Nat → List Nat → Option (List Nat × Nat)
  | [], _ => none
  | c :: rest, value =>
    if c = d ∧ rest.head? ≠ some d then some (value, 0)
    else (delimitedRun d rest (value ++ [c])).map (fun p => (p.1, p.2 + 1))

/-- Reference for `lexCharacterDelimited` on the text at the cursor: the value and the number
of bytes between the two delimiters. -/
def delimitedRef (d : Nat) : List Nat → Option (List Nat × Nat)
  | [] => none
  | c :: rest => if c = d then delimitedRun d rest [] else none

/-- Reference for the loop of `lexNumeric` on the text at the cursor: the number of bytes
consumed and the number of times the column is incremented, or nothing when the scanner
rejects.  `first` says that the cursor is the initial cursor. -/
def numericRun : List Nat → Bool → Bool → Bool → Option (Nat × Nat)
  | [], first, _, _ => if first then none else some (0, 0)
  | c :: rest, first, pf, ef =>
    if first then
      if ¬ (48 ≤ c ∧ c ≤ 57) ∧ c ≠ 46 then none
      else (numericRun rest false (decide (c = 46)) ef).map (fun p => (p.1 + 1, p.2 + 1))
    else if c = 46 then
      if pf then none
      else (numericRun rest false true ef).map (fun p => (p.1 + 1, p.2 + 1))
    else if c = 101 then
      if ef then none
      else
        match rest with
        | [] => none
        | cNext :: rest2 =>
          if cNext = 45 ∨ cNext = 43 then
            (numericRun rest2 false true true).map (fun p => (p.1 + 2, p.2 + 2))
          else (numericRun (cNext :: rest2) false true true).map (fun p => (p.1 + 1, p.2 + 1))
    else if ¬ (48 ≤ c ∧ c ≤ 57) then some (0, 1)
    else (numericRun rest false pf ef).map (fun p => (p.1 + 1, p.2 + 1))

/-- The cursor `n` bytes and `k` column increments after `cur`. -/
def Cursor.shift (cur : Cursor) (n k : Nat) : Cursor :=
  ⟨cur.Pointer + n, ⟨cur.Loc.Line, uintSucc^[k] cur.Loc.Col⟩⟩

/-- What one round of the loop of `lex` does at a cursor, as far as it depends on the text at
the cursor only: the value and kind of the token if there is one, the number of bytes consumed,
the number of column increments, and whether the round starts a new line instead. -/
structure RefStep where
  tok : Option (List Nat × TokenKind)
  bytes : Nat
  cols : Nat
  newline : Bool
deriving DecidableEq, Repr

/-- The token of a step scanned at the location `loc`. -/
def RefStep.token (st : RefStep) (loc : Location) : Option Token :=
  st.tok.map (fun p => ⟨p.1, p.2, loc⟩)

/-- The cursor after a step taken at the cursor `cur`. -/
def RefStep.cursor (st : RefStep) (cur : Cursor) : Cursor :=
  if st.newline then ⟨cur.Pointer + st.bytes, ⟨uintSucc cur.Loc.Line, 0⟩⟩
  else cur.shift st.bytes st.cols

/-- Reference for the scanners of `lex` in their order, on the text `r` at the cursor. -/
def scanRef (r : List Nat) : Option RefStep :=
  match r with
  | [] => none
  | c :: _ =>
    if bestOption keywords r ≠ [] then
      some ⟨some (bestOption keywords r, .KeywordKind), (bestOption keywords r).length,
        (bestOption keywords r).length, false⟩
    else if c = 10 then some ⟨none, 1, 1, true⟩
    else if c = 9 ∨ c = 32 then some ⟨none, 1, 1, false⟩
    else if bestOption symbols r ≠ [] then
      some ⟨some (bestOption symbols r, .SymbolKind), (bestOption symbols r).length,
        (bestOption symbols r).length, false⟩
    else
      match delimitedRef 39 r with
      | some (v, m) => some ⟨some (v, .StringKind), m + 2, m + 1, false⟩
      | none =>
        match numericRun r true false false with
        | some (n, k) => some ⟨some (r.take n, .NumericKind), n, k, false⟩
        | none =>
          match delimitedRef 34 r with
          | some (v, m) => some ⟨some (v, .StringKind), m + 2, m + 1, false⟩
          | none =>
            if isAlphabetical c then
              some ⟨some (toLowerASCII (r.takeWhile isIdentifierByte), .IdentifierKind),
                (r.takeWhile isIdentifierByte).length, (r.takeWhile isIdentifierByte).length,
                false⟩
            else none

/-- The lexicographic order on locations: by line, then by column. -/
def Location.lt (a b : Location) : Prop :=
  a.Line < b.Line ∨ (a.Line = b.Line ∧ a.Col < b.Col)

instance (a b : Location) : Decidable (a.lt b) :=
  inferInstanceAs (Decidable (_ ∨ _))

/-- The two bytes that end a statement text in the claims on `Parse`: the space and the
semicolon. -/
def IsSep (b : Nat) : Prop := b = 32 ∨ b = 59

/-- The tokens `lex` makes of a separator at the location `loc`: the semicolon token, and no
token for the space. -/
def sepTokens (s : Nat) (loc : Location) : List Token :=
  if s = 59 then [⟨[59], .SymbolKind, loc⟩] else []

/-! ## Memory backend

A shallow embedding of `MemoryBackend.CreateTable` of `src/internal/memory.go` with the types
it uses from `src/internal/backend.go`. -/

/-- Column types of `backend.go`, in the order of the `iota` block. -/
inductive ColumnType where
  | TextType
  | IntType
deriving DecidableEq, Repr

/-- The error values of `backend.go`. -/
inductive BackendError where
  | ErrTableDoesNotExist
  | ErrColumnDoesNotExist
  | ErrInvalidSelectItem
  | ErrInvalidDatatype
  | ErrMissingValues
deriving DecidableEq, Repr

/-- The struct `table` of `memory.go`; a `MemoryCell` is a sequence of bytes. -/
structure table where
  columns : List (List Nat)
  columnTypes : List ColumnType
  rows : List (List (List Nat))
deriving DecidableEq, Repr

/-- The struct `MemoryBackend` of `memory.go`.  The map `tables` from names to table pointers
is a list of pairs; the table of a name is the one of the first pair with that name. -/
structure MemoryBackend where
  tables : List (List Nat × table)
deriving DecidableEq, Repr

/-- The function `NewMemoryBackend` of `memory.go`: a backend with an empty map. -/
def NewMemoryBackend : MemoryBackend := ⟨[]⟩

/-- The map read `mb.tables[name]`; `none` when the map has no entry for the name. -/
def MemoryBackend.get (mb : MemoryBackend) (name : List Nat) : Option table :=
  (mb.tables.find? (fun p => decide (p.1 = name))).map Prod.snd

/-- The map write `mb.tables[name] = &t`, with the table `t` as it is when the method
returns: an entry for the name is replaced, the other entries are kept. -/
def MemoryBackend.set (mb : MemoryBackend) (name : List Nat) (t : table) : MemoryBackend :=
  ⟨(name, t) :: mb.tables.filter (fun p => decide (p.1 ≠ name))⟩

/-- The loop `for _, col := range *crt.cols` of `CreateTable` on the table `t`: the table
after the loop and the error the method returns.  The column name is appended before the
datatype is looked at; a nil column is dereferenced, which panics. -/
def createTableLoop : List (Option columnDefinition) → table →
    Outcome (table × Option BackendError)
  | [], t => .ret (t, none)
  | none :: _, _ => .panic
  | some col :: rest, t =>
    if col.datatype.Value = ascii "int" then
      createTableLoop rest ⟨t.columns ++ [col.name.Value], t.columnTypes ++ [.IntType], t.rows⟩
    else if col.datatype.Value = ascii "text" then
      createTableLoop rest ⟨t.columns ++ [col.name.Value], t.columnTypes ++ [.TextType], t.rows⟩
    else .ret (⟨t.columns ++ [col.name.Value], t.columnTypes, t.rows⟩, some .ErrInvalidDatatype)

/-- The method `CreateTable` of `memory.go`: the backend after the call and the error, `none`
for `nil`.  The statement is dereferenced, which panics on a nil pointer.  The map is written
before the columns are read, with a pointer to the table that the loop then fills, so that the
map holds the table as the loop leaves it, also when the method returns an error. -/
def MemoryBackend.CreateTable (mb : MemoryBackend) (crt : Option CreateTableStatement) :
    Outcome (MemoryBackend × Option BackendError) :=
  match crt with
  | none => .panic
  | some crt =>
    match crt.cols with
    | none => .ret (mb.set crt.name.Value ⟨[], [], []⟩, none)
    | some cols =>
      match createTableLoop cols ⟨[], [], []⟩ with
      | .ret (t, err) => .ret (mb.set crt.name.Value t, err)
      | .panic => .panic
      | .timeout => .timeout

/-- The datatype of the column is one of the two that `CreateTable` knows: `int` or `text`. -/
def knownDatatype (d : columnDefinition) : Prop :=
  d.datatype.Value = ascii "int" ∨ d.datatype.Value = ascii "text"

instance (d : columnDefinition) : Decidable (knownDatatype d) :=
  inferInstanceAs (Decidable (_ ∨ _))

/-- The column type that stands for a known datatype: `IntType` for `int` and `TextType` for
`text`. -/
def columnTypeOf (d : columnDefinition) : ColumnType :=
  if d.datatype.Value = ascii "int" then .IntType else .TextType

/-! ## Auxiliary facts on lists and bytes -/

theorem drop_eq_cons {l : List Nat} {p c : Nat} {rest : List Nat} (h : l.drop p = c :: rest) :
    p < l.length ∧ l[p]? = some c ∧ l.drop (p + 1) = rest := by
  have hlt : p < l.length := by
    by_contra hge
    rw [List.drop_eq_nil_of_le (by omega)] at h
    cases h
  refine ⟨hlt, ?_, ?_⟩
  · have := List.getElem?_drop l p 0
    rw [h] at this
    simpa using this.symm
  · have : l.drop (p + 1) = (l.drop p).drop 1 := by rw [List.drop_drop]
    rw [this, h]; rfl

/-! ## The longest-match loop -/

/-- One round of the inner loop of `longestMatch`, described by its effect. -/
theorem longestMatchOptions_spec (value : List Nat) (n : Nat) :
    ∀ (opts : List (List Nat)) (i : Nat) (sk m : List Nat),
      (∀ k o, opts[k]? = some o → i + k ∉ sk → o ≠ value → n ≤ o.length) →
      ∃ sk' m', longestMatchOptions value n opts i sk m = .ret (sk', m') ∧
        (∀ x, x ∈ sk' ↔ x ∈ sk ∨ ∃ k o, x = i + k ∧ opts[k]? = some o ∧
            (o = value ∨ value ≠ o.take n ∨ o.length < value.length)) ∧
        (sk.Nodup → sk'.Nodup) ∧
        (m' = m ∨ (m' = value ∧ m.length < value.length ∧
            ∃ k, opts[k]? = some value ∧ i + k ∉ sk)) ∧
        (∀ k, opts[k]? = some value → i + k ∉ sk → value.length ≤ m'.length) ∧
        m.length ≤ m'.length := by
  intro opts
  induction opts with
  | nil =>
    intro i sk m _
    exact ⟨sk, m, rfl, by simp, id, Or.inl rfl, by simp, le_refl _⟩
  | cons o rest ih =>
    intro i sk m hp
    have hdown : ∀ (sk1 : List Nat), (∀ y, y ∈ sk → y ∈ sk1) →
        ∀ k o', rest[k]? = some o' → i + 1 + k ∉ sk1 → o' ≠ value → n ≤ o'.length := by
      intro sk1 hsub k o' hk hnk hne
      refine hp (k + 1) o' (by simpa using hk) (fun hmem => hnk ?_) hne
      have := hsub _ hmem
      rwa [show i + 1 + k = i + (k + 1) by omega]
    have hsplit : ∀ (x : Nat) (D : List Nat → Prop),
        (∃ k o', x = i + k ∧ (o :: rest)[k]? = some o' ∧ D o') ↔
          (x = i ∧ D o) ∨ ∃ k o', x = i + 1 + k ∧ rest[k]? = some o' ∧ D o' := by
      intro x D
      constructor
      · rintro ⟨k, o', hx, hk, hD⟩
        cases k with
        | zero =>
          simp only [List.getElem?_cons_zero, Option.some.injEq] at hk
          subst hk
          exact Or.inl ⟨by omega, hD⟩
        | succ k =>
          simp only [List.getElem?_cons_succ] at hk
          exact Or.inr ⟨k, o', by omega, hk, hD⟩
      · rintro (⟨hx, hD⟩ | ⟨k, o', hx, hk, hD⟩)
        · exact ⟨0, o, by omega, by simp, hD⟩
        · exact ⟨k + 1, o', by omega, by simpa using hk, hD⟩
    by_cases hi : i ∈ sk
    · obtain ⟨sk', m', heq, hmem, hnd, hm, hv, hle⟩ := ih (i + 1) sk m (hdown sk (fun _ h => h))
      refine ⟨sk', m', by simp only [longestMatchOptions, hi, if_true, heq], ?_, hnd, ?_, ?_, hle⟩
      · intro x
        rw [hmem x, hsplit x]
        constructor
        · rintro (h | h)
          · exact Or.inl h
          · exact Or.inr (Or.inr h)
        · rintro (h | ⟨hx, _⟩ | h)
          · exact Or.inl h
          · exact Or.inl (hx ▸ hi)
          · exact Or.inr h
      · rcases hm with h | ⟨h1, h2, k, hk, hnk⟩
        · exact Or.inl h
        · exact Or.inr ⟨h1, h2, k + 1, by simpa using hk,
            by rwa [show i + (k + 1) = i + 1 + k by omega]⟩
      · intro k hk hnk
        cases k with
        | zero => exact absurd hi hnk
        | succ k =>
          exact hv k (by simpa using hk) (by rwa [show i + 1 + k = i + (k + 1) by omega])
    · have hsub : ∀ y, y ∈ sk → y ∈ sk ++ [i] := fun y h => List.mem_append_left _ h
      have hnotin : ∀ k, i + (k + 1) ∉ sk → i + 1 + k ∉ sk ++ [i] := by
        intro k h hmem
        rcases List.mem_append.1 hmem with h1 | h1
        · exact h (by rwa [show i + (k + 1) = i + 1 + k by omega])
        · have := List.mem_singleton.1 h1
          omega
      have hndapp : sk.Nodup → (sk ++ [i]).Nodup := by
        intro h
        refine List.Nodup.append h (List.nodup_singleton i) ?_
        intro a ha hb
        simp only [List.mem_singleton] at hb
        exact hi (hb ▸ ha)
      by_cases ho : o = value
      · obtain ⟨sk', m', heq, hmem, hnd, hm, hv, hle⟩ :=
          ih (i + 1) (sk ++ [i]) (if o.length > m.length then o else m) (hdown _ hsub)
        refine ⟨sk', m', by simp only [longestMatchOptions, hi, if_false, ho, if_true, heq] ; simp [ho] at heq ⊢; exact heq,
          ?_, fun h => hnd (hndapp h), ?_, ?_, ?_⟩
        · intro x
          rw [hmem x, hsplit x]
          constructor
          · rintro (h | h)
            · rcases List.mem_append.1 h with h1 | h1
              · exact Or.inl h1
              · exact Or.inr (Or.inl ⟨by simpa using h1, Or.inl ho⟩)
            · exact Or.inr (Or.inr h)
          · rintro (h | ⟨hx, _⟩ | h)
            · exact Or.inl (hsub _ h)
            · exact Or.inl (by simp [hx])
            · exact Or.inr h
        · subst ho
          by_cases hlen : o.length > m.length
          · rw [if_pos hlen] at hm hle
            refine Or.inr ⟨?_, hlen, 0, by simp, by simpa using hi⟩
            rcases hm with h | ⟨h1, _⟩
            · exact h
            · exact h1
          · rw [if_neg hlen] at hm hle
            rcases hm with h | ⟨_, h2, _⟩
            · exact Or.inl h
            · exact absurd h2 (by omega)
        · intro k hk hnk
          cases k with
          | zero =>
            subst ho
            refine le_trans ?_ hle
            split <;> omega
          | succ k => exact hv k (by simpa using hk) (hnotin k hnk)
        · refine le_trans ?_ hle
          split <;> omega
      · have hn : n ≤ o.length := hp 0 o (by simp) (by simpa using hi) ho
        have hsl : slice o 0 n = some (o.take n) := by
          simp [slice, hn]
        by_cases hdrop : value ≠ o.take n ∨ o.length < value.length
        · obtain ⟨sk', m', heq, hmem, hnd, hm, hv, hle⟩ :=
            ih (i + 1) (sk ++ [i]) m (hdown _ hsub)
          have hcond : (decide (value.length > o.length) || !decide (value = o.take n)) = true := by
            rcases hdrop with h | h
            · simp [h]
            · simp [h]
          refine ⟨sk', m', by simp only [longestMatchOptions, hi, if_false, ho, hsl, hcond, if_true, heq],
            ?_, fun h => hnd (hndapp h), ?_, ?_, hle⟩
          · intro x
            rw [hmem x, hsplit x]
            constructor
            · rintro (h | h)
              · rcases List.mem_append.1 h with h1 | h1
                · exact Or.inl h1
                · exact Or.inr (Or.inl ⟨by simpa using h1, Or.inr hdrop⟩)
              · exact Or.inr (Or.inr h)
            · rintro (h | ⟨hx, _⟩ | h)
              · exact Or.inl (hsub _ h)
              · exact Or.inl (by simp [hx])
              · exact Or.inr h
          · rcases hm with h | ⟨h1, h2, k, hk, hnk⟩
            · exact Or.inl h
            · refine Or.inr ⟨h1, h2, k + 1, by simpa using hk, fun hmem2 => hnk ?_⟩
              exact hsub _ (by rwa [show i + 1 + k = i + (k + 1) by omega])
          · intro k hk hnk
            cases k with
            | zero =>
              simp only [List.getElem?_cons_zero, Option.some.injEq] at hk
              exact absurd hk ho
            | succ k => exact hv k (by simpa using hk) (hnotin k hnk)
        · obtain ⟨sk', m', heq, hmem, hnd, hm, hv, hle⟩ := ih (i + 1) sk m (hdown sk (fun _ h => h))
          have hcond : (decide (value.length > o.length) || !decide (value = o.take n)) = false := by
            push_neg at hdrop
            rw [← hdrop.1]
            simpa using hdrop.2
          refine ⟨sk', m', by simp only [longestMatchOptions, hi, if_false, ho, hsl, hcond, heq]; simp,
            ?_, hnd, ?_, ?_, hle⟩
          · intro x
            rw [hmem x, hsplit x]
            constructor
            · rintro (h | h)
              · exact Or.inl h
              · exact Or.inr (Or.inr h)
            · rintro (h | ⟨_, hD⟩ | h)
              · exact Or.inl h
              · rcases hD with h | h | h
                · exact absurd h ho
                · exact absurd (Or.inl h) hdrop
                · exact absurd (Or.inr h) hdrop
              · exact Or.inr h
          · rcases hm with h | ⟨h1, h2, k, hk, hnk⟩
            · exact Or.inl h
            · exact Or.inr ⟨h1, h2, k + 1, by simpa using hk,
                by rwa [show i + (k + 1) = i + 1 + k by omega]⟩
          · intro k hk hnk
            cases k with
            | zero =>
              simp only [List.getElem?_cons_zero, Option.some.injEq] at hk
              exact absurd hk ho
            | succ k =>
              exact hv k (by simpa using hk) (by rwa [show i + 1 + k = i + (k + 1) by omega])

theorem toLowerByte_lt {c : Nat} (h : c < 128) : toLowerByte c = [asciiLower c] := by
  simp [toLowerByte, h]

theorem toLowerByte_ge {c : Nat} (h : ¬ c < 128) :
    (toLowerByte c).length = 2 ∧ ∀ b ∈ toLowerByte c, 128 ≤ b := by
  simp only [toLowerByte, h, if_false]
  refine ⟨rfl, ?_⟩
  intro b hb
  simp only [List.mem_cons, List.mem_singleton, List.not_mem_nil, or_false] at hb
  rcases hb with hb | hb <;> omega

theorem asciiLower_ge {c : Nat} (h : ¬ c < 128) : asciiLower c = c := by
  unfold asciiLower
  split <;> omega

theorem take_succ_of_getElem? {r : List Nat} {j c : Nat} (hc : r[j]? = some c) :
    r.take (j + 1) = r.take j ++ [c] := by
  rw [List.take_succ, hc]; rfl

theorem matchesText_length {r o : List Nat} (h : matchesText r o) : o.length ≤ r.length := by
  unfold matchesText at h
  have := congrArg List.length h
  simp only [List.length_map, List.length_take] at this
  omega

theorem matchesText_take {r o : List Nat} (h : matchesText r o) (k : Nat) (hk : k ≤ o.length) :
    o.take k = (r.take k).map asciiLower := by
  unfold matchesText at h
  conv_lhs => rw [← h]
  rw [List.map_take, List.map_take, List.take_take, Nat.min_eq_left hk]

/-- One round of the outer loop of `longestMatch` keeps the invariant and does not panic. -/
theorem matchInv_step {r : List Nat} {opts : List (List Nat)}
    (hopts : ∀ o ∈ opts, o ≠ [] ∧ ∀ b ∈ o, b < 128)
    {j c : Nat} {value sk m : List Nat} (hinv : MatchInv r opts j value sk m)
    (hc : r[j]? = some c) :
    ∃ sk' m', longestMatchOptions (value ++ toLowerByte c) (j + 1) opts 0 sk m = .ret (sk', m') ∧
      MatchInv r opts (j + 1) (value ++ toLowerByte c) sk' m' := by
  obtain ⟨ha, hb, hcc, hd, he, hf, hg⟩ := hinv
  have hlt : ∀ i o, opts[i]? = some o → i < opts.length := by
    intro i o h
    exact (List.getElem?_eq_some.1 h).1
  have halive : ∀ i o, opts[i]? = some o → i ∉ sk →
      value.length = j ∧ value = (r.take j).map asciiLower := by
    intro i o h hi
    rcases ha with h1 | h1
    · exact absurd (h1 i (hlt i o h)) hi
    · exact h1
  have hnp : ∀ k o, opts[k]? = some o → 0 + k ∉ sk → o ≠ value ++ toLowerByte c →
      j + 1 ≤ o.length := by
    intro k o hk hnk _
    rw [Nat.zero_add] at hnk
    obtain ⟨s, hs, rfl⟩ := hb k o hk hnk
    have := (halive k _ hk hnk).1
    have : 0 < s.length := List.length_pos.2 hs
    simp only [List.length_append]
    omega
  obtain ⟨sk', m', heq, hmem, hnd, hm, hv, hle⟩ :=
    longestMatchOptions_spec (value ++ toLowerByte c) (j + 1) opts 0 sk m hnp
  have hK1 : c < 128 → value.length = j ∧ value = (r.take j).map asciiLower →
      (value ++ toLowerByte c).length = j + 1 ∧
        value ++ toLowerByte c = (r.take (j + 1)).map asciiLower := by
    intro hlow hal
    rw [toLowerByte_lt hlow, take_succ_of_getElem? hc, List.map_append, ← hal.2]
    exact ⟨by simp [hal.1], rfl⟩
  have hK2 : (∀ b ∈ value ++ toLowerByte c, b < 128) → c < 128 := by
    intro h
    by_contra hge
    obtain ⟨hl, hbig⟩ := toLowerByte_ge hge
    obtain ⟨b, hbm⟩ := List.exists_mem_of_length_pos (by omega : 0 < (toLowerByte c).length)
    have h1 := h b (List.mem_append_right _ hbm)
    have h2 := hbig b hbm
    omega
  have hKP : ∀ o, o ∈ opts → matchesText r o → j + 1 ≤ o.length →
      value.length = j ∧ value = (r.take j).map asciiLower →
      c < 128 ∧ o.take (j + 1) = value ++ toLowerByte c := by
    intro o ho hP hlen hal
    have htk : o.take (j + 1) = value ++ [asciiLower c] := by
      rw [matchesText_take hP (j + 1) hlen, take_succ_of_getElem? hc, List.map_append, ← hal.2]
      rfl
    have hlow : c < 128 := by
      by_contra hge
      have hmemc : asciiLower c ∈ o := by
        have : asciiLower c ∈ o.take (j + 1) := by rw [htk]; simp
        exact List.mem_of_mem_take this
      have := (hopts o ho).2 _ hmemc
      rw [asciiLower_ge hge] at this
      exact hge this
    exact ⟨hlow, by rw [htk, toLowerByte_lt hlow]⟩
  refine ⟨sk', m', heq, ?_, ?_, ?_, ?_, ?_, hnd hf, ?_⟩
  · by_cases hlow : c < 128
    · rcases ha with h1 | h1
      · exact Or.inl (fun i hi => (hmem i).2 (Or.inl (h1 i hi)))
      · exact Or.inr (hK1 hlow h1)
    · left
      intro i hi
      by_cases his : i ∈ sk
      · exact (hmem i).2 (Or.inl his)
      · have hio : opts[i]? = some opts[i] := List.getElem?_eq_getElem hi
        refine (hmem i).2 (Or.inr ⟨i, opts[i], by omega, hio, Or.inr (Or.inl ?_)⟩)
        intro heq2
        have h1 := congrArg List.length heq2
        have h2 := (halive i _ hio his).1
        have h3 := (toLowerByte_ge hlow).1
        simp only [List.length_append, List.length_take] at h1
        omega
  · intro i o hio hns
    have hD : ¬ (o = value ++ toLowerByte c ∨ value ++ toLowerByte c ≠ o.take (j + 1) ∨
        o.length < (value ++ toLowerByte c).length) :=
      fun hD => hns ((hmem i).2 (Or.inr ⟨i, o, by omega, hio, hD⟩))
    push_neg at hD
    refine ⟨o.drop (j + 1), ?_, ?_⟩
    · intro hnil
      apply hD.1
      have := List.take_append_drop (j + 1) o
      rw [hnil, List.append_nil, ← hD.2.1] at this
      exact this.symm
    · rw [hD.2.1, List.take_append_drop]
  · intro i o hio his hP
    by_cases hold : i ∈ sk
    · exact le_trans (hcc i o hio hold hP) hle
    · rcases (hmem i).1 his with h1 | ⟨k, o', hk, hko, hD⟩
      · exact absurd h1 hold
      · have hki : k = i := by omega
        subst hki
        rw [hio] at hko
        cases hko
        rcases hD with hD | hD
        · subst hD
          exact hv k hio (by simpa using hold)
        · exfalso
          have hal := halive k o hio hold
          obtain ⟨s, hs, hos⟩ := hb k o hio hold
          have hlen : j + 1 ≤ o.length := by
            have : 0 < s.length := List.length_pos.2 hs
            rw [hos, List.length_append]
            omega
          obtain ⟨hlow, htk⟩ := hKP o (List.mem_iff_getElem?.2 ⟨k, hio⟩) hP hlen hal
          rcases hD with hD | hD
          · exact hD htk.symm
          · have := (hK1 hlow hal).1
            omega
  · rcases hm with h1 | ⟨h1, _, k, hk, hnk⟩
    · rw [h1]; exact hd
    · right
      have hin : value ++ toLowerByte c ∈ opts := List.mem_iff_getElem?.2 ⟨k, hk⟩
      have hal := halive k _ hk (by simpa using hnk)
      have hK := hK1 (hK2 (hopts _ hin).2) hal
      rw [h1]
      refine ⟨hin, ?_⟩
      unfold matchesText
      rw [hK.1]
      exact hK.2.symm
  · rcases hm with h1 | ⟨h1, _, k, hk, hnk⟩
    · rw [h1]; omega
    · have hin : value ++ toLowerByte c ∈ opts := List.mem_iff_getElem?.2 ⟨k, hk⟩
      have hal := halive k _ hk (by simpa using hnk)
      have hK := hK1 (hK2 (hopts _ hin).2) hal
      rw [h1, hK.1]
  · intro i hi
    rcases (hmem i).1 hi with h1 | ⟨k, o', hk, hko, _⟩
    · exact hg i h1
    · have := hlt k o' hko
      omega

theorem mem_of_nodup_of_length_eq {sk : List Nat} {n : Nat} (hnd : sk.Nodup)
    (hb : ∀ i ∈ sk, i < n) (hlen : sk.length = n) : ∀ i, i < n → i ∈ sk := by
  intro i hi
  have hsub : sk ⊆ List.range n := fun x hx => List.mem_range.2 (hb x hx)
  have hperm : sk.Perm (List.range n) :=
    (List.subperm_of_subset hnd hsub).perm_of_length_le (by simp [hlen])
  exact hperm.mem_iff.2 (List.mem_range.2 hi)

theorem matchInv_final {r : List Nat} {opts : List (List Nat)} {j : Nat} {value sk m : List Nat}
    (hinv : MatchInv r opts j value sk m) (hstop : sk.length = opts.length ∨ r.length ≤ j) :
    (m = [] ∨ (m ∈ opts ∧ matchesText r m)) ∧
      ∀ o ∈ opts, matchesText r o → o.length ≤ m.length := by
  obtain ⟨ha, hb, hcc, hd, _, hf, hg⟩ := hinv
  refine ⟨hd, ?_⟩
  intro o ho hP
  obtain ⟨i, hio⟩ := List.mem_iff_getElem?.1 ho
  have hi : i < opts.length := (List.getElem?_eq_some.1 hio).1
  by_cases his : i ∈ sk
  · exact hcc i o hio his hP
  · exfalso
    rcases hstop with hlen | hend
    · exact his (mem_of_nodup_of_length_eq hf hg hlen i hi)
    · rcases ha with h1 | h1
      · exact his (h1 i hi)
      · obtain ⟨s, hs, hos⟩ := hb i o hio his
        have h2 := matchesText_length hP
        have h3 : 0 < s.length := List.length_pos.2 hs
        rw [hos, List.length_append] at h2
        omega

/-- The outer loop of `longestMatch` returns, without panic and within its iteration bound,
the longest candidate that stands at the initial cursor, or the empty string when none does. -/
theorem longestMatchLoop_spec {source : List Nat} {ic : Cursor} {opts : List (List Nat)}
    (hopts : ∀ o ∈ opts, o ≠ [] ∧ ∀ b ∈ o, b < 128) :
    ∀ (fuel : Nat) (cur : Cursor) (value sk m : List Nat) (j : Nat),
      1 ≤ fuel → source.length + 1 ≤ fuel + cur.Pointer → cur.Pointer = ic.Pointer + j →
      MatchInv (source.drop ic.Pointer) opts j value sk m →
      ∃ res, longestMatchLoop source ic opts fuel cur value sk m = .ret res ∧
        (res = [] ∨ (res ∈ opts ∧ matchesText (source.drop ic.Pointer) res)) ∧
        ∀ o ∈ opts, matchesText (source.drop ic.Pointer) o → o.length ≤ res.length := by
  intro fuel
  induction fuel with
  | zero => intro _ _ _ _ _ h; omega
  | succ fuel ih =>
    intro cur value sk m j _ hfuel hptr hinv
    by_cases hlt : cur.Pointer < source.length
    · have hsrc : source[cur.Pointer]? = some source[cur.Pointer] := List.getElem?_eq_getElem hlt
      have hc : (source.drop ic.Pointer)[j]? = some source[cur.Pointer] := by
        rw [List.getElem?_drop, ← hptr, hsrc]
      obtain ⟨sk', m', heq, hinv'⟩ := matchInv_step hopts hinv hc
      have hn : cur.ptrInc.Pointer - ic.Pointer = j + 1 := by
        simp only [Cursor.ptrInc]; omega
      by_cases hstop : sk'.length = opts.length
      · refine ⟨m', ?_, matchInv_final hinv' (Or.inl hstop)⟩
        simp only [longestMatchLoop, hlt, if_true, hsrc, hn, heq, hstop]
      · obtain ⟨res, hres, hprop⟩ := ih cur.ptrInc (value ++ toLowerByte source[cur.Pointer])
          sk' m' (j + 1) (by omega) (by simp only [Cursor.ptrInc]; omega)
          (by simp only [Cursor.ptrInc]; omega) hinv'
        refine ⟨res, ?_, hprop⟩
        simp only [longestMatchLoop, hlt, if_true, hsrc, hn, heq, hstop, if_false, hres]
    · refine ⟨m, by simp only [longestMatchLoop, hlt, if_false],
        matchInv_final hinv (Or.inr ?_)⟩
      rw [List.length_drop]
      omega

theorem longestMatch_spec (source : List Nat) (ic : Cursor) (opts : List (List Nat))
    (hopts : ∀ o ∈ opts, o ≠ [] ∧ ∀ b ∈ o, b < 128) :
    ∃ res, longestMatch source ic opts = .ret res ∧
      (res = [] ∨ (res ∈ opts ∧ matchesText (source.drop ic.Pointer) res)) ∧
      ∀ o ∈ opts, matchesText (source.drop ic.Pointer) o → o.length ≤ res.length := by
  refine longestMatchLoop_spec hopts (source.length + 1) ic [] [] [] 0 (by omega) (by omega)
    (by omega) ?_
  refine ⟨Or.inr ⟨rfl, by simp⟩, ?_, ?_, Or.inl rfl, le_refl _, List.nodup_nil, ?_⟩
  · intro i o hio _
    exact ⟨o, (hopts o (List.mem_iff_getElem?.2 ⟨i, hio⟩)).1, by simp⟩
  · intro i o _ h
    simp at h
  · intro i h
    simp at h

theorem keywords_ascii : ∀ o ∈ keywords, o ≠ [] ∧ ∀ b ∈ o, b < 128 := by
  decide

theorem symbols_ascii : ∀ o ∈ symbols, o ≠ [] ∧ ∀ b ∈ o, b < 128 := by
  decide

/-! ## Cursor arithmetic -/

theorem advance_zero (cur : Cursor) : cur.advance 0 = cur := rfl

theorem advance_step (cur : Cursor) (n : Nat) :
    cur.colInc.ptrInc.advance n = cur.advance (n + 1) := by
  simp only [Cursor.advance, Cursor.colInc, Cursor.ptrInc, Function.iterate_succ_apply]
  congr 1
  omega

theorem advance_step' (cur : Cursor) (n : Nat) :
    cur.ptrInc.colInc.advance n = cur.advance (n + 1) := by
  simp only [Cursor.advance, Cursor.colInc, Cursor.ptrInc, Function.iterate_succ_apply]
  congr 1
  omega

theorem advance_advance (cur : Cursor) (a b : Nat) :
    (cur.advance a).advance b = cur.advance (a + b) := by
  simp only [Cursor.advance, Nat.add_comm a b, Function.iterate_add_apply]
  congr 1
  omega

theorem iterate_uintSucc (n c : Nat) : uintSucc^[n + 1] c = (c + (n + 1)) % 2 ^ 64 := by
  induction n generalizing c with
  | zero => rfl
  | succ n ih =>
    rw [Function.iterate_succ_apply, ih]
    unfold uintSucc
    omega

theorem advance_pointer (cur : Cursor) (n : Nat) : (cur.advance n).Pointer = cur.Pointer + n := rfl

theorem advance_succ_eq (cur : Cursor) (n : Nat) :
    cur.advance (n + 1) =
      ⟨cur.Pointer + (n + 1), ⟨cur.Loc.Line, (cur.Loc.Col + (n + 1)) % 2 ^ 64⟩⟩ := by
  simp only [Cursor.advance, iterate_uintSucc]

theorem advance_pos (cur : Cursor) {n : Nat} (h : 0 < n) :
    cur.advance n = ⟨cur.Pointer + n, ⟨cur.Loc.Line, (cur.Loc.Col + n) % 2 ^ 64⟩⟩ := by
  obtain ⟨k, rfl⟩ : ∃ k, n = k + 1 := ⟨n - 1, by omega⟩
  exact advance_succ_eq cur k

theorem advance_colInc (cur : Cursor) {n : Nat} (h : 0 < n) :
    (cur.advance n).colInc =
      ⟨cur.Pointer + n, ⟨cur.Loc.Line, (cur.Loc.Col + n + 1) % 2 ^ 64⟩⟩ := by
  rw [advance_pos cur h]
  simp only [Cursor.colInc, uintSucc]
  congr 2
  omega

theorem advance_succ_right (cur : Cursor) (k : Nat) :
    (cur.advance k).colInc.ptrInc = cur.advance (k + 1) := by
  simp only [Cursor.advance, Cursor.colInc, Cursor.ptrInc, Function.iterate_succ_apply']
  rfl

/-! ## The delimited scanner -/

/-- A run of bytes other than the delimiter is copied to the value. -/
theorem lexCharacterDelimitedLoop_body (source : List Nat) (ic : Cursor) (d : Nat) :
    ∀ (body : List Nat) (fuel : Nat) (cur : Cursor) (value rest : List Nat),
      source.drop cur.Pointer = body ++ rest → (∀ b ∈ body, b ≠ d) →
      lexCharacterDelimitedLoop source ic d (fuel + body.length) cur value =
        lexCharacterDelimitedLoop source ic d fuel (cur.advance body.length) (value ++ body) := by
  intro body
  induction body with
  | nil => intro fuel cur value rest _ _; simp [advance_zero]
  | cons b body ih =>
    intro fuel cur value rest hdrop hbody
    obtain ⟨hlt, hget, hnext⟩ := drop_eq_cons (by simpa using hdrop)
    have hb : b ≠ d := hbody b (by simp)
    have hrec := ih fuel cur.colInc.ptrInc (value ++ [b]) rest hnext
      (fun x hx => hbody x (List.mem_cons_of_mem _ hx))
    rw [advance_step, List.append_assoc, List.singleton_append] at hrec
    rw [List.length_cons, ← Nat.add_assoc]
    simp only [lexCharacterDelimitedLoop, hlt, if_true, hget, hb, if_false]
    exact hrec

/-- At a delimiter that is not followed by a second delimiter the token is closed. -/
theorem lexCharacterDelimitedLoop_close (source : List Nat) (ic : Cursor) (d : Nat)
    (fuel : Nat) (cur : Cursor) (value tail : List Nat)
    (hdrop : source.drop cur.Pointer = d :: tail) (htail : tail.head? ≠ some d) :
    lexCharacterDelimitedLoop source ic d (fuel + 1) cur value =
      .ret (some ⟨value, .StringKind, ic.Loc⟩, cur.ptrInc, true) := by
  obtain ⟨hlt, hget, hnext⟩ := drop_eq_cons hdrop
  cases tail with
  | nil =>
    have hlen : source.length ≤ cur.Pointer + 1 := List.drop_eq_nil_iff.1 hnext
    simp only [lexCharacterDelimitedLoop, hlt, if_true, hget, ge_iff_le, hlen]
  | cons t tail =>
    obtain ⟨hlt2, hget2, _⟩ := drop_eq_cons hnext
    have ht : t ≠ d := by simpa using htail
    have hlen : ¬ source.length ≤ cur.Pointer + 1 := by omega
    simp only [lexCharacterDelimitedLoop, hlt, if_true, hget, ge_iff_le, hlen, if_false, hget2,
      ne_eq, ht, not_false_eq_true]

/-- At the end of the source the scanner fails. -/
theorem lexCharacterDelimitedLoop_end (source : List Nat) (ic : Cursor) (d : Nat)
    (fuel : Nat) (cur : Cursor) (value : List Nat) (hend : source.length ≤ cur.Pointer) :
    lexCharacterDelimitedLoop source ic d (fuel + 1) cur value = .ret (none, ic, false) := by
  have hlt : ¬ cur.Pointer < source.length := by omega
  simp only [lexCharacterDelimitedLoop, hlt, if_false]

/-- Opening delimiter, a body without the delimiter, closing delimiter not followed by a
second one: the scanner returns the body. -/
theorem lexCharacterDelimited_quoted (source : List Nat) (ic : Cursor) (d : Nat)
    (body tail : List Nat) (hdrop : source.drop ic.Pointer = d :: (body ++ d :: tail))
    (hbody : ∀ b ∈ body, b ≠ d) (htail : tail.head? ≠ some d) :
    lexCharacterDelimited source ic d =
      .ret (some ⟨body, .StringKind, ic.Loc⟩,
        ⟨ic.Pointer + (body.length + 2),
          ⟨ic.Loc.Line, (ic.Loc.Col + (body.length + 1)) % 2 ^ 64⟩⟩, true) := by
  obtain ⟨hlt, hget, hnext⟩ := drop_eq_cons hdrop
  have hlen : body.length + 2 ≤ source.length := by
    have := congrArg List.length hdrop
    simp only [List.length_drop, List.length_cons, List.length_append] at this
    omega
  have hfuel : source.length + 1 = (source.length - body.length + 1) + body.length := by omega
  have h1 : ¬ source.length < ic.Pointer := by omega
  have h2 : ¬ source.length - ic.Pointer = 0 := by omega
  have hnext' : source.drop (ic.colInc.ptrInc).Pointer = body ++ d :: tail := hnext
  simp only [lexCharacterDelimited, h1, if_false, h2, hget, ne_eq, not_true_eq_false]
  rw [hfuel, lexCharacterDelimitedLoop_body source ic d body _ _ [] (d :: tail) hnext' hbody]
  have hd2 : source.drop ((ic.colInc.ptrInc).advance body.length).Pointer = d :: tail := by
    rw [advance_pointer, ← List.drop_drop, hnext', List.drop_left]
  rw [lexCharacterDelimitedLoop_close source ic d _ _ _ tail hd2 htail, advance_step,
    advance_succ_eq]
  simp only [Cursor.ptrInc, List.nil_append]
  congr 3

/-- At a doubled delimiter the loop appends one delimiter and moves on by one byte only, so
that the second delimiter of the pair is examined next. -/
theorem lexCharacterDelimitedLoop_doubled (source : List Nat) (ic : Cursor) (d : Nat)
    (fuel : Nat) (cur : Cursor) (value rest : List Nat)
    (hdrop : source.drop cur.Pointer = d :: d :: rest) :
    lexCharacterDelimitedLoop source ic d (fuel + 1) cur value =
      lexCharacterDelimitedLoop source ic d fuel cur.colInc.ptrInc (value ++ [d]) := by
  obtain ⟨hlt, hget, hnext⟩ := drop_eq_cons hdrop
  obtain ⟨hlt2, hget2, _⟩ := drop_eq_cons hnext
  have hlen : ¬ source.length ≤ cur.Pointer + 1 := by omega
  simp only [lexCharacterDelimitedLoop, hlt, if_true, hget, ge_iff_le, hlen, if_false, hget2,
    ne_eq, not_true_eq_false]

/-! ## The numeric scanner -/

/-- A digit is consumed; at the first byte this needs `periodFound` still unset. -/
theorem lexNumericLoop_digit (source : List Nat) (ic : Cursor) (fuel : Nat) (cur : Cursor)
    (pf ef : Bool) (c : Nat) (rest : List Nat) (hdrop : source.drop cur.Pointer = c :: rest)
    (hc : 48 ≤ c ∧ c ≤ 57) (hfirst : cur.Pointer = ic.Pointer → pf = false) :
    lexNumericLoop source ic (fuel + 1) cur pf ef =
      lexNumericLoop source ic fuel cur.colInc.ptrInc pf ef := by
  obtain ⟨hlt, hget, _⟩ := drop_eq_cons hdrop
  have h46 : c ≠ 46 := by omega
  have h101 : c ≠ 101 := by omega
  by_cases hp : cur.Pointer = ic.Pointer
  · have hpf := hfirst hp
    subst hpf
    rw [hp] at hlt hget
    simp [lexNumericLoop, hlt, hget, Cursor.colInc, hp, hc.1, hc.2, h46]
  · simp [lexNumericLoop, hlt, hget, Cursor.colInc, hp, hc.1, hc.2, h46, h101]

/-- A run of digits is consumed. -/
theorem lexNumericLoop_digits (source : List Nat) (ic : Cursor) (pf ef : Bool) :
    ∀ (ds : List Nat) (fuel : Nat) (cur : Cursor) (rest : List Nat),
      source.drop cur.Pointer = ds ++ rest → (∀ d ∈ ds, 48 ≤ d ∧ d ≤ 57) →
      ic.Pointer ≤ cur.Pointer → (cur.Pointer = ic.Pointer → pf = false) →
      lexNumericLoop source ic (fuel + ds.length) cur pf ef =
        lexNumericLoop source ic fuel (cur.advance ds.length) pf ef := by
  intro ds
  induction ds with
  | nil => intro fuel cur rest _ _ _ _; simp [advance_zero]
  | cons d ds ih =>
    intro fuel cur rest hdrop hds hle hfirst
    obtain ⟨_, _, hnext⟩ := drop_eq_cons (by simpa using hdrop)
    have hrec := ih fuel cur.colInc.ptrInc rest hnext
      (fun x hx => hds x (List.mem_cons_of_mem _ hx))
      (by simp only [Cursor.ptrInc, Cursor.colInc]; omega)
      (by simp only [Cursor.ptrInc, Cursor.colInc]; omega)
    rw [advance_step] at hrec
    rw [List.length_cons, ← Nat.add_assoc,
      lexNumericLoop_digit source ic _ cur pf ef d (ds ++ rest) (by simpa using hdrop)
        (hds d (by simp)) hfirst]
    exact hrec

/-- The first period is consumed and sets `periodFound`. -/
theorem lexNumericLoop_period (source : List Nat) (ic : Cursor) (fuel : Nat) (cur : Cursor)
    (ef : Bool) (rest : List Nat) (hdrop : source.drop cur.Pointer = 46 :: rest) :
    lexNumericLoop source ic (fuel + 1) cur false ef =
      lexNumericLoop source ic fuel cur.colInc.ptrInc true ef := by
  obtain ⟨hlt, hget, _⟩ := drop_eq_cons hdrop
  by_cases hp : cur.Pointer = ic.Pointer
  · rw [hp] at hlt hget
    simp [lexNumericLoop, hlt, hget, Cursor.colInc, hp]
  · simp [lexNumericLoop, hlt, hget, Cursor.colInc, hp]

/-- A period after `periodFound` is set rejects the match. -/
theorem lexNumericLoop_period_reject (source : List Nat) (ic : Cursor) (fuel : Nat)
    (cur : Cursor) (ef : Bool) (rest : List Nat)
    (hdrop : source.drop cur.Pointer = 46 :: rest) (hp : cur.Pointer ≠ ic.Pointer) :
    lexNumericLoop source ic (fuel + 1) cur true ef = .ret (none, ic, false) := by
  obtain ⟨hlt, hget, _⟩ := drop_eq_cons hdrop
  simp [lexNumericLoop, hlt, hget, Cursor.colInc, hp]

/-- The first exponent marker, not at the first byte and not at the last byte of the source,
is consumed together with a sign that follows it. -/
theorem lexNumericLoop_exp (source : List Nat) (ic : Cursor) (fuel : Nat) (cur : Cursor)
    (pf : Bool) (c : Nat) (rest : List Nat)
    (hdrop : source.drop cur.Pointer = 101 :: c :: rest) (hp : cur.Pointer ≠ ic.Pointer) :
    lexNumericLoop source ic (fuel + 1) cur pf false =
      if c = 45 ∨ c = 43 then
        lexNumericLoop source ic fuel cur.colInc.ptrInc.colInc.ptrInc true true
      else lexNumericLoop source ic fuel cur.colInc.ptrInc true true := by
  obtain ⟨hlt, hget, hnext⟩ := drop_eq_cons hdrop
  obtain ⟨hlt2, hget2, _⟩ := drop_eq_cons hnext
  have hlast : cur.Pointer ≠ source.length - 1 := by omega
  simp [lexNumericLoop, hlt, hget, Cursor.colInc, hp, hlast, hget2, Cursor.ptrInc]

/-- An exponent marker that is the last byte of the source rejects the match. -/
theorem lexNumericLoop_exp_last (source : List Nat) (ic : Cursor) (fuel : Nat) (cur : Cursor)
    (pf ef : Bool) (hdrop : source.drop cur.Pointer = [101]) :
    lexNumericLoop source ic (fuel + 1) cur pf ef = .ret (none, ic, false) := by
  obtain ⟨hlt, hget, hnext⟩ := drop_eq_cons hdrop
  have hlast : cur.Pointer = source.length - 1 := by
    have := List.drop_eq_nil_iff.1 hnext
    omega
  by_cases hp : cur.Pointer = ic.Pointer
  · rw [hp] at hlt hget
    simp [lexNumericLoop, hlt, hget, Cursor.colInc, hp]
  · cases ef <;> simp [lexNumericLoop, hlt, hget, Cursor.colInc, hp, ← hlast]

/-- A second exponent marker rejects the match. -/
theorem lexNumericLoop_exp_reject (source : List Nat) (ic : Cursor) (fuel : Nat) (cur : Cursor)
    (pf : Bool) (rest : List Nat) (hdrop : source.drop cur.Pointer = 101 :: rest) :
    lexNumericLoop source ic (fuel + 1) cur pf true = .ret (none, ic, false) := by
  obtain ⟨hlt, hget, _⟩ := drop_eq_cons hdrop
  by_cases hp : cur.Pointer = ic.Pointer
  · rw [hp] at hlt hget
    simp [lexNumericLoop, hlt, hget, Cursor.colInc, hp]
  · simp [lexNumericLoop, hlt, hget, Cursor.colInc, hp]

/-- A first byte that is neither a digit nor a period rejects the match. -/
theorem lexNumericLoop_first_reject (source : List Nat) (ic : Cursor) (fuel : Nat)
    (pf ef : Bool) (c : Nat) (rest : List Nat) (hdrop : source.drop ic.Pointer = c :: rest)
    (hc : ¬ (48 ≤ c ∧ c ≤ 57)) (h46 : c ≠ 46) :
    lexNumericLoop source ic (fuel + 1) ic pf ef = .ret (none, ic, false) := by
  obtain ⟨hlt, hget, _⟩ := drop_eq_cons hdrop
  simp [lexNumericLoop, hlt, hget, Cursor.colInc, hc, h46]

/-- A later byte that is no digit, period or exponent marker ends the run; the column has
already been incremented for it. -/
theorem lexNumericLoop_break (source : List Nat) (ic : Cursor) (fuel : Nat) (cur : Cursor)
    (pf ef : Bool) (c : Nat) (rest : List Nat) (hdrop : source.drop cur.Pointer = c :: rest)
    (hc : ¬ (48 ≤ c ∧ c ≤ 57)) (h46 : c ≠ 46) (h101 : c ≠ 101)
    (hp : cur.Pointer ≠ ic.Pointer) :
    lexNumericLoop source ic (fuel + 1) cur pf ef = lexNumericFinish source ic cur.colInc := by
  obtain ⟨hlt, hget, _⟩ := drop_eq_cons hdrop
  simp [lexNumericLoop, hlt, hget, Cursor.colInc, hc, h46, h101, hp]

/-- The end of the source ends the run. -/
theorem lexNumericLoop_end (source : List Nat) (ic : Cursor) (fuel : Nat) (cur : Cursor)
    (pf ef : Bool) (hend : source.length ≤ cur.Pointer) :
    lexNumericLoop source ic (fuel + 1) cur pf ef = lexNumericFinish source ic cur := by
  have hlt : ¬ cur.Pointer < source.length := by omega
  simp [lexNumericLoop, hlt]

theorem drop_advance {source : List Nat} {cur : Cursor} {a b : List Nat}
    (h : source.drop cur.Pointer = a ++ b) :
    source.drop (cur.advance a.length).Pointer = b := by
  rw [advance_pointer, ← List.drop_drop, h, List.drop_left]

/-- Digits and an optional fraction at the initial cursor are consumed. -/
theorem lexNumericLoop_mantissa (source : List Nat) (ic : Cursor) (I F rest : List Nat)
    (fuel : Nat) (hdrop : source.drop ic.Pointer = (I ++ F) ++ rest) (hI : IsDigits I)
    (hF : IsFraction F) :
    lexNumericLoop source ic (fuel + (I ++ F).length) ic false false =
      lexNumericLoop source ic fuel (ic.advance (I ++ F).length) (decide (F ≠ [])) false := by
  rcases hF with rfl | ⟨Fd, rfl, hFd⟩
  · simp only [List.append_nil] at hdrop ⊢
    simpa using lexNumericLoop_digits source ic false false I fuel ic rest hdrop hI (le_refl _)
      (fun _ => rfl)
  · have hdrop1 : source.drop ic.Pointer = I ++ (46 :: (Fd ++ rest)) := by
      rw [hdrop]; simp
    have hd1 : source.drop (ic.advance I.length).Pointer = 46 :: (Fd ++ rest) :=
      drop_advance hdrop1
    obtain ⟨_, _, hd2⟩ := drop_eq_cons hd1
    have hfuel : fuel + (I ++ 46 :: Fd).length = ((fuel + Fd.length) + 1) + I.length := by
      simp only [List.length_append, List.length_cons]; omega
    rw [hfuel, lexNumericLoop_digits source ic false false I _ ic _ hdrop1 hI (le_refl _)
        (fun _ => rfl),
      lexNumericLoop_period source ic _ _ false _ hd1,
      lexNumericLoop_digits source ic true false Fd fuel _ rest hd2 hFd
        (by simp only [Cursor.ptrInc, Cursor.colInc, advance_pointer]; omega)
        (by simp only [Cursor.ptrInc, Cursor.colInc, advance_pointer]; omega),
      advance_step, advance_advance]
    have hl : (I ++ 46 :: Fd).length = I.length + (Fd.length + 1) := by simp
    rw [hl]
    simp

/-- An exponent marker after at least one consumed byte is consumed with its sign and the
digits that follow, provided the marker is not the last byte of the source. -/
theorem lexNumericLoop_exponent (source : List Nat) (ic cur : Cursor) (pf : Bool)
    (sg Ed rest : List Nat) (fuel : Nat)
    (hdrop : source.drop cur.Pointer = (101 :: (sg ++ Ed)) ++ rest)
    (hsg : sg = [] ∨ sg = [43] ∨ sg = [45])
    (hnext : sg = [] → ∃ c rest', Ed ++ rest = c :: rest' ∧ c ≠ 45 ∧ c ≠ 43)
    (hEd : IsDigits Ed) (hp : ic.Pointer < cur.Pointer) :
    lexNumericLoop source ic (fuel + (1 + Ed.length)) cur pf false =
      lexNumericLoop source ic fuel (cur.advance (101 :: (sg ++ Ed)).length) true true := by
  have hfuel : fuel + (1 + Ed.length) = (fuel + Ed.length) + 1 := by omega
  have hp' : cur.Pointer ≠ ic.Pointer := by omega
  obtain ⟨_, _, hn1⟩ := drop_eq_cons hdrop
  rcases hsg with rfl | rfl | rfl
  · obtain ⟨c, rest', hcr, hc1, hc2⟩ := hnext rfl
    have hc : ¬ (c = 45 ∨ c = 43) := by omega
    have hdrop' : source.drop cur.Pointer = 101 :: c :: rest' := by
      rw [hdrop, ← hcr]; simp
    rw [hfuel, lexNumericLoop_exp source ic _ cur pf c rest' hdrop' hp', if_neg hc,
      lexNumericLoop_digits source ic true true Ed fuel _ rest (by simpa using hn1) hEd
        (by simp only [Cursor.ptrInc, Cursor.colInc]; omega)
        (by simp only [Cursor.ptrInc, Cursor.colInc]; omega),
      advance_step]
    simp only [List.nil_append, List.length_cons]
  · have hn1' : source.drop (cur.Pointer + 1) = 43 :: (Ed ++ rest) := by simpa using hn1
    obtain ⟨_, _, hn2⟩ := drop_eq_cons hn1'
    rw [hfuel, lexNumericLoop_exp source ic _ cur pf 43 (Ed ++ rest) (by simpa using hdrop) hp',
      if_pos (Or.inr rfl),
      lexNumericLoop_digits source ic true true Ed fuel _ rest hn2 hEd
        (by simp only [Cursor.ptrInc, Cursor.colInc]; omega)
        (by simp only [Cursor.ptrInc, Cursor.colInc]; omega),
      advance_step, advance_step]
    have hl : (101 :: ([43] ++ Ed)).length = Ed.length + 1 + 1 := by simp
    rw [hl]
  · have hn1' : source.drop (cur.Pointer + 1) = 45 :: (Ed ++ rest) := by simpa using hn1
    obtain ⟨_, _, hn2⟩ := drop_eq_cons hn1'
    rw [hfuel, lexNumericLoop_exp source ic _ cur pf 45 (Ed ++ rest) (by simpa using hdrop) hp',
      if_pos (Or.inl rfl),
      lexNumericLoop_digits source ic true true Ed fuel _ rest hn2 hEd
        (by simp only [Cursor.ptrInc, Cursor.colInc]; omega)
        (by simp only [Cursor.ptrInc, Cursor.colInc]; omega),
      advance_step, advance_step]
    have hl : (101 :: ([45] ++ Ed)).length = Ed.length + 1 + 1 := by simp
    rw [hl]

theorem digits_head_not_sign {Ed rest : List Nat} (hne : Ed ≠ []) (hEd : IsDigits Ed) :
    ∃ c rest', Ed ++ rest = c :: rest' ∧ c ≠ 45 ∧ c ≠ 43 := by
  cases Ed with
  | nil => exact absurd rfl hne
  | cons d Ed =>
    have hd : 48 ≤ d ∧ d ≤ 57 := hEd d (by simp)
    exact ⟨d, Ed ++ rest, rfl, by omega, by omega⟩

/-- Mantissa and exponent together are consumed in at most as many rounds as they have
bytes. -/
theorem lexNumericLoop_number (source : List Nat) (ic : Cursor) (I F E tail : List Nat)
    (hdrop : source.drop ic.Pointer = ((I ++ F) ++ E) ++ tail) (hI : IsDigits I)
    (hF : IsFraction F) (hE : IsExponent E) (hne : I ++ F ≠ []) :
    ∃ k pf ef, k ≤ ((I ++ F) ++ E).length ∧ ∀ fuel,
      lexNumericLoop source ic (fuel + k) ic false false =
        lexNumericLoop source ic fuel (ic.advance ((I ++ F) ++ E).length) pf ef := by
  have hm : 0 < (I ++ F).length := List.length_pos.2 hne
  rcases hE with rfl | ⟨sg, Ed, rfl, hsg, hEd0, hEd⟩
  · refine ⟨(I ++ F).length, decide (F ≠ []), false, by simp, ?_⟩
    intro fuel
    rw [List.append_nil] at hdrop ⊢
    exact lexNumericLoop_mantissa source ic I F tail fuel hdrop hI hF
  · refine ⟨(1 + Ed.length) + (I ++ F).length, true, true, ?_, ?_⟩
    · simp only [List.length_append, List.length_cons]; omega
    · intro fuel
      have hdrop1 : source.drop ic.Pointer = (I ++ F) ++ ((101 :: (sg ++ Ed)) ++ tail) := by
        rw [hdrop]; simp
      have hd1 := drop_advance hdrop1
      rw [← Nat.add_assoc,
        lexNumericLoop_mantissa source ic I F _ _ hdrop1 hI hF,
        lexNumericLoop_exponent source ic _ _ sg Ed tail fuel hd1 hsg
          (fun _ => digits_head_not_sign hEd0 hEd) hEd (by rw [advance_pointer]; omega),
        advance_advance, ← List.length_append]

theorem lexNumericFinish_token (source : List Nat) (ic cur : Cursor) (s tail : List Nat)
    (hdrop : source.drop ic.Pointer = s ++ tail) (hs : s ≠ [])
    (hptr : cur.Pointer = ic.Pointer + s.length) :
    lexNumericFinish source ic cur = .ret (some ⟨s, .NumericKind, ic.Loc⟩, cur, true) := by
  have hpos : 0 < s.length := List.length_pos.2 hs
  have hlen := congrArg List.length hdrop
  simp only [List.length_drop, List.length_append] at hlen
  have h1 : cur.Pointer ≠ ic.Pointer := by omega
  have h2 : ic.Pointer ≤ cur.Pointer ∧ cur.Pointer ≤ source.length := by omega
  have h3 : cur.Pointer - ic.Pointer = s.length := by omega
  simp only [lexNumericFinish, h1, if_false, slice, h2, and_self, if_true, hdrop, h3,
    List.take_left]

/-- Acceptance of a number that is followed by the end of the source or by a byte that ends
the run. -/
theorem lexNumeric_accepts (source : List Nat) (ic : Cursor) (I F E tail : List Nat)
    (hdrop : source.drop ic.Pointer = ((I ++ F) ++ E) ++ tail) (hI : IsDigits I)
    (hF : IsFraction F) (hE : IsExponent E) (hne : I ++ F ≠ [])
    (htail : tail = [] ∨ ∃ t ts, tail = t :: ts ∧ endsNumber t) :
    lexNumeric source ic =
      .ret (some ⟨(I ++ F) ++ E, .NumericKind, ic.Loc⟩,
        (if tail = [] then ic.advance ((I ++ F) ++ E).length
          else (ic.advance ((I ++ F) ++ E).length).colInc), true) := by
  obtain ⟨k, pf, ef, hk, hrun⟩ := lexNumericLoop_number source ic I F E tail hdrop hI hF hE hne
  have hs : (I ++ F) ++ E ≠ [] := by
    intro h
    exact hne (List.append_eq_nil.1 h).1
  have hlen := congrArg List.length hdrop
  rw [List.length_drop, List.length_append] at hlen
  have hfuel : source.length + 1 = (source.length - k + 1) + k := by omega
  have hd := drop_advance hdrop
  unfold lexNumeric
  rw [hfuel, hrun]
  rcases htail with rfl | ⟨t, ts, rfl, ht1, ht2, ht3⟩
  · rw [lexNumericLoop_end source ic _ _ pf ef (List.drop_eq_nil_iff.1 hd), if_pos rfl]
    exact lexNumericFinish_token source ic _ _ [] hdrop hs (advance_pointer _ _)
  · have hpos : 0 < ((I ++ F) ++ E).length := List.length_pos.2 hs
    rw [lexNumericLoop_break source ic _ _ pf ef t ts hd ht1 ht2 ht3
        (by rw [advance_pointer]; omega), if_neg (by simp)]
    exact lexNumericFinish_token source ic _ _ (t :: ts) hdrop hs (advance_pointer _ _)

/-- Rejection after a mantissa and an exponent marker with sign and digits, when the next
byte is a period or a second exponent marker. -/
theorem lexNumeric_rejects_after_exponent (source : List Nat) (ic : Cursor)
    (I F sg Ed : List Nat) (x : Nat) (rest : List Nat)
    (hdrop : source.drop ic.Pointer = (I ++ F) ++ ((101 :: (sg ++ Ed)) ++ x :: rest))
    (hI : IsDigits I) (hF : IsFraction F) (hne : I ++ F ≠ [])
    (hsg : sg = [] ∨ sg = [43] ∨ sg = [45]) (hEd : IsDigits Ed) (hx : x = 46 ∨ x = 101) :
    lexNumeric source ic = .ret (none, ic, false) := by
  have hm : 0 < (I ++ F).length := List.length_pos.2 hne
  have hlen := congrArg List.length hdrop
  simp only [List.length_drop, List.length_append, List.length_cons] at hlen
  have hfuel : source.length + 1 =
      (((source.length - (1 + Ed.length) - (I ++ F).length) + 1) + (1 + Ed.length)) +
        (I ++ F).length := by
    simp only [List.length_append]; omega
  have hd1 := drop_advance hdrop
  have hnext : sg = [] → ∃ c rest', Ed ++ x :: rest = c :: rest' ∧ c ≠ 45 ∧ c ≠ 43 := by
    intro _
    cases Ed with
    | nil => exact ⟨x, rest, rfl, by omega, by omega⟩
    | cons d Ed => exact digits_head_not_sign (by simp) hEd
  have hd2 := drop_advance hd1
  unfold lexNumeric
  rw [hfuel, lexNumericLoop_mantissa source ic I F _ _ hdrop hI hF,
    lexNumericLoop_exponent source ic _ _ sg Ed (x :: rest) _ hd1 hsg hnext hEd
      (by rw [advance_pointer]; omega)]
  rcases hx with rfl | rfl
  · exact lexNumericLoop_period_reject source ic _ _ true rest hd2
      (by simp only [advance_pointer]; omega)
  · exact lexNumericLoop_exp_reject source ic _ _ true rest hd2

/-- Rejection at a second period. -/
theorem lexNumeric_rejects_second_period (source : List Nat) (ic : Cursor)
    (I Fd rest : List Nat) (hdrop : source.drop ic.Pointer = (I ++ 46 :: Fd) ++ 46 :: rest)
    (hI : IsDigits I) (hFd : IsDigits Fd) :
    lexNumeric source ic = .ret (none, ic, false) := by
  have hlen := congrArg List.length hdrop
  simp only [List.length_drop, List.length_append, List.length_cons] at hlen
  have hfuel : source.length + 1 =
      ((source.length - (I ++ 46 :: Fd).length) + 1) + (I ++ 46 :: Fd).length := by
    simp only [List.length_append, List.length_cons]; omega
  have hd1 := drop_advance hdrop
  unfold lexNumeric
  rw [hfuel, lexNumericLoop_mantissa source ic I (46 :: Fd) _ _ hdrop hI
    (Or.inr ⟨Fd, rfl, hFd⟩)]
  have hpf : decide (46 :: Fd ≠ []) = true := by simp
  rw [hpf]
  exact lexNumericLoop_period_reject source ic _ _ false rest hd1
    (by simp only [advance_pointer, List.length_append, List.length_cons]; omega)

/-- Rejection at an exponent marker that is the last byte of the source. -/
theorem lexNumeric_rejects_last_exponent (source : List Nat) (ic : Cursor) (I F : List Nat)
    (hdrop : source.drop ic.Pointer = (I ++ F) ++ [101]) (hI : IsDigits I)
    (hF : IsFraction F) :
    lexNumeric source ic = .ret (none, ic, false) := by
  have hlen := congrArg List.length hdrop
  simp only [List.length_drop, List.length_append, List.length_cons] at hlen
  have hfuel : source.length + 1 =
      ((source.length - (I ++ F).length) + 1) + (I ++ F).length := by
    simp only [List.length_append]; omega
  have hd1 := drop_advance hdrop
  unfold lexNumeric
  rw [hfuel, lexNumericLoop_mantissa source ic I F _ _ hdrop hI hF]
  exact lexNumericLoop_exp_last source ic _ _ _ false hd1

/-- What the string scanner does at a doubled quote that is followed by more text: for
bodies `a` and `b` without quote, `b` non-empty, the literal `'a''b'` is cut at the second quote
of the pair, with value `a'`. -/
theorem lexString_doubled_general (a b : List Nat) (ha : ∀ x ∈ a, x ≠ 39)
    (hb : ∀ x ∈ b, x ≠ 39) (hne : b ≠ []) :
    lexString (39 :: (a ++ 39 :: 39 :: (b ++ [39]))) ⟨0, ⟨0, 0⟩⟩ =
      .ret (some ⟨a ++ [39], .StringKind, ⟨0, 0⟩⟩,
        ⟨a.length + 3, ⟨0, (a.length + 2) % 2 ^ 64⟩⟩, true) := by
  have hsrc : (39 :: (a ++ 39 :: 39 :: (b ++ [39]))).length = a.length + b.length + 4 := by
    simp only [List.length_cons, List.length_append, List.length_nil]; omega
  have hget : (39 :: (a ++ 39 :: 39 :: (b ++ [39])))[0]? = some 39 := by simp
  have hfuel : (39 :: (a ++ 39 :: 39 :: (b ++ [39]))).length + 1 =
      ((b.length + 3) + 1 + 1) + a.length := by omega
  have hd0 : (39 :: (a ++ 39 :: 39 :: (b ++ [39]))).drop
      ((⟨0, ⟨0, 0⟩⟩ : Cursor).colInc.ptrInc).Pointer = a ++ 39 :: 39 :: (b ++ [39]) := rfl
  have hd1 := drop_advance hd0
  obtain ⟨_, _, hd2⟩ := drop_eq_cons hd1
  have htail : (b ++ [39]).head? ≠ some 39 := by
    cases b with
    | nil => exact absurd rfl hne
    | cons x b =>
      have := hb x (by simp)
      simpa using this
  simp only [lexString, lexCharacterDelimited, hsrc, hget]
  simp only [Nat.not_lt_zero, if_false, Nat.sub_zero, Nat.add_eq_zero, OfNat.ofNat_ne_zero,
    and_false, ne_eq, not_true_eq_false]
  have hd2' : (39 :: (a ++ 39 :: 39 :: (b ++ [39]))).drop
      (((⟨0, ⟨0, 0⟩⟩ : Cursor).colInc.ptrInc.advance a.length).colInc.ptrInc).Pointer =
        39 :: (b ++ [39]) := hd2
  rw [← hsrc, hfuel,
    lexCharacterDelimitedLoop_body _ _ 39 a _ _ [] _ hd0 ha,
    lexCharacterDelimitedLoop_doubled _ _ 39 _ _ _ _ hd1,
    lexCharacterDelimitedLoop_close _ _ 39 _ _ _ (b ++ [39]) hd2' htail,
    advance_succ_right, advance_step, advance_succ_eq]
  simp [Cursor.ptrInc]

/-! ## The identifier scanner -/

/-- A run of identifier bytes is appended to the value. -/
theorem lexIdentifierLoop_run (source : List Nat) (ic : Cursor) :
    ∀ (body : List Nat) (fuel : Nat) (cur : Cursor) (value rest : List Nat),
      source.drop cur.Pointer = body ++ rest → (∀ b ∈ body, isIdentifierByte b = true) →
      lexIdentifierLoop source ic (fuel + body.length) cur value =
        lexIdentifierLoop source ic fuel (cur.advance body.length) (value ++ body) := by
  intro body
  induction body with
  | nil => intro fuel cur value rest _ _; simp [advance_zero]
  | cons b body ih =>
    intro fuel cur value rest hdrop hbody
    obtain ⟨hlt, hget, hnext⟩ := drop_eq_cons (by simpa using hdrop)
    have hb : isIdentifierByte b = true := hbody b (by simp)
    have hrec := ih fuel cur.colInc.ptrInc (value ++ [b]) rest hnext
      (fun x hx => hbody x (List.mem_cons_of_mem _ hx))
    rw [advance_step, List.append_assoc, List.singleton_append] at hrec
    rw [List.length_cons, ← Nat.add_assoc]
    simp only [lexIdentifierLoop, hlt, if_true, hget, hb]
    exact hrec

/-- The loop stops at the end of the source and at a byte that is no identifier byte. -/
theorem lexIdentifierLoop_stop (source : List Nat) (ic : Cursor) (fuel : Nat) (cur : Cursor)
    (value rest : List Nat) (hdrop : source.drop cur.Pointer = rest)
    (hrest : ∀ x, rest.head? = some x → isIdentifierByte x = false) (hv : value ≠ []) :
    lexIdentifierLoop source ic (fuel + 1) cur value =
      .ret (some ⟨toLowerASCII value, .IdentifierKind, ic.Loc⟩, cur, true) := by
  have hlen : ¬ value.length = 0 := fun h => hv (List.length_eq_zero.1 h)
  cases rest with
  | nil =>
    have hlt : ¬ cur.Pointer < source.length := by
      have := List.drop_eq_nil_iff.1 hdrop
      omega
    simp only [lexIdentifierLoop, hlt, if_false, hlen]
  | cons x rest =>
    obtain ⟨hlt, hget, _⟩ := drop_eq_cons hdrop
    have hx : isIdentifierByte x = false := hrest x rfl
    simp [lexIdentifierLoop, hlt, hget, hx, hlen]

theorem isIdentifierByte_of_isAlphabetical {c : Nat} (h : isAlphabetical c = true) :
    isIdentifierByte c = true := by
  simp [isIdentifierByte, h]

/-- At a byte other than the double quote the quoted form does not match. -/
theorem lexCharacterDelimited_other (source : List Nat) (ic : Cursor) (d c : Nat)
    (hget : source[ic.Pointer]? = some c) (hc : c ≠ d) :
    lexCharacterDelimited source ic d = .ret (none, ic, false) := by
  have hlt : ic.Pointer < source.length := (List.getElem?_eq_some.1 hget).1
  have h1 : ¬ source.length < ic.Pointer := by omega
  have h2 : ¬ source.length - ic.Pointer = 0 := by omega
  simp only [lexCharacterDelimited, h1, if_false, h2, hget, ne_eq, hc, not_false_eq_true,
    if_true]

/-- The unquoted form of `lexIdentifier`. -/
theorem lexIdentifier_plain (source : List Nat) (ic : Cursor) (c : Nat)
    (hget : source[ic.Pointer]? = some c) (hq : c ≠ 34) :
    (isAlphabetical c = false → lexIdentifier source ic = .ret (none, ic, false)) ∧
      (isAlphabetical c = true →
        lexIdentifier source ic =
          .ret (some ⟨toLowerASCII ((source.drop ic.Pointer).takeWhile isIdentifierByte),
              .IdentifierKind, ic.Loc⟩,
            ic.advance ((source.drop ic.Pointer).takeWhile isIdentifierByte).length, true)) := by
  have hq' := lexCharacterDelimited_other source ic 34 c hget hq
  have hlt : ic.Pointer < source.length := (List.getElem?_eq_some.1 hget).1
  constructor
  · intro hal
    simp only [lexIdentifier, hq', hget, hal, Bool.not_false, if_true]
  · intro hal
    have hc : c = source[ic.Pointer] := by
      rw [List.getElem?_eq_getElem hlt] at hget
      exact (Option.some.inj hget).symm
    have hdrop : source.drop ic.Pointer = c :: source.drop (ic.Pointer + 1) := by
      rw [hc]; exact List.drop_eq_getElem_cons hlt
    have htw : (source.drop ic.Pointer).takeWhile isIdentifierByte =
        c :: (source.drop (ic.Pointer + 1)).takeWhile isIdentifierByte := by
      rw [hdrop, List.takeWhile_cons_of_pos (isIdentifierByte_of_isAlphabetical hal)]
    have hsplit := List.takeWhile_append_dropWhile isIdentifierByte
      (source.drop (ic.Pointer + 1))
    have hd0 : source.drop (ic.ptrInc.colInc).Pointer =
        (source.drop (ic.Pointer + 1)).takeWhile isIdentifierByte ++
          (source.drop (ic.Pointer + 1)).dropWhile isIdentifierByte := hsplit.symm
    have hlenle : ((source.drop (ic.Pointer + 1)).takeWhile isIdentifierByte).length ≤
        source.length := by
      have := congrArg List.length hsplit
      simp only [List.length_append, List.length_drop] at this
      omega
    have hfuel : source.length + 1 =
        (source.length -
            ((source.drop (ic.Pointer + 1)).takeWhile isIdentifierByte).length + 1) +
          ((source.drop (ic.Pointer + 1)).takeWhile isIdentifierByte).length := by omega
    have hstop : ∀ x, ((source.drop (ic.Pointer + 1)).dropWhile isIdentifierByte).head? = some x →
        isIdentifierByte x = false := by
      intro x hx
      have := List.head?_dropWhile_not isIdentifierByte (source.drop (ic.Pointer + 1))
      rw [hx] at this
      exact this
    simp only [lexIdentifier, hq', hget, hal, Bool.not_true, Bool.false_eq_true, if_false]
    rw [hfuel, lexIdentifierLoop_run source ic _ _ _ [c] _ hd0
        (fun b hb => List.mem_takeWhile_imp hb),
      lexIdentifierLoop_stop source ic _ _ _ _ (drop_advance hd0) hstop (by simp),
      advance_step', htw]
    simp

/-! ## What a successful scanner returns -/

theorem lexCharacterDelimitedLoop_match (source : List Nat) (ic : Cursor) (d : Nat) :
    ∀ (fuel : Nat) (cur : Cursor) (value : List Nat) (tok : Option Token) (cur' : Cursor),
      lexCharacterDelimitedLoop source ic d fuel cur value = .ret (tok, cur', true) →
      ∃ v, tok = some ⟨v, .StringKind, ic.Loc⟩ ∧ cur.Pointer < cur'.Pointer ∧
        cur'.Pointer ≤ source.length := by
  intro fuel
  induction fuel with
  | zero => intro cur value tok cur' h; simp [lexCharacterDelimitedLoop] at h
  | succ fuel ih =>
    intro cur value tok cur' h
    simp only [lexCharacterDelimitedLoop] at h
    repeat' split at h
    all_goals first
      | (cases h; done)
      | (simp only [Outcome.ret.injEq, Prod.mk.injEq] at h
         obtain ⟨rfl, rfl, -⟩ := h
         exact ⟨_, rfl, by simp [Cursor.ptrInc], by simp only [Cursor.ptrInc]; omega⟩)
      | (obtain ⟨v, hv, h1, h2⟩ := ih _ _ _ _ h
         exact ⟨v, hv, by simp only [Cursor.ptrInc, Cursor.colInc] at h1; omega, h2⟩)

theorem lexCharacterDelimited_match (source : List Nat) (ic : Cursor) (d : Nat)
    (tok : Option Token) (cur' : Cursor)
    (h : lexCharacterDelimited source ic d = .ret (tok, cur', true)) :
    ∃ v, tok = some ⟨v, .StringKind, ic.Loc⟩ ∧ ic.Pointer < cur'.Pointer ∧
      cur'.Pointer ≤ source.length := by
  simp only [lexCharacterDelimited] at h
  repeat' split at h
  all_goals first
    | cases h
    | (obtain ⟨v, hv, h1, h2⟩ := lexCharacterDelimitedLoop_match source ic d _ _ _ _ _ h
       exact ⟨v, hv, by simp only [Cursor.ptrInc, Cursor.colInc] at h1; omega, h2⟩)

theorem lexNumericFinish_match (source : List Nat) (ic cur : Cursor) (tok : Option Token)
    (cur' : Cursor) (h : lexNumericFinish source ic cur = .ret (tok, cur', true)) :
    cur' = cur ∧ cur.Pointer ≠ ic.Pointer ∧ ∃ v, tok = some ⟨v, .NumericKind, ic.Loc⟩ := by
  simp only [lexNumericFinish] at h
  repeat' split at h
  all_goals cases h
  exact ⟨rfl, by assumption, _, rfl⟩

/-- A successful numeric scan returns a Numeric token located at the initial cursor.  The
returned column counts the consumed bytes when the run ends with the source, and one more when
a following byte ends the run. -/
theorem lexNumericLoop_match (source : List Nat) (ic : Cursor) :
    ∀ (fuel : Nat) (cur : Cursor) (pf ef : Bool) (tok : Option Token) (cur' : Cursor) (k : Nat),
      cur = ic.advance k → (k = 0 ∨ cur.Pointer ≤ source.length) →
      lexNumericLoop source ic fuel cur pf ef = .ret (tok, cur', true) →
      ∃ v k', 0 < k' ∧ tok = some ⟨v, .NumericKind, ic.Loc⟩ ∧
        ((cur' = ic.advance k' ∧ ic.Pointer + k' = source.length) ∨
          (cur' = (ic.advance k').colInc ∧ ic.Pointer + k' < source.length)) := by
  intro fuel
  induction fuel with
  | zero => intro cur pf ef tok cur' k _ _ h; simp [lexNumericLoop] at h
  | succ fuel ih =>
    intro cur pf ef tok cur' k hk hb h
    subst hk
    simp only [lexNumericLoop] at h
    repeat' split at h
    all_goals first
      | cases h
      | exact ih _ _ _ _ _ (k + 1) (advance_succ_right ic k)
          (Or.inr (by simp only [Cursor.advance, Cursor.colInc, Cursor.ptrInc] at *; omega)) h
      | exact ih _ _ _ _ _ (k + 2)
          (by rw [← advance_succ_right, ← advance_succ_right])
          (Or.inr (by simp only [Cursor.advance, Cursor.colInc, Cursor.ptrInc] at *; omega)) h
      | (obtain ⟨rfl, hne, v, rfl⟩ := lexNumericFinish_match source ic _ _ _ h
         refine ⟨v, k, ?_, rfl, Or.inr ⟨rfl, ?_⟩⟩
         all_goals (simp only [Cursor.advance, Cursor.colInc, Cursor.ptrInc] at *; omega))
      | (obtain ⟨rfl, hne, v, rfl⟩ := lexNumericFinish_match source ic _ _ _ h
         refine ⟨v, k, ?_, rfl, Or.inl ⟨rfl, ?_⟩⟩
         all_goals (simp only [Cursor.advance, Cursor.colInc, Cursor.ptrInc] at *; omega))

theorem lexNumeric_match (source : List Nat) (ic : Cursor) (tok : Option Token) (cur' : Cursor)
    (h : lexNumeric source ic = .ret (tok, cur', true)) :
    ∃ v k', 0 < k' ∧ tok = some ⟨v, .NumericKind, ic.Loc⟩ ∧
      ((cur' = ic.advance k' ∧ ic.Pointer + k' = source.length) ∨
        (cur' = (ic.advance k').colInc ∧ ic.Pointer + k' < source.length)) :=
  lexNumericLoop_match source ic _ ic false false tok cur' 0 rfl (Or.inl rfl) h

theorem lexKeyword_cases (source : List Nat) (ic : Cursor) :
    lexKeyword source ic = .ret (none, ic, false) ∨
      ∃ k, k ∈ keywords ∧ matchesText (source.drop ic.Pointer) k ∧
        lexKeyword source ic = .ret (some ⟨k, .KeywordKind, ic.Loc⟩,
          ⟨ic.Pointer + k.length, ⟨ic.Loc.Line, uintAdd ic.Loc.Col k.length⟩⟩, true) := by
  obtain ⟨res, hres, hprop, _⟩ := longestMatch_spec source ic keywords keywords_ascii
  by_cases hnil : res = []
  · exact Or.inl (by simp [lexKeyword, hres, hnil])
  · rcases hprop with h | ⟨hin, hP⟩
    · exact absurd h hnil
    · exact Or.inr ⟨res, hin, hP, by simp [lexKeyword, hres, hnil]⟩

theorem lexSymbol_cases (source : List Nat) (ic : Cursor) (c : Nat)
    (hget : source[ic.Pointer]? = some c) :
    (c = 10 ∧
        lexSymbol source ic =
          .ret (none, ⟨ic.Pointer + 1, ⟨uintSucc ic.Loc.Line, 0⟩⟩, true)) ∨
      ((c = 9 ∨ c = 32) ∧ lexSymbol source ic = .ret (none, ic.ptrInc.colInc, true)) ∨
      (c ≠ 10 ∧ c ≠ 9 ∧ c ≠ 32 ∧
        (lexSymbol source ic = .ret (none, ic, false) ∨
          ∃ k, k ∈ symbols ∧ matchesText (source.drop ic.Pointer) k ∧
            lexSymbol source ic = .ret (some ⟨k, .SymbolKind, ic.Loc⟩,
              ⟨ic.Pointer + k.length, ⟨ic.Loc.Line, uintAdd ic.Loc.Col k.length⟩⟩, true))) := by
  by_cases h10 : c = 10
  · exact Or.inl ⟨h10, by simp [lexSymbol, hget, h10, Cursor.ptrInc, Cursor.colInc]⟩
  by_cases h9 : c = 9
  · exact Or.inr (Or.inl ⟨Or.inl h9, by simp [lexSymbol, hget, h9]⟩)
  by_cases h32 : c = 32
  · exact Or.inr (Or.inl ⟨Or.inr h32, by simp [lexSymbol, hget, h32]⟩)
  refine Or.inr (Or.inr ⟨h10, h9, h32, ?_⟩)
  obtain ⟨res, hres, hprop, _⟩ := longestMatch_spec source ic symbols symbols_ascii
  by_cases hnil : res = []
  · exact Or.inl (by simp [lexSymbol, hget, h10, h9, h32, hres, hnil])
  · rcases hprop with h | ⟨hin, hP⟩
    · exact absurd h hnil
    · exact Or.inr ⟨res, hin, hP, by simp [lexSymbol, hget, h10, h9, h32, hres, hnil]⟩

theorem lexIdentifier_cases (source : List Nat) (ic : Cursor) (c : Nat)
    (hget : source[ic.Pointer]? = some c) (tok : Option Token) (cur' : Cursor)
    (h : lexIdentifier source ic = .ret (tok, cur', true)) :
    (∃ v, tok = some ⟨v, .StringKind, ic.Loc⟩) ∨
      (0 < ((source.drop ic.Pointer).takeWhile isIdentifierByte).length ∧
        tok = some ⟨toLowerASCII ((source.drop ic.Pointer).takeWhile isIdentifierByte),
          .IdentifierKind, ic.Loc⟩ ∧
        cur' = ic.advance ((source.drop ic.Pointer).takeWhile isIdentifierByte).length) := by
  by_cases hq : c = 34
  · subst hq
    left
    cases hcd : lexCharacterDelimited source ic 34 with
    | panic => simp [lexIdentifier, hcd] at h
    | timeout => simp [lexIdentifier, hcd] at h
    | ret r =>
      obtain ⟨t, c', b⟩ := r
      cases b with
      | false => simp [lexIdentifier, hcd, hget, isAlphabetical] at h
      | true =>
        simp only [lexIdentifier, hcd, Outcome.ret.injEq, Prod.mk.injEq, and_true] at h
        obtain ⟨rfl, rfl⟩ := h
        obtain ⟨v, hv, _⟩ := lexCharacterDelimited_match source ic 34 _ _ hcd
        exact ⟨v, hv⟩
  · right
    obtain ⟨h1, h2⟩ := lexIdentifier_plain source ic c hget hq
    cases hal : isAlphabetical c with
    | false => rw [h1 hal] at h; simp at h
    | true =>
      rw [h2 hal] at h
      simp only [Outcome.ret.injEq, Prod.mk.injEq, and_true] at h
      obtain ⟨rfl, rfl⟩ := h
      refine ⟨?_, rfl, rfl⟩
      have hlt : ic.Pointer < source.length := (List.getElem?_eq_some.1 hget).1
      have hcs : c = source[ic.Pointer] := by
        rw [List.getElem?_eq_getElem hlt] at hget
        exact (Option.some.inj hget).symm
      rw [List.drop_eq_getElem_cons hlt, ← hcs,
        List.takeWhile_cons_of_pos (isIdentifierByte_of_isAlphabetical hal)]
      simp

/-! ## The loop of `lex` on one-line sources -/

/-- The cursor and the token after a keyword or symbol match at a cursor whose column is its
offset. -/
theorem longest_token_at (source : List Nat) (hlen : source.length < 2 ^ 64) (cur : Cursor)
    (hloc : cur.Loc = ⟨0, cur.Pointer⟩) (k : List Nat) (kind : TokenKind)
    (hk : k ≠ []) (hP : matchesText (source.drop cur.Pointer) k) :
    (⟨cur.Pointer + k.length, ⟨cur.Loc.Line, uintAdd cur.Loc.Col k.length⟩⟩ : Cursor).Loc =
        ⟨0, cur.Pointer + k.length⟩ ∧
      cur.Pointer < cur.Pointer + k.length ∧ cur.Pointer + k.length ≤ source.length ∧
      tokenAt source cur.Pointer ⟨k, kind, cur.Loc⟩ := by
  have h1 := matchesText_length hP
  have h2 : 0 < k.length := List.length_pos.2 hk
  rw [List.length_drop] at h1
  refine ⟨?_, by omega, by omega, hloc, hP⟩
  rw [hloc]
  simp only [uintAdd, Location.mk.injEq, true_and]
  omega

theorem takeWhile_prefix (l : List Nat) (f : Nat → Bool) :
    l.take (l.takeWhile f).length = l.takeWhile f ∧ (l.takeWhile f).length ≤ l.length := by
  have hsplit := List.takeWhile_append_dropWhile f l
  constructor
  · have := List.take_left (l.takeWhile f) (l.dropWhile f)
    rwa [hsplit] at this
  · have := congrArg List.length hsplit
    simp only [List.length_append] at this
    omega

/-- One round of the loop of `lex` on a source without newline, at a cursor whose column is
its offset: either a String or Numeric token is produced, or the new cursor again has its offset
as column and the token, if there is one, lies at the old offset. -/
theorem runLexers_step (source : List Nat) (hnl : ∀ b ∈ source, b ≠ 10)
    (hlen : source.length < 2 ^ 64) (cur : Cursor) (hloc : cur.Loc = ⟨0, cur.Pointer⟩)
    (hlt : cur.Pointer < source.length) (tok : Option Token) (cur' : Cursor)
    (h : runLexers source cur lexers = .ret (tok, cur', true)) :
    (∃ t, tok = some t ∧ (t.Kind = .StringKind ∨ t.Kind = .NumericKind)) ∨
      (cur'.Loc = ⟨0, cur'.Pointer⟩ ∧ cur.Pointer < cur'.Pointer ∧
        cur'.Pointer ≤ source.length ∧ ∀ t, tok = some t → tokenAt source cur.Pointer t) := by
  have hget : source[cur.Pointer]? = some source[cur.Pointer] := List.getElem?_eq_getElem hlt
  have hc10 : source[cur.Pointer] ≠ 10 := hnl _ (List.getElem_mem hlt)
  simp only [lexers, runLexers] at h
  rcases lexKeyword_cases source cur with hk | ⟨k, hkin, hkP, hk⟩
  swap
  · rw [hk] at h
    simp only [Outcome.ret.injEq, Prod.mk.injEq, and_true] at h
    obtain ⟨rfl, rfl⟩ := h
    obtain ⟨h1, h2, h3, h4⟩ :=
      longest_token_at source hlen cur hloc k .KeywordKind (keywords_ascii k hkin).1 hkP
    exact Or.inr ⟨h1, h2, h3, fun t ht => by cases ht; exact h4⟩
  rw [hk] at h
  simp only at h
  rcases lexSymbol_cases source cur _ hget with ⟨h10, _⟩ | ⟨_, hsym⟩ | ⟨_, _, _, hsym | ⟨k, hkin, hkP, hsym⟩⟩
  · exact absurd h10 hc10
  · rw [hsym] at h
    simp only [Outcome.ret.injEq, Prod.mk.injEq, and_true] at h
    obtain ⟨rfl, rfl⟩ := h
    refine Or.inr ⟨?_, by simp [Cursor.ptrInc, Cursor.colInc], by
      simp only [Cursor.ptrInc, Cursor.colInc]; omega, fun t ht => by cases ht⟩
    simp only [Cursor.ptrInc, Cursor.colInc, hloc, uintSucc, Location.mk.injEq, true_and]
    omega
  swap
  · rw [hsym] at h
    simp only [Outcome.ret.injEq, Prod.mk.injEq, and_true] at h
    obtain ⟨rfl, rfl⟩ := h
    obtain ⟨h1, h2, h3, h4⟩ :=
      longest_token_at source hlen cur hloc k .SymbolKind (symbols_ascii k hkin).1 hkP
    exact Or.inr ⟨h1, h2, h3, fun t ht => by cases ht; exact h4⟩
  rw [hsym] at h
  simp only at h
  cases hs : lexString source cur with
  | panic => simp [hs] at h
  | timeout => simp [hs] at h
  | ret r =>
    obtain ⟨t, c', b⟩ := r
    cases b with
    | true =>
      simp only [hs, Outcome.ret.injEq, Prod.mk.injEq, and_true] at h
      obtain ⟨rfl, rfl⟩ := h
      obtain ⟨v, hv, _⟩ := lexCharacterDelimited_match source cur 39 _ _ hs
      exact Or.inl ⟨_, hv, Or.inl rfl⟩
    | false =>
      simp only [hs] at h
      cases hn : lexNumeric source cur with
      | panic => simp [hn] at h
      | timeout => simp [hn] at h
      | ret r =>
        obtain ⟨t, c', b⟩ := r
        cases b with
        | true =>
          simp only [hn, Outcome.ret.injEq, Prod.mk.injEq, and_true] at h
          obtain ⟨rfl, rfl⟩ := h
          obtain ⟨v, _, _, hv, _⟩ := lexNumeric_match source cur _ _ hn
          exact Or.inl ⟨_, hv, Or.inr rfl⟩
        | false =>
          simp only [hn] at h
          cases hi : lexIdentifier source cur with
          | panic => simp [hi] at h
          | timeout => simp [hi] at h
          | ret r =>
            obtain ⟨t, c', b⟩ := r
            cases b with
            | false => simp [hi] at h
            | true =>
              simp only [hi, Outcome.ret.injEq, Prod.mk.injEq, and_true] at h
              obtain ⟨rfl, rfl⟩ := h
              rcases lexIdentifier_cases source cur _ hget _ _ hi with
                ⟨v, hv⟩ | ⟨hpos, htok, hcur⟩
              · exact Or.inl ⟨_, hv, Or.inl rfl⟩
              · right
                obtain ⟨hpre, hle⟩ := takeWhile_prefix (source.drop cur.Pointer) isIdentifierByte
                rw [List.length_drop] at hle
                subst hcur
                rw [advance_pos cur hpos]
                refine ⟨?_, by simp only; omega, by simp only; omega, ?_⟩
                · simp only [hloc, Location.mk.injEq, true_and]
                  omega
                · intro t ht
                  rw [htok] at ht
                  cases ht
                  refine ⟨hloc, ?_⟩
                  simp only [toLowerASCII, List.length_map]
                  rw [hpre]

/-- Forgetting the record of offsets gives the loop of `lex`. -/
theorem lexLoopAt_fst (source : List Nat) :
    ∀ (fuel : Nat) (cur : Cursor) (tokens : List Token) (offsets : List Nat),
      (lexLoopAt source fuel cur tokens offsets).map Prod.fst =
        lexLoop source fuel cur tokens := by
  intro fuel
  induction fuel with
  | zero => intro cur tokens offsets; rfl
  | succ fuel ih =>
    intro cur tokens offsets
    simp only [lexLoopAt, lexLoop]
    split
    · cases hr : runLexers source cur lexers with
      | panic => rfl
      | timeout => rfl
      | ret r =>
        obtain ⟨t, c', b⟩ := r
        cases b with
        | false => cases t <;> rfl
        | true =>
          cases t with
          | none => exact ih _ _ _
          | some t => exact ih _ _ _
    · rfl

/-- The loop of `lex` only appends to the tokens it was given. -/
theorem lexLoopAt_grows (source : List Nat) :
    ∀ (fuel : Nat) (cur : Cursor) (tokens : List Token) (offsets : List Nat)
      (ts : List Token) (offs : List Nat),
      lexLoopAt source fuel cur tokens offsets = .ret (.tokens ts, offs) →
      ∃ new, ts = tokens ++ new := by
  intro fuel
  induction fuel with
  | zero => intro cur tokens offsets ts offs h; simp [lexLoopAt] at h
  | succ fuel ih =>
    intro cur tokens offsets ts offs h
    simp only [lexLoopAt] at h
    split at h
    · cases hr : runLexers source cur lexers with
      | panic => simp [hr] at h
      | timeout => simp [hr] at h
      | ret r =>
        obtain ⟨t, c', b⟩ := r
        cases b with
        | false => cases t <;> simp [hr] at h
        | true =>
          cases t with
          | none =>
            simp only [hr] at h
            exact ih _ _ _ _ _ h
          | some t =>
            simp only [hr] at h
            obtain ⟨new, hnew⟩ := ih _ _ _ _ _ h
            exact ⟨t :: new, by rw [hnew]; simp⟩
    · simp only [Outcome.ret.injEq, Prod.mk.injEq, LexResult.tokens.injEq] at h
      exact ⟨[], by simp [h.1]⟩

/-- On a source without newline whose tokens are keywords, symbols and identifiers, every
token that the loop of `lex` appends lies at the offset at which it was scanned. -/
theorem lexLoopAt_tokens (source : List Nat) (hnl : ∀ b ∈ source, b ≠ 10)
    (hlen : source.length < 2 ^ 64) :
    ∀ (fuel : Nat) (cur : Cursor) (tokens : List Token) (offsets : List Nat)
      (ts : List Token) (offs : List Nat),
      cur.Loc = ⟨0, cur.Pointer⟩ →
      lexLoopAt source fuel cur tokens offsets = .ret (.tokens ts, offs) →
      (∀ t ∈ ts, t.Kind ≠ .StringKind ∧ t.Kind ≠ .NumericKind) →
      ∃ new newoffs, ts = tokens ++ new ∧ offs = offsets ++ newoffs ∧
        List.Forall₂ (fun t p => tokenAt source p t) new newoffs := by
  intro fuel
  induction fuel with
  | zero => intro cur tokens offsets ts offs _ h; simp [lexLoopAt] at h
  | succ fuel ih =>
    intro cur tokens offsets ts offs hloc h hkinds
    simp only [lexLoopAt] at h
    split at h
    · rename_i hlt
      cases hr : runLexers source cur lexers with
      | panic => simp [hr] at h
      | timeout => simp [hr] at h
      | ret r =>
        obtain ⟨t, c', b⟩ := r
        cases b with
        | false => cases t <;> simp [hr] at h
        | true =>
          have hstep := runLexers_step source hnl hlen cur hloc hlt t c' hr
          cases t with
          | none =>
            simp only [hr] at h
            rcases hstep with ⟨t, ht, _⟩ | ⟨hloc', _, _, _⟩
            · cases ht
            · exact ih _ _ _ _ _ hloc' h hkinds
          | some t =>
            simp only [hr] at h
            rcases hstep with ⟨t', ht, hbad⟩ | ⟨hloc', _, _, hat⟩
            · cases ht
              exfalso
              obtain ⟨new, hnew⟩ := lexLoopAt_grows source _ _ _ _ _ _ h
              have hmem : t ∈ ts := by rw [hnew]; simp
              have := hkinds t hmem
              rcases hbad with hb | hb
              · exact this.1 hb
              · exact this.2 hb
            · obtain ⟨new, newoffs, h1, h2, h3⟩ := ih _ _ _ _ _ hloc' h hkinds
              refine ⟨t :: new, cur.Pointer :: newoffs, by rw [h1]; simp, by rw [h2]; simp,
                List.Forall₂.cons (hat t rfl) h3⟩
    · simp only [Outcome.ret.injEq, Prod.mk.injEq, LexResult.tokens.injEq] at h
      exact ⟨[], [], by simp [h.1], by simp [h.2], List.Forall₂.nil⟩

theorem forall₂_left_mem {R : Token → Nat → Prop} {ts : List Token} {offs : List Nat}
    (h : List.Forall₂ R ts offs) : ∀ t ∈ ts, ∃ p, R t p := by
  induction h with
  | nil => intro t ht; cases ht
  | cons hab _ ih =>
    intro t ht
    rcases List.mem_cons.1 ht with rfl | ht
    · exact ⟨_, hab⟩
    · exact ih t ht

theorem lex_eq_lexAt (source : List Nat) (ts : List Token)
    (h : lex source = .ret (.tokens ts)) :
    ∃ offs, lexAt source = .ret (.tokens ts, offs) := by
  have hfst := lexLoopAt_fst source (source.length + 1) ⟨0, ⟨0, 0⟩⟩ [] []
  unfold lex at h
  unfold lexAt
  rw [h] at hfst
  cases hl : lexLoopAt source (source.length + 1) ⟨0, ⟨0, 0⟩⟩ [] [] with
  | panic => rw [hl] at hfst; cases hfst
  | timeout => rw [hl] at hfst; cases hfst
  | ret r =>
    obtain ⟨res, offs⟩ := r
    rw [hl] at hfst
    simp only [Outcome.map, Outcome.ret.injEq] at hfst
    subst hfst
    exact ⟨offs, rfl⟩

/-! ## Claims on the scanners -/

/-- C1: `lexKeyword` implements longest match over the 11 keywords.  At every source and cursor,
either no keyword equals the ASCII-lowercased source text of its length at the cursor and
`lexKeyword` returns no token, the original cursor and `false`; or some keyword does, and
`lexKeyword` returns the longest such keyword as a Keyword token located at the input cursor,
with `Pointer` and `Col` advanced by the length of the keyword, and `true`. -/
theorem lexKeyword_longest_match (source : List Nat) (ic : Cursor) :
    (lexKeyword source ic = .ret (none, ic, false) ∧
        ∀ k ∈ keywords, toLowerASCII ((source.drop ic.Pointer).take k.length) ≠ k) ∨
      ∃ k ∈ keywords, toLowerASCII ((source.drop ic.Pointer).take k.length) = k ∧
        (∀ k' ∈ keywords, toLowerASCII ((source.drop ic.Pointer).take k'.length) = k' →
          k'.length ≤ k.length) ∧
        lexKeyword source ic = .ret (some ⟨k, .KeywordKind, ic.Loc⟩,
          ⟨ic.Pointer + k.length, ⟨ic.Loc.Line, (ic.Loc.Col + k.length) % 2 ^ 64⟩⟩, true) := by
  obtain ⟨res, hres, hprop, hmax⟩ := longestMatch_spec source ic keywords keywords_ascii
  by_cases hnil : res = []
  · left
    refine ⟨by simp [lexKeyword, hres, hnil], ?_⟩
    intro k hk hP
    have h1 := hmax k hk hP
    have h2 : 0 < k.length := List.length_pos.2 (keywords_ascii k hk).1
    rw [hnil, List.length_nil] at h1
    omega
  · right
    rcases hprop with h | ⟨hin, hP⟩
    · exact absurd h hnil
    · exact ⟨res, hin, hP, hmax, by simp [lexKeyword, hres, hnil, uintAdd]⟩

/-- The keyword scanner on `into`: the keyword `into`, not the shorter keyword `int`. -/
theorem lexKeyword_into :
    lexKeyword (ascii "into") ⟨0, ⟨0, 0⟩⟩ =
      .ret (some ⟨ascii "into", .KeywordKind, ⟨0, 0⟩⟩, ⟨4, ⟨0, 4⟩⟩, true) := by
  decide

/-- C2, evaluated on the input of the repository test: on the string literal written
`'a '' b'` the scanner stops at the second quote of the doubled delimiter.  The token value is
`a '` and the returned `Pointer` is 5, where the claim has value `a ' b` and `Pointer` 8. -/
theorem lexString_doubled_delimiter :
    lexString (ascii "'a '' b'") ⟨0, ⟨0, 0⟩⟩ =
      .ret (some ⟨ascii "a '", .StringKind, ⟨0, 0⟩⟩, ⟨5, ⟨0, 4⟩⟩, true) := by
  decide

/-- C6, evaluated on a double-quoted identifier: the token that `lexIdentifier` returns for
the quoted text `userName` has kind `StringKind`, not `IdentifierKind`; and `Parse` rejects
`CREATE TABLE "users" (id INT);`, because `parseToken` finds no Identifier token for the table
name. -/
theorem lexIdentifier_quoted_kind :
    lexIdentifier (34 :: (ascii "userName" ++ [34])) ⟨0, ⟨0, 0⟩⟩ =
        .ret (some ⟨ascii "userName", .StringKind, ⟨0, 0⟩⟩, ⟨10, ⟨0, 9⟩⟩, true) ∧
      lex (ascii "CREATE TABLE " ++ 34 :: ascii "users" ++ 34 :: ascii " (id INT);") =
        .ret (.tokens [⟨ascii "create", .KeywordKind, ⟨0, 0⟩⟩,
          ⟨ascii "table", .KeywordKind, ⟨0, 7⟩⟩, ⟨ascii "users", .StringKind, ⟨0, 13⟩⟩,
          ⟨ascii "(", .SymbolKind, ⟨0, 20⟩⟩, ⟨ascii "id", .IdentifierKind, ⟨0, 21⟩⟩,
          ⟨ascii "int", .KeywordKind, ⟨0, 24⟩⟩, ⟨ascii ")", .SymbolKind, ⟨0, 27⟩⟩,
          ⟨ascii ";", .SymbolKind, ⟨0, 28⟩⟩]) ∧
      parseToken [⟨ascii "create", .KeywordKind, ⟨0, 0⟩⟩, ⟨ascii "table", .KeywordKind, ⟨0, 7⟩⟩,
          ⟨ascii "users", .StringKind, ⟨0, 13⟩⟩] 2 .IdentifierKind = (none, 2, false) ∧
      Parse (ascii "CREATE TABLE " ++ 34 :: ascii "users" ++ 34 :: ascii " (id INT);") =
        .ret (.error "failed to parse, expected statement") := by
  decide

/-- Every token that `lexIdentifier` returns for a text that starts with the double quote
has kind `StringKind`. -/
theorem lexIdentifier_quoted_string (source : List Nat) (ic : Cursor) (tok : Option Token)
    (cur' : Cursor) (hget : source[ic.Pointer]? = some 34)
    (h : lexIdentifier source ic = .ret (tok, cur', true)) :
    ∃ v, tok = some ⟨v, .StringKind, ic.Loc⟩ := by
  rcases lexIdentifier_cases source ic 34 hget tok cur' h with hv | ⟨hpos, _, _⟩
  · exact hv
  · exfalso
    have hlt : ic.Pointer < source.length := (List.getElem?_eq_some.1 hget).1
    have hcs : source[ic.Pointer] = 34 := by
      rw [List.getElem?_eq_getElem hlt] at hget
      exact Option.some.inj hget
    rw [List.drop_eq_getElem_cons hlt, hcs, List.takeWhile_cons_of_neg (by decide)] at hpos
    simp at hpos

/-- C7: quoting round trip.  For a body `s` without the single quote, `lexString` at cursor 0
on the quoted `s`, followed by any text that does not start with a single quote, returns a token
of value `s` and `Pointer = len(s) + 2`; the same holds for `lexIdentifier` and the double
quote. -/
theorem quoted_round_trip (s tail : List Nat) (loc : Location) :
    ((∀ b ∈ s, b ≠ 39) → tail.head? ≠ some 39 →
        lexString (39 :: (s ++ 39 :: tail)) ⟨0, loc⟩ =
          .ret (some ⟨s, .StringKind, loc⟩,
            ⟨s.length + 2, ⟨loc.Line, (loc.Col + (s.length + 1)) % 2 ^ 64⟩⟩, true)) ∧
      ((∀ b ∈ s, b ≠ 34) → tail.head? ≠ some 34 →
        lexIdentifier (34 :: (s ++ 34 :: tail)) ⟨0, loc⟩ =
          .ret (some ⟨s, .StringKind, loc⟩,
            ⟨s.length + 2, ⟨loc.Line, (loc.Col + (s.length + 1)) % 2 ^ 64⟩⟩, true)) := by
  constructor
  · intro hs ht
    have h := lexCharacterDelimited_quoted (39 :: (s ++ 39 :: tail)) ⟨0, loc⟩ 39 s tail rfl hs ht
    simpa [lexString] using h
  · intro hs ht
    have h := lexCharacterDelimited_quoted (34 :: (s ++ 34 :: tail)) ⟨0, loc⟩ 34 s tail rfl hs ht
    simp only [Nat.zero_add] at h
    simp only [lexIdentifier, h]

/-- C7 at the quoted texts `a b` (single quotes, followed by a space) and `userName`
(double quotes). -/
theorem quoted_round_trip_witness :
    lexString (39 :: (ascii "a b" ++ 39 :: ascii " ")) ⟨0, ⟨0, 0⟩⟩ =
        .ret (some ⟨ascii "a b", .StringKind, ⟨0, 0⟩⟩, ⟨5, ⟨0, 4⟩⟩, true) ∧
      lexIdentifier (34 :: (ascii "userName" ++ 34 :: [])) ⟨0, ⟨0, 0⟩⟩ =
        .ret (some ⟨ascii "userName", .StringKind, ⟨0, 0⟩⟩, ⟨10, ⟨0, 9⟩⟩, true) :=
  ⟨(quoted_round_trip (ascii "a b") (ascii " ") ⟨0, 0⟩).1 (by decide) (by decide),
    (quoted_round_trip (ascii "userName") [] ⟨0, 0⟩).2 (by decide) (by decide)⟩

/-- C8: failure cases of the string scanner.  At a cursor with `Pointer <= len(source)`,
`lexString` returns no token, the original cursor and `false` when the remaining input is empty,
when its first byte is not the single quote, and when no single quote follows the opening
one. -/
theorem lexString_failure (source : List Nat) (ic : Cursor) (h : ic.Pointer ≤ source.length) :
    (source.drop ic.Pointer = [] → lexString source ic = .ret (none, ic, false)) ∧
      (∀ c rest, source.drop ic.Pointer = c :: rest → c ≠ 39 →
        lexString source ic = .ret (none, ic, false)) ∧
      (∀ body, source.drop ic.Pointer = 39 :: body → (∀ b ∈ body, b ≠ 39) →
        lexString source ic = .ret (none, ic, false)) := by
  have h1 : ¬ source.length < ic.Pointer := by omega
  refine ⟨?_, ?_, ?_⟩
  · intro hnil
    have h2 : source.length - ic.Pointer = 0 := by
      have := List.drop_eq_nil_iff.1 hnil
      omega
    simp only [lexString, lexCharacterDelimited, h1, if_false, h2, if_true]
  · intro c rest hdrop hc
    obtain ⟨hlt, hget, _⟩ := drop_eq_cons hdrop
    have h2 : ¬ source.length - ic.Pointer = 0 := by omega
    simp only [lexString, lexCharacterDelimited, h1, if_false, h2, hget, ne_eq, hc,
      not_false_eq_true, if_true]
  · intro body hdrop hbody
    obtain ⟨hlt, hget, hnext⟩ := drop_eq_cons hdrop
    have h2 : ¬ source.length - ic.Pointer = 0 := by omega
    have hlen : body.length ≤ source.length := by
      have := congrArg List.length hnext
      simp only [List.length_drop] at this
      omega
    have hfuel : source.length + 1 = (source.length - body.length + 1) + body.length := by omega
    have hnext' : source.drop (ic.colInc.ptrInc).Pointer = body ++ [] := by
      rw [List.append_nil]; exact hnext
    simp only [lexString, lexCharacterDelimited, h1, if_false, h2, hget, ne_eq,
      not_true_eq_false]
    rw [hfuel, lexCharacterDelimitedLoop_body source ic 39 body _ _ [] [] hnext' hbody]
    apply lexCharacterDelimitedLoop_end
    have := congrArg List.length hnext
    simp only [List.length_drop] at this
    simp only [advance_pointer, Cursor.ptrInc, Cursor.colInc]
    omega

/-- C8 at the unterminated literal `'abc`. -/
theorem lexString_failure_witness :
    lexString (ascii "'abc") ⟨0, ⟨0, 0⟩⟩ = .ret (none, ⟨0, ⟨0, 0⟩⟩, false) :=
  (lexString_failure (ascii "'abc") ⟨0, ⟨0, 0⟩⟩ (by decide)).2.2 (ascii "abc") rfl (by decide)

/-- C3: numeric acceptance.  For a string `s = I ++ F ++ E` with `I` a run of digits, `F`
empty or a period followed by digits, `E` empty or `e`, an optional sign and a non-empty run of
digits, and `I ++ F` non-empty, `lexNumeric` at the zero cursor returns a Numeric token of value
`s` with `Pointer = len(s)`, both on `s` and on `s` followed by a space. -/
theorem lexNumeric_acceptance (I F E : List Nat) (hI : IsDigits I) (hF : IsFraction F)
    (hE : IsExponent E) (hne : I ++ F ≠ []) :
    lexNumeric (I ++ F ++ E) ⟨0, ⟨0, 0⟩⟩ =
        .ret (some ⟨I ++ F ++ E, .NumericKind, ⟨0, 0⟩⟩,
          ⟨(I ++ F ++ E).length, ⟨0, (I ++ F ++ E).length % 2 ^ 64⟩⟩, true) ∧
      lexNumeric (I ++ F ++ E ++ [32]) ⟨0, ⟨0, 0⟩⟩ =
        .ret (some ⟨I ++ F ++ E, .NumericKind, ⟨0, 0⟩⟩,
          ⟨(I ++ F ++ E).length, ⟨0, ((I ++ F ++ E).length + 1) % 2 ^ 64⟩⟩, true) := by
  have hpos : 0 < (I ++ F ++ E).length := by
    have := List.length_pos.2 hne
    simp only [List.length_append] at this ⊢
    omega
  constructor
  · have h := lexNumeric_accepts (I ++ F ++ E) ⟨0, ⟨0, 0⟩⟩ I F E [] (by simp) hI hF hE hne
      (Or.inl rfl)
    rw [h, if_pos rfl, advance_pos _ hpos]
    simp
  · have h := lexNumeric_accepts (I ++ F ++ E ++ [32]) ⟨0, ⟨0, 0⟩⟩ I F E [32] (by simp) hI hF hE
      hne (Or.inr ⟨32, [], rfl, by decide⟩)
    rw [h, if_neg (by simp), advance_colInc _ hpos]
    simp

/-- C3 at the number `1.1e-2`. -/
theorem lexNumeric_acceptance_witness :
    lexNumeric (ascii "1" ++ ascii ".1" ++ ascii "e-2") ⟨0, ⟨0, 0⟩⟩ =
        .ret (some ⟨ascii "1" ++ ascii ".1" ++ ascii "e-2", .NumericKind, ⟨0, 0⟩⟩,
          ⟨(ascii "1" ++ ascii ".1" ++ ascii "e-2").length,
            ⟨0, (ascii "1" ++ ascii ".1" ++ ascii "e-2").length % 2 ^ 64⟩⟩, true) ∧
      lexNumeric (ascii "1" ++ ascii ".1" ++ ascii "e-2" ++ [32]) ⟨0, ⟨0, 0⟩⟩ =
        .ret (some ⟨ascii "1" ++ ascii ".1" ++ ascii "e-2", .NumericKind, ⟨0, 0⟩⟩,
          ⟨(ascii "1" ++ ascii ".1" ++ ascii "e-2").length,
            ⟨0, ((ascii "1" ++ ascii ".1" ++ ascii "e-2").length + 1) % 2 ^ 64⟩⟩, true) :=
  lexNumeric_acceptance (ascii "1") (ascii ".1") (ascii "e-2") (by decide) (by decide)
    (by decide) (by decide)

/-- C4: numeric rejection is of the whole match.  `lexNumeric` returns no token, the original
cursor and `false` when the byte at the cursor is neither a digit nor a period; when, after
digits and one period with its digits, a second period follows; when, after a mantissa and an
exponent marker with optional sign and digits, a period or a second exponent marker follows; and
when the exponent marker after the mantissa is the last byte of the source. -/
theorem lexNumeric_rejection (source : List Nat) (ic : Cursor) :
    (∀ c rest, source.drop ic.Pointer = c :: rest → ¬ (48 ≤ c ∧ c ≤ 57) → c ≠ 46 →
        lexNumeric source ic = .ret (none, ic, false)) ∧
      (∀ I Fd rest, source.drop ic.Pointer = I ++ 46 :: (Fd ++ 46 :: rest) →
        IsDigits I → IsDigits Fd → lexNumeric source ic = .ret (none, ic, false)) ∧
      (∀ I F sg Ed rest, source.drop ic.Pointer = I ++ F ++ 101 :: (sg ++ Ed ++ 46 :: rest) →
        IsDigits I → IsFraction F → I ++ F ≠ [] → (sg = [] ∨ sg = [43] ∨ sg = [45]) →
        IsDigits Ed → lexNumeric source ic = .ret (none, ic, false)) ∧
      (∀ I F sg Ed rest, source.drop ic.Pointer = I ++ F ++ 101 :: (sg ++ Ed ++ 101 :: rest) →
        IsDigits I → IsFraction F → I ++ F ≠ [] → (sg = [] ∨ sg = [43] ∨ sg = [45]) →
        IsDigits Ed → lexNumeric source ic = .ret (none, ic, false)) ∧
      (∀ I F, source.drop ic.Pointer = I ++ F ++ [101] → IsDigits I → IsFraction F →
        I ++ F ≠ [] → lexNumeric source ic = .ret (none, ic, false)) := by
  refine ⟨?_, ?_, ?_, ?_, ?_⟩
  · intro c rest hdrop hc h46
    exact lexNumericLoop_first_reject source ic _ false false c rest hdrop hc h46
  · intro I Fd rest hdrop hI hFd
    exact lexNumeric_rejects_second_period source ic I Fd rest (by rw [hdrop]; simp) hI hFd
  · intro I F sg Ed rest hdrop hI hF hne hsg hEd
    exact lexNumeric_rejects_after_exponent source ic I F sg Ed 46 rest (by rw [hdrop]; simp)
      hI hF hne hsg hEd (Or.inl rfl)
  · intro I F sg Ed rest hdrop hI hF hne hsg hEd
    exact lexNumeric_rejects_after_exponent source ic I F sg Ed 101 rest (by rw [hdrop]; simp)
      hI hF hne hsg hEd (Or.inr rfl)
  · intro I F hdrop hI hF _
    exact lexNumeric_rejects_last_exponent source ic I F hdrop hI hF

/-- C4 at the inputs `e4`, `1..`, `1e5.`, `1ee4` and `1e`. -/
theorem lexNumeric_rejection_witness :
    lexNumeric (ascii "e4") ⟨0, ⟨0, 0⟩⟩ = .ret (none, ⟨0, ⟨0, 0⟩⟩, false) ∧
      lexNumeric (ascii "1..") ⟨0, ⟨0, 0⟩⟩ = .ret (none, ⟨0, ⟨0, 0⟩⟩, false) ∧
      lexNumeric (ascii "1e5.") ⟨0, ⟨0, 0⟩⟩ = .ret (none, ⟨0, ⟨0, 0⟩⟩, false) ∧
      lexNumeric (ascii "1ee4") ⟨0, ⟨0, 0⟩⟩ = .ret (none, ⟨0, ⟨0, 0⟩⟩, false) ∧
      lexNumeric (ascii "1e") ⟨0, ⟨0, 0⟩⟩ = .ret (none, ⟨0, ⟨0, 0⟩⟩, false) :=
  ⟨(lexNumeric_rejection (ascii "e4") ⟨0, ⟨0, 0⟩⟩).1 101 (ascii "4") rfl (by decide) (by decide),
    (lexNumeric_rejection (ascii "1..") ⟨0, ⟨0, 0⟩⟩).2.1 (ascii "1") [] [] rfl (by decide)
      (by decide),
    (lexNumeric_rejection (ascii "1e5.") ⟨0, ⟨0, 0⟩⟩).2.2.1 (ascii "1") [] [] (ascii "5") [] rfl
      (by decide) (Or.inl rfl) (by decide) (Or.inl rfl) (by decide),
    (lexNumeric_rejection (ascii "1ee4") ⟨0, ⟨0, 0⟩⟩).2.2.2.1 (ascii "1") [] [] [] (ascii "4") rfl
      (by decide) (Or.inl rfl) (by decide) (Or.inl rfl) (by decide),
    (lexNumeric_rejection (ascii "1e") ⟨0, ⟨0, 0⟩⟩).2.2.2.2 (ascii "1") [] rfl (by decide)
      (Or.inl rfl) (by decide)⟩

/-- C5: the unquoted identifier scanner.  At an in-range cursor whose byte `c` is not the
double quote, `lexIdentifier` fails with the original cursor when `c` is no ASCII letter, and
otherwise returns an Identifier token located at the input cursor whose value is the
ASCII-lowercased longest prefix of the remaining source made of letters, digits, `$` and `_`,
with `Pointer` and `Col` advanced by the length of that prefix. -/
theorem lexIdentifier_unquoted (source : List Nat) (ic : Cursor) (c : Nat)
    (hget : source[ic.Pointer]? = some c) (hq : c ≠ 34) :
    (¬ ((65 ≤ c ∧ c ≤ 90) ∨ (97 ≤ c ∧ c ≤ 122)) →
        lexIdentifier source ic = .ret (none, ic, false)) ∧
      ((65 ≤ c ∧ c ≤ 90) ∨ (97 ≤ c ∧ c ≤ 122) →
        lexIdentifier source ic =
          .ret (some ⟨toLowerASCII ((source.drop ic.Pointer).takeWhile isIdentifierByte),
              .IdentifierKind, ic.Loc⟩,
            ⟨ic.Pointer + ((source.drop ic.Pointer).takeWhile isIdentifierByte).length,
              ⟨ic.Loc.Line,
                (ic.Loc.Col + ((source.drop ic.Pointer).takeWhile isIdentifierByte).length) %
                  2 ^ 64⟩⟩,
            true)) := by
  obtain ⟨h1, h2⟩ := lexIdentifier_plain source ic c hget hq
  constructor
  · intro hc
    apply h1
    simp only [isAlphabetical, Bool.or_eq_false_iff, Bool.and_eq_false_iff,
      decide_eq_false_iff_not]
    omega
  · intro hc
    have hal : isAlphabetical c = true := by
      simp only [isAlphabetical, Bool.or_eq_true, Bool.and_eq_true, decide_eq_true_eq]
      omega
    have hlt : ic.Pointer < source.length := (List.getElem?_eq_some.1 hget).1
    have hpos : 0 < ((source.drop ic.Pointer).takeWhile isIdentifierByte).length := by
      have hcs : c = source[ic.Pointer] := by
        rw [List.getElem?_eq_getElem hlt] at hget
        exact (Option.some.inj hget).symm
      rw [List.drop_eq_getElem_cons hlt, ← hcs,
        List.takeWhile_cons_of_pos (isIdentifierByte_of_isAlphabetical hal)]
      simp
    rw [h2 hal, advance_pos ic hpos]

/-- C5 at the input `userName`, followed by a space. -/
theorem lexIdentifier_unquoted_witness :
    lexIdentifier (ascii "userName ") ⟨0, ⟨0, 0⟩⟩ =
      .ret (some ⟨toLowerASCII (((ascii "userName ").drop 0).takeWhile isIdentifierByte),
          .IdentifierKind, ⟨0, 0⟩⟩,
        ⟨0 + (((ascii "userName ").drop 0).takeWhile isIdentifierByte).length,
          ⟨0, (0 + (((ascii "userName ").drop 0).takeWhile isIdentifierByte).length) % 2 ^ 64⟩⟩,
        true) :=
  (lexIdentifier_unquoted (ascii "userName ") ⟨0, ⟨0, 0⟩⟩ 117 (by decide) (by decide)).2
    (by decide)

/-- The identifier scanner on `userName `: the value is `username`, eight bytes are
consumed. -/
theorem lexIdentifier_userName :
    lexIdentifier (ascii "userName ") ⟨0, ⟨0, 0⟩⟩ =
      .ret (some ⟨ascii "username", .IdentifierKind, ⟨0, 0⟩⟩, ⟨8, ⟨0, 8⟩⟩, true) := by
  decide

/-- The tokens of `CREATE TABLE u (id INT, name TEXT)`: ten tokens at columns 0, 7, 13, 15, 16,
19, 22, 24, 29 and 33, the keywords folded to lower case. -/
theorem lex_create_table :
    lex (ascii "CREATE TABLE u (id INT, name TEXT)") = .ret (.tokens createTableTokens) := by
  decide

/-- C10: on a source without newline (of length below `2 ^ 64`) on which `lex` succeeds with
Keyword, Symbol and Identifier tokens only, every token has line 0 and a column at which the
source text of the length of its value, lower-cased as ASCII, is its value; the column is the
offset at which `lex` scanned the token. -/
theorem lex_token_columns (source : List Nat) (ts : List Token)
    (hnl : ∀ b ∈ source, b ≠ 10) (hlen : source.length < 2 ^ 64)
    (hlex : lex source = .ret (.tokens ts))
    (hkinds : ∀ t ∈ ts,
      t.Kind = .KeywordKind ∨ t.Kind = .SymbolKind ∨ t.Kind = .IdentifierKind) :
    (∀ t ∈ ts, t.Loc.Line = 0 ∧
        toLowerASCII ((source.drop t.Loc.Col).take t.Value.length) = t.Value) ∧
      ∃ offs, lexAt source = .ret (.tokens ts, offs) ∧
        List.Forall₂ (fun (t : Token) (p : Nat) => t.Loc = ⟨0, p⟩ ∧
          toLowerASCII ((source.drop p).take t.Value.length) = t.Value) ts offs := by
  obtain ⟨offs, hat⟩ := lex_eq_lexAt source ts hlex
  obtain ⟨new, newoffs, h1, h2, h3⟩ :=
    lexLoopAt_tokens source hnl hlen _ _ _ _ _ _ rfl hat (fun t ht => by
      rcases hkinds t ht with h | h | h <;> rw [h] <;> exact ⟨by decide, by decide⟩)
  rw [List.nil_append] at h1 h2
  subst h1 h2
  refine ⟨?_, offs, hat, h3⟩
  intro t ht
  obtain ⟨p, hloc, hval⟩ := forall₂_left_mem h3 t ht
  rw [hloc]
  exact ⟨rfl, hval⟩

/-- C10 at the source `CREATE TABLE u (id INT, name TEXT)` and its ten tokens. -/
theorem lex_token_columns_witness :
    (∀ t ∈ createTableTokens, t.Loc.Line = 0 ∧
        toLowerASCII (((ascii "CREATE TABLE u (id INT, name TEXT)").drop t.Loc.Col).take
          t.Value.length) = t.Value) ∧
      ∃ offs, lexAt (ascii "CREATE TABLE u (id INT, name TEXT)") =
          .ret (.tokens createTableTokens, offs) ∧
        List.Forall₂ (fun (t : Token) (p : Nat) => t.Loc = ⟨0, p⟩ ∧
          toLowerASCII (((ascii "CREATE TABLE u (id INT, name TEXT)").drop p).take
            t.Value.length) = t.Value) createTableTokens offs :=
  lex_token_columns (ascii "CREATE TABLE u (id INT, name TEXT)") createTableTokens (by decide)
    (by decide) lex_create_table (by decide)

/-! ## The backtracking contract of the parsing functions -/

theorem helpThenReturn_ret {α : Type} (tokens : List Token) (c : Nat) (r x : α)
    (h : helpThenReturn tokens c r = .ret x) : x = r := by
  unfold helpThenReturn at h
  split at h
  · cases h; rfl
  · cases h
  · cases h

theorem backtracks_fail {α : Type} (c : Nat) : Backtracks c ((none, c, false) : ParseStep α) :=
  fun _ => ⟨rfl, rfl⟩

theorem backtracks_ok {α : Type} (c c' : Nat) (p : Option α) :
    Backtracks c ((p, c', true) : ParseStep α) :=
  fun h => by cases h

theorem parseExpressionsLoop_backtracks (tokens : List Token) (c : Nat) (ds : List Token)
    (fuel : Nat) : ∀ (cursor : Nat) (exps : List (Option expression)),
      BacktracksAll c (parseExpressionsLoop tokens c ds fuel cursor exps) := by
  induction fuel with
  | zero => intro cursor exps r h; cases h
  | succ n ih =>
    intro cursor exps r h
    simp only [parseExpressionsLoop] at h
    split at h
    · cases h; exact backtracks_fail c
    split at h
    · cases h
    split at h
    · cases h; exact backtracks_ok _ _ _
    split at h
    · rw [helpThenReturn_ret _ _ _ _ h]; exact backtracks_fail c
    generalize parseExpression tokens _ _ = pe at h
    obtain ⟨exp, nc, ok⟩ := pe
    cases ok
    · rw [helpThenReturn_ret _ _ _ _ h]; exact backtracks_fail c
    · exact ih _ _ r h

theorem parseToken_backtracks (tokens : List Token) (c : Nat) (kind : TokenKind) :
    Backtracks c (parseToken tokens c kind) := by
  unfold parseToken
  repeat' split
  all_goals first | exact backtracks_fail c | exact backtracks_ok _ _ _

theorem parseExpressionKinds_backtracks (tokens : List Token) (c : Nat) (kinds : List TokenKind) :
    Backtracks c (parseExpressionKinds tokens c kinds) := by
  induction kinds with
  | nil => exact backtracks_fail c
  | cons k ks ih =>
    unfold parseExpressionKinds
    split
    · exact backtracks_ok _ _ _
    · exact ih

theorem parseExpression_backtracks (tokens : List Token) (c : Nat) (d : Token) :
    Backtracks c (parseExpression tokens c d) :=
  parseExpressionKinds_backtracks tokens c _

theorem parseFromItem_backtracks (tokens : List Token) (c : Nat) (d : Token) :
    Backtracks c (parseFromItem tokens c d) := by
  unfold parseFromItem
  split
  · exact backtracks_fail c
  · exact backtracks_ok _ _ _

theorem parseSelectItemLoop_backtracks (tokens : List Token) (c : Nat) (ds : List Token)
    (fuel : Nat) : ∀ (cursor : Nat) (s : List (Option selectItem)),
      BacktracksAll c (parseSelectItemLoop tokens c ds fuel cursor s) := by
  induction fuel with
  | zero => intro cursor s r h; cases h
  | succ n ih =>
    intro cursor s r h
    simp only [parseSelectItemLoop] at h
    split at h
    · cases h; exact backtracks_fail c
    split at h
    · cases h
    split at h
    · cases h; exact backtracks_ok _ _ _
    split at h
    · rw [helpThenReturn_ret _ _ _ _ h]; exact backtracks_fail c
    generalize (if s.length > 0 then cursor + 1 else cursor) = c2 at h
    split at h
    · exact ih _ _ r h
    generalize parseExpression tokens _ _ = pe at h
    obtain ⟨exp, nc, ok⟩ := pe
    cases ok
    · rw [helpThenReturn_ret _ _ _ _ h]; exact backtracks_fail c
    simp only at h
    split at h
    · generalize parseToken tokens _ _ = pt at h
      obtain ⟨id, nc2, ok2⟩ := pt
      cases ok2
      · rw [helpThenReturn_ret _ _ _ _ h]; exact backtracks_fail c
      · exact ih _ _ r h
    · exact ih _ _ r h

theorem parseColumnDefinitionsLoop_backtracks (tokens : List Token) (c : Nat) (d : Token)
    (fuel : Nat) : ∀ (cursor : Nat) (cds : List (Option columnDefinition)),
      BacktracksAll c (parseColumnDefinitionsLoop tokens c d fuel cursor cds) := by
  induction fuel with
  | zero => intro cursor cds r h; cases h
  | succ n ih =>
    intro cursor cds r h
    simp only [parseColumnDefinitionsLoop] at h
    split at h
    · cases h; exact backtracks_fail c
    split at h
    · cases h
    split at h
    · cases h; exact backtracks_ok _ _ _
    split at h
    · rw [helpThenReturn_ret _ _ _ _ h]; exact backtracks_fail c
    generalize parseToken tokens _ .IdentifierKind = pt at h
    obtain ⟨id, nc, ok⟩ := pt
    cases ok
    · rw [helpThenReturn_ret _ _ _ _ h]; exact backtracks_fail c
    simp only at h
    generalize parseToken tokens _ .KeywordKind = pt2 at h
    obtain ⟨ty, nc2, ok2⟩ := pt2
    cases ok2
    · rw [helpThenReturn_ret _ _ _ _ h]; exact backtracks_fail c
    simp only at h
    split at h
    · exact ih _ _ r h
    · cases h

theorem parseSelectStatement_backtracks (tokens : List Token) (c : Nat) (d : Token) :
    BacktracksAll c (parseSelectStatement tokens c d) := by
  intro r h
  simp only [parseSelectStatement] at h
  split at h
  · cases h; exact backtracks_fail c
  generalize parseSelectItem tokens _ _ = ps at h
  rcases ps with ⟨exps, nc, ok⟩ | _ | _
  · cases ok
    · cases h; exact backtracks_fail c
    simp only at h
    split at h
    · generalize parseFromItem tokens _ _ = pf at h
      obtain ⟨f, nc2, ok2⟩ := pf
      cases ok2
      · rw [helpThenReturn_ret _ _ _ _ h]; exact backtracks_fail c
      · cases h; exact backtracks_ok _ _ _
    · cases h; exact backtracks_ok _ _ _
  · cases h
  · cases h

theorem parseInsertStatement_backtracks (tokens : List Token) (c : Nat) (d : Token) :
    BacktracksAll c (parseInsertStatement tokens c d) := by
  intro r h
  simp only [parseInsertStatement] at h
  split at h
  · cases h; exact backtracks_fail c
  split at h
  · rw [helpThenReturn_ret _ _ _ _ h]; exact backtracks_fail c
  generalize parseToken tokens _ _ = pt at h
  obtain ⟨table, nc, ok⟩ := pt
  cases ok
  · rw [helpThenReturn_ret _ _ _ _ h]; exact backtracks_fail c
  simp only at h
  split at h
  · rw [helpThenReturn_ret _ _ _ _ h]; exact backtracks_fail c
  split at h
  · rw [helpThenReturn_ret _ _ _ _ h]; exact backtracks_fail c
  generalize parseExpressions tokens _ _ = pe at h
  rcases pe with ⟨values, nc2, ok2⟩ | _ | _
  · cases ok2
    · cases h; exact backtracks_fail c
    simp only at h
    split at h
    · rw [helpThenReturn_ret _ _ _ _ h]; exact backtracks_fail c
    split at h
    · cases h
    · cases h; exact backtracks_ok _ _ _
  · cases h
  · cases h

theorem parseCreateTableStatement_backtracks (tokens : List Token) (c : Nat) (d : Token) :
    BacktracksAll c (parseCreateTableStatement tokens c d) := by
  intro r h
  simp only [parseCreateTableStatement] at h
  split at h
  · cases h; exact backtracks_fail c
  split at h
  · cases h; exact backtracks_fail c
  generalize parseToken tokens _ _ = pt at h
  obtain ⟨name, nc, ok⟩ := pt
  cases ok
  · rw [helpThenReturn_ret _ _ _ _ h]; exact backtracks_fail c
  simp only at h
  split at h
  · rw [helpThenReturn_ret _ _ _ _ h]; exact backtracks_fail c
  generalize parseColumnDefinitions tokens _ _ = pe at h
  rcases pe with ⟨cols, nc2, ok2⟩ | _ | _
  · cases ok2
    · cases h; exact backtracks_fail c
    simp only at h
    split at h
    · rw [helpThenReturn_ret _ _ _ _ h]; exact backtracks_fail c
    split at h
    · cases h
    · cases h; exact backtracks_ok _ _ _
  · cases h
  · cases h

theorem parseStatement_backtracks (tokens : List Token) (c : Nat) (d : Token) :
    BacktracksAll c (parseStatement tokens c d) := by
  intro r h
  simp only [parseStatement] at h
  generalize parseSelectStatement tokens _ _ = p1 at h
  rcases p1 with ⟨x1, n1, ok1⟩ | _ | _
  · cases ok1
    · simp only at h
      generalize parseInsertStatement tokens _ _ = p2 at h
      rcases p2 with ⟨x2, n2, ok2⟩ | _ | _
      · cases ok2
        · simp only at h
          generalize parseCreateTableStatement tokens _ _ = p3 at h
          rcases p3 with ⟨x3, n3, ok3⟩ | _ | _
          · cases ok3
            · cases h; exact backtracks_fail c
            · cases h; exact backtracks_ok _ _ _
          · cases h
          · cases h
        · cases h; exact backtracks_ok _ _ _
      · cases h
      · cases h
    · cases h; exact backtracks_ok _ _ _
  · cases h
  · cases h

/-- C19: every parsing function that returns with the flag false returns no payload and the
cursor it was given: `parseToken`, `parseExpression`, `parseExpressions`, `parseSelectItem`,
`parseFromItem`, `parseColumnDefinitions`, `parseSelectStatement`, `parseInsertStatement`,
`parseCreateTableStatement` and `parseStatement`, for every token sequence and cursor. -/
theorem backtracking_contract (tokens : List Token) (c : Nat) (d : Token) (ds : List Token)
    (kind : TokenKind) :
    Backtracks c (parseToken tokens c kind) ∧
    Backtracks c (parseExpression tokens c d) ∧
    BacktracksAll c (parseExpressions tokens c ds) ∧
    BacktracksAll c (parseSelectItem tokens c ds) ∧
    Backtracks c (parseFromItem tokens c d) ∧
    BacktracksAll c (parseColumnDefinitions tokens c d) ∧
    BacktracksAll c (parseSelectStatement tokens c d) ∧
    BacktracksAll c (parseInsertStatement tokens c d) ∧
    BacktracksAll c (parseCreateTableStatement tokens c d) ∧
    BacktracksAll c (parseStatement tokens c d) :=
  ⟨parseToken_backtracks tokens c kind, parseExpression_backtracks tokens c d,
    parseExpressionsLoop_backtracks tokens c ds _ c [],
    parseSelectItemLoop_backtracks tokens c ds _ c [],
    parseFromItem_backtracks tokens c d,
    parseColumnDefinitionsLoop_backtracks tokens c d _ c [],
    parseSelectStatement_backtracks tokens c d, parseInsertStatement_backtracks tokens c d,
    parseCreateTableStatement_backtracks tokens c d, parseStatement_backtracks tokens c d⟩

/-- The contract at work: on the tokens of `INSERT INTO t VALUES (1 2)` the insert parser gives
up at the seventh token and returns no payload and the cursor 0. -/
theorem backtracking_contract_witness :
    ∃ r, parseInsertStatement (lexTokens (ascii "INSERT INTO t VALUES (1 2)")) 0
        (tokenFromSymbol (ascii ";")) = .ret r ∧ r.2.2 = false ∧ r.1 = none ∧ r.2.1 = 0 :=
  ⟨(none, 0, false), by decide, rfl,
    (backtracking_contract (lexTokens (ascii "INSERT INTO t VALUES (1 2)")) 0
      (tokenFromSymbol (ascii ";")) [] .IdentifierKind).2.2.2.2.2.2.2.1 _ (by decide) rfl⟩

/-! ## Statements are tagged unions -/

theorem helpThenReturn_ok {α : Type} (tokens : List Token) (c c0 c' : Nat) (p : Option α)
    (h : helpThenReturn tokens c ((none, c0, false) : ParseStep α) = .ret (p, c', true)) :
    False := by
  have := helpThenReturn_ret _ _ _ _ h
  cases this

theorem parseSelectStatement_some (tokens : List Token) (c : Nat) (d : Token)
    (p : Option SelectStatement) (c' : Nat)
    (h : parseSelectStatement tokens c d = .ret (p, c', true)) : p ≠ none := by
  simp only [parseSelectStatement] at h
  split at h
  · cases h
  generalize parseSelectItem tokens _ _ = ps at h
  rcases ps with ⟨exps, nc, ok⟩ | _ | _
  · cases ok
    · cases h
    simp only at h
    split at h
    · generalize parseFromItem tokens _ _ = pf at h
      obtain ⟨f, nc2, ok2⟩ := pf
      cases ok2
      · exact (helpThenReturn_ok _ _ _ _ _ h).elim
      · cases h; simp
    · cases h; simp
  · cases h
  · cases h

theorem parseInsertStatement_some (tokens : List Token) (c : Nat) (d : Token)
    (p : Option InsertStatement) (c' : Nat)
    (h : parseInsertStatement tokens c d = .ret (p, c', true)) : p ≠ none := by
  simp only [parseInsertStatement] at h
  split at h
  · cases h
  split at h
  · exact (helpThenReturn_ok _ _ _ _ _ h).elim
  generalize parseToken tokens _ _ = pt at h
  obtain ⟨table, nc, ok⟩ := pt
  cases ok
  · exact (helpThenReturn_ok _ _ _ _ _ h).elim
  simp only at h
  split at h
  · exact (helpThenReturn_ok _ _ _ _ _ h).elim
  split at h
  · exact (helpThenReturn_ok _ _ _ _ _ h).elim
  generalize parseExpressions tokens _ _ = pe at h
  rcases pe with ⟨values, nc2, ok2⟩ | _ | _
  · cases ok2
    · cases h
    simp only at h
    split at h
    · exact (helpThenReturn_ok _ _ _ _ _ h).elim
    split at h
    · cases h
    · cases h; simp
  · cases h
  · cases h

theorem parseCreateTableStatement_some (tokens : List Token) (c : Nat) (d : Token)
    (p : Option CreateTableStatement) (c' : Nat)
    (h : parseCreateTableStatement tokens c d = .ret (p, c', true)) : p ≠ none := by
  simp only [parseCreateTableStatement] at h
  split at h
  · cases h
  split at h
  · cases h
  generalize parseToken tokens _ _ = pt at h
  obtain ⟨name, nc, ok⟩ := pt
  cases ok
  · exact (helpThenReturn_ok _ _ _ _ _ h).elim
  simp only at h
  split at h
  · exact (helpThenReturn_ok _ _ _ _ _ h).elim
  generalize parseColumnDefinitions tokens _ _ = pe at h
  rcases pe with ⟨cols, nc2, ok2⟩ | _ | _
  · cases ok2
    · cases h
    simp only at h
    split at h
    · exact (helpThenReturn_ok _ _ _ _ _ h).elim
    split at h
    · cases h
    · cases h; simp
  · cases h
  · cases h

theorem parseStatement_wellTagged (tokens : List Token) (c : Nat) (d : Token)
    (p : Option Statement) (c' : Nat)
    (h : parseStatement tokens c d = .ret (p, c', true)) :
    ∃ st, p = some st ∧ st.WellTagged := by
  simp only [parseStatement] at h
  generalize h1 : parseSelectStatement tokens _ _ = p1 at h
  rcases p1 with ⟨x1, n1, ok1⟩ | _ | _
  · cases ok1
    · simp only at h
      generalize h2 : parseInsertStatement tokens _ _ = p2 at h
      rcases p2 with ⟨x2, n2, ok2⟩ | _ | _
      · cases ok2
        · simp only at h
          generalize h3 : parseCreateTableStatement tokens _ _ = p3 at h
          rcases p3 with ⟨x3, n3, ok3⟩ | _ | _
          · cases ok3
            · cases h
            · cases h
              exact ⟨_, rfl, parseCreateTableStatement_some _ _ _ _ _ h3, rfl, rfl⟩
          · cases h
          · cases h
        · cases h
          exact ⟨_, rfl, parseInsertStatement_some _ _ _ _ _ h2, rfl, rfl⟩
      · cases h
      · cases h
    · cases h
      exact ⟨_, rfl, parseSelectStatement_some _ _ _ _ _ h1, rfl, rfl⟩
  · cases h
  · cases h

theorem skipSemicolons_ret (tokens : List Token) (fuel : Nat) : ∀ (cursor : Nat) (b : Bool)
    (r : Nat × Bool), skipSemicolons tokens fuel cursor b = .ret r →
    cursor ≤ r.1 ∧ (r.2 = false → r.1 = cursor ∧ b = false) := by
  induction fuel with
  | zero => intro cursor b r h; cases h
  | succ n ih =>
    intro cursor b r h
    simp only [skipSemicolons] at h
    split at h
    · have := ih _ _ _ h
      refine ⟨by omega, fun hf => ?_⟩
      have := this.2 hf
      cases this.2
    · cases h; exact ⟨le_refl _, fun hf => ⟨rfl, hf⟩⟩

theorem ParseLoop_wellTagged (tokens : List Token) (fuel : Nat) :
    ∀ (cursor : Nat) (statements : List (Option Statement)) (a : Ast),
      (∀ s ∈ statements, ∃ st, s = some st ∧ st.WellTagged) →
      ParseLoop tokens fuel cursor statements = .ret (.ast a) →
      ∀ s ∈ a.Statements, ∃ st, s = some st ∧ st.WellTagged := by
  induction fuel with
  | zero => intro cursor statements a _ h; cases h
  | succ n ih =>
    intro cursor statements a hs h
    simp only [ParseLoop] at h
    split at h
    · generalize h1 : parseStatement tokens _ _ = p1 at h
      rcases p1 with ⟨stmt, nc, ok⟩ | _ | _
      · cases ok
        · have := helpThenReturn_ret _ _ _ _ h
          cases this
        · simp only at h
          generalize skipSemicolons tokens _ _ _ = sk at h
          rcases sk with ⟨c2, b⟩ | _ | _
          · simp only at h
            split at h
            · have := helpThenReturn_ret _ _ _ _ h
              cases this
            · refine ih _ _ a ?_ h
              intro s hmem
              rcases List.mem_append.1 hmem with hm | hm
              · exact hs s hm
              · rw [List.mem_singleton.1 hm]
                exact parseStatement_wellTagged _ _ _ _ _ h1
          · cases h
          · cases h
      · cases h
      · cases h
    · cases h; exact hs

/-- C20: every statement returned by a successful `parseStatement`, and so every statement of
a tree returned by `Parse`, is present and has exactly one of its three payloads populated, the
one its `Kind` names. -/
theorem statement_tagged_union :
    (∀ (tokens : List Token) (c : Nat) (d : Token) (p : Option Statement) (c' : Nat),
      parseStatement tokens c d = .ret (p, c', true) → ∃ st, p = some st ∧ st.WellTagged) ∧
    (∀ (source : List Nat) (a : Ast), Parse source = .ret (.ast a) →
      ∀ s ∈ a.Statements, ∃ st, s = some st ∧ st.WellTagged) := by
  refine ⟨parseStatement_wellTagged, fun source a h => ?_⟩
  simp only [Parse] at h
  split at h
  · cases h
  · cases h
  · cases h
  · exact ParseLoop_wellTagged _ _ _ _ a (fun s hs => by cases hs) h

/-- The statement of the tree that `Parse` returns for `SELECT *;` is a tagged union. -/
theorem statement_tagged_union_witness :
    ∀ s ∈ (Ast.mk [some ⟨some ⟨some [some ⟨none, true, none⟩], none⟩, none, none,
      .SelectKind⟩]).Statements, ∃ st, s = some st ∧ st.WellTagged :=
  statement_tagged_union.2 (ascii "SELECT *;") _ (by decide)

/-! ## INSERT and CREATE TABLE statements that parse -/

theorem drop_view {α : Type} {l : List α} {p : Nat} {c : α} {rest : List α}
    (h : l.drop p = c :: rest) : p < l.length ∧ l[p]? = some c ∧ l.drop (p + 1) = rest := by
  have hlt : p < l.length := by
    by_contra hge
    rw [List.drop_eq_nil_of_le (by omega)] at h
    cases h
  refine ⟨hlt, ?_, ?_⟩
  · have := List.getElem?_drop l p 0
    rw [h] at this
    simpa using this.symm
  · have : l.drop (p + 1) = (l.drop p).drop 1 := by rw [List.drop_drop]
    rw [this, h]; rfl

theorem expectToken_view {tokens : List Token} {c : Nat} {t : Token} {r : List Token}
    (h : tokens.drop c = t :: r) (x : Token) : expectToken tokens c x = x.equals t := by
  obtain ⟨hlt, hget, _⟩ := drop_view h
  simp only [expectToken, ge_iff_le, hget]
  rw [if_neg (by omega)]

theorem parseToken_view {tokens : List Token} {c : Nat} {t : Token} {r : List Token}
    (h : tokens.drop c = t :: r) (kind : TokenKind) :
    parseToken tokens c kind =
      if t.Kind = kind then (some t, c + 1, true) else (none, c, false) := by
  obtain ⟨hlt, hget, _⟩ := drop_view h
  simp only [parseToken, ge_iff_le, hget]
  rw [if_neg (by omega)]

theorem parseExpression_view {tokens : List Token} {c : Nat} {t : Token} {r : List Token}
    (h : tokens.drop c = t :: r) (d : Token) (hl : t.IsLiteral) :
    parseExpression tokens c d = (literalOf t, c + 1, true) := by
  simp only [parseExpression, parseExpressionKinds, parseToken_view h, literalOf]
  rcases hl with hk | hk | hk <;> simp [hk]

theorem parseExpression_view_fail {tokens : List Token} {c : Nat} {t : Token} {r : List Token}
    (h : tokens.drop c = t :: r) (d : Token) (hl : ¬ t.IsLiteral) :
    parseExpression tokens c d = (none, c, false) := by
  simp only [parseExpression, parseExpressionKinds, parseToken_view h]
  simp only [Token.IsLiteral, not_or] at hl
  simp [hl.1, hl.2.1, hl.2.2]

theorem parseExpressionsLoop_delim {tokens : List Token} {cursor : Nat} {t : Token}
    {r : List Token} (h : tokens.drop cursor = t :: r) (c0 : Nat) (ds : List Token)
    (hd : ds.any (fun d => d.equals t) = true) (fuel : Nat) (exps : List (Option expression)) :
    parseExpressionsLoop tokens c0 ds (fuel + 1) cursor exps = .ret (some exps, cursor, true) := by
  obtain ⟨hlt, hget, _⟩ := drop_view h
  simp only [parseExpressionsLoop, ge_iff_le, hget]
  rw [if_neg (by omega), if_pos hd]

theorem parseExpressionsLoop_first {tokens : List Token} {cursor : Nat} {t : Token}
    {r : List Token} (h : tokens.drop cursor = t :: r) (c0 : Nat) (ds : List Token)
    (hd : ds.any (fun d => d.equals t) = false) (hl : t.IsLiteral) (fuel : Nat) :
    parseExpressionsLoop tokens c0 ds (fuel + 1) cursor [] =
      parseExpressionsLoop tokens c0 ds fuel (cursor + 1) [literalOf t] := by
  obtain ⟨hlt, hget, _⟩ := drop_view h
  simp only [parseExpressionsLoop, ge_iff_le, hget]
  rw [if_neg (by omega), if_neg (by simp [hd])]
  simp [parseExpression_view h _ hl]

theorem parseExpressionsLoop_next {tokens : List Token} {cursor : Nat} {l : Location}
    {t : Token} {r : List Token} (h : tokens.drop cursor = symbolAt "," l :: t :: r) (c0 : Nat)
    (ds : List Token) (hd : ds.any (fun d => d.equals (symbolAt "," l)) = false)
    (hl : t.IsLiteral) (fuel : Nat) (exps : List (Option expression)) (he : exps ≠ []) :
    parseExpressionsLoop tokens c0 ds (fuel + 1) cursor exps =
      parseExpressionsLoop tokens c0 ds fuel (cursor + 2) (exps ++ [literalOf t]) := by
  obtain ⟨hlt, hget, h2⟩ := drop_view h
  have hpos : exps.length > 0 := List.length_pos.2 he
  have hc : expectToken tokens cursor (tokenFromSymbol (ascii ",")) = true := by
    rw [expectToken_view h]; rfl
  simp only [parseExpressionsLoop, ge_iff_le, hget]
  rw [if_neg (by omega), if_neg (by simp [hd]), if_neg (by simp [hc])]
  simp [hpos, parseExpression_view h2 _ hl]

theorem equals_rparen_comma (l : Location) :
    [tokenFromSymbol (ascii ")")].any (fun d => d.equals (symbolAt "," l)) = false := by
  rfl

theorem equals_rparen_literal (t : Token) (hl : t.IsLiteral) :
    [tokenFromSymbol (ascii ")")].any (fun d => d.equals t) = false := by
  have hk : t.Kind ≠ .SymbolKind := by
    rcases hl with hk | hk | hk <;> rw [hk] <;> decide
  simp [Token.equals, tokenFromSymbol, Ne.symm hk]

theorem equals_rparen (l : Location) :
    [tokenFromSymbol (ascii ")")].any (fun d => d.equals (symbolAt ")" l)) = true := by
  rfl

theorem parseExpressionsLoop_values (tokens : List Token) (c0 : Nat) (l5 : Location)
    (post : List Token) : ∀ (rest : List (Location × Token)) (cursor fuel : Nat)
      (exps : List (Option expression)), exps ≠ [] → rest.length < fuel →
      (∀ p ∈ rest, p.2.IsLiteral) →
      tokens.drop cursor = valuesTail rest ++ symbolAt ")" l5 :: post →
      parseExpressionsLoop tokens c0 [tokenFromSymbol (ascii ")")] fuel cursor exps =
        .ret (some (exps ++ rest.map (fun p => literalOf p.2)),
          cursor + 2 * rest.length, true) := by
  intro rest
  induction rest with
  | nil =>
    intro cursor fuel exps _ hf _ h
    obtain ⟨f, rfl⟩ : ∃ f, fuel = f + 1 := ⟨fuel - 1, by simp at hf; omega⟩
    simp only [valuesTail, List.nil_append] at h
    rw [parseExpressionsLoop_delim h _ _ (equals_rparen l5)]
    simp
  | cons p rest ih =>
    intro cursor fuel exps he hf hl h
    obtain ⟨l, v⟩ := p
    obtain ⟨f, rfl⟩ : ∃ f, fuel = f + 1 := ⟨fuel - 1, by simp at hf; omega⟩
    simp only [valuesTail, List.cons_append] at h
    have hv : v.IsLiteral := hl (l, v) (List.mem_cons_self _ _)
    rw [parseExpressionsLoop_next h _ _ (equals_rparen_comma l) hv _ _ he]
    have h2 : tokens.drop (cursor + 2) = valuesTail rest ++ symbolAt ")" l5 :: post := by
      have := (drop_view (drop_view h).2.2).2.2
      exact this
    rw [ih (cursor + 2) f _ (by simp) (by simp at hf; omega)
      (fun p hp => hl p (List.mem_cons_of_mem _ hp)) h2]
    simp only [List.map_cons, List.length_cons, List.append_assoc, List.singleton_append]
    congr 3
    omega

theorem valuesTail_length (rest : List (Location × Token)) :
    (valuesTail rest).length = 2 * rest.length := by
  induction rest with
  | nil => rfl
  | cons p rest ih =>
    obtain ⟨l, v⟩ := p
    simp only [valuesTail, List.length_cons, ih]
    omega

theorem insertTokens_length (l1 l2 l3 l4 l5 : Location) (t v : Token)
    (rest : List (Location × Token)) :
    (insertTokens l1 l2 l3 l4 l5 t v rest).length = 7 + 2 * rest.length := by
  simp only [insertTokens, List.length_append, List.length_cons, List.length_nil,
    valuesTail_length]
  omega

theorem parseInsertStatement_view (tokens : List Token) (c : Nat) (d : Token)
    (l1 l2 l3 l4 l5 : Location) (t v : Token) (rest : List (Location × Token))
    (post : List Token) (ht : t.Kind = .IdentifierKind) (hv : v.IsLiteral)
    (hrest : ∀ p ∈ rest, p.2.IsLiteral)
    (h : tokens.drop c = insertTokens l1 l2 l3 l4 l5 t v rest ++ post) :
    parseInsertStatement tokens c d =
      .ret (some ⟨t, some ((v :: rest.map Prod.snd).map literalOf)⟩,
        c + (7 + 2 * rest.length), true) := by
  have hlen : c + (7 + 2 * rest.length) + post.length = tokens.length := by
    have := congrArg List.length h
    rw [List.length_drop, List.length_append, insertTokens_length] at this
    omega
  simp only [insertTokens, List.cons_append, List.nil_append, List.append_assoc] at h
  have h1 := (drop_view h).2.2
  have h2 := (drop_view h1).2.2
  have h3 := (drop_view h2).2.2
  have h4 := (drop_view h3).2.2
  have h5 := (drop_view h4).2.2
  have h6 := (drop_view h5).2.2
  have e0 : expectToken tokens c (tokenFromKeyword (ascii "insert")) = true := by
    rw [expectToken_view h]; rfl
  have e1 : expectToken tokens (c + 1) (tokenFromKeyword (ascii "into")) = true := by
    rw [expectToken_view h1]; rfl
  have e2 : parseToken tokens (c + 1 + 1) .IdentifierKind = (some t, c + 1 + 1 + 1, true) := by
    rw [parseToken_view h2, if_pos ht]
  have e3 : expectToken tokens (c + 1 + 1 + 1) (tokenFromKeyword (ascii "values")) = true := by
    rw [expectToken_view h3]; rfl
  have e4 : expectToken tokens (c + 1 + 1 + 1 + 1) (tokenFromSymbol (ascii "(")) = true := by
    rw [expectToken_view h4]; rfl
  have e5 : parseExpressions tokens (c + 1 + 1 + 1 + 1 + 1) [tokenFromSymbol (ascii ")")] =
      .ret (some ((v :: rest.map Prod.snd).map literalOf),
        c + 1 + 1 + 1 + 1 + 1 + 1 + 2 * rest.length, true) := by
    unfold parseExpressions
    rw [parseExpressionsLoop_first h5 _ _ (equals_rparen_literal v hv) hv,
      parseExpressionsLoop_values tokens _ l5 post rest _ _ _ (by simp) (by omega) hrest
        (by simpa using h6)]
    simp [List.map_map, Function.comp_def]
  have h7 : tokens.drop (c + 1 + 1 + 1 + 1 + 1 + 1 + 2 * rest.length) =
      symbolAt ")" l5 :: post := by
    have := congrArg (List.drop (2 * rest.length)) h6
    rw [List.drop_drop] at this
    rw [this, ← valuesTail_length rest, List.drop_left]
  have e6 : expectToken tokens (c + 1 + 1 + 1 + 1 + 1 + 1 + 2 * rest.length)
      (tokenFromSymbol (ascii ")")) = true := by
    rw [expectToken_view h7]; rfl
  simp only [parseInsertStatement, e0, e1, e2, e3, e4, e5, e6]
  simp
  omega

/-- C12: for every Identifier token `t` and every non-empty list of literal tokens `v, rest`,
`parseInsertStatement` at cursor 0 on the tokens `insert into t values ( v , ... )` succeeds,
returns the table `t` and the literal expressions of the values in order, and returns the
cursor just past `)`; and `Parse` on `INSERT INTO users VALUES (105, 233);` returns exactly
one Insert statement with `users` at column 12 and the numbers at columns 26 and 32. -/
theorem parseInsertStatement_accepts (l1 l2 l3 l4 l5 : Location) (t v : Token)
    (rest : List (Location × Token)) (d : Token) (ht : t.Kind = .IdentifierKind)
    (hv : v.IsLiteral) (hrest : ∀ p ∈ rest, p.2.IsLiteral) :
    parseInsertStatement (insertTokens l1 l2 l3 l4 l5 t v rest) 0 d =
        .ret (some ⟨t, some ((v :: rest.map Prod.snd).map literalOf)⟩,
          (insertTokens l1 l2 l3 l4 l5 t v rest).length, true) ∧
      Parse (ascii "INSERT INTO users VALUES (105, 233);") =
        .ret (.ast ⟨[some ⟨none, none,
          some ⟨⟨ascii "users", .IdentifierKind, ⟨0, 12⟩⟩,
            some [literalOf ⟨ascii "105", .NumericKind, ⟨0, 26⟩⟩,
              literalOf ⟨ascii "233", .NumericKind, ⟨0, 32⟩⟩]⟩, .InsertKind⟩]⟩) := by
  refine ⟨?_, by decide⟩
  rw [insertTokens_length]
  have := parseInsertStatement_view (insertTokens l1 l2 l3 l4 l5 t v rest) 0 d l1 l2 l3 l4 l5
    t v rest [] ht hv hrest (by simp)
  simpa using this

/-- The tokens of `INSERT INTO users VALUES (105, 233)` parse to the table `users` and the two
numbers, with the cursor 9 just past `)`. -/
theorem parseInsertStatement_accepts_witness :
    parseInsertStatement (lexTokens (ascii "INSERT INTO users VALUES (105, 233)")) 0
        (tokenFromSymbol (ascii ";")) =
      .ret (some ⟨⟨ascii "users", .IdentifierKind, ⟨0, 12⟩⟩,
        some [literalOf ⟨ascii "105", .NumericKind, ⟨0, 26⟩⟩,
          literalOf ⟨ascii "233", .NumericKind, ⟨0, 32⟩⟩]⟩, 9, true) :=
  (parseInsertStatement_accepts ⟨0, 0⟩ ⟨0, 7⟩ ⟨0, 18⟩ ⟨0, 25⟩ ⟨0, 36⟩
    ⟨ascii "users", .IdentifierKind, ⟨0, 12⟩⟩ ⟨ascii "105", .NumericKind, ⟨0, 26⟩⟩
    [(⟨0, 30⟩, ⟨ascii "233", .NumericKind, ⟨0, 32⟩⟩)] (tokenFromSymbol (ascii ";")) rfl
    (Or.inr (Or.inl rfl)) (by decide)).1

theorem parseColumnDefinitionsLoop_delim {tokens : List Token} {cursor : Nat} {t : Token}
    {r : List Token} (h : tokens.drop cursor = t :: r) (c0 : Nat) (d : Token)
    (hd : d.equals t = true) (fuel : Nat) (cds : List (Option columnDefinition)) :
    parseColumnDefinitionsLoop tokens c0 d (fuel + 1) cursor cds =
      .ret (some cds, cursor, true) := by
  obtain ⟨hlt, hget, _⟩ := drop_view h
  simp only [parseColumnDefinitionsLoop, ge_iff_le, hget]
  rw [if_neg (by omega), if_pos hd]

theorem parseColumnDefinitionsLoop_first {tokens : List Token} {cursor : Nat} {n k : Token}
    {r : List Token} (h : tokens.drop cursor = n :: k :: r) (c0 : Nat) (d : Token)
    (hd : d.equals n = false) (hn : n.Kind = .IdentifierKind) (hk : k.Kind = .KeywordKind)
    (fuel : Nat) :
    parseColumnDefinitionsLoop tokens c0 d (fuel + 1) cursor [] =
      parseColumnDefinitionsLoop tokens c0 d fuel (cursor + 2) [columnOf (n, k)] := by
  obtain ⟨hlt, hget, h2⟩ := drop_view h
  simp only [parseColumnDefinitionsLoop, ge_iff_le, hget]
  rw [if_neg (by omega), if_neg (by simp [hd])]
  simp [parseToken_view h, parseToken_view h2, hn, hk, columnOf]

theorem parseColumnDefinitionsLoop_next {tokens : List Token} {cursor : Nat} {l : Location}
    {n k : Token} {r : List Token} (h : tokens.drop cursor = symbolAt "," l :: n :: k :: r)
    (c0 : Nat) (d : Token) (hd : d.equals (symbolAt "," l) = false)
    (hn : n.Kind = .IdentifierKind) (hk : k.Kind = .KeywordKind) (fuel : Nat)
    (cds : List (Option columnDefinition)) (he : cds ≠ []) :
    parseColumnDefinitionsLoop tokens c0 d (fuel + 1) cursor cds =
      parseColumnDefinitionsLoop tokens c0 d fuel (cursor + 3) (cds ++ [columnOf (n, k)]) := by
  obtain ⟨hlt, hget, h2⟩ := drop_view h
  have h3 := (drop_view h2).2.2
  have hpos : cds.length > 0 := List.length_pos.2 he
  have hc : expectToken tokens cursor (tokenFromSymbol (ascii ",")) = true := by
    rw [expectToken_view h]; rfl
  simp only [parseColumnDefinitionsLoop, ge_iff_le, hget]
  rw [if_neg (by omega), if_neg (by simp [hd]), if_neg (by simp [hc])]
  simp [hpos, parseToken_view h2, parseToken_view h3, hn, hk, columnOf]

theorem columnsTail_length (rest : List (Location × Token × Token)) :
    (columnsTail rest).length = 3 * rest.length := by
  induction rest with
  | nil => rfl
  | cons p rest ih =>
    obtain ⟨l, n, k⟩ := p
    simp only [columnsTail, List.length_cons, ih]
    omega

theorem createTokens_length (l1 l2 l3 l4 : Location) (t n k : Token)
    (rest : List (Location × Token × Token)) :
    (createTokens l1 l2 l3 l4 t n k rest).length = 7 + 3 * rest.length := by
  simp only [createTokens, List.length_append, List.length_cons, List.length_nil,
    columnsTail_length]
  omega

theorem parseColumnDefinitionsLoop_columns (tokens : List Token) (c0 : Nat) (l4 : Location)
    (post : List Token) : ∀ (rest : List (Location × Token × Token)) (cursor fuel : Nat)
      (cds : List (Option columnDefinition)), cds ≠ [] → rest.length < fuel →
      (∀ p ∈ rest, p.2.1.Kind = .IdentifierKind ∧ p.2.2.Kind = .KeywordKind) →
      tokens.drop cursor = columnsTail rest ++ symbolAt ")" l4 :: post →
      parseColumnDefinitionsLoop tokens c0 (tokenFromSymbol (ascii ")")) fuel cursor cds =
        .ret (some (cds ++ rest.map (fun p => columnOf p.2)),
          cursor + 3 * rest.length, true) := by
  intro rest
  induction rest with
  | nil =>
    intro cursor fuel cds _ hf _ h
    obtain ⟨f, rfl⟩ : ∃ f, fuel = f + 1 := ⟨fuel - 1, by simp at hf; omega⟩
    simp only [columnsTail, List.nil_append] at h
    rw [parseColumnDefinitionsLoop_delim h c0 (tokenFromSymbol (ascii ")")) rfl]
    simp
  | cons p rest ih =>
    intro cursor fuel cds he hf hl h
    obtain ⟨l, n, k⟩ := p
    obtain ⟨f, rfl⟩ : ∃ f, fuel = f + 1 := ⟨fuel - 1, by simp at hf; omega⟩
    simp only [columnsTail, List.cons_append] at h
    have hv := hl (l, n, k) (List.mem_cons_self _ _)
    rw [parseColumnDefinitionsLoop_next h c0 (tokenFromSymbol (ascii ")")) rfl hv.1 hv.2 _ _ he]
    have h2 : tokens.drop (cursor + 3) = columnsTail rest ++ symbolAt ")" l4 :: post :=
      (drop_view (drop_view (drop_view h).2.2).2.2).2.2
    rw [ih (cursor + 3) f _ (by simp) (by simp at hf; omega)
      (fun p hp => hl p (List.mem_cons_of_mem _ hp)) h2]
    simp only [List.map_cons, List.length_cons, List.append_assoc, List.singleton_append]
    congr 3
    omega

theorem equals_rparen_identifier (t : Token) (hk : t.Kind = .IdentifierKind) :
    (tokenFromSymbol (ascii ")")).equals t = false := by
  simp [Token.equals, tokenFromSymbol, hk]

theorem parseCreateTableStatement_view (tokens : List Token) (c : Nat) (d : Token)
    (l1 l2 l3 l4 : Location) (t n k : Token) (rest : List (Location × Token × Token))
    (post : List Token) (ht : t.Kind = .IdentifierKind) (hn : n.Kind = .IdentifierKind)
    (hk : k.Kind = .KeywordKind)
    (hrest : ∀ p ∈ rest, p.2.1.Kind = .IdentifierKind ∧ p.2.2.Kind = .KeywordKind)
    (h : tokens.drop c = createTokens l1 l2 l3 l4 t n k rest ++ post) :
    parseCreateTableStatement tokens c d =
      .ret (some ⟨t, some (((n, k) :: rest.map Prod.snd).map columnOf)⟩,
        c + (7 + 3 * rest.length), true) := by
  have hlen : c + (7 + 3 * rest.length) + post.length = tokens.length := by
    have := congrArg List.length h
    rw [List.length_drop, List.length_append, createTokens_length] at this
    omega
  simp only [createTokens, List.cons_append, List.nil_append, List.append_assoc] at h
  have h1 := (drop_view h).2.2
  have h2 := (drop_view h1).2.2
  have h3 := (drop_view h2).2.2
  have h4 := (drop_view h3).2.2
  have h5 := (drop_view h4).2.2
  have h6 := (drop_view h5).2.2
  have e0 : expectToken tokens c (tokenFromKeyword (ascii "create")) = true := by
    rw [expectToken_view h]; rfl
  have e1 : expectToken tokens (c + 1) (tokenFromKeyword (ascii "table")) = true := by
    rw [expectToken_view h1]; rfl
  have e2 : parseToken tokens (c + 1 + 1) .IdentifierKind = (some t, c + 1 + 1 + 1, true) := by
    rw [parseToken_view h2, if_pos ht]
  have e3 : expectToken tokens (c + 1 + 1 + 1) (tokenFromSymbol (ascii "(")) = true := by
    rw [expectToken_view h3]; rfl
  have e5 : parseColumnDefinitions tokens (c + 1 + 1 + 1 + 1) (tokenFromSymbol (ascii ")")) =
      .ret (some (((n, k) :: rest.map Prod.snd).map columnOf),
        c + 1 + 1 + 1 + 1 + 2 + 3 * rest.length, true) := by
    unfold parseColumnDefinitions
    rw [parseColumnDefinitionsLoop_first h4 _ _ (equals_rparen_identifier n hn) hn hk,
      parseColumnDefinitionsLoop_columns tokens _ l4 post rest _ _ _ (by simp) (by omega) hrest
        (by simpa using h6)]
    simp [List.map_map, Function.comp_def]
  have h7 : tokens.drop (c + 1 + 1 + 1 + 1 + 2 + 3 * rest.length) =
      symbolAt ")" l4 :: post := by
    have := congrArg (List.drop (3 * rest.length)) h6
    rw [List.drop_drop] at this
    rw [this, ← columnsTail_length rest, List.drop_left]
  have e6 : expectToken tokens (c + 1 + 1 + 1 + 1 + 2 + 3 * rest.length)
      (tokenFromSymbol (ascii ")")) = true := by
    rw [expectToken_view h7]; rfl
  simp only [parseCreateTableStatement, e0, e1, e2, e3, e5, e6]
  simp
  omega

/-- C13: for every Identifier token `t` and every non-empty list of pairs of an Identifier
token and a Keyword token, `parseCreateTableStatement` at cursor 0 on the tokens
`create table t ( n k , ... )` succeeds, returns the name `t` and the column definitions in
order, and returns the cursor just past `)`; and `Parse` on
`CREATE TABLE users (id INT, name TEXT);` returns exactly one CreateTable statement named
`users` (column 13) with the columns `id` (20) `int` (23) and `name` (28) `text` (33). -/
theorem parseCreateTableStatement_accepts (l1 l2 l3 l4 : Location) (t n k : Token)
    (rest : List (Location × Token × Token)) (d : Token) (ht : t.Kind = .IdentifierKind)
    (hn : n.Kind = .IdentifierKind) (hk : k.Kind = .KeywordKind)
    (hrest : ∀ p ∈ rest, p.2.1.Kind = .IdentifierKind ∧ p.2.2.Kind = .KeywordKind) :
    parseCreateTableStatement (createTokens l1 l2 l3 l4 t n k rest) 0 d =
        .ret (some ⟨t, some (((n, k) :: rest.map Prod.snd).map columnOf)⟩,
          (createTokens l1 l2 l3 l4 t n k rest).length, true) ∧
      Parse (ascii "CREATE TABLE users (id INT, name TEXT);") =
        .ret (.ast ⟨[some ⟨none,
          some ⟨⟨ascii "users", .IdentifierKind, ⟨0, 13⟩⟩,
            some [columnOf (⟨ascii "id", .IdentifierKind, ⟨0, 20⟩⟩,
                ⟨ascii "int", .KeywordKind, ⟨0, 23⟩⟩),
              columnOf (⟨ascii "name", .IdentifierKind, ⟨0, 28⟩⟩,
                ⟨ascii "text", .KeywordKind, ⟨0, 33⟩⟩)]⟩, none, .CreateTableKind⟩]⟩) := by
  refine ⟨?_, by decide⟩
  rw [createTokens_length]
  have := parseCreateTableStatement_view (createTokens l1 l2 l3 l4 t n k rest) 0 d l1 l2 l3 l4
    t n k rest [] ht hn hk hrest (by simp)
  simpa using this

/-- The tokens of `CREATE TABLE users (id INT, name TEXT)` parse to the table `users` and its
two columns, with the cursor 10 just past `)`. -/
theorem parseCreateTableStatement_accepts_witness :
    parseCreateTableStatement (lexTokens (ascii "CREATE TABLE users (id INT, name TEXT)")) 0
        (tokenFromSymbol (ascii ";")) =
      .ret (some ⟨⟨ascii "users", .IdentifierKind, ⟨0, 13⟩⟩,
        some [columnOf (⟨ascii "id", .IdentifierKind, ⟨0, 20⟩⟩,
            ⟨ascii "int", .KeywordKind, ⟨0, 23⟩⟩),
          columnOf (⟨ascii "name", .IdentifierKind, ⟨0, 28⟩⟩,
            ⟨ascii "text", .KeywordKind, ⟨0, 33⟩⟩)]⟩, 10, true) :=
  (parseCreateTableStatement_accepts ⟨0, 0⟩ ⟨0, 7⟩ ⟨0, 19⟩ ⟨0, 37⟩
    ⟨ascii "users", .IdentifierKind, ⟨0, 13⟩⟩ ⟨ascii "id", .IdentifierKind, ⟨0, 20⟩⟩
    ⟨ascii "int", .KeywordKind, ⟨0, 23⟩⟩
    [(⟨0, 26⟩, ⟨ascii "name", .IdentifierKind, ⟨0, 28⟩⟩, ⟨ascii "text", .KeywordKind, ⟨0, 33⟩⟩)]
    (tokenFromSymbol (ascii ";")) rfl rfl rfl (by decide)).1

/-! ## SELECT statements that parse -/

theorem parseSelectItemLoop_delim {tokens : List Token} {cursor : Nat} {t : Token}
    {r : List Token} (h : tokens.drop cursor = t :: r) (c0 : Nat) (ds : List Token)
    (hd : ds.any (fun d => d.equals t) = true) (fuel : Nat) (s : List (Option selectItem)) :
    parseSelectItemLoop tokens c0 ds (fuel + 1) cursor s = .ret (some s, cursor, true) := by
  obtain ⟨hlt, hget, _⟩ := drop_view h
  simp only [parseSelectItemLoop, ge_iff_le, hget]
  rw [if_neg (by omega), if_pos hd]

theorem equals_symbol_literal (x : List Nat) (t : Token) (hl : t.IsLiteral) :
    (tokenFromSymbol x).equals t = false := by
  have hk : t.Kind ≠ .SymbolKind := by
    rcases hl with hk | hk | hk <;> rw [hk] <;> decide
  simp [Token.equals, tokenFromSymbol, Ne.symm hk]

theorem equals_keyword_literal (x : List Nat) (t : Token) (hl : t.IsLiteral) :
    (tokenFromKeyword x).equals t = false := by
  have hk : t.Kind ≠ .KeywordKind := by
    rcases hl with hk | hk | hk <;> rw [hk] <;> decide
  simp [Token.equals, tokenFromKeyword, Ne.symm hk]

theorem selectDelimiters_literal (t : Token) (hl : t.IsLiteral) :
    selectDelimiters.any (fun d => d.equals t) = false := by
  simp [selectDelimiters, equals_symbol_literal _ t hl, equals_keyword_literal _ t hl]

/-- One round of the loop of `parseSelectItem` on the first item of the list. -/
theorem parseSelectItemLoop_first {tokens : List Token} {cursor : Nat} (i : SelectItemText)
    {nxt : Token} {r : List Token} (h : tokens.drop cursor = i.tokens ++ nxt :: r) (c0 : Nat)
    (hi : i.Valid) (hn : (tokenFromKeyword (ascii "as")).equals nxt = false) (fuel : Nat) :
    parseSelectItemLoop tokens c0 selectDelimiters (fuel + 1) cursor [] =
      parseSelectItemLoop tokens c0 selectDelimiters fuel (cursor + i.tokens.length)
        [i.item] := by
  cases i with
  | star l =>
    simp only [SelectItemText.tokens, List.cons_append, List.nil_append] at h
    obtain ⟨hlt, hget, h2⟩ := drop_view h
    have e1 : expectToken tokens cursor (tokenFromSymbol (ascii "*")) = true := by
      rw [expectToken_view h]; rfl
    simp only [parseSelectItemLoop, ge_iff_le, hget]
    rw [if_neg (by omega), if_neg (by simp only [Bool.not_eq_true]; rfl)]
    simp [e1, SelectItemText.item, SelectItemText.tokens]
  | lit v =>
    simp only [SelectItemText.tokens, List.cons_append, List.nil_append] at h
    obtain ⟨hlt, hget, h2⟩ := drop_view h
    have e1 : expectToken tokens cursor (tokenFromSymbol (ascii "*")) = false := by
      rw [expectToken_view h]; exact equals_symbol_literal _ v hi
    have e2 : expectToken tokens (cursor + 1) (tokenFromKeyword (ascii "as")) = false := by
      rw [expectToken_view h2]; exact hn
    simp only [parseSelectItemLoop, ge_iff_le, hget]
    rw [if_neg (by omega), if_neg (by simp [selectDelimiters_literal v hi])]
    simp [e1, e2, parseExpression_view h _ hi, SelectItemText.item, SelectItemText.tokens]
  | aliased v l n =>
    simp only [SelectItemText.tokens, List.cons_append, List.nil_append] at h
    obtain ⟨hlt, hget, h2⟩ := drop_view h
    have h3 := (drop_view h2).2.2
    have e1 : expectToken tokens cursor (tokenFromSymbol (ascii "*")) = false := by
      rw [expectToken_view h]; exact equals_symbol_literal _ v hi.1
    have e2 : expectToken tokens (cursor + 1) (tokenFromKeyword (ascii "as")) = true := by
      rw [expectToken_view h2]; rfl
    simp only [parseSelectItemLoop, ge_iff_le, hget]
    rw [if_neg (by omega), if_neg (by simp [selectDelimiters_literal v hi.1])]
    simp [e1, e2, parseExpression_view h _ hi.1, parseToken_view h3, hi.2,
      SelectItemText.item, SelectItemText.tokens]

/-- One round of the loop of `parseSelectItem` on a comma and the item after it. -/
theorem parseSelectItemLoop_next {tokens : List Token} {cursor : Nat} (l : Location)
    (i : SelectItemText) {nxt : Token} {r : List Token}
    (h : tokens.drop cursor = symbolAt "," l :: i.tokens ++ nxt :: r) (c0 : Nat)
    (hi : i.Valid) (hn : (tokenFromKeyword (ascii "as")).equals nxt = false) (fuel : Nat)
    (s : List (Option selectItem)) (hs : s ≠ []) :
    parseSelectItemLoop tokens c0 selectDelimiters (fuel + 1) cursor s =
      parseSelectItemLoop tokens c0 selectDelimiters fuel (cursor + 1 + i.tokens.length)
        (s ++ [i.item]) := by
  have hpos : s.length > 0 := List.length_pos.2 hs
  have hc : expectToken tokens cursor (tokenFromSymbol (ascii ",")) = true := by
    rw [expectToken_view h]; rfl
  obtain ⟨hlt, hget, h1⟩ := drop_view h
  cases i with
  | star l =>
    simp only [SelectItemText.tokens, List.cons_append, List.nil_append] at h1
    have e1 : expectToken tokens (cursor + 1) (tokenFromSymbol (ascii "*")) = true := by
      rw [expectToken_view h1]; rfl
    simp only [parseSelectItemLoop, ge_iff_le, hget]
    rw [if_neg (by omega), if_neg (by simp only [Bool.not_eq_true]; rfl),
      if_neg (by simp [hc])]
    simp [hpos, e1, SelectItemText.item, SelectItemText.tokens]
  | lit v =>
    simp only [SelectItemText.tokens, List.cons_append, List.nil_append] at h1
    have h2 := (drop_view h1).2.2
    have e1 : expectToken tokens (cursor + 1) (tokenFromSymbol (ascii "*")) = false := by
      rw [expectToken_view h1]; exact equals_symbol_literal _ v hi
    have e2 : expectToken tokens (cursor + 1 + 1) (tokenFromKeyword (ascii "as")) = false := by
      rw [expectToken_view h2]; exact hn
    simp only [parseSelectItemLoop, ge_iff_le, hget]
    rw [if_neg (by omega), if_neg (by simp only [Bool.not_eq_true]; rfl),
      if_neg (by simp [hc])]
    simp [hpos, e1, e2, parseExpression_view h1 _ hi, SelectItemText.item,
      SelectItemText.tokens]
  | aliased v l n =>
    simp only [SelectItemText.tokens, List.cons_append, List.nil_append] at h1
    have h2 := (drop_view h1).2.2
    have h3 := (drop_view h2).2.2
    have e1 : expectToken tokens (cursor + 1) (tokenFromSymbol (ascii "*")) = false := by
      rw [expectToken_view h1]; exact equals_symbol_literal _ v hi.1
    have e2 : expectToken tokens (cursor + 1 + 1) (tokenFromKeyword (ascii "as")) = true := by
      rw [expectToken_view h2]; rfl
    simp only [parseSelectItemLoop, ge_iff_le, hget]
    rw [if_neg (by omega), if_neg (by simp only [Bool.not_eq_true]; rfl),
      if_neg (by simp [hc])]
    simp [hpos, e1, e2, parseExpression_view h1 _ hi.1, parseToken_view h3, hi.2,
      SelectItemText.item, SelectItemText.tokens]

/-- What follows the items: a comma when there are more of them, and otherwise the token `e`;
neither is the keyword `as` when `e` is not. -/
theorem itemsTail_head (rest : List (Location × SelectItemText)) (e : Token)
    (post : List Token) (he : (tokenFromKeyword (ascii "as")).equals e = false) :
    ∃ nxt r, itemsTail rest ++ e :: post = nxt :: r ∧
      (tokenFromKeyword (ascii "as")).equals nxt = false := by
  cases rest with
  | nil => exact ⟨e, post, rfl, he⟩
  | cons p rest =>
    obtain ⟨l, i⟩ := p
    exact ⟨symbolAt "," l, _, rfl, rfl⟩

theorem parseSelectItemLoop_items (tokens : List Token) (c0 : Nat) (e : Token)
    (post : List Token) (hd : selectDelimiters.any (fun d => d.equals e) = true)
    (he : (tokenFromKeyword (ascii "as")).equals e = false) :
    ∀ (rest : List (Location × SelectItemText)) (cursor fuel : Nat)
      (s : List (Option selectItem)), s ≠ [] → rest.length < fuel →
      (∀ p ∈ rest, p.2.Valid) →
      tokens.drop cursor = itemsTail rest ++ e :: post →
      parseSelectItemLoop tokens c0 selectDelimiters fuel cursor s =
        .ret (some (s ++ rest.map (fun p => p.2.item)),
          cursor + (itemsTail rest).length, true) := by
  intro rest
  induction rest with
  | nil =>
    intro cursor fuel s _ hf _ h
    obtain ⟨f, rfl⟩ : ∃ f, fuel = f + 1 := ⟨fuel - 1, by simp at hf; omega⟩
    simp only [itemsTail, List.nil_append] at h
    rw [parseSelectItemLoop_delim h _ _ hd]
    simp [itemsTail]
  | cons p rest ih =>
    intro cursor fuel s hs hf hl h
    obtain ⟨l, i⟩ := p
    obtain ⟨f, rfl⟩ : ∃ f, fuel = f + 1 := ⟨fuel - 1, by simp at hf; omega⟩
    simp only [itemsTail, List.cons_append, List.append_assoc] at h
    have hv : i.Valid := hl (l, i) (List.mem_cons_self _ _)
    obtain ⟨nxt, r, hnx, hna⟩ := itemsTail_head rest e post he
    have h' := h
    rw [hnx] at h'
    rw [parseSelectItemLoop_next l i h' _ hv hna _ _ hs]
    have h2 : tokens.drop (cursor + 1 + i.tokens.length) = itemsTail rest ++ e :: post := by
      have := congrArg (List.drop (1 + i.tokens.length)) h
      rw [List.drop_drop] at this
      rw [show cursor + 1 + i.tokens.length = cursor + (1 + i.tokens.length) by omega, this]
      rw [show 1 + i.tokens.length = i.tokens.length + 1 by omega, List.drop_succ_cons,
        List.drop_left]
    rw [ih _ f _ (by simp) (by simp at hf; omega)
      (fun p hp => hl p (List.mem_cons_of_mem _ hp)) h2]
    simp only [List.map_cons, itemsTail, List.length_cons, List.length_append,
      List.append_assoc, List.singleton_append]
    congr 3
    omega

theorem parseSelectItem_items (tokens : List Token) (c : Nat) (e : Token) (post : List Token)
    (hd : selectDelimiters.any (fun d => d.equals e) = true)
    (he : (tokenFromKeyword (ascii "as")).equals e = false)
    (items : List (Location × SelectItemText)) (hl : ∀ p ∈ items, p.2.Valid)
    (h : tokens.drop c = itemsTokens items ++ e :: post) :
    parseSelectItem tokens c selectDelimiters =
      .ret (some (items.map (fun p => p.2.item)), c + (itemsTokens items).length, true) := by
  unfold parseSelectItem
  cases items with
  | nil =>
    simp only [itemsTokens, List.nil_append] at h
    rw [parseSelectItemLoop_delim h _ _ hd]
    simp [itemsTokens]
  | cons p rest =>
    obtain ⟨l, i⟩ := p
    simp only [itemsTokens, List.append_assoc] at h
    have hv : i.Valid := hl (l, i) (List.mem_cons_self _ _)
    obtain ⟨nxt, r, hnx, hna⟩ := itemsTail_head rest e post he
    have h' := h
    rw [hnx] at h'
    rw [parseSelectItemLoop_first i h' _ hv hna]
    have h2 : tokens.drop (c + i.tokens.length) = itemsTail rest ++ e :: post := by
      have := congrArg (List.drop (i.tokens.length)) h
      rw [List.drop_drop] at this
      rw [this, List.drop_left]
    have hlen : rest.length < tokens.length := by
      have h3 := congrArg List.length h2
      rw [List.length_drop, List.length_append, List.length_cons] at h3
      have h4 : rest.length ≤ (itemsTail rest).length := by
        clear h2 h3 hl h h' hnx
        induction rest with
        | nil => simp
        | cons q rest ih =>
          obtain ⟨l2, i2⟩ := q
          simp only [itemsTail, List.length_cons, List.length_append]
          omega
      omega
    rw [parseSelectItemLoop_items tokens _ e post hd he rest _ _ _ (by simp) hlen
      (fun p hp => hl p (List.mem_cons_of_mem _ hp)) h2]
    simp only [List.map_cons, itemsTokens, List.length_append, List.singleton_append]
    congr 3
    omega

theorem parseSelectStatement_view (tokens : List Token) (c : Nat) (l0 ls : Location)
    (items : List (Location × SelectItemText)) (fromPart : Option (Location × Token))
    (post : List Token) (hl : ∀ p ∈ items, p.2.Valid)
    (hf : ∀ p, fromPart = some p → p.2.Kind = .IdentifierKind)
    (h : tokens.drop c = selectTokens l0 ls items fromPart ++ post) :
    parseSelectStatement tokens c (tokenFromSymbol (ascii ";")) =
      .ret (some ⟨some (items.map (fun p => p.2.item)),
          fromPart.map (fun p => ⟨some p.2⟩)⟩,
        c + (1 + (itemsTokens items).length + (fromTokens fromPart).length), true) := by
  simp only [selectTokens, List.cons_append, List.append_assoc, List.singleton_append] at h
  have h1 := (drop_view h).2.2
  have e0 : expectToken tokens c (tokenFromKeyword (ascii "select")) = true := by
    rw [expectToken_view h]; rfl
  have hds : [tokenFromKeyword (ascii "from"), tokenFromSymbol (ascii ";")] =
      selectDelimiters := rfl
  simp only [parseSelectStatement, e0, hds]
  cases fromPart with
  | none =>
    simp only [fromTokens, List.nil_append] at h1
    have h2 : tokens.drop (c + 1 + (itemsTokens items).length) = symbolAt ";" ls :: post := by
      have := congrArg (List.drop (itemsTokens items).length) h1
      rw [List.drop_drop] at this
      rw [this, List.drop_left]
    have e1 : expectToken tokens (c + 1 + (itemsTokens items).length)
        (tokenFromKeyword (ascii "from")) = false := by
      rw [expectToken_view h2]; rfl
    rw [parseSelectItem_items tokens (c + 1) (symbolAt ";" ls) post rfl rfl items hl h1]
    simp [e1, fromTokens]
    omega
  | some p =>
    obtain ⟨l, t⟩ := p
    simp only [fromTokens, List.cons_append, List.nil_append] at h1
    have h2 : tokens.drop (c + 1 + (itemsTokens items).length) =
        keywordAt "from" l :: t :: symbolAt ";" ls :: post := by
      have := congrArg (List.drop (itemsTokens items).length) h1
      rw [List.drop_drop] at this
      rw [this, List.drop_left]
    have h3 := (drop_view h2).2.2
    have e1 : expectToken tokens (c + 1 + (itemsTokens items).length)
        (tokenFromKeyword (ascii "from")) = true := by
      rw [expectToken_view h2]; rfl
    have e2 : parseFromItem tokens (c + 1 + (itemsTokens items).length + 1)
        (tokenFromSymbol (ascii ";")) =
        (some ⟨some t⟩, c + 1 + (itemsTokens items).length + 1 + 1, true) := by
      simp only [parseFromItem, parseToken_view h3]
      rw [if_pos (hf (l, t) rfl)]
    rw [parseSelectItem_items tokens (c + 1) (keywordAt "from" l) _ rfl rfl items hl h1]
    simp [e1, e2, fromTokens]
    omega

/-- C14: for every list of select items, each `*`, a literal token, or a literal token with
`as` and an Identifier token, and for an optional clause `from t` with an Identifier token
`t`, `parseSelectStatement` at cursor 0 with the delimiter `;` on the tokens
`select item , ... from t ;` succeeds, returns the items in order (the asterisk flag and no
expression for `*`, otherwise the literal expression and the alias if present), returns the
table `t` exactly when the clause is there, and returns the cursor at the `;` token; and
`Parse` returns the trees of `TestParse` for `SELECT *, exclusive;` and
`SELECT id, name AS fullname FROM users;`. -/
theorem parseSelectStatement_accepts (l0 ls : Location)
    (items : List (Location × SelectItemText)) (fromPart : Option (Location × Token))
    (hl : ∀ p ∈ items, p.2.Valid) (hf : ∀ p, fromPart = some p → p.2.Kind = .IdentifierKind) :
    parseSelectStatement (selectTokens l0 ls items fromPart) 0 (tokenFromSymbol (ascii ";")) =
        .ret (some ⟨some (items.map (fun p => p.2.item)),
            fromPart.map (fun p => ⟨some p.2⟩)⟩,
          (selectTokens l0 ls items fromPart).length - 1, true) ∧
      (selectTokens l0 ls items fromPart)[(selectTokens l0 ls items fromPart).length - 1]? =
        some (symbolAt ";" ls) ∧
      Parse (ascii "SELECT *, exclusive;") =
        .ret (.ast ⟨[some ⟨some ⟨some [some ⟨none, true, none⟩,
          some ⟨literalOf ⟨ascii "exclusive", .IdentifierKind, ⟨0, 10⟩⟩, false, none⟩], none⟩,
          none, none, .SelectKind⟩]⟩) ∧
      Parse (ascii "SELECT id, name AS fullname FROM users;") =
        .ret (.ast ⟨[some ⟨some ⟨some [
          some ⟨literalOf ⟨ascii "id", .IdentifierKind, ⟨0, 7⟩⟩, false, none⟩,
          some ⟨literalOf ⟨ascii "name", .IdentifierKind, ⟨0, 11⟩⟩, false,
            some ⟨ascii "fullname", .IdentifierKind, ⟨0, 19⟩⟩⟩],
          some ⟨some ⟨ascii "users", .IdentifierKind, ⟨0, 33⟩⟩⟩⟩,
          none, none, .SelectKind⟩]⟩) := by
  have hlen : (selectTokens l0 ls items fromPart).length =
      1 + (itemsTokens items).length + (fromTokens fromPart).length + 1 := by
    simp only [selectTokens, List.length_cons, List.length_append, List.length_nil]
    omega
  refine ⟨?_, ?_, by decide, by decide⟩
  · have := parseSelectStatement_view (selectTokens l0 ls items fromPart) 0 l0 ls items
      fromPart [] hl hf (by simp)
    rw [this, hlen]
    simp
  · rw [hlen]
    simp only [selectTokens]
    rw [List.getElem?_append_right (by simp; omega)]
    simp only [List.length_cons, List.length_append]
    rw [show 1 + (itemsTokens items).length + (fromTokens fromPart).length + 1 - 1 -
      ((itemsTokens items).length + 1 + (fromTokens fromPart).length) = 0 by omega]
    rfl

/-- The tokens of `SELECT id, name AS fullname FROM users;` parse to the two items and the
table `users`, with the cursor 8 at the semicolon. -/
theorem parseSelectStatement_accepts_witness :
    parseSelectStatement (lexTokens (ascii "SELECT id, name AS fullname FROM users;")) 0
        (tokenFromSymbol (ascii ";")) =
      .ret (some ⟨some [some ⟨literalOf ⟨ascii "id", .IdentifierKind, ⟨0, 7⟩⟩, false, none⟩,
          some ⟨literalOf ⟨ascii "name", .IdentifierKind, ⟨0, 11⟩⟩, false,
            some ⟨ascii "fullname", .IdentifierKind, ⟨0, 19⟩⟩⟩],
        some ⟨some ⟨ascii "users", .IdentifierKind, ⟨0, 33⟩⟩⟩⟩, 8, true) :=
  (parseSelectStatement_accepts ⟨0, 0⟩ ⟨0, 38⟩
    [(⟨0, 0⟩, .lit ⟨ascii "id", .IdentifierKind, ⟨0, 7⟩⟩),
      (⟨0, 9⟩, .aliased ⟨ascii "name", .IdentifierKind, ⟨0, 11⟩⟩ ⟨0, 16⟩
        ⟨ascii "fullname", .IdentifierKind, ⟨0, 19⟩⟩)]
    (some (⟨0, 28⟩, ⟨ascii "users", .IdentifierKind, ⟨0, 33⟩⟩)) (by decide)
    (by intro p hp; cases hp; rfl)).1

/-! ## Empty value and column lists -/

theorem parseToken_ok (tokens : List Token) (c : Nat) (kind : TokenKind) (p : Option Token)
    (c' : Nat) (h : parseToken tokens c kind = (p, c', true)) :
    c' = c + 1 ∧ ∃ t, p = some t ∧ tokens[c]? = some t ∧ t.Kind = kind := by
  simp only [parseToken] at h
  split at h
  · cases h
  split at h
  · cases h
  · rename_i current hget
    split at h
    · cases h
      exact ⟨rfl, current, rfl, hget, by assumption⟩
    · cases h

theorem expectToken_true (tokens : List Token) (c : Nat) (x : Token) :
    expectToken tokens c x = true ↔ ∃ t, tokens[c]? = some t ∧ x.equals t = true := by
  simp only [expectToken]
  by_cases hge : c ≥ tokens.length
  · rw [if_pos hge]
    simp only [Bool.false_eq_true, false_iff, not_exists, not_and]
    intro t ht
    rw [List.getElem?_eq_none (by omega)] at ht
    cases ht
  · rw [if_neg hge]
    cases hget : tokens[c]? with
    | none => simp
    | some cur => simp

theorem parseExpressionsLoop_ok (tokens : List Token) (c : Nat) (ds : List Token)
    (fuel : Nat) : ∀ (cursor : Nat) (exps : List (Option expression))
      (p : Option (List (Option expression))) (c' : Nat),
      parseExpressionsLoop tokens c ds fuel cursor exps = .ret (p, c', true) →
      ∃ more, p = some (exps ++ more) ∧
        (more = [] ↔ ∃ t, tokens[cursor]? = some t ∧ ds.any (fun d => d.equals t) = true) := by
  induction fuel with
  | zero => intro cursor exps p c' h; cases h
  | succ n ih =>
    intro cursor exps p c' h
    simp only [parseExpressionsLoop] at h
    split at h
    · cases h
    split at h
    · cases h
    rename_i current hget
    split at h
    · rename_i hd
      cases h
      exact ⟨[], by simp, iff_of_true rfl ⟨current, hget, hd⟩⟩
    rename_i hd
    split at h
    · exact (helpThenReturn_ok _ _ _ _ _ h).elim
    generalize parseExpression tokens _ _ = pe at h
    obtain ⟨exp, nc, ok⟩ := pe
    cases ok
    · exact (helpThenReturn_ok _ _ _ _ _ h).elim
    · obtain ⟨more, hp, _⟩ := ih _ _ _ _ h
      refine ⟨exp :: more, by simp [hp], ?_⟩
      simp only [reduceCtorEq, false_iff, not_exists, not_and]
      intro t ht
      rw [hget] at ht
      cases ht
      simpa using hd

theorem parseColumnDefinitionsLoop_ok (tokens : List Token) (c : Nat) (d : Token)
    (fuel : Nat) : ∀ (cursor : Nat) (cds : List (Option columnDefinition))
      (p : Option (List (Option columnDefinition))) (c' : Nat),
      parseColumnDefinitionsLoop tokens c d fuel cursor cds = .ret (p, c', true) →
      ∃ more, p = some (cds ++ more) ∧
        (more = [] ↔ ∃ t, tokens[cursor]? = some t ∧ d.equals t = true) := by
  induction fuel with
  | zero => intro cursor cds p c' h; cases h
  | succ n ih =>
    intro cursor cds p c' h
    simp only [parseColumnDefinitionsLoop] at h
    split at h
    · cases h
    split at h
    · cases h
    rename_i current hget
    split at h
    · rename_i hd
      cases h
      exact ⟨[], by simp, iff_of_true rfl ⟨current, hget, hd⟩⟩
    rename_i hd
    split at h
    · exact (helpThenReturn_ok _ _ _ _ _ h).elim
    generalize parseToken tokens _ .IdentifierKind = pt at h
    obtain ⟨id, nc, ok⟩ := pt
    cases ok
    · exact (helpThenReturn_ok _ _ _ _ _ h).elim
    simp only at h
    generalize parseToken tokens _ .KeywordKind = pt2 at h
    obtain ⟨ty, nc2, ok2⟩ := pt2
    cases ok2
    · exact (helpThenReturn_ok _ _ _ _ _ h).elim
    simp only at h
    split at h
    · rename_i idt tyt
      obtain ⟨more, hp, _⟩ := ih _ _ _ _ h
      refine ⟨some ⟨idt, tyt⟩ :: more, by simp [hp], ?_⟩
      simp only [reduceCtorEq, false_iff, not_exists, not_and]
      intro t ht
      rw [hget] at ht
      cases ht
      simpa using hd
    · cases h

theorem parseInsertStatement_ok (tokens : List Token) (c : Nat) (d : Token)
    (st : InsertStatement) (c' : Nat)
    (h : parseInsertStatement tokens c d = .ret (some st, c', true)) :
    ∃ vs, st.values = some vs ∧
      (vs = [] ↔ expectToken tokens (c + 5) (tokenFromSymbol (ascii ")")) = true) := by
  simp only [parseInsertStatement] at h
  split at h
  · cases h
  split at h
  · exact (helpThenReturn_ok _ _ _ _ _ h).elim
  generalize hpt : parseToken tokens _ _ = pt at h
  obtain ⟨table, nc, ok⟩ := pt
  cases ok
  · exact (helpThenReturn_ok _ _ _ _ _ h).elim
  obtain ⟨rfl, -⟩ := parseToken_ok _ _ _ _ _ hpt
  simp only at h
  split at h
  · exact (helpThenReturn_ok _ _ _ _ _ h).elim
  split at h
  · exact (helpThenReturn_ok _ _ _ _ _ h).elim
  generalize hpe : parseExpressions tokens _ _ = pe at h
  rcases pe with ⟨values, nc2, ok2⟩ | _ | _
  · cases ok2
    · cases h
    simp only at h
    split at h
    · exact (helpThenReturn_ok _ _ _ _ _ h).elim
    split at h
    · cases h
    · cases h
      obtain ⟨more, hp, hiff⟩ := parseExpressionsLoop_ok _ _ _ _ _ _ _ _ hpe
      refine ⟨more, by simpa using hp, ?_⟩
      rw [hiff, expectToken_true]
      simp
  · cases h
  · cases h

theorem parseCreateTableStatement_ok (tokens : List Token) (c : Nat) (d : Token)
    (st : CreateTableStatement) (c' : Nat)
    (h : parseCreateTableStatement tokens c d = .ret (some st, c', true)) :
    ∃ cds, st.cols = some cds ∧
      (cds = [] ↔ expectToken tokens (c + 4) (tokenFromSymbol (ascii ")")) = true) := by
  simp only [parseCreateTableStatement] at h
  split at h
  · cases h
  split at h
  · cases h
  generalize hpt : parseToken tokens _ _ = pt at h
  obtain ⟨name, nc, ok⟩ := pt
  cases ok
  · exact (helpThenReturn_ok _ _ _ _ _ h).elim
  obtain ⟨rfl, -⟩ := parseToken_ok _ _ _ _ _ hpt
  simp only at h
  split at h
  · exact (helpThenReturn_ok _ _ _ _ _ h).elim
  generalize hpe : parseColumnDefinitions tokens _ _ = pe at h
  rcases pe with ⟨cols, nc2, ok2⟩ | _ | _
  · cases ok2
    · cases h
    simp only at h
    split at h
    · exact (helpThenReturn_ok _ _ _ _ _ h).elim
    split at h
    · cases h
    · cases h
      obtain ⟨more, hp, hiff⟩ := parseColumnDefinitionsLoop_ok _ _ _ _ _ _ _ _ hpe
      refine ⟨more, by simpa using hp, ?_⟩
      rw [hiff, expectToken_true]
  · cases h
  · cases h

/-- C17 as stated fails: `Parse` accepts `INSERT INTO t VALUES ();` and returns one Insert
statement whose value list is empty. -/
theorem insert_values_counterexample :
    Parse (ascii "INSERT INTO t VALUES ();") =
      .ret (.ast ⟨[some ⟨none, none,
        some ⟨⟨ascii "t", .IdentifierKind, ⟨0, 12⟩⟩, some []⟩, .InsertKind⟩]⟩) := by
  decide

/-- C17, amended: every InsertStatement returned by `parseInsertStatement` carries a value
list, and the list is empty exactly when the token after `(` is `)`; `Parse` accepts
`INSERT INTO t VALUES ();` with an empty value list. -/
theorem insert_values (tokens : List Token) (c : Nat) (d : Token) (st : InsertStatement)
    (c' : Nat) (h : parseInsertStatement tokens c d = .ret (some st, c', true)) :
    (∃ vs, st.values = some vs ∧
        (vs = [] ↔ expectToken tokens (c + 5) (tokenFromSymbol (ascii ")")) = true)) ∧
      Parse (ascii "INSERT INTO t VALUES ();") =
        .ret (.ast ⟨[some ⟨none, none,
          some ⟨⟨ascii "t", .IdentifierKind, ⟨0, 12⟩⟩, some []⟩, .InsertKind⟩]⟩) :=
  ⟨parseInsertStatement_ok tokens c d st c' h, by decide⟩

/-- The statement parsed from the tokens of `INSERT INTO t VALUES ()` has an empty value list,
and `)` is the token after `(`. -/
theorem insert_values_witness :
    ∃ vs, (InsertStatement.mk ⟨ascii "t", .IdentifierKind, ⟨0, 12⟩⟩ (some [])).values = some vs ∧
      (vs = [] ↔ expectToken (lexTokens (ascii "INSERT INTO t VALUES ()")) (0 + 5)
        (tokenFromSymbol (ascii ")")) = true) :=
  (insert_values (lexTokens (ascii "INSERT INTO t VALUES ()")) 0 (tokenFromSymbol (ascii ";"))
    ⟨⟨ascii "t", .IdentifierKind, ⟨0, 12⟩⟩, some []⟩ 6 (by decide)).1

/-- C18 as stated fails: `Parse` accepts `CREATE TABLE t ();` and returns one CreateTable
statement whose column list is empty. -/
theorem create_columns_counterexample :
    Parse (ascii "CREATE TABLE t ();") =
      .ret (.ast ⟨[some ⟨none,
        some ⟨⟨ascii "t", .IdentifierKind, ⟨0, 13⟩⟩, some []⟩, none, .CreateTableKind⟩]⟩) := by
  decide

/-- C18, amended: every CreateTableStatement returned by `parseCreateTableStatement` carries a
list of column definitions, and the list is empty exactly when the token after `(` is `)`;
`Parse` accepts `CREATE TABLE t ();` with an empty column list. -/
theorem create_columns (tokens : List Token) (c : Nat) (d : Token) (st : CreateTableStatement)
    (c' : Nat) (h : parseCreateTableStatement tokens c d = .ret (some st, c', true)) :
    (∃ cds, st.cols = some cds ∧
        (cds = [] ↔ expectToken tokens (c + 4) (tokenFromSymbol (ascii ")")) = true)) ∧
      Parse (ascii "CREATE TABLE t ();") =
        .ret (.ast ⟨[some ⟨none,
          some ⟨⟨ascii "t", .IdentifierKind, ⟨0, 13⟩⟩, some []⟩, none, .CreateTableKind⟩]⟩) :=
  ⟨parseCreateTableStatement_ok tokens c d st c' h, by decide⟩

/-- The statement parsed from the tokens of `CREATE TABLE t ()` has an empty column list, and
`)` is the token after `(`. -/
theorem create_columns_witness :
    ∃ cds, (CreateTableStatement.mk ⟨ascii "t", .IdentifierKind, ⟨0, 13⟩⟩ (some [])).cols =
        some cds ∧
      (cds = [] ↔ expectToken (lexTokens (ascii "CREATE TABLE t ()")) (0 + 4)
        (tokenFromSymbol (ascii ")")) = true) :=
  (create_columns (lexTokens (ascii "CREATE TABLE t ()")) 0 (tokenFromSymbol (ascii ";"))
    ⟨⟨ascii "t", .IdentifierKind, ⟨0, 13⟩⟩, some []⟩ 5 (by decide)).1

/-! ## The scanners as functions of the text at the cursor -/

theorem bestOption_foldl (r : List Nat) (opts : List (List Nat)) :
    ∀ (all : List (List Nat)) (best : List Nat),
      (best = [] ∨ (best ∈ all ∧ matchesText r best)) → (∀ o ∈ opts, o ∈ all) →
      (fun res : List Nat => (res = [] ∨ (res ∈ all ∧ matchesText r res)) ∧
          best.length ≤ res.length ∧ ∀ o ∈ opts, matchesText r o → o.length ≤ res.length)
        (opts.foldl (fun best o =>
          if matchesText r o ∧ best.length < o.length then o else best) best) := by
  induction opts with
  | nil => intro all best hb _; exact ⟨hb, le_refl _, fun o ho => by cases ho⟩
  | cons o opts ih =>
    intro all best hb hall
    simp only [List.foldl_cons]
    have hall' : ∀ x ∈ opts, x ∈ all := fun x hx => hall x (List.mem_cons_of_mem _ hx)
    by_cases hc : matchesText r o ∧ best.length < o.length
    · rw [if_pos hc]
      obtain ⟨h1, h2, h3⟩ := ih all o (Or.inr ⟨hall o (List.mem_cons_self _ _), hc.1⟩) hall'
      refine ⟨h1, by omega, fun x hx hm => ?_⟩
      rcases List.mem_cons.1 hx with rfl | hx
      · exact h2
      · exact h3 x hx hm
    · rw [if_neg hc]
      obtain ⟨h1, h2, h3⟩ := ih all best hb hall'
      refine ⟨h1, h2, fun x hx hm => ?_⟩
      rcases List.mem_cons.1 hx with rfl | hx
      · have : ¬ best.length < x.length := fun hlt => hc ⟨hm, hlt⟩
        omega
      · exact h3 x hx hm

theorem bestOption_spec (opts : List (List Nat)) (r : List Nat) :
    (bestOption opts r = [] ∨ (bestOption opts r ∈ opts ∧ matchesText r (bestOption opts r))) ∧
      ∀ o ∈ opts, matchesText r o → o.length ≤ (bestOption opts r).length := by
  have := bestOption_foldl r opts opts [] (Or.inl rfl) (fun o ho => ho)
  exact ⟨this.1, this.2.2⟩

/-- Two texts that satisfy the specification of `longestMatch` on the same candidates are
equal. -/
theorem longest_unique (opts : List (List Nat)) (r : List Nat) (a b : List Nat)
    (ha : a = [] ∨ (a ∈ opts ∧ matchesText r a))
    (ha' : ∀ o ∈ opts, matchesText r o → o.length ≤ a.length)
    (hb : b = [] ∨ (b ∈ opts ∧ matchesText r b))
    (hb' : ∀ o ∈ opts, matchesText r o → o.length ≤ b.length) : a = b := by
  have key : ∀ x y : List Nat, (x = [] ∨ (x ∈ opts ∧ matchesText r x)) →
      (∀ o ∈ opts, matchesText r o → o.length ≤ x.length) →
      (y = [] ∨ (y ∈ opts ∧ matchesText r y)) → x = [] → y = [] := by
    intro x y _ hx' hy hx
    rcases hy with hy | ⟨hyin, hym⟩
    · exact hy
    · have := hx' y hyin hym
      rw [hx] at this
      exact List.length_eq_zero.1 (by simpa using this)
  rcases ha with ha0 | ⟨hain, ham⟩
  · rw [ha0, key a b (Or.inl ha0) ha' hb ha0]
  rcases hb with hb0 | ⟨hbin, hbm⟩
  · rw [hb0, key b a (Or.inl hb0) hb' (Or.inr ⟨hain, ham⟩) hb0]
  have h1 := ha' b hbin hbm
  have h2 := hb' a hain ham
  have hlen : a.length = b.length := by omega
  unfold matchesText at ham hbm
  rw [← ham, ← hbm, hlen]

theorem longestMatch_ref (source : List Nat) (ic : Cursor) (opts : List (List Nat))
    (hopts : ∀ o ∈ opts, o ≠ [] ∧ ∀ b ∈ o, b < 128) :
    longestMatch source ic opts = .ret (bestOption opts (source.drop ic.Pointer)) := by
  obtain ⟨res, hres, h1, h2⟩ := longestMatch_spec source ic opts hopts
  obtain ⟨h3, h4⟩ := bestOption_spec opts (source.drop ic.Pointer)
  rw [hres, longest_unique opts _ res _ h1 h2 h3 h4]

theorem lexCharacterDelimitedLoop_ref (source : List Nat) (ic : Cursor) (d : Nat) :
    ∀ (rest : List Nat) (fuel : Nat) (cur : Cursor) (value : List Nat),
      source.drop cur.Pointer = rest → rest.length < fuel →
      lexCharacterDelimitedLoop source ic d fuel cur value =
        match delimitedRun d rest value with
        | none => .ret (none, ic, false)
        | some (v, m) => .ret (some ⟨v, .StringKind, ic.Loc⟩, (cur.advance m).ptrInc, true) := by
  intro rest
  induction rest with
  | nil =>
    intro fuel cur value h hf
    obtain ⟨f, rfl⟩ : ∃ f, fuel = f + 1 := ⟨fuel - 1, by omega⟩
    have hend : source.length ≤ cur.Pointer := by
      have := congrArg List.length h
      simp only [List.length_drop, List.length_nil] at this
      omega
    rw [lexCharacterDelimitedLoop_end _ _ _ _ _ _ hend]
    rfl
  | cons c rest ih =>
    intro fuel cur value h hf
    obtain ⟨f, rfl⟩ : ∃ f, fuel = f + 1 := ⟨fuel - 1, by omega⟩
    simp only [List.length_cons] at hf
    have h2 : source.drop cur.colInc.ptrInc.Pointer = rest := (drop_eq_cons h).2.2
    simp only [delimitedRun]
    by_cases hc : c = d ∧ rest.head? ≠ some d
    · rw [if_pos hc]
      obtain ⟨rfl, hh⟩ := hc
      rw [lexCharacterDelimitedLoop_close source ic c f cur value rest h hh]
      rfl
    · rw [if_neg hc]
      have step : lexCharacterDelimitedLoop source ic d (f + 1) cur value =
          lexCharacterDelimitedLoop source ic d f cur.colInc.ptrInc (value ++ [c]) := by
        by_cases hcd : c = d
        · subst hcd
          have hh : rest.head? = some c := by
            by_contra hne
            exact hc ⟨rfl, hne⟩
          obtain ⟨r2, rfl⟩ : ∃ r2, rest = c :: r2 := by
            cases rest with
            | nil => cases hh
            | cons x r2 => simp only [List.head?_cons, Option.some.injEq] at hh; exact ⟨r2, by rw [hh]⟩
          exact lexCharacterDelimitedLoop_doubled source ic c f cur value r2 h
        · have := lexCharacterDelimitedLoop_body source ic d [c] f cur value rest
            (by simpa using h) (by simpa using hcd)
          simpa [Cursor.advance, Cursor.colInc, Cursor.ptrInc] using this
      rw [step, ih f _ _ h2 (by omega)]
      cases delimitedRun d rest (value ++ [c]) with
      | none => rfl
      | some p =>
        obtain ⟨v, m⟩ := p
        simp only [Option.map_some']
        rw [advance_step]

theorem lexCharacterDelimited_ref (source : List Nat) (ic : Cursor) (d : Nat) (r : List Nat)
    (h : source.drop ic.Pointer = r) (hle : ic.Pointer ≤ source.length) :
    lexCharacterDelimited source ic d =
      match delimitedRef d r with
      | none => .ret (none, ic, false)
      | some (v, m) =>
        .ret (some ⟨v, .StringKind, ic.Loc⟩, (ic.advance (m + 1)).ptrInc, true) := by
  cases r with
  | nil =>
    have hlen : source.length - ic.Pointer = 0 := by
      have := congrArg List.length h
      simpa using this
    simp only [lexCharacterDelimited, delimitedRef]
    rw [if_neg (by omega), if_pos hlen]
  | cons c rest =>
    obtain ⟨hlt, hget, h2⟩ := drop_eq_cons h
    simp only [lexCharacterDelimited, delimitedRef, hget]
    rw [if_neg (by omega), if_neg (by omega)]
    by_cases hc : c = d
    · rw [if_neg (by simpa using hc), if_pos hc]
      rw [lexCharacterDelimitedLoop_ref source ic d rest _ _ _ h2 (by
        have := congrArg List.length h2
        simp only [List.length_drop] at this
        omega)]
      cases delimitedRun d rest [] with
      | none => rfl
      | some p =>
        obtain ⟨v, m⟩ := p
        simp only
        rw [advance_step]
    · rw [if_pos (by simpa using hc), if_neg hc]

theorem numericRun_cons (c : Nat) (rest : List Nat) (first pf ef : Bool) :
    numericRun (c :: rest) first pf ef =
      if first then
        if ¬ (48 ≤ c ∧ c ≤ 57) ∧ c ≠ 46 then none
        else (numericRun rest false (decide (c = 46)) ef).map (fun p => (p.1 + 1, p.2 + 1))
      else if c = 46 then
        if pf then none
        else (numericRun rest false true ef).map (fun p => (p.1 + 1, p.2 + 1))
      else if c = 101 then
        if ef then none
        else
          match rest with
          | [] => none
          | cNext :: rest2 =>
            if cNext = 45 ∨ cNext = 43 then
              (numericRun rest2 false true true).map (fun p => (p.1 + 2, p.2 + 2))
            else (numericRun rest false true true).map (fun p => (p.1 + 1, p.2 + 1))
      else if ¬ (48 ≤ c ∧ c ≤ 57) then some (0, 1)
      else (numericRun rest false pf ef).map (fun p => (p.1 + 1, p.2 + 1)) := by
  cases rest with
  | nil => conv_lhs => rw [numericRun]
  | cons x r2 => conv_lhs => rw [numericRun]

theorem shift_step (cur : Cursor) (n k : Nat) :
    cur.colInc.ptrInc.shift n k = cur.shift (n + 1) (k + 1) := by
  simp only [Cursor.shift, Cursor.colInc, Cursor.ptrInc, Function.iterate_succ_apply]
  congr 1
  omega

theorem shift_step2 (cur : Cursor) (n k : Nat) :
    cur.colInc.ptrInc.colInc.ptrInc.shift n k = cur.shift (n + 2) (k + 2) := by
  rw [shift_step, shift_step]

theorem lexNumericLoop_ref (source : List Nat) (ic : Cursor) :
    ∀ (fuel : Nat) (rest : List Nat) (cur : Cursor) (pf ef : Bool),
      source.drop cur.Pointer = rest → rest.length < fuel →
      (cur.Pointer = ic.Pointer → cur = ic ∧ pf = false) → ic.Pointer ≤ cur.Pointer →
      lexNumericLoop source ic fuel cur pf ef =
        match numericRun rest (decide (cur.Pointer = ic.Pointer)) pf ef with
        | none => .ret (none, ic, false)
        | some (n, k) => lexNumericFinish source ic (cur.shift n k) := by
  intro fuel
  induction fuel with
  | zero => intro rest cur pf ef _ hf; omega
  | succ f ih =>
    intro rest cur pf ef h hf hfirst hle
    have hnext : decide (cur.colInc.ptrInc.Pointer = ic.Pointer) = false := by
      simp only [Cursor.colInc, Cursor.ptrInc, decide_eq_false_iff_not]
      omega
    have hfirst' : cur.colInc.ptrInc.Pointer = ic.Pointer →
        cur.colInc.ptrInc = ic ∧ true = false := by
      simp only [Cursor.colInc, Cursor.ptrInc]
      omega
    have hle' : ic.Pointer ≤ cur.colInc.ptrInc.Pointer := by
      simp only [Cursor.colInc, Cursor.ptrInc]
      omega
    cases rest with
    | nil =>
      have hend : source.length ≤ cur.Pointer := by
        have := congrArg List.length h
        simp only [List.length_drop, List.length_nil] at this
        omega
      rw [lexNumericLoop_end _ _ _ _ _ _ hend]
      by_cases hp : cur.Pointer = ic.Pointer
      · simp [numericRun, hp, lexNumericFinish]
      · simp only [numericRun, hp, decide_False, Bool.false_eq_true, if_false]
        rfl
    | cons c rest =>
      simp only [List.length_cons] at hf
      have h2 : source.drop cur.colInc.ptrInc.Pointer = rest := (drop_eq_cons h).2.2
      have rec1 : ∀ (pf' ef' : Bool), (cur.colInc.ptrInc.Pointer = ic.Pointer →
          cur.colInc.ptrInc = ic ∧ pf' = false) →
          lexNumericLoop source ic f cur.colInc.ptrInc pf' ef' =
            match (numericRun rest false pf' ef').map (fun p => (p.1 + 1, p.2 + 1)) with
            | none => .ret (none, ic, false)
            | some (n, k) => lexNumericFinish source ic (cur.shift n k) := by
        intro pf' ef' hx
        rw [ih rest _ pf' ef' h2 (by omega) hx hle', hnext]
        cases numericRun rest false pf' ef' with
        | none => rfl
        | some p =>
          obtain ⟨n, k⟩ := p
          simp only [Option.map_some']
          rw [shift_step]
      have hx : ∀ pf' : Bool, cur.colInc.ptrInc.Pointer = ic.Pointer →
          cur.colInc.ptrInc = ic ∧ pf' = false := by
        intro pf'
        simp only [Cursor.colInc, Cursor.ptrInc]
        omega
      by_cases hp : cur.Pointer = ic.Pointer
      · obtain ⟨hcur, hpf⟩ := hfirst hp
        subst hpf
        simp only [numericRun_cons, hp, decide_True, if_true]
        by_cases hc : ¬ (48 ≤ c ∧ c ≤ 57) ∧ c ≠ 46
        · rw [if_pos hc]
          rw [hcur] at h ⊢
          rw [lexNumericLoop_first_reject source ic f false ef c rest h hc.1 hc.2]
        · rw [if_neg hc]
          by_cases h46 : c = 46
          · subst h46
            rw [lexNumericLoop_period source ic f cur ef rest h, rec1 true ef (hx _)]
            rfl
          · have hd : 48 ≤ c ∧ c ≤ 57 := by
              by_contra hnd
              exact hc ⟨hnd, h46⟩
            rw [lexNumericLoop_digit source ic f cur false ef c rest h hd (fun _ => rfl),
              rec1 false ef (hx _)]
            simp [h46]
      · simp only [numericRun_cons, hp, decide_False, Bool.false_eq_true, if_false]
        by_cases h46 : c = 46
        · subst h46
          rw [if_pos rfl]
          cases pf with
          | true =>
            rw [lexNumericLoop_period_reject source ic f cur ef rest h hp]
            rfl
          | false =>
            rw [lexNumericLoop_period source ic f cur ef rest h, rec1 true ef (hx _)]
            rfl
        · rw [if_neg h46]
          by_cases h101 : c = 101
          · subst h101
            rw [if_pos rfl]
            cases ef with
            | true =>
              rw [lexNumericLoop_exp_reject source ic f cur pf rest h]
              rfl
            | false =>
              simp only [Bool.false_eq_true, if_false]
              cases rest with
              | nil =>
                rw [lexNumericLoop_exp_last source ic f cur pf false h]
              | cons cNext rest2 =>
                rw [lexNumericLoop_exp source ic f cur pf cNext rest2 h hp]
                by_cases hs : cNext = 45 ∨ cNext = 43
                · rw [if_pos hs]
                  simp only [if_pos hs]
                  have h3 : source.drop cur.colInc.ptrInc.colInc.ptrInc.Pointer = rest2 :=
                    (drop_eq_cons h2).2.2
                  rw [ih rest2 _ true true h3 (by simp only [List.length_cons] at hf; omega)
                    (by simp only [Cursor.colInc, Cursor.ptrInc]; omega)
                    (by simp only [Cursor.colInc, Cursor.ptrInc]; omega)]
                  have hn2 : decide (cur.colInc.ptrInc.colInc.ptrInc.Pointer = ic.Pointer) =
                      false := by
                    simp only [Cursor.colInc, Cursor.ptrInc, decide_eq_false_iff_not]
                    omega
                  rw [hn2]
                  cases numericRun rest2 false true true with
                  | none => rfl
                  | some p =>
                    obtain ⟨n, k⟩ := p
                    simp only [Option.map_some']
                    rw [shift_step2]
                · rw [if_neg hs]
                  simp only [if_neg hs]
                  exact rec1 true true (hx _)
          · rw [if_neg h101]
            by_cases hd : 48 ≤ c ∧ c ≤ 57
            · rw [if_neg (not_not.2 hd)]
              rw [lexNumericLoop_digit source ic f cur pf ef c rest h hd
                (fun he => absurd he hp)]
              exact rec1 pf ef (hx _)
            · rw [if_pos hd]
              rw [lexNumericLoop_break source ic f cur pf ef c rest h hd h46 h101 hp]
              rfl

theorem numericRun_bounds : ∀ (m : Nat) (r : List Nat) (first pf ef : Bool) (n k : Nat),
    r.length ≤ m → numericRun r first pf ef = some (n, k) →
    n ≤ r.length ∧ n ≤ k ∧ k ≤ n + 1 ∧ (first = true → 1 ≤ n) := by
  intro m
  induction m with
  | zero =>
    intro r first pf ef n k hm h
    have : r = [] := List.length_eq_zero.1 (by omega)
    subst this
    cases first <;> simp [numericRun] at h
    obtain ⟨rfl, rfl⟩ := h
    simp
  | succ m ih =>
    intro r first pf ef n k hm h
    cases r with
    | nil =>
      cases first <;> simp [numericRun] at h
      obtain ⟨rfl, rfl⟩ := h
      simp
    | cons c rest =>
      simp only [List.length_cons] at hm ⊢
      have rec1 : ∀ (pf' ef' : Bool),
          (numericRun rest false pf' ef').map (fun p => (p.1 + 1, p.2 + 1)) = some (n, k) →
          n ≤ rest.length + 1 ∧ n ≤ k ∧ k ≤ n + 1 ∧ 1 ≤ n := by
        intro pf' ef' hr
        cases hq : numericRun rest false pf' ef' with
        | none => rw [hq] at hr; cases hr
        | some p =>
          obtain ⟨n', k'⟩ := p
          rw [hq] at hr
          simp only [Option.map_some', Option.some.injEq, Prod.mk.injEq] at hr
          obtain ⟨rfl, rfl⟩ := hr
          have := ih rest false pf' ef' n' k' (by omega) hq
          omega
      rw [numericRun_cons] at h
      split at h
      · split at h
        · cases h
        · have := rec1 _ _ h
          exact ⟨this.1, this.2.1, this.2.2.1, fun _ => this.2.2.2⟩
      · rename_i hfirst
        have hfalse : first = true → 1 ≤ n := fun hf => absurd hf hfirst
        split at h
        · split at h
          · cases h
          · have := rec1 _ _ h
            exact ⟨this.1, this.2.1, this.2.2.1, hfalse⟩
        · split at h
          · split at h
            · cases h
            · cases rest with
              | nil => cases h
              | cons cNext rest2 =>
                simp only at h
                split at h
                · cases hq : numericRun rest2 false true true with
                  | none => rw [hq] at h; cases h
                  | some p =>
                    obtain ⟨n', k'⟩ := p
                    rw [hq] at h
                    simp only [Option.map_some', Option.some.injEq, Prod.mk.injEq] at h
                    obtain ⟨rfl, rfl⟩ := h
                    have := ih rest2 false true true n' k'
                      (by simp only [List.length_cons] at hm; omega) hq
                    simp only [List.length_cons]
                    refine ⟨by omega, by omega, by omega, hfalse⟩
                · have := rec1 _ _ h
                  exact ⟨this.1, this.2.1, this.2.2.1, hfalse⟩
          · split at h
            · cases h
              exact ⟨by omega, by omega, by omega, hfalse⟩
            · have := rec1 _ _ h
              exact ⟨this.1, this.2.1, this.2.2.1, hfalse⟩

theorem lexNumeric_ref (source : List Nat) (ic : Cursor) (r : List Nat)
    (h : source.drop ic.Pointer = r) :
    lexNumeric source ic =
      match numericRun r true false false with
      | none => .ret (none, ic, false)
      | some (n, k) => .ret (some ⟨r.take n, .NumericKind, ic.Loc⟩, ic.shift n k, true) := by
  unfold lexNumeric
  rw [lexNumericLoop_ref source ic _ r ic false false h (by
    have := congrArg List.length h
    simp only [List.length_drop] at this
    omega) (fun _ => ⟨rfl, rfl⟩) (le_refl _)]
  simp only [decide_True]
  cases hq : numericRun r true false false with
  | none => rfl
  | some p =>
    obtain ⟨n, k⟩ := p
    obtain ⟨h1, _, _, h4⟩ := numericRun_bounds r.length r true false false n k (le_refl _) hq
    have hn := h4 rfl
    simp only
    apply lexNumericFinish_token source ic (ic.shift n k) (r.take n) (r.drop n)
    · rw [h, List.take_append_drop]
    · intro hnil
      have := congrArg List.length hnil
      simp only [List.length_take, List.length_nil] at this
      omega
    · simp only [Cursor.shift, List.length_take]
      omega

theorem shift_of_uintAdd (cur : Cursor) (n : Nat) (hn : 0 < n) :
    (⟨cur.Pointer + n, ⟨cur.Loc.Line, uintAdd cur.Loc.Col n⟩⟩ : Cursor) = cur.shift n n := by
  obtain ⟨m, rfl⟩ : ∃ m, n = m + 1 := ⟨n - 1, by omega⟩
  simp only [Cursor.shift, uintAdd, iterate_uintSucc]

theorem advance_eq_shift (cur : Cursor) (n : Nat) : cur.advance n = cur.shift n n := rfl

theorem advance_ptrInc_eq_shift (cur : Cursor) (m : Nat) :
    (cur.advance (m + 1)).ptrInc = cur.shift (m + 2) (m + 1) := by
  simp only [Cursor.advance, Cursor.ptrInc, Cursor.shift]
  congr 1

theorem lexKeyword_ref (source : List Nat) (ic : Cursor) :
    lexKeyword source ic =
      if bestOption keywords (source.drop ic.Pointer) = [] then .ret (none, ic, false)
      else
        .ret (some ⟨bestOption keywords (source.drop ic.Pointer), .KeywordKind, ic.Loc⟩,
          ic.shift (bestOption keywords (source.drop ic.Pointer)).length
            (bestOption keywords (source.drop ic.Pointer)).length, true) := by
  simp only [lexKeyword, longestMatch_ref source ic keywords keywords_ascii]
  split
  · rfl
  · rename_i hne
    rw [shift_of_uintAdd ic _ (List.length_pos.2 hne)]

theorem lexSymbol_ref (source : List Nat) (ic : Cursor) (c : Nat) (rest : List Nat)
    (h : source.drop ic.Pointer = c :: rest) :
    lexSymbol source ic =
      if c = 10 then .ret (none, ⟨ic.Pointer + 1, ⟨uintSucc ic.Loc.Line, 0⟩⟩, true)
      else if c = 9 ∨ c = 32 then .ret (none, ic.shift 1 1, true)
      else if bestOption symbols (c :: rest) = [] then .ret (none, ic, false)
      else
        .ret (some ⟨bestOption symbols (c :: rest), .SymbolKind, ic.Loc⟩,
          ic.shift (bestOption symbols (c :: rest)).length
            (bestOption symbols (c :: rest)).length, true) := by
  obtain ⟨hlt, hget, _⟩ := drop_eq_cons h
  simp only [lexSymbol, hget, longestMatch_ref source ic symbols symbols_ascii, h]
  by_cases h10 : c = 10
  · simp [h10, Cursor.ptrInc, Cursor.colInc]
  by_cases h9 : c = 9
  · simp [h9, Cursor.ptrInc, Cursor.colInc, Cursor.shift]
  by_cases h32 : c = 32
  · simp [h32, Cursor.ptrInc, Cursor.colInc, Cursor.shift]
  simp only [h10, h9, h32, if_false, or_self]
  by_cases hb : bestOption symbols (c :: rest) = []
  · simp only [hb, if_true]
  · simp only [hb, if_false, shift_of_uintAdd ic _ (List.length_pos.2 hb)]

theorem lexIdentifier_ref (source : List Nat) (ic : Cursor) (c : Nat) (rest : List Nat)
    (h : source.drop ic.Pointer = c :: rest) :
    lexIdentifier source ic =
      match delimitedRef 34 (c :: rest) with
      | some (v, m) => .ret (some ⟨v, .StringKind, ic.Loc⟩, ic.shift (m + 2) (m + 1), true)
      | none =>
        if isAlphabetical c then
          .ret (some ⟨toLowerASCII ((c :: rest).takeWhile isIdentifierByte), .IdentifierKind,
              ic.Loc⟩,
            ic.shift ((c :: rest).takeWhile isIdentifierByte).length
              ((c :: rest).takeWhile isIdentifierByte).length, true)
        else .ret (none, ic, false) := by
  obtain ⟨hlt, hget, _⟩ := drop_eq_cons h
  have hd := lexCharacterDelimited_ref source ic 34 (c :: rest) h (by omega)
  cases hq : delimitedRef 34 (c :: rest) with
  | some p =>
    obtain ⟨v, m⟩ := p
    rw [hq] at hd
    simp only at hd
    simp only [lexIdentifier, hd, advance_ptrInc_eq_shift]
  | none =>
    rw [hq] at hd
    simp only at hd
    by_cases hc : c = 34
    · subst hc
      simp only [lexIdentifier, hd, hget]
      rfl
    · obtain ⟨h1, h2⟩ := lexIdentifier_plain source ic c hget hc
      cases ha : isAlphabetical c with
      | false => simp only [h1 ha, Bool.false_eq_true, if_false]
      | true => simp only [h2 ha, if_true, h, advance_eq_shift]

/-- The scanners of `lex`, tried in their order at a cursor inside the source, do what the
reference says on the text at the cursor. -/
theorem runLexers_ref (source : List Nat) (cur : Cursor) (c : Nat) (rest : List Nat)
    (h : source.drop cur.Pointer = c :: rest) :
    runLexers source cur lexers =
      .ret (match scanRef (c :: rest) with
        | none => (none, cur, false)
        | some st => (st.token cur.Loc, st.cursor cur, true)) := by
  obtain ⟨hlt, hget, _⟩ := drop_eq_cons h
  have hK := lexKeyword_ref source cur
  have hS := lexSymbol_ref source cur c rest h
  have hT := lexCharacterDelimited_ref source cur 39 (c :: rest) h (by omega)
  have hN := lexNumeric_ref source cur (c :: rest) h
  have hI := lexIdentifier_ref source cur c rest h
  rw [h] at hK
  simp only [lexers, runLexers, scanRef]
  by_cases hk : bestOption keywords (c :: rest) = []
  · rw [if_pos hk] at hK
    rw [hK]
    simp only [hk, ne_eq, not_true_eq_false, if_false]
    by_cases h10 : c = 10
    · rw [if_pos h10] at hS
      rw [hS]
      simp [h10, RefStep.token, RefStep.cursor]
    rw [if_neg h10] at hS
    simp only [h10, if_false]
    by_cases hw : c = 9 ∨ c = 32
    · rw [if_pos hw] at hS
      rw [hS]
      simp [hw, RefStep.token, RefStep.cursor]
    rw [if_neg hw] at hS
    simp only [hw, if_false]
    by_cases hs : bestOption symbols (c :: rest) = []
    · rw [if_pos hs] at hS
      rw [hS]
      simp only [hs, ne_eq, not_true_eq_false, if_false, lexString]
      cases hq : delimitedRef 39 (c :: rest) with
      | some p =>
        obtain ⟨v, m⟩ := p
        rw [hq] at hT
        simp only at hT
        rw [hT]
        simp [RefStep.token, RefStep.cursor, advance_ptrInc_eq_shift]
      | none =>
        rw [hq] at hT
        simp only at hT
        rw [hT]
        simp only
        cases hn : numericRun (c :: rest) true false false with
        | some p =>
          obtain ⟨n, k⟩ := p
          rw [hn] at hN
          simp only at hN
          rw [hN]
          simp [RefStep.token, RefStep.cursor]
        | none =>
          rw [hn] at hN
          simp only at hN
          rw [hN]
          simp only
          cases hi : delimitedRef 34 (c :: rest) with
          | some p =>
            obtain ⟨v, m⟩ := p
            rw [hi] at hI
            simp only at hI
            rw [hI]
            simp [RefStep.token, RefStep.cursor]
          | none =>
            rw [hi] at hI
            simp only at hI
            rw [hI]
            by_cases ha : isAlphabetical c = true
            · simp [ha, RefStep.token, RefStep.cursor]
            · simp [ha]
    · rw [if_neg hs] at hS
      rw [hS]
      simp [hs, RefStep.token, RefStep.cursor]
  · rw [if_neg hk] at hK
    rw [hK]
    simp [hk, RefStep.token, RefStep.cursor]

/-! ## The order of the tokens -/

theorem Location.lt_trans {a b c : Location} (h1 : a.lt b) (h2 : b.lt c) : a.lt c := by
  unfold Location.lt at *
  omega

theorem delimitedRun_bound (d : Nat) : ∀ (rest value v : List Nat) (m : Nat),
    delimitedRun d rest value = some (v, m) → m + 1 ≤ rest.length := by
  intro rest
  induction rest with
  | nil => intro value v m h; cases h
  | cons c rest ih =>
    intro value v m h
    simp only [delimitedRun] at h
    split at h
    · cases h; simp
    · cases hq : delimitedRun d rest (value ++ [c]) with
      | none => rw [hq] at h; cases h
      | some p =>
        obtain ⟨v', m'⟩ := p
        rw [hq] at h
        simp only [Option.map_some', Option.some.injEq, Prod.mk.injEq] at h
        obtain ⟨_, rfl⟩ := h
        have := ih _ _ _ hq
        simp only [List.length_cons]
        omega

theorem delimitedRef_bound (d : Nat) (r v : List Nat) (m : Nat)
    (h : delimitedRef d r = some (v, m)) : m + 2 ≤ r.length := by
  cases r with
  | nil => cases h
  | cons c rest =>
    simp only [delimitedRef] at h
    split at h
    · have := delimitedRun_bound d rest [] v m h
      simp only [List.length_cons]
      omega
    · cases h

theorem isIdentifierByte_of_alpha (c : Nat) (h : isAlphabetical c = true) :
    isIdentifierByte c = true := by
  simp [isIdentifierByte, h]

/-- Every step of the reference consumes at least one byte and no more than the text holds;
unless it starts a new line, it increments the column at least once and at most once more than
it consumes bytes. -/
theorem scanRef_bounds (r : List Nat) (st : RefStep) (h : scanRef r = some st) :
    1 ≤ st.bytes ∧ st.bytes ≤ r.length ∧
      (st.newline = false → 1 ≤ st.cols ∧ st.cols ≤ st.bytes + 1) := by
  cases r with
  | nil => cases h
  | cons c rest =>
    simp only [scanRef] at h
    split at h
    · rename_i hk
      cases h
      have hs := (bestOption_spec keywords (c :: rest)).1
      rcases hs with h0 | ⟨_, hm⟩
      · exact absurd h0 hk
      · have := matchesText_length hm
        have hp := List.length_pos.2 hk
        refine ⟨?_, ?_, fun _ => ⟨?_, ?_⟩⟩ <;> dsimp only <;> omega
    split at h
    · cases h
      simp
    split at h
    · cases h
      simp
    split at h
    · rename_i hk
      cases h
      have hs := (bestOption_spec symbols (c :: rest)).1
      rcases hs with h0 | ⟨_, hm⟩
      · exact absurd h0 hk
      · have := matchesText_length hm
        have hp := List.length_pos.2 hk
        refine ⟨?_, ?_, fun _ => ⟨?_, ?_⟩⟩ <;> dsimp only <;> omega
    split at h
    · rename_i v m hq
      cases h
      have := delimitedRef_bound 39 _ v m hq
      refine ⟨?_, ?_, fun _ => ⟨?_, ?_⟩⟩ <;> dsimp only <;> omega
    split at h
    · rename_i n k hq
      cases h
      obtain ⟨h1, h2, h3, h4⟩ := numericRun_bounds _ _ true false false n k (le_refl _) hq
      have := h4 rfl
      refine ⟨?_, ?_, fun _ => ⟨?_, ?_⟩⟩ <;> dsimp only <;> omega
    split at h
    · rename_i v m hq
      cases h
      have := delimitedRef_bound 34 _ v m hq
      refine ⟨?_, ?_, fun _ => ⟨?_, ?_⟩⟩ <;> dsimp only <;> omega
    split at h
    · rename_i ha
      cases h
      have hle := ( takeWhile_prefix (c :: rest) isIdentifierByte).2
      have hpos : 1 ≤ ((c :: rest).takeWhile isIdentifierByte).length := by
        rw [List.takeWhile_cons_of_pos (isIdentifierByte_of_alpha c ha)]
        simp
      refine ⟨?_, ?_, fun _ => ⟨?_, ?_⟩⟩ <;> dsimp only <;> omega
    · cases h

/-- The cursor after a step: the pointer moves by the bytes consumed, the location grows in
the lexicographic order, and line and column stay within the bounds `Line ≤ Pointer` and
`Col ≤ 2 * Pointer`, as long as the source is shorter than `2 ^ 63` bytes. -/
theorem step_cursor (st : RefStep) (cur : Cursor) (len : Nat) (hlen : len < 2 ^ 63)
    (hb1 : 1 ≤ st.bytes) (hb2 : cur.Pointer + st.bytes ≤ len)
    (hc : st.newline = false → 1 ≤ st.cols ∧ st.cols ≤ st.bytes + 1)
    (hl : cur.Loc.Line ≤ cur.Pointer) (hcol : cur.Loc.Col ≤ 2 * cur.Pointer) :
    (st.cursor cur).Pointer = cur.Pointer + st.bytes ∧ cur.Loc.lt (st.cursor cur).Loc ∧
      (st.cursor cur).Loc.Line ≤ (st.cursor cur).Pointer ∧
      (st.cursor cur).Loc.Col ≤ 2 * (st.cursor cur).Pointer := by
  unfold RefStep.cursor
  cases hn : st.newline with
  | true =>
    simp only [if_true, Location.lt, uintSucc]
    have : (cur.Loc.Line + 1) % 2 ^ 64 = cur.Loc.Line + 1 := Nat.mod_eq_of_lt (by omega)
    rw [this]
    exact ⟨trivial, Or.inl (by omega), by omega, by omega⟩
  | false =>
    obtain ⟨h1, h2⟩ := hc hn
    obtain ⟨k, hk⟩ : ∃ k, st.cols = k + 1 := ⟨st.cols - 1, by omega⟩
    simp only [Bool.false_eq_true, if_false, Cursor.shift, Location.lt, hk, iterate_uintSucc]
    have : (cur.Loc.Col + (k + 1)) % 2 ^ 64 = cur.Loc.Col + (k + 1) :=
      Nat.mod_eq_of_lt (by omega)
    rw [this]
    exact ⟨trivial, Or.inr ⟨trivial, by omega⟩, by omega, by omega⟩

theorem token_loc (st : RefStep) (loc : Location) (t : Token) (h : st.token loc = some t) :
    t.Loc = loc := by
  unfold RefStep.token at h
  cases hq : st.tok with
  | none => rw [hq] at h; cases h
  | some p =>
    rw [hq] at h
    simp only [Option.map_some', Option.some.injEq] at h
    rw [← h]

theorem drop_cons_of_lt (source : List Nat) (p : Nat) (h : p < source.length) :
    ∃ c rest, source.drop p = c :: rest :=
  ⟨source[p], source.drop (p + 1), (List.drop_eq_getElem_cons h)⟩

/-- The loop of `lex` keeps the tokens ordered by location and the offsets ordered. -/
theorem lexLoopAt_ordered (source : List Nat) (hlen : source.length < 2 ^ 63) :
    ∀ (fuel : Nat) (cur : Cursor) (tokens : List Token) (offsets : List Nat)
      (ts : List Token) (offs : List Nat),
      cur.Loc.Line ≤ cur.Pointer → cur.Loc.Col ≤ 2 * cur.Pointer →
      tokens.Pairwise (fun a b => a.Loc.lt b.Loc) → (∀ t ∈ tokens, t.Loc.lt cur.Loc) →
      offsets.Pairwise (fun a b => a < b) → (∀ p ∈ offsets, p < cur.Pointer) →
      tokens.length = offsets.length →
      lexLoopAt source fuel cur tokens offsets = .ret (.tokens ts, offs) →
      ts.Pairwise (fun a b => a.Loc.lt b.Loc) ∧ offs.Pairwise (fun a b => a < b) ∧
        ts.length = offs.length := by
  intro fuel
  induction fuel with
  | zero => intro cur tokens offsets ts offs _ _ _ _ _ _ _ h; cases h
  | succ fuel ih =>
    intro cur tokens offsets ts offs hl hcol hT hTc hO hOc hlenTO h
    simp only [lexLoopAt] at h
    split at h
    · rename_i hlt
      obtain ⟨c, rest, hdrop⟩ := drop_cons_of_lt source cur.Pointer hlt
      rw [runLexers_ref source cur c rest hdrop] at h
      cases hs : scanRef (c :: rest) with
      | none => rw [hs] at h; cases h
      | some st =>
        rw [hs] at h
        obtain ⟨hb1, hb2, hc⟩ := scanRef_bounds _ st hs
        have hb2' : cur.Pointer + st.bytes ≤ source.length := by
          have := congrArg List.length hdrop
          rw [List.length_drop] at this
          omega
        obtain ⟨hp, hlt', hl', hcol'⟩ := step_cursor st cur source.length hlen hb1 hb2' hc hl hcol
        simp only at h
        cases ht : st.token cur.Loc with
        | none =>
          rw [ht] at h
          simp only at h
          exact ih _ _ _ ts offs hl' hcol' hT
            (fun t hmem => Location.lt_trans (hTc t hmem) hlt') hO
            (fun p hmem => by have := hOc p hmem; omega) hlenTO h
        | some t =>
          rw [ht] at h
          simp only at h
          have hloc := token_loc st cur.Loc t ht
          refine ih _ _ _ ts offs hl' hcol' ?_ ?_ ?_ ?_ ?_ h
          · rw [List.pairwise_append]
            refine ⟨hT, List.pairwise_singleton _ _, fun a ha b hb => ?_⟩
            rw [List.mem_singleton.1 hb, hloc]
            exact hTc a ha
          · intro a ha
            rcases List.mem_append.1 ha with ha | ha
            · exact Location.lt_trans (hTc a ha) hlt'
            · rw [List.mem_singleton.1 ha, hloc]
              exact hlt'
          · rw [List.pairwise_append]
            refine ⟨hO, List.pairwise_singleton _ _, fun a ha b hb => ?_⟩
            rw [List.mem_singleton.1 hb]
            exact hOc a ha
          · intro p hp'
            rcases List.mem_append.1 hp' with hp' | hp'
            · have := hOc p hp'
              omega
            · rw [List.mem_singleton.1 hp']
              omega
          · simp [hlenTO]
    · cases h
      exact ⟨hT, hO, hlenTO⟩

/-- C11: for every source shorter than `2 ^ 63` bytes on which `lex` succeeds, the tokens are
strictly ordered by position: the location (line, then column) of every token is strictly less
than the location of every later token, the next one in particular, and the offsets at which
the tokens were scanned, one for each token, are strictly increasing. -/
theorem lex_token_order (source : List Nat) (ts : List Token) (hlen : source.length < 2 ^ 63)
    (h : lex source = .ret (.tokens ts)) :
    ts.Pairwise (fun a b => a.Loc.lt b.Loc) ∧ ts.Chain' (fun a b => a.Loc.lt b.Loc) ∧
      ∃ offs, lexAt source = .ret (.tokens ts, offs) ∧ offs.length = ts.length ∧
        offs.Pairwise (fun a b => a < b) := by
  obtain ⟨offs, ho⟩ := lex_eq_lexAt source ts h
  have := lexLoopAt_ordered source hlen (source.length + 1) ⟨0, ⟨0, 0⟩⟩ [] [] ts offs
    (le_refl _) (le_refl _) List.Pairwise.nil (fun t ht => by cases ht) List.Pairwise.nil
    (fun p hp => by cases hp) rfl ho
  exact ⟨this.1, List.Pairwise.chain' this.1, offs, ho, this.2.2.symm, this.2.1⟩

/-- The tokens of a two-line source with a string and a number are ordered by location and
were scanned at increasing offsets. -/
theorem lex_token_order_witness :
    (lexTokens (ascii "SELECT 'a', 1.5\nFROM t;")).Pairwise (fun a b => a.Loc.lt b.Loc) ∧
      (lexTokens (ascii "SELECT 'a', 1.5\nFROM t;")).Chain' (fun a b => a.Loc.lt b.Loc) ∧
      ∃ offs, lexAt (ascii "SELECT 'a', 1.5\nFROM t;") =
          .ret (.tokens (lexTokens (ascii "SELECT 'a', 1.5\nFROM t;")), offs) ∧
        offs.length = (lexTokens (ascii "SELECT 'a', 1.5\nFROM t;")).length ∧
        offs.Pairwise (fun a b => a < b) :=
  lex_token_order (ascii "SELECT 'a', 1.5\nFROM t;")
    (lexTokens (ascii "SELECT 'a', 1.5\nFROM t;")) (by decide) (by decide)

/-! ## Texts that end with a separator -/

theorem bestOption_congr (opts : List (List Nat)) (r1 r2 : List Nat)
    (h : ∀ o ∈ opts, matchesText r1 o ↔ matchesText r2 o) :
    bestOption opts r1 = bestOption opts r2 := by
  unfold bestOption
  generalize ([] : List Nat) = best
  induction opts generalizing best with
  | nil => rfl
  | cons o opts ih =>
    simp only [List.foldl_cons]
    have ho := h o (List.mem_cons_self _ _)
    have : (if matchesText r1 o ∧ best.length < o.length then o else best) =
        (if matchesText r2 o ∧ best.length < o.length then o else best) := by
      by_cases hm : matchesText r1 o
      · simp [hm, ho.1 hm]
      · have hm2 : ¬ matchesText r2 o := fun h2 => hm (ho.2 h2)
        simp [hm, hm2]
    rw [this]
    exact ih (fun o' ho' => h o' (List.mem_cons_of_mem _ ho')) _

theorem asciiLower_sep (s : Nat) (hs : IsSep s) : asciiLower s = s := by
  rcases hs with rfl | rfl <;> rfl

/-- A candidate without a space or semicolon after its first byte stands at the head of a
non-empty text followed by a separator exactly when it stands at the head of the text. -/
theorem matchesText_sep (x : List Nat) (s : Nat) (more o : List Nat) (hx : x ≠ [])
    (hs : IsSep s) (ho : ∀ b ∈ o.tail, ¬ IsSep b) :
    matchesText (x ++ s :: more) o ↔ matchesText x o := by
  unfold matchesText
  by_cases hlen : o.length ≤ x.length
  · rw [List.take_append_of_le_length hlen]
  · have hxpos : 0 < x.length := List.length_pos.2 hx
    constructor
    · intro h
      exfalso
      have hget : o[x.length]? = some s := by
        have h1 : (List.map asciiLower (List.take o.length (x ++ s :: more)))[x.length]? =
            some s := by
          rw [List.getElem?_map, List.getElem?_take_of_lt (by omega),
            List.getElem?_append_right (le_refl _)]
          simp [asciiLower_sep s hs]
        rw [h] at h1
        exact h1
      have hmem : s ∈ o.tail := by
        obtain ⟨k, hk⟩ : ∃ k, x.length = k + 1 := ⟨x.length - 1, by omega⟩
        rw [hk] at hget
        cases o with
        | nil => simp at hget
        | cons a t =>
          simp only [List.getElem?_cons_succ] at hget
          exact List.getElem?_mem hget
      exact ho s hmem hs
    · intro h
      exfalso
      have := congrArg List.length h
      simp only [List.length_map, List.length_take] at this
      omega

theorem options_sep_free :
    (∀ o ∈ keywords, ∀ b ∈ o.tail, ¬ IsSep b) ∧ (∀ o ∈ symbols, ∀ b ∈ o.tail, ¬ IsSep b) := by
  unfold IsSep
  decide

theorem bestOption_sep (opts : List (List Nat)) (x : List Nat) (s : Nat) (more : List Nat)
    (hx : x ≠ []) (hs : IsSep s) (ho : ∀ o ∈ opts, ∀ b ∈ o.tail, ¬ IsSep b) :
    bestOption opts (x ++ s :: more) = bestOption opts x :=
  bestOption_congr opts _ _ (fun o hmem => matchesText_sep x s more o hx hs (ho o hmem))

theorem delimitedRun_stable (d s1 s2 : Nat) (more : List Nat) (hs1 : s1 ≠ d) (hs2 : s2 ≠ d) :
    ∀ (y value v : List Nat) (m : Nat), delimitedRun d (y ++ [s1]) value = some (v, m) →
      m + 1 ≤ y.length ∧ delimitedRun d (y ++ s2 :: more) value = some (v, m) := by
  intro y
  induction y with
  | nil =>
    intro value v m h
    simp [delimitedRun, hs1] at h
  | cons c y ih =>
    intro value v m h
    simp only [List.cons_append, delimitedRun, List.append_eq] at h ⊢
    have hcond : (c = d ∧ (y ++ [s1]).head? ≠ some d) ↔
        (c = d ∧ (y ++ s2 :: more).head? ≠ some d) := by
      cases y with
      | nil => simp [hs1, hs2]
      | cons a y => simp
    by_cases hc : c = d ∧ (y ++ [s1]).head? ≠ some d
    · rw [if_pos hc] at h
      rw [if_pos (hcond.1 hc)]
      cases h
      exact ⟨by simp, rfl⟩
    · rw [if_neg hc] at h
      rw [if_neg (fun h2 => hc (hcond.2 h2))]
      cases hq : delimitedRun d (y ++ [s1]) (value ++ [c]) with
      | none => rw [hq] at h; cases h
      | some p =>
        obtain ⟨v', m'⟩ := p
        rw [hq] at h
        simp only [Option.map_some', Option.some.injEq, Prod.mk.injEq] at h
        obtain ⟨rfl, rfl⟩ := h
        obtain ⟨h1, h2⟩ := ih _ _ _ hq
        rw [h2]
        exact ⟨by simp only [List.length_cons]; omega, rfl⟩

theorem delimitedRef_stable (d s1 s2 : Nat) (more : List Nat) (hs1 : s1 ≠ d) (hs2 : s2 ≠ d)
    (x v : List Nat) (m : Nat) (h : delimitedRef d (x ++ [s1]) = some (v, m)) :
    m + 2 ≤ x.length ∧ delimitedRef d (x ++ s2 :: more) = some (v, m) := by
  cases x with
  | nil => simp [delimitedRef, hs1, delimitedRun] at h
  | cons c y =>
    simp only [List.cons_append, delimitedRef] at h ⊢
    split at h
    · rename_i hc
      rw [if_pos hc]
      obtain ⟨h1, h2⟩ := delimitedRun_stable d s1 s2 more hs1 hs2 y [] v m h
      exact ⟨by simp only [List.length_cons]; omega, h2⟩
    · cases h

theorem sep_facts (s : Nat) (hs : IsSep s) :
    ¬ (48 ≤ s ∧ s ≤ 57) ∧ s ≠ 46 ∧ s ≠ 101 ∧ s ≠ 45 ∧ s ≠ 43 ∧ s ≠ 39 ∧ s ≠ 34 ∧
      isIdentifierByte s = false := by
  rcases hs with rfl | rfl <;> decide

theorem numericRun_sep (s : Nat) (hs : IsSep s) (more : List Nat) (first pf ef : Bool) :
    numericRun (s :: more) first pf ef = if first then none else some (0, 1) := by
  obtain ⟨h1, h2, h3, _⟩ := sep_facts s hs
  rw [numericRun_cons]
  cases first <;> simp [h1, h2, h3]

theorem numericRun_stable (s1 s2 : Nat) (more : List Nat) (hs1 : IsSep s1) (hs2 : IsSep s2) :
    ∀ (b : Nat) (y : List Nat) (first pf ef : Bool) (res : Option (Nat × Nat)),
      y.length ≤ b → numericRun (y ++ [s1]) first pf ef = res →
      numericRun (y ++ s2 :: more) first pf ef = res ∧
        ∀ n k, res = some (n, k) → n ≤ y.length := by
  intro b
  induction b with
  | zero =>
    intro y first pf ef res hb h
    have : y = [] := List.length_eq_zero.1 (by omega)
    subst this
    simp only [List.nil_append] at h ⊢
    rw [numericRun_sep s1 hs1] at h
    rw [numericRun_sep s2 hs2, h]
    refine ⟨rfl, fun n k hr => ?_⟩
    subst hr
    cases first <;> simp at h
    simp [h]
  | succ b ih =>
    intro y first pf ef res hb h
    cases y with
    | nil =>
      simp only [List.nil_append] at h ⊢
      rw [numericRun_sep s1 hs1] at h
      rw [numericRun_sep s2 hs2, h]
      refine ⟨rfl, fun n k hr => ?_⟩
      subst hr
      cases first <;> simp at h
      simp [h]
    | cons c y =>
      simp only [List.length_cons] at hb
      have rec1 : ∀ (pf' ef' : Bool) (res : Option (Nat × Nat)),
          (numericRun (y ++ [s1]) false pf' ef').map (fun p => (p.1 + 1, p.2 + 1)) = res →
          (numericRun (y ++ s2 :: more) false pf' ef').map (fun p => (p.1 + 1, p.2 + 1)) = res ∧
            ∀ n k, res = some (n, k) → n ≤ (c :: y).length := by
        intro pf' ef' res hr
        obtain ⟨h1, h2⟩ := ih y false pf' ef' _ (by omega) rfl
        rw [h1]
        refine ⟨hr, fun n k hnk => ?_⟩
        subst hnk
        cases hq : numericRun (y ++ [s1]) false pf' ef' with
        | none => rw [hq] at hr; cases hr
        | some p =>
          rw [hq] at hr
          simp only [Option.map_some', Option.some.injEq, Prod.mk.injEq] at hr
          have := h2 p.1 p.2 (by rw [hq])
          simp only [List.length_cons]
          omega
      simp only [List.cons_append] at h ⊢
      rw [numericRun_cons] at h ⊢
      by_cases hf : first = true
      · rw [if_pos hf] at h ⊢
        by_cases hc : ¬ (48 ≤ c ∧ c ≤ 57) ∧ c ≠ 46
        · rw [if_pos hc] at h ⊢
          exact ⟨h, fun n k hr => by subst hr; cases h⟩
        · rw [if_neg hc] at h ⊢
          exact rec1 _ _ _ h
      · rw [if_neg hf] at h ⊢
        by_cases h46 : c = 46
        · rw [if_pos h46] at h ⊢
          by_cases hpf : pf = true
          · rw [if_pos hpf] at h ⊢
            exact ⟨h, fun n k hr => by subst hr; cases h⟩
          · rw [if_neg hpf] at h ⊢
            exact rec1 _ _ _ h
        · rw [if_neg h46] at h ⊢
          by_cases h101 : c = 101
          · rw [if_pos h101] at h ⊢
            by_cases hef : ef = true
            · rw [if_pos hef] at h ⊢
              exact ⟨h, fun n k hr => by subst hr; cases h⟩
            · rw [if_neg hef] at h ⊢
              cases y with
              | nil =>
                obtain ⟨_, _, _, h45, h43, _⟩ := sep_facts s1 hs1
                obtain ⟨_, _, _, h45', h43', _⟩ := sep_facts s2 hs2
                simp only [List.nil_append] at h ⊢
                rw [if_neg (by simp [h45, h43])] at h
                rw [if_neg (by simp [h45', h43'])]
                rw [numericRun_sep s1 hs1] at h
                rw [numericRun_sep s2 hs2]
                refine ⟨h, fun n k hr => ?_⟩
                subst hr
                simp at h
                have := h.1
                simp only [List.length_cons, List.length_nil]
                omega
              | cons c2 y2 =>
                simp only [List.cons_append] at h ⊢
                by_cases hsign : c2 = 45 ∨ c2 = 43
                · rw [if_pos hsign] at h ⊢
                  obtain ⟨h1, h2⟩ := ih y2 false true true _
                    (by simp only [List.length_cons] at hb; omega) rfl
                  rw [h1]
                  refine ⟨h, fun n k hnk => ?_⟩
                  subst hnk
                  cases hq : numericRun (y2 ++ [s1]) false true true with
                  | none => rw [hq] at h; cases h
                  | some p =>
                    rw [hq] at h
                    simp only [Option.map_some', Option.some.injEq, Prod.mk.injEq] at h
                    have := h2 p.1 p.2 (by rw [hq])
                    simp only [List.length_cons]
                    omega
                · rw [if_neg hsign] at h ⊢
                  have := rec1 true true _ h
                  simpa using this
          · rw [if_neg h101] at h ⊢
            by_cases hd : ¬ (48 ≤ c ∧ c ≤ 57)
            · rw [if_pos hd] at h ⊢
              refine ⟨h, fun n k hr => ?_⟩
              subst hr
              simp at h
              have := h.1
              omega
            · rw [if_neg hd] at h ⊢
              exact rec1 _ _ _ h

theorem takeWhile_sep (p : Nat → Bool) (x : List Nat) (s : Nat) (more : List Nat)
    (hs : p s = false) : (x ++ s :: more).takeWhile p = x.takeWhile p := by
  induction x with
  | nil => simp [List.takeWhile, hs]
  | cons c x ih =>
    simp only [List.cons_append, List.takeWhile_cons, ih]

theorem delimitedRef_head (d c : Nat) (rest : List Nat) (hc : c ≠ d) :
    delimitedRef d (c :: rest) = none := by
  simp [delimitedRef, hc]

/-- A step of the reference on a non-empty text followed by one separator stays inside the
text, and it is the step taken when a separator and any further text follow instead. -/
theorem scanRef_stable (x : List Nat) (s1 s2 : Nat) (more : List Nat) (hx : x ≠ [])
    (hs1 : IsSep s1) (hs2 : IsSep s2) (st : RefStep) (h : scanRef (x ++ [s1]) = some st) :
    st.bytes ≤ x.length ∧ scanRef (x ++ s2 :: more) = some st := by
  obtain ⟨c, y, rfl⟩ : ∃ c y, x = c :: y := by
    cases x with
    | nil => exact absurd rfl hx
    | cons c y => exact ⟨c, y, rfl⟩
  have hK1 := bestOption_sep keywords (c :: y) s1 [] hx hs1 options_sep_free.1
  have hK2 := bestOption_sep keywords (c :: y) s2 more hx hs2 options_sep_free.1
  have hS1 := bestOption_sep symbols (c :: y) s1 [] hx hs1 options_sep_free.2
  have hS2 := bestOption_sep symbols (c :: y) s2 more hx hs2 options_sep_free.2
  obtain ⟨_, _, _, _, _, h39, h34, hid⟩ := sep_facts s1 hs1
  obtain ⟨_, _, _, _, _, h39', h34', hid'⟩ := sep_facts s2 hs2
  have hT1 := takeWhile_sep isIdentifierByte (c :: y) s1 [] hid
  have hT2 := takeWhile_sep isIdentifierByte (c :: y) s2 more hid'
  simp only [List.cons_append] at hK1 hK2 hS1 hS2 hT1 hT2 h ⊢
  simp only [scanRef, hK1, hS1, hT1] at h
  simp only [scanRef, hK2, hS2, hT2]
  by_cases hk : bestOption keywords (c :: y) ≠ []
  · rw [if_pos hk] at h ⊢
    cases h
    refine ⟨?_, rfl⟩
    rcases (bestOption_spec keywords (c :: y)).1 with h0 | ⟨_, hm⟩
    · exact absurd h0 hk
    · exact matchesText_length hm
  rw [if_neg hk] at h ⊢
  by_cases h10 : c = 10
  · rw [if_pos h10] at h ⊢
    cases h
    exact ⟨by simp, rfl⟩
  rw [if_neg h10] at h ⊢
  by_cases hw : c = 9 ∨ c = 32
  · rw [if_pos hw] at h ⊢
    cases h
    exact ⟨by simp, rfl⟩
  rw [if_neg hw] at h ⊢
  by_cases hs : bestOption symbols (c :: y) ≠ []
  · rw [if_pos hs] at h ⊢
    cases h
    refine ⟨?_, rfl⟩
    rcases (bestOption_spec symbols (c :: y)).1 with h0 | ⟨_, hm⟩
    · exact absurd h0 hs
    · exact matchesText_length hm
  rw [if_neg hs] at h ⊢
  cases hq : delimitedRef 39 (c :: (y ++ [s1])) with
  | some p =>
    obtain ⟨v, m⟩ := p
    rw [hq] at h
    simp only [Option.some.injEq] at h
    obtain ⟨hb, hq2⟩ := delimitedRef_stable 39 s1 s2 more h39 h39' (c :: y) v m hq
    simp only [List.cons_append] at hq2
    rw [hq2]
    simp only [Option.some.injEq]
    rw [← h]
    exact ⟨hb, rfl⟩
  | none =>
    rw [hq] at h
    simp only at h
    obtain ⟨hN, hNb⟩ := numericRun_stable s1 s2 more hs1 hs2 (c :: y).length (c :: y)
      true false false _ (le_refl _) rfl
    simp only [List.cons_append] at hN hNb
    cases hn : numericRun (c :: (y ++ [s1])) true false false with
    | some p =>
      obtain ⟨n, k⟩ := p
      rw [hn] at h hN
      simp only [Option.some.injEq] at h
      have hnb := hNb n k hn
      have hne39 : c ≠ 39 := by
        intro hc
        subst hc
        rw [numericRun_cons] at hn
        simp at hn
      rw [delimitedRef_head 39 c _ hne39, hN]
      simp only [Option.some.injEq]
      rw [← h]
      refine ⟨hnb, ?_⟩
      have e1 : (c :: (y ++ [s1])).take n = (c :: y).take n := by
        rw [← List.cons_append, List.take_append_of_le_length hnb]
      have e2 : (c :: (y ++ s2 :: more)).take n = (c :: y).take n := by
        rw [← List.cons_append, List.take_append_of_le_length hnb]
      rw [e1, e2]
    | none =>
      rw [hn] at h hN
      simp only at h
      cases hi : delimitedRef 34 (c :: (y ++ [s1])) with
      | some p =>
        obtain ⟨v, m⟩ := p
        rw [hi] at h
        simp only [Option.some.injEq] at h
        obtain ⟨hb, hq2⟩ := delimitedRef_stable 34 s1 s2 more h34 h34' (c :: y) v m hi
        simp only [List.cons_append] at hq2
        have hne39 : c ≠ 39 := by
          intro hc
          subst hc
          simp [delimitedRef] at hi
        rw [delimitedRef_head 39 c _ hne39, hN, hq2]
        simp only [Option.some.injEq]
        rw [← h]
        exact ⟨hb, rfl⟩
      | none =>
        rw [hi] at h
        simp only at h
        by_cases ha : isAlphabetical c = true
        · rw [if_pos ha] at h
          have hne39 : c ≠ 39 := by
            intro hc
            subst hc
            simp [isAlphabetical] at ha
          have hne34 : c ≠ 34 := by
            intro hc
            subst hc
            simp [isAlphabetical] at ha
          rw [delimitedRef_head 39 c _ hne39, hN, delimitedRef_head 34 c _ hne34]
          simp only [if_pos ha]
          cases h
          exact ⟨( takeWhile_prefix (c :: y) isIdentifierByte).2, rfl⟩
        · rw [if_neg ha] at h
          cases h

theorem bestOption_head (opts : List (List Nat)) (c : Nat) (more : List Nat)
    (h : ∀ o ∈ opts, o.head? = some (asciiLower c) → o.length ≤ 1) :
    bestOption opts (c :: more) = bestOption opts [c] := by
  apply bestOption_congr
  intro o ho
  unfold matchesText
  cases o with
  | nil => simp
  | cons a t =>
    cases t with
    | nil => simp
    | cons b t =>
      constructor
      · intro hm
        have : a = asciiLower c := by
          simp only [List.length_cons, List.take_succ_cons, List.map_cons, List.cons.injEq] at hm
          exact hm.1.symm
        have := h _ ho (by simp [this])
        simp at this
      · intro hm
        have := congrArg List.length hm
        simp at this

theorem scanRef_sep (s : Nat) (hs : IsSep s) (more : List Nat) :
    scanRef (s :: more) =
      some ⟨if s = 59 then some ([59], .SymbolKind) else none, 1, 1, false⟩ := by
  have hK : bestOption keywords (s :: more) = bestOption keywords [s] :=
    bestOption_head keywords s more (by rcases hs with rfl | rfl <;> decide)
  have hS : bestOption symbols (s :: more) = bestOption symbols [s] :=
    bestOption_head symbols s more (by rcases hs with rfl | rfl <;> decide)
  simp only [scanRef, hK, hS]
  rcases hs with rfl | rfl
  · have h0 : bestOption keywords [32] = [] := by decide
    simp [h0]
  · have h0 : bestOption keywords [59] = [] := by decide
    have h1 : bestOption symbols [59] = [59] := by decide
    simp [h0, h1]

theorem cursor_pointer (st : RefStep) (cur : Cursor) :
    (st.cursor cur).Pointer = cur.Pointer + st.bytes := by
  unfold RefStep.cursor
  split <;> rfl

theorem asciiLower_eq_59 (c : Nat) (h : asciiLower c = 59) : c = 59 := by
  unfold asciiLower at h
  split at h <;> omega

/-- The reference makes a semicolon token only of a text that starts with a semicolon. -/
theorem scanRef_semicolon (c : Nat) (rest : List Nat) (st : RefStep)
    (h : scanRef (c :: rest) = some st) (loc : Location) (t : Token)
    (ht : st.token loc = some t) (he : (tokenFromSymbol (ascii ";")).equals t = true) :
    c = 59 := by
  have hk : t.Kind = .SymbolKind ∧ t.Value = [59] := by
    simp only [Token.equals, tokenFromSymbol, Bool.and_eq_true, decide_eq_true_eq] at he
    exact ⟨he.2.symm, he.1.symm⟩
  have hsym : st.tok = some (bestOption symbols (c :: rest), .SymbolKind) →
      bestOption symbols (c :: rest) ≠ [] → c = 59 := by
    intro hst hne
    rw [RefStep.token, hst] at ht
    simp only [Option.map_some', Option.some.injEq] at ht
    have hv : bestOption symbols (c :: rest) = [59] := by rw [← hk.2, ← ht]
    rcases (bestOption_spec symbols (c :: rest)).1 with h0 | ⟨_, hm⟩
    · exact absurd h0 hne
    · rw [hv] at hm
      simp only [matchesText, List.length_singleton, List.take_succ_cons, List.take_zero,
        List.map_cons, List.map_nil, List.cons.injEq, and_true] at hm
      exact asciiLower_eq_59 c hm
  have hother : ∀ (v : List Nat) (k : TokenKind), k ≠ .SymbolKind → st.tok = some (v, k) →
      False := by
    intro v k hne hst
    rw [RefStep.token, hst] at ht
    simp only [Option.map_some', Option.some.injEq] at ht
    rw [← ht] at hk
    exact hne hk.1
  have hnone : st.tok = none → False := by
    intro hst
    rw [RefStep.token, hst] at ht
    cases ht
  simp only [scanRef] at h
  split at h
  · cases h; exact (hother _ _ (by decide) rfl).elim
  split at h
  · cases h; exact (hnone rfl).elim
  split at h
  · cases h; exact (hnone rfl).elim
  split at h
  · rename_i hne
    cases h
    exact hsym rfl hne
  split at h
  · cases h; exact (hother _ _ (by decide) rfl).elim
  split at h
  · cases h; exact (hother _ _ (by decide) rfl).elim
  split at h
  · cases h; exact (hother _ _ (by decide) rfl).elim
  split at h
  · cases h; exact (hother _ _ (by decide) rfl).elim
  · cases h

/-- One round of the loop of `lex` at a cursor inside the source, by the reference. -/
theorem lexLoop_step (source : List Nat) (fuel : Nat) (cur : Cursor) (tokens : List Token)
    (c : Nat) (rest : List Nat) (h : source.drop cur.Pointer = c :: rest) :
    lexLoop source (fuel + 1) cur tokens =
      match scanRef (c :: rest) with
      | none => .ret (.error (tokens.getLast?.map Token.Value) cur.Loc)
      | some st => lexLoop source fuel (st.cursor cur) (tokens ++ (st.token cur.Loc).toList) := by
  obtain ⟨hlt, _, _⟩ := drop_eq_cons h
  simp only [lexLoop]
  rw [if_pos hlt, runLexers_ref source cur c rest h]
  cases scanRef (c :: rest) with
  | none => rfl
  | some st =>
    simp only
    cases st.token cur.Loc with
    | none => simp
    | some t => simp

theorem lexLoop_end (source : List Nat) (fuel : Nat) (cur : Cursor) (tokens : List Token)
    (h : source.length ≤ cur.Pointer) :
    lexLoop source (fuel + 1) cur tokens = .ret (.tokens tokens) := by
  simp only [lexLoop]
  rw [if_neg (by omega)]

theorem sep_token (s : Nat) (loc : Location) :
    (RefStep.token ⟨if s = 59 then some ([59], .SymbolKind) else none, 1, 1, false⟩ loc).toList =
      sepTokens s loc := by
  unfold RefStep.token sepTokens
  split <;> rfl

/-- The loop of `lex` on a text `X` followed by one separator, when it succeeds, reaches the
end of `X` with some tokens `tsX` and returns them with the token of the separator; on `X`
followed by a separator and any further text the loop reaches the same cursor with the same
tokens.  When `X` holds no semicolon from the cursor on, none of the new tokens is a
semicolon. -/
theorem lexLoop_prefix (X : List Nat) (s1 s2 : Nat) (more : List Nat) (hs1 : IsSep s1)
    (hs2 : IsSep s2) :
    ∀ (fuel : Nat) (cur : Cursor) (tokens ts : List Token), cur.Pointer ≤ X.length →
      lexLoop (X ++ [s1]) fuel cur tokens = .ret (.tokens ts) →
      ∃ (curX : Cursor) (new : List Token) (k : Nat), curX.Pointer = X.length ∧
        cur.Pointer + k ≤ X.length ∧ ts = tokens ++ new ++ sepTokens s1 curX.Loc ∧
        (∀ fuel2, lexLoop (X ++ s2 :: more) (fuel2 + k) cur tokens =
          lexLoop (X ++ s2 :: more) fuel2 curX (tokens ++ new)) ∧
        ((∀ b ∈ X.drop cur.Pointer, b ≠ 59) →
          ∀ t ∈ new, (tokenFromSymbol (ascii ";")).equals t = false) := by
  intro fuel
  induction fuel with
  | zero => intro cur tokens ts _ h; cases h
  | succ fuel ih =>
    intro cur tokens ts hle h
    by_cases hp : cur.Pointer = X.length
    · have hdrop : (X ++ [s1]).drop cur.Pointer = s1 :: [] := by
        rw [hp, List.drop_left]
      rw [lexLoop_step _ _ _ _ _ _ hdrop, scanRef_sep s1 hs1] at h
      simp only [sep_token] at h
      cases fuel with
      | zero => cases h
      | succ f =>
        rw [lexLoop_end _ _ _ _ (by simp [cursor_pointer, hp])] at h
        cases h
        exact ⟨cur, [], 0, hp, by omega, by simp, fun fuel2 => by simp,
          fun _ t ht => by cases ht⟩
    · have hlt : cur.Pointer < X.length := by omega
      obtain ⟨c, y, hxy⟩ := drop_cons_of_lt X cur.Pointer hlt
      have hd1 : (X ++ [s1]).drop cur.Pointer = c :: (y ++ [s1]) := by
        rw [List.drop_append_of_le_length hle, hxy]; rfl
      have hd2 : (X ++ s2 :: more).drop cur.Pointer = c :: (y ++ s2 :: more) := by
        rw [List.drop_append_of_le_length hle, hxy]; rfl
      rw [lexLoop_step _ _ _ _ _ _ hd1] at h
      cases hs : scanRef (c :: (y ++ [s1])) with
      | none => rw [hs] at h; cases h
      | some st =>
        rw [hs] at h
        simp only at h
        obtain ⟨hb, hst2⟩ := scanRef_stable (c :: y) s1 s2 more (by simp) hs1 hs2 st hs
        have hylen : (c :: y).length = X.length - cur.Pointer := by
          rw [← hxy, List.length_drop]
        have hle' : (st.cursor cur).Pointer ≤ X.length := by
          rw [cursor_pointer]; omega
        obtain ⟨curX, new, k, h1, h2, h3, h4, h5⟩ := ih _ _ ts hle' h
        have hb1 := (scanRef_bounds _ st hs).1
        refine ⟨curX, (st.token cur.Loc).toList ++ new, k + 1, h1, ?_, ?_, ?_, ?_⟩
        · rw [cursor_pointer] at h2; omega
        · rw [h3]; simp
        · intro fuel2
          rw [show fuel2 + (k + 1) = (fuel2 + k) + 1 by omega, lexLoop_step _ _ _ _ _ _ hd2]
          simp only [List.cons_append] at hst2
          rw [hst2]
          simp only
          rw [h4 fuel2]
          simp
        · intro hno t ht
          rcases List.mem_append.1 ht with ht | ht
          · cases hq : st.token cur.Loc with
            | none => rw [hq] at ht; cases ht
            | some t' =>
              rw [hq] at ht
              simp only [Option.toList_some, List.mem_singleton] at ht
              subst ht
              by_contra hne
              have he : (tokenFromSymbol (ascii ";")).equals t = true := by
                simpa using hne
              have := scanRef_semicolon c _ st hs cur.Loc t hq he
              exact hno c (by rw [hxy]; exact List.mem_cons_self _ _) this
          · refine h5 (fun b hbm => hno b ?_) t ht
            rw [cursor_pointer] at hbm
            have : X.drop (cur.Pointer + st.bytes) = (X.drop cur.Pointer).drop st.bytes := by
              rw [List.drop_drop]
            rw [this] at hbm
            exact List.mem_of_mem_drop hbm

/-! ## Locality of the parsing functions -/

theorem expectToken_get (tokens : List Token) (c : Nat) (x : Token) :
    expectToken tokens c x =
      match tokens[c]? with
      | some t => x.equals t
      | none => false := by
  simp only [expectToken]
  split
  · rename_i hge
    rw [List.getElem?_eq_none (by omega)]
  · rfl

theorem parseToken_get (tokens : List Token) (c : Nat) (kind : TokenKind) :
    parseToken tokens c kind =
      match tokens[c]? with
      | none => (none, c, false)
      | some t => if t.Kind = kind then (some t, c + 1, true) else (none, c, false) := by
  simp only [parseToken]
  split
  · rename_i hge
    rw [List.getElem?_eq_none (by omega)]
  · rfl

theorem expectToken_agree (A B : List Token) (c : Nat) (x : Token) (h : A[c]? = B[c]?) :
    expectToken B c x = expectToken A c x := by
  rw [expectToken_get, expectToken_get, h]

theorem parseToken_agree (A B : List Token) (c : Nat) (kind : TokenKind) (h : A[c]? = B[c]?) :
    parseToken B c kind = parseToken A c kind := by
  rw [parseToken_get, parseToken_get, h]

theorem parseExpression_agree (A B : List Token) (c : Nat) (d : Token) (h : A[c]? = B[c]?) :
    parseExpression B c d = parseExpression A c d := by
  simp only [parseExpression, parseExpressionKinds, parseToken_agree A B c _ h]

theorem getElem?_lt {α : Type} (l : List α) (i : Nat) (a : α) (h : l[i]? = some a) :
    i < l.length := by
  by_contra hge
  rw [List.getElem?_eq_none (by omega)] at h
  cases h

theorem parseExpression_ok (tokens : List Token) (c : Nat) (d : Token) (p : Option expression)
    (c' : Nat) (h : parseExpression tokens c d = (p, c', true)) :
    c' = c + 1 ∧ c < tokens.length := by
  simp only [parseExpression, parseExpressionKinds] at h
  generalize h1 : parseToken tokens c .IdentifierKind = r1 at h
  obtain ⟨t1, n1, ok1⟩ := r1
  cases ok1
  · simp only at h
    generalize h2 : parseToken tokens c .NumericKind = r2 at h
    obtain ⟨t2, n2, ok2⟩ := r2
    cases ok2
    · simp only at h
      generalize h3 : parseToken tokens c .StringKind = r3 at h
      obtain ⟨t3, n3, ok3⟩ := r3
      cases ok3
      · cases h
      · cases h
        obtain ⟨e, t, _, hg, _⟩ := parseToken_ok _ _ _ _ _ h3
        exact ⟨e, getElem?_lt _ _ _ hg⟩
    · cases h
      obtain ⟨e, t, _, hg, _⟩ := parseToken_ok _ _ _ _ _ h2
      exact ⟨e, getElem?_lt _ _ _ hg⟩
  · cases h
    obtain ⟨e, t, _, hg, _⟩ := parseToken_ok _ _ _ _ _ h1
    exact ⟨e, getElem?_lt _ _ _ hg⟩

theorem expectToken_lt (tokens : List Token) (c : Nat) (x : Token)
    (h : expectToken tokens c x = true) : c < tokens.length := by
  by_contra hge
  simp [expectToken, show c ≥ tokens.length by omega] at h

theorem loop_head (tokens : List Token) (cursor : Nat) (h : ¬ cursor ≥ tokens.length) :
    tokens[cursor]? = some (tokens.get ⟨cursor, Nat.lt_of_not_ge h⟩) :=
  List.getElem?_eq_getElem (Nat.lt_of_not_ge h)

/-- A successful run of the loop of `parseExpressions` ends at a cursor inside the tokens, not
before the cursor it started from. -/
theorem parseExpressionsLoop_le (tokens : List Token) (c0 : Nat) (ds : List Token)
    (fuel : Nat) : ∀ (cursor : Nat) (exps : List (Option expression))
      (p : Option (List (Option expression))) (c' : Nat),
      parseExpressionsLoop tokens c0 ds fuel cursor exps = .ret (p, c', true) →
      cursor ≤ c' ∧ c' < tokens.length := by
  induction fuel with
  | zero => intro cursor exps p c' h; cases h
  | succ n ih =>
    intro cursor exps p c' h
    simp only [parseExpressionsLoop] at h
    split at h
    · cases h
    rename_i hlt
    split at h
    · cases h
    split at h
    · cases h
      exact ⟨le_refl _, by omega⟩
    split at h
    · exact (helpThenReturn_ok _ _ _ _ _ h).elim
    generalize hpe : parseExpression tokens _ _ = pe at h
    obtain ⟨exp, nc, ok⟩ := pe
    cases ok
    · exact (helpThenReturn_ok _ _ _ _ _ h).elim
    · obtain ⟨h1, h2⟩ := ih _ _ _ _ h
      obtain ⟨h3, _⟩ := parseExpression_ok _ _ _ _ _ hpe
      refine ⟨?_, h2⟩
      split at h3 <;> omega

/-- Locality of the loop of `parseExpressions`: a successful run on `A` is a successful run
on every `B` that holds the same tokens from the starting cursor to the final one, with any
fuel that is not smaller. -/
theorem parseExpressionsLoop_local (A B : List Token) (c0 : Nat) (ds : List Token)
    (fuel : Nat) : ∀ (cursor : Nat) (exps : List (Option expression))
      (p : Option (List (Option expression))) (c' : Nat),
      parseExpressionsLoop A c0 ds fuel cursor exps = .ret (p, c', true) →
      (∀ i, cursor ≤ i → i ≤ c' → A[i]? = B[i]?) → ∀ fuel', fuel ≤ fuel' →
      parseExpressionsLoop B c0 ds fuel' cursor exps = .ret (p, c', true) := by
  induction fuel with
  | zero => intro cursor exps p c' h; cases h
  | succ n ih =>
    intro cursor exps p c' h hag fuel' hf
    obtain ⟨f', rfl⟩ : ∃ f', fuel' = f' + 1 := ⟨fuel' - 1, by omega⟩
    obtain ⟨hle, _⟩ := parseExpressionsLoop_le _ _ _ _ _ _ _ _ h
    have hc := hag cursor (le_refl _) hle
    simp only [parseExpressionsLoop] at h ⊢
    split at h
    · cases h
    rename_i hlt
    have hgA := loop_head A cursor hlt
    have hltB : ¬ cursor ≥ B.length := by
      intro hge
      have hn : B[cursor]? = none := List.getElem?_eq_none (by omega)
      rw [hn, hgA] at hc
      cases hc
    rw [if_neg hltB, ← hc, hgA]
    rw [hgA] at h
    simp only at h ⊢
    split at h
    · rename_i hd
      rw [if_pos hd]
      exact h
    rename_i hd
    rw [if_neg hd]
    rw [expectToken_agree A B cursor _ hc]
    split at h
    · exact (helpThenReturn_ok _ _ _ _ _ h).elim
    rename_i hcomma
    rw [if_neg hcomma]
    generalize hpe : parseExpression A _ _ = pe at h
    obtain ⟨exp, nc, ok⟩ := pe
    cases ok
    · exact (helpThenReturn_ok _ _ _ _ _ h).elim
    simp only at h
    obtain ⟨h1, _⟩ := parseExpressionsLoop_le _ _ _ _ _ _ _ _ h
    obtain ⟨h3, _⟩ := parseExpression_ok _ _ _ _ _ hpe
    have hc2 : A[if exps.length > 0 then cursor + 1 else cursor]? =
        B[if exps.length > 0 then cursor + 1 else cursor]? :=
      hag _ (by split <;> omega) (by omega)
    rw [parseExpression_agree A B _ _ hc2, hpe]
    simp only
    exact ih _ _ _ _ h (fun i hi1 hi2 => hag i (by split at h3 <;> omega) hi2) f' (by omega)

theorem parseToken_ok_lt (tokens : List Token) (c : Nat) (kind : TokenKind) (p : Option Token)
    (c' : Nat) (h : parseToken tokens c kind = (p, c', true)) :
    c' = c + 1 ∧ c < tokens.length := by
  obtain ⟨e, t, _, hg, _⟩ := parseToken_ok _ _ _ _ _ h
  exact ⟨e, getElem?_lt _ _ _ hg⟩

theorem parseColumnDefinitionsLoop_le (tokens : List Token) (c0 : Nat) (d : Token)
    (fuel : Nat) : ∀ (cursor : Nat) (cds : List (Option columnDefinition))
      (p : Option (List (Option columnDefinition))) (c' : Nat),
      parseColumnDefinitionsLoop tokens c0 d fuel cursor cds = .ret (p, c', true) →
      cursor ≤ c' ∧ c' < tokens.length := by
  induction fuel with
  | zero => intro cursor cds p c' h; cases h
  | succ n ih =>
    intro cursor cds p c' h
    simp only [parseColumnDefinitionsLoop] at h
    split at h
    · cases h
    rename_i hlt
    split at h
    · cases h
    split at h
    · cases h
      exact ⟨le_refl _, by omega⟩
    split at h
    · exact (helpThenReturn_ok _ _ _ _ _ h).elim
    generalize hp1 : parseToken tokens _ .IdentifierKind = pt at h
    obtain ⟨id, nc, ok⟩ := pt
    cases ok
    · exact (helpThenReturn_ok _ _ _ _ _ h).elim
    simp only at h
    generalize hp2 : parseToken tokens _ .KeywordKind = pt2 at h
    obtain ⟨ty, nc2, ok2⟩ := pt2
    cases ok2
    · exact (helpThenReturn_ok _ _ _ _ _ h).elim
    simp only at h
    split at h
    · obtain ⟨h1, h2⟩ := ih _ _ _ _ h
      obtain ⟨h3, _⟩ := parseToken_ok_lt _ _ _ _ _ hp1
      obtain ⟨h4, _⟩ := parseToken_ok_lt _ _ _ _ _ hp2
      refine ⟨?_, h2⟩
      split at h3 <;> omega
    · cases h

theorem parseColumnDefinitionsLoop_local (A B : List Token) (c0 : Nat) (d : Token)
    (fuel : Nat) : ∀ (cursor : Nat) (cds : List (Option columnDefinition))
      (p : Option (List (Option columnDefinition))) (c' : Nat),
      parseColumnDefinitionsLoop A c0 d fuel cursor cds = .ret (p, c', true) →
      (∀ i, cursor ≤ i → i ≤ c' → A[i]? = B[i]?) → ∀ fuel', fuel ≤ fuel' →
      parseColumnDefinitionsLoop B c0 d fuel' cursor cds = .ret (p, c', true) := by
  induction fuel with
  | zero => intro cursor cds p c' h; cases h
  | succ n ih =>
    intro cursor cds p c' h hag fuel' hf
    obtain ⟨f', rfl⟩ : ∃ f', fuel' = f' + 1 := ⟨fuel' - 1, by omega⟩
    obtain ⟨hle, _⟩ := parseColumnDefinitionsLoop_le _ _ _ _ _ _ _ _ h
    have hc := hag cursor (le_refl _) hle
    simp only [parseColumnDefinitionsLoop] at h ⊢
    split at h
    · cases h
    rename_i hlt
    have hgA := loop_head A cursor hlt
    have hltB : ¬ cursor ≥ B.length := by
      intro hge
      have hn : B[cursor]? = none := List.getElem?_eq_none (by omega)
      rw [hn, hgA] at hc
      cases hc
    rw [if_neg hltB, ← hc, hgA]
    rw [hgA] at h
    simp only at h ⊢
    split at h
    · rename_i hd
      rw [if_pos hd]
      exact h
    rename_i hd
    rw [if_neg hd]
    rw [expectToken_agree A B cursor _ hc]
    split at h
    · exact (helpThenReturn_ok _ _ _ _ _ h).elim
    rename_i hcomma
    rw [if_neg hcomma]
    generalize hp1 : parseToken A _ .IdentifierKind = pt at h
    obtain ⟨id, nc, ok⟩ := pt
    cases ok
    · exact (helpThenReturn_ok _ _ _ _ _ h).elim
    simp only at h
    generalize hp2 : parseToken A _ .KeywordKind = pt2 at h
    obtain ⟨ty, nc2, ok2⟩ := pt2
    cases ok2
    · exact (helpThenReturn_ok _ _ _ _ _ h).elim
    simp only at h
    obtain ⟨h3, _⟩ := parseToken_ok_lt _ _ _ _ _ hp1
    obtain ⟨h4, _⟩ := parseToken_ok_lt _ _ _ _ _ hp2
    split at h
    · obtain ⟨h1, _⟩ := parseColumnDefinitionsLoop_le _ _ _ _ _ _ _ _ h
      have hc2 : A[if cds.length > 0 then cursor + 1 else cursor]? =
          B[if cds.length > 0 then cursor + 1 else cursor]? :=
        hag _ (by split <;> omega) (by omega)
      have hc3 : A[nc]? = B[nc]? := hag _ (by split at h3 <;> omega) (by omega)
      rw [parseToken_agree A B _ _ hc2, hp1]
      simp only
      rw [parseToken_agree A B _ _ hc3, hp2]
      simp only
      exact ih _ _ _ _ h (fun i hi1 hi2 => hag i (by split at h3 <;> omega) hi2) f' (by omega)
    · cases h

theorem parseSelectItemLoop_le (tokens : List Token) (c0 : Nat) (ds : List Token)
    (fuel : Nat) : ∀ (cursor : Nat) (s : List (Option selectItem))
      (p : Option (List (Option selectItem))) (c' : Nat),
      parseSelectItemLoop tokens c0 ds fuel cursor s = .ret (p, c', true) →
      cursor ≤ c' ∧ c' < tokens.length := by
  induction fuel with
  | zero => intro cursor s p c' h; cases h
  | succ n ih =>
    intro cursor s p c' h
    simp only [parseSelectItemLoop] at h
    split at h
    · cases h
    rename_i hlt
    split at h
    · cases h
    split at h
    · cases h
      exact ⟨le_refl _, by omega⟩
    split at h
    · exact (helpThenReturn_ok _ _ _ _ _ h).elim
    generalize hc2 : (if s.length > 0 then cursor + 1 else cursor) = c2 at h
    have hc2le : cursor ≤ c2 := by rw [← hc2]; split <;> omega
    split at h
    · obtain ⟨h1, h2⟩ := ih _ _ _ _ h
      exact ⟨by omega, h2⟩
    generalize hpe : parseExpression tokens _ _ = pe at h
    obtain ⟨exp, nc, ok⟩ := pe
    cases ok
    · exact (helpThenReturn_ok _ _ _ _ _ h).elim
    obtain ⟨h3, _⟩ := parseExpression_ok _ _ _ _ _ hpe
    simp only at h
    split at h
    · generalize hpt : parseToken tokens _ _ = pt at h
      obtain ⟨id, nc2, ok2⟩ := pt
      cases ok2
      · exact (helpThenReturn_ok _ _ _ _ _ h).elim
      · obtain ⟨h4, _⟩ := parseToken_ok_lt _ _ _ _ _ hpt
        obtain ⟨h1, h2⟩ := ih _ _ _ _ h
        exact ⟨by omega, h2⟩
    · obtain ⟨h1, h2⟩ := ih _ _ _ _ h
      exact ⟨by omega, h2⟩

theorem parseSelectItemLoop_local (A B : List Token) (c0 : Nat) (ds : List Token)
    (fuel : Nat) : ∀ (cursor : Nat) (s : List (Option selectItem))
      (p : Option (List (Option selectItem))) (c' : Nat),
      parseSelectItemLoop A c0 ds fuel cursor s = .ret (p, c', true) →
      (∀ i, cursor ≤ i → i ≤ c' → A[i]? = B[i]?) → ∀ fuel', fuel ≤ fuel' →
      parseSelectItemLoop B c0 ds fuel' cursor s = .ret (p, c', true) := by
  induction fuel with
  | zero => intro cursor s p c' h; cases h
  | succ n ih =>
    intro cursor s p c' h hag fuel' hf
    obtain ⟨f', rfl⟩ : ∃ f', fuel' = f' + 1 := ⟨fuel' - 1, by omega⟩
    obtain ⟨hle, _⟩ := parseSelectItemLoop_le _ _ _ _ _ _ _ _ h
    have hc := hag cursor (le_refl _) hle
    simp only [parseSelectItemLoop] at h ⊢
    split at h
    · cases h
    rename_i hlt
    have hgA := loop_head A cursor hlt
    have hltB : ¬ cursor ≥ B.length := by
      intro hge
      have hn : B[cursor]? = none := List.getElem?_eq_none (by omega)
      rw [hn, hgA] at hc
      cases hc
    rw [if_neg hltB, ← hc, hgA]
    rw [hgA] at h
    simp only at h ⊢
    split at h
    · rename_i hd
      rw [if_pos hd]
      exact h
    rename_i hd
    rw [if_neg hd]
    rw [expectToken_agree A B cursor _ hc]
    split at h
    · exact (helpThenReturn_ok _ _ _ _ _ h).elim
    rename_i hcomma
    rw [if_neg hcomma]
    generalize hc2 : (if s.length > 0 then cursor + 1 else cursor) = c2 at h ⊢
    have hc2le : cursor ≤ c2 := by rw [← hc2]; split <;> omega
    split at h
    · rename_i hstar
      obtain ⟨h1, _⟩ := parseSelectItemLoop_le _ _ _ _ _ _ _ _ h
      rw [expectToken_agree A B c2 _ (hag _ hc2le (by omega)), if_pos hstar]
      exact ih _ _ _ _ h (fun i hi1 hi2 => hag i (by omega) hi2) f' (by omega)
    rename_i hstar
    generalize hpe : parseExpression A _ _ = pe at h
    obtain ⟨exp, nc, ok⟩ := pe
    cases ok
    · exact (helpThenReturn_ok _ _ _ _ _ h).elim
    obtain ⟨h3, _⟩ := parseExpression_ok _ _ _ _ _ hpe
    simp only at h
    split at h
    · rename_i has
      generalize hpt : parseToken A _ _ = pt at h
      obtain ⟨id, nc2, ok2⟩ := pt
      cases ok2
      · exact (helpThenReturn_ok _ _ _ _ _ h).elim
      · obtain ⟨h4, _⟩ := parseToken_ok_lt _ _ _ _ _ hpt
        obtain ⟨h1, _⟩ := parseSelectItemLoop_le _ _ _ _ _ _ _ _ h
        simp only at h
        rw [expectToken_agree A B c2 _ (hag _ hc2le (by omega)), if_neg hstar,
          parseExpression_agree A B c2 _ (hag _ hc2le (by omega)), hpe]
        simp only
        rw [expectToken_agree A B nc _ (hag _ (by omega) (by omega)), if_pos has,
          parseToken_agree A B _ _ (hag _ (by omega) (by omega)), hpt]
        simp only
        exact ih _ _ _ _ h (fun i hi1 hi2 => hag i (by omega) hi2) f' (by omega)
    · rename_i has
      obtain ⟨h1, _⟩ := parseSelectItemLoop_le _ _ _ _ _ _ _ _ h
      rw [expectToken_agree A B c2 _ (hag _ hc2le (by omega)), if_neg hstar,
        parseExpression_agree A B c2 _ (hag _ hc2le (by omega)), hpe]
      simp only
      rw [expectToken_agree A B nc _ (hag _ (by omega) (by omega)), if_neg has]
      exact ih _ _ _ _ h (fun i hi1 hi2 => hag i (by omega) hi2) f' (by omega)

/-- Locality of `parseSelectStatement`: a successful run on `A` is a successful run on every
`B`, not shorter than `A`, that holds the same tokens from the starting cursor up to and with
the final one. -/
theorem parseSelectStatement_local (A B : List Token) (c : Nat) (d : Token)
    (p : Option SelectStatement) (c' : Nat)
    (h : parseSelectStatement A c d = .ret (p, c', true))
    (hag : ∀ i, c ≤ i → i ≤ c' → A[i]? = B[i]?) (hlen : A.length ≤ B.length) :
    parseSelectStatement B c d = .ret (p, c', true) := by
  simp only [parseSelectStatement] at h ⊢
  split at h
  · cases h
  rename_i hsel
  generalize hps : parseSelectItem A _ _ = ps at h
  rcases ps with ⟨exps, nc, ok⟩ | _ | _
  · cases ok
    · cases h
    simp only at h
    obtain ⟨h1, h2⟩ := parseSelectItemLoop_le _ _ _ _ _ _ _ _ hps
    have hps' : ∀ c'' : Nat, nc ≤ c'' → (∀ i, c ≤ i → i ≤ c'' → A[i]? = B[i]?) →
        parseSelectItem B (c + 1) [tokenFromKeyword (ascii "from"), d] =
          .ret (exps, nc, true) := fun c'' hc'' hag' =>
      parseSelectItemLoop_local A B _ _ _ _ _ _ _ hps
        (fun i hi1 hi2 => hag' i (by omega) (by omega)) _ (by omega)
    split at h
    · rename_i hfrom
      generalize hpf : parseFromItem A _ _ = pf at h
      obtain ⟨f, nc2, ok2⟩ := pf
      cases ok2
      · exact (helpThenReturn_ok _ _ _ _ _ h).elim
      · cases h
        have hnc2 : c' = nc + 1 + 1 := by
          simp only [parseFromItem] at hpf
          generalize hpt : parseToken A _ _ = pt at hpf
          obtain ⟨id, n3, ok3⟩ := pt
          cases ok3
          · cases hpf
          · cases hpf
            exact (parseToken_ok_lt _ _ _ _ _ hpt).1
        have e1 : expectToken B c (tokenFromKeyword (ascii "select")) =
            expectToken A c (tokenFromKeyword (ascii "select")) :=
          expectToken_agree A B c _ (hag c (le_refl _) (by omega))
        have e2 : expectToken B nc (tokenFromKeyword (ascii "from")) =
            expectToken A nc (tokenFromKeyword (ascii "from")) :=
          expectToken_agree A B nc _ (hag nc (by omega) (by omega))
        have e3 : parseFromItem B (nc + 1) d = parseFromItem A (nc + 1) d := by
          simp only [parseFromItem, parseToken_agree A B (nc + 1) _
            (hag (nc + 1) (by omega) (by omega))]
        rw [e1, if_neg hsel, hps' c' (by omega) hag]
        simp only
        rw [e2, if_pos hfrom, e3, hpf]
    · rename_i hfrom
      cases h
      have e1 : expectToken B c (tokenFromKeyword (ascii "select")) =
          expectToken A c (tokenFromKeyword (ascii "select")) :=
        expectToken_agree A B c _ (hag c (le_refl _) (by omega))
      have e2 : expectToken B c' (tokenFromKeyword (ascii "from")) =
          expectToken A c' (tokenFromKeyword (ascii "from")) :=
        expectToken_agree A B c' _ (hag c' (by omega) (le_refl _))
      rw [e1, if_neg hsel, hps' c' (le_refl _) hag]
      simp only
      rw [e2, if_neg hfrom]
  · cases h
  · cases h

/-- Locality of `parseInsertStatement`: a successful run on `A` is a successful run on every
`B`, not shorter than `A`, that holds the same tokens from the starting cursor to the one
before the final cursor; the run starts at the keyword `insert`. -/
theorem parseInsertStatement_local (A B : List Token) (c : Nat) (d : Token)
    (p : Option InsertStatement) (c' : Nat)
    (h : parseInsertStatement A c d = .ret (p, c', true)) :
    c < c' ∧ expectToken A c (tokenFromKeyword (ascii "insert")) = true ∧
      ((∀ i, c ≤ i → i < c' → A[i]? = B[i]?) → A.length ≤ B.length →
        parseInsertStatement B c d = .ret (p, c', true)) := by
  simp only [parseInsertStatement] at h ⊢
  split at h
  · cases h
  rename_i h0
  split at h
  · exact (helpThenReturn_ok _ _ _ _ _ h).elim
  rename_i h1
  generalize hpt : parseToken A _ _ = pt at h
  obtain ⟨table, nc, ok⟩ := pt
  cases ok
  · exact (helpThenReturn_ok _ _ _ _ _ h).elim
  obtain ⟨rfl, -⟩ := parseToken_ok_lt _ _ _ _ _ hpt
  simp only at h
  split at h
  · exact (helpThenReturn_ok _ _ _ _ _ h).elim
  rename_i h3
  split at h
  · exact (helpThenReturn_ok _ _ _ _ _ h).elim
  rename_i h4
  generalize hpe : parseExpressions A _ _ = pe at h
  rcases pe with ⟨values, nc2, ok2⟩ | _ | _
  · cases ok2
    · cases h
    simp only at h
    obtain ⟨hle1, hle2⟩ := parseExpressionsLoop_le _ _ _ _ _ _ _ _ hpe
    split at h
    · exact (helpThenReturn_ok _ _ _ _ _ h).elim
    rename_i h5
    split at h
    · cases h
    · cases h
      refine ⟨by omega, by simpa using h0, fun hag hlen => ?_⟩
      have e0 := expectToken_agree A B c (tokenFromKeyword (ascii "insert"))
        (hag c (le_refl _) (by omega))
      have e1 := expectToken_agree A B (c + 1) (tokenFromKeyword (ascii "into"))
        (hag _ (by omega) (by omega))
      have e2 := parseToken_agree A B (c + 1 + 1) .IdentifierKind (hag _ (by omega) (by omega))
      have e3 := expectToken_agree A B (c + 1 + 1 + 1) (tokenFromKeyword (ascii "values"))
        (hag _ (by omega) (by omega))
      have e4 := expectToken_agree A B (c + 1 + 1 + 1 + 1) (tokenFromSymbol (ascii "("))
        (hag _ (by omega) (by omega))
      have e5 : parseExpressions B (c + 1 + 1 + 1 + 1 + 1) [tokenFromSymbol (ascii ")")] =
          .ret (values, nc2, true) :=
        parseExpressionsLoop_local A B _ _ _ _ _ _ _ hpe
          (fun i hi1 hi2 => hag i (by omega) (by omega)) _ (by omega)
      have e6 := expectToken_agree A B nc2 (tokenFromSymbol (ascii ")"))
        (hag _ (by omega) (by omega))
      rw [e0, if_neg h0, e1, if_neg h1, e2, hpt]
      simp only
      rw [e3, if_neg h3, e4, if_neg h4, e5]
      simp only
      rw [e6, if_neg h5]
  · cases h
  · cases h

/-- Locality of `parseCreateTableStatement`, as for `parseInsertStatement`. -/
theorem parseCreateTableStatement_local (A B : List Token) (c : Nat) (d : Token)
    (p : Option CreateTableStatement) (c' : Nat)
    (h : parseCreateTableStatement A c d = .ret (p, c', true)) :
    c < c' ∧ expectToken A c (tokenFromKeyword (ascii "create")) = true ∧
      ((∀ i, c ≤ i → i < c' → A[i]? = B[i]?) → A.length ≤ B.length →
        parseCreateTableStatement B c d = .ret (p, c', true)) := by
  simp only [parseCreateTableStatement] at h ⊢
  split at h
  · cases h
  rename_i h0
  split at h
  · cases h
  rename_i h1
  generalize hpt : parseToken A _ _ = pt at h
  obtain ⟨name, nc, ok⟩ := pt
  cases ok
  · exact (helpThenReturn_ok _ _ _ _ _ h).elim
  obtain ⟨rfl, -⟩ := parseToken_ok_lt _ _ _ _ _ hpt
  simp only at h
  split at h
  · exact (helpThenReturn_ok _ _ _ _ _ h).elim
  rename_i h4
  generalize hpe : parseColumnDefinitions A _ _ = pe at h
  rcases pe with ⟨cols, nc2, ok2⟩ | _ | _
  · cases ok2
    · cases h
    simp only at h
    obtain ⟨hle1, hle2⟩ := parseColumnDefinitionsLoop_le _ _ _ _ _ _ _ _ hpe
    split at h
    · exact (helpThenReturn_ok _ _ _ _ _ h).elim
    rename_i h5
    split at h
    · cases h
    · cases h
      refine ⟨by omega, by simpa using h0, fun hag hlen => ?_⟩
      have e0 := expectToken_agree A B c (tokenFromKeyword (ascii "create"))
        (hag c (le_refl _) (by omega))
      have e1 := expectToken_agree A B (c + 1) (tokenFromKeyword (ascii "table"))
        (hag _ (by omega) (by omega))
      have e2 := parseToken_agree A B (c + 1 + 1) .IdentifierKind (hag _ (by omega) (by omega))
      have e4 := expectToken_agree A B (c + 1 + 1 + 1) (tokenFromSymbol (ascii "("))
        (hag _ (by omega) (by omega))
      have e5 : parseColumnDefinitions B (c + 1 + 1 + 1 + 1) (tokenFromSymbol (ascii ")")) =
          .ret (cols, nc2, true) :=
        parseColumnDefinitionsLoop_local A B _ _ _ _ _ _ _ hpe
          (fun i hi1 hi2 => hag i (by omega) (by omega)) _ (by omega)
      have e6 := expectToken_agree A B nc2 (tokenFromSymbol (ascii ")"))
        (hag _ (by omega) (by omega))
      rw [e0, if_neg h0, e1, if_neg h1, e2, hpt]
      simp only
      rw [e4, if_neg h4, e5]
      simp only
      rw [e6, if_neg h5]
  · cases h
  · cases h

theorem expectToken_exclusive (tokens : List Token) (c : Nat) (x y : Token)
    (h : expectToken tokens c x = true) (hne : x.Value ≠ y.Value) :
    expectToken tokens c y = false := by
  rw [expectToken_get] at h ⊢
  cases hg : tokens[c]? with
  | none => rfl
  | some t =>
    rw [hg] at h
    simp only [Token.equals, Bool.and_eq_true, decide_eq_true_eq] at h
    simp only [Token.equals, Bool.and_eq_false_iff, decide_eq_false_iff_not]
    left
    intro hy
    exact hne (h.1.trans hy.symm)

theorem expectToken_keyword (tokens : List Token) (c : Nat) (k : List Nat)
    (h : expectToken tokens c (tokenFromKeyword k) = true) :
    ∃ t, tokens[c]? = some t ∧ t.Kind = .KeywordKind := by
  rw [expectToken_get] at h
  cases hg : tokens[c]? with
  | none => rw [hg] at h; cases h
  | some t =>
    rw [hg] at h
    simp only [Token.equals, tokenFromKeyword, Bool.and_eq_true, decide_eq_true_eq] at h
    exact ⟨t, rfl, h.2.symm⟩

theorem parseSelectStatement_first (tokens : List Token) (c : Nat) (d : Token)
    (p : Option SelectStatement) (c' : Nat)
    (h : parseSelectStatement tokens c d = .ret (p, c', true)) :
    c < c' ∧ expectToken tokens c (tokenFromKeyword (ascii "select")) = true := by
  simp only [parseSelectStatement] at h
  split at h
  · cases h
  rename_i hsel
  generalize hps : parseSelectItem tokens _ _ = ps at h
  rcases ps with ⟨exps, nc, ok⟩ | _ | _
  · cases ok
    · cases h
    simp only at h
    obtain ⟨h1, h2⟩ := parseSelectItemLoop_le _ _ _ _ _ _ _ _ hps
    split at h
    · generalize hpf : parseFromItem tokens _ _ = pf at h
      obtain ⟨f, nc2, ok2⟩ := pf
      cases ok2
      · exact (helpThenReturn_ok _ _ _ _ _ h).elim
      · cases h
        refine ⟨?_, by simpa using hsel⟩
        simp only [parseFromItem] at hpf
        generalize hpt : parseToken tokens _ _ = pt at hpf
        obtain ⟨id, n3, ok3⟩ := pt
        cases ok3
        · cases hpf
        · cases hpf
          have := (parseToken_ok_lt _ _ _ _ _ hpt).1
          omega
    · cases h
      exact ⟨by omega, by simpa using hsel⟩
  · cases h
  · cases h

theorem parseSelectStatement_fail (tokens : List Token) (c : Nat) (d : Token)
    (h : expectToken tokens c (tokenFromKeyword (ascii "select")) = false) :
    parseSelectStatement tokens c d = .ret (none, c, false) := by
  simp [parseSelectStatement, h]

theorem parseInsertStatement_fail (tokens : List Token) (c : Nat) (d : Token)
    (h : expectToken tokens c (tokenFromKeyword (ascii "insert")) = false) :
    parseInsertStatement tokens c d = .ret (none, c, false) := by
  simp [parseInsertStatement, h]

/-- Locality of `parseStatement`.  A successful run starts at a keyword and ends after it.  It
is a successful run on every `B`, not shorter than `A`, that holds the same tokens from the
starting cursor up to and with the final one; for an Insert or CreateTable statement the token
at the final cursor may differ. -/
theorem parseStatement_local (A B : List Token) (c : Nat) (d : Token) (p : Option Statement)
    (c' : Nat) (h : parseStatement A c d = .ret (p, c', true)) :
    c < c' ∧ (∃ t, A[c]? = some t ∧ t.Kind = .KeywordKind) ∧
      ((∀ i, c ≤ i → i ≤ c' → A[i]? = B[i]?) → A.length ≤ B.length →
        parseStatement B c d = .ret (p, c', true)) ∧
      ((∀ st, p = some st → st.Kind ≠ .SelectKind) →
        (∀ i, c ≤ i → i < c' → A[i]? = B[i]?) → A.length ≤ B.length →
        parseStatement B c d = .ret (p, c', true)) := by
  simp only [parseStatement] at h
  generalize h1 : parseSelectStatement A _ _ = p1 at h
  rcases p1 with ⟨x1, n1, ok1⟩ | _ | _
  · cases ok1
    · simp only at h
      generalize h2 : parseInsertStatement A _ _ = p2 at h
      rcases p2 with ⟨x2, n2, ok2⟩ | _ | _
      · cases ok2
        · simp only at h
          generalize h3 : parseCreateTableStatement A _ _ = p3 at h
          rcases p3 with ⟨x3, n3, ok3⟩ | _ | _
          · cases ok3
            · cases h
            · cases h
              obtain ⟨hlt, he, hloc⟩ := parseCreateTableStatement_local A B c d _ _ h3
              have key : (∀ i, c ≤ i → i < c' → A[i]? = B[i]?) → A.length ≤ B.length →
                  parseStatement B c d =
                    .ret (some ⟨none, x3, none, .CreateTableKind⟩, c', true) := by
                intro hag hlen
                have hc := hag c (le_refl _) hlt
                have e1 : expectToken B c (tokenFromKeyword (ascii "select")) = false := by
                  rw [expectToken_agree A B c _ hc]
                  exact expectToken_exclusive A c _ _ he (by decide)
                have e2 : expectToken B c (tokenFromKeyword (ascii "insert")) = false := by
                  rw [expectToken_agree A B c _ hc]
                  exact expectToken_exclusive A c _ _ he (by decide)
                simp only [parseStatement, parseSelectStatement_fail B c d e1,
                  parseInsertStatement_fail B c d e2, hloc hag hlen]
              exact ⟨hlt, expectToken_keyword _ _ _ he,
                fun hag hlen => key (fun i hi1 hi2 => hag i hi1 (by omega)) hlen,
                fun _ hag hlen => key hag hlen⟩
          · cases h
          · cases h
        · cases h
          obtain ⟨hlt, he, hloc⟩ := parseInsertStatement_local A B c d _ _ h2
          have key : (∀ i, c ≤ i → i < c' → A[i]? = B[i]?) → A.length ≤ B.length →
              parseStatement B c d = .ret (some ⟨none, none, x2, .InsertKind⟩, c', true) := by
            intro hag hlen
            have hc := hag c (le_refl _) hlt
            have e1 : expectToken B c (tokenFromKeyword (ascii "select")) = false := by
              rw [expectToken_agree A B c _ hc]
              exact expectToken_exclusive A c _ _ he (by decide)
            simp only [parseStatement, parseSelectStatement_fail B c d e1, hloc hag hlen]
          exact ⟨hlt, expectToken_keyword _ _ _ he,
            fun hag hlen => key (fun i hi1 hi2 => hag i hi1 (by omega)) hlen,
            fun _ hag hlen => key hag hlen⟩
      · cases h
      · cases h
    · cases h
      obtain ⟨hlt, he⟩ := parseSelectStatement_first A c d _ _ h1
      refine ⟨hlt, expectToken_keyword _ _ _ he, fun hag hlen => ?_, fun hk => ?_⟩
      · simp only [parseStatement, parseSelectStatement_local A B c d _ _ h1 hag hlen]
      · exact absurd rfl (hk _ rfl)
  · cases h
  · cases h

/-! ## Semicolons after a statement -/

/-- What the loop over the semicolons of `Parse` returns: the first cursor from `c` on that
is not at a semicolon, and the flag raised when it moved. -/
theorem skipSemicolons_inv (tokens : List Token) (fuel : Nat) : ∀ (c : Nat) (b : Bool)
    (c2 : Nat) (b2 : Bool), skipSemicolons tokens fuel c b = .ret (c2, b2) →
    c ≤ c2 ∧ (∀ i, c ≤ i → i < c2 → expectToken tokens i (tokenFromSymbol (ascii ";")) = true) ∧
      expectToken tokens c2 (tokenFromSymbol (ascii ";")) = false ∧
      b2 = (b || decide (c < c2)) := by
  induction fuel with
  | zero => intro c b c2 b2 h; cases h
  | succ n ih =>
    intro c b c2 b2 h
    simp only [skipSemicolons] at h
    split at h
    · rename_i he
      obtain ⟨h1, h2, h3, h4⟩ := ih _ _ _ _ h
      refine ⟨by omega, fun i hi1 hi2 => ?_, h3, ?_⟩
      · by_cases hic : i = c
        · rw [hic]; exact he
        · exact h2 i (by omega) hi2
      · rw [h4]
        have : decide (c < c2) = true := by simp; omega
        simp [this]
    · rename_i he
      cases h
      exact ⟨le_refl _, fun i hi1 hi2 => by omega, by simpa using he, by simp⟩

theorem skipSemicolons_run (tokens : List Token) : ∀ (k c : Nat) (b : Bool) (fuel : Nat),
    (∀ i, c ≤ i → i < c + k → expectToken tokens i (tokenFromSymbol (ascii ";")) = true) →
    expectToken tokens (c + k) (tokenFromSymbol (ascii ";")) = false → k < fuel →
    skipSemicolons tokens fuel c b = .ret (c + k, b || decide (0 < k)) := by
  intro k
  induction k with
  | zero =>
    intro c b fuel _ he hf
    obtain ⟨f, rfl⟩ : ∃ f, fuel = f + 1 := ⟨fuel - 1, by omega⟩
    simp only [skipSemicolons]
    rw [if_neg (by simpa using he)]
    simp
  | succ k ih =>
    intro c b fuel hs he hf
    obtain ⟨f, rfl⟩ : ∃ f, fuel = f + 1 := ⟨fuel - 1, by omega⟩
    simp only [skipSemicolons]
    rw [if_pos (hs c (le_refl _) (by omega))]
    rw [ih (c + 1) true f (fun i hi1 hi2 => hs i (by omega) (by omega))
      (by rw [show c + 1 + k = c + (k + 1) by omega]; exact he) (by omega)]
    simp
    omega

theorem ParseLoop_grows (tokens : List Token) (fuel : Nat) : ∀ (c : Nat)
    (stmts : List (Option Statement)) (a : Ast),
    ParseLoop tokens fuel c stmts = .ret (.ast a) →
    ∃ more, a.Statements = stmts ++ more ∧ (c < tokens.length → more ≠ []) := by
  induction fuel with
  | zero => intro c stmts a h; cases h
  | succ n ih =>
    intro c stmts a h
    simp only [ParseLoop] at h
    split at h
    · generalize h1 : parseStatement tokens _ _ = p1 at h
      rcases p1 with ⟨stmt, nc, ok⟩ | _ | _
      · cases ok
        · have := helpThenReturn_ret _ _ _ _ h
          cases this
        · simp only at h
          generalize skipSemicolons tokens _ _ _ = sk at h
          rcases sk with ⟨c2, b⟩ | _ | _
          · simp only at h
            split at h
            · have := helpThenReturn_ret _ _ _ _ h
              cases this
            · obtain ⟨more, hm, _⟩ := ih _ _ _ h
              exact ⟨stmt :: more, by simp [hm], fun _ => by simp⟩
          · cases h
          · cases h
      · cases h
      · cases h
    · rename_i hlt
      cases h
      exact ⟨[], by simp, fun h => absurd h hlt⟩

/-- One round of the loop of `Parse` that goes on: the statement parsed at the cursor, the
semicolons after it, and the rest of the loop. -/
theorem ParseLoop_inv (tokens : List Token) (fuel c : Nat) (stmts : List (Option Statement))
    (a : Ast) (hlt : c < tokens.length)
    (h : ParseLoop tokens (fuel + 1) c stmts = .ret (.ast a)) :
    ∃ stmt nc c2, parseStatement tokens c (tokenFromSymbol (ascii ";")) = .ret (stmt, nc, true) ∧
      skipSemicolons tokens (tokens.length + 1) nc false = .ret (c2, true) ∧
      ParseLoop tokens fuel c2 (stmts ++ [stmt]) = .ret (.ast a) := by
  simp only [ParseLoop] at h
  rw [if_pos hlt] at h
  generalize h1 : parseStatement tokens _ _ = p1 at h
  rcases p1 with ⟨stmt, nc, ok⟩ | _ | _
  · cases ok
    · have := helpThenReturn_ret _ _ _ _ h
      cases this
    · simp only at h
      generalize h2 : skipSemicolons tokens _ _ _ = sk at h
      rcases sk with ⟨c2, b⟩ | _ | _
      · simp only at h
        split at h
        · have := helpThenReturn_ret _ _ _ _ h
          cases this
        · rename_i hb
          have hb' : b = true := by simpa using hb
          subst hb'
          exact ⟨stmt, nc, c2, rfl, h2, h⟩
      · cases h
      · cases h
  · cases h
  · cases h

theorem ParseLoop_run (tokens : List Token) (fuel c : Nat) (stmts : List (Option Statement))
    (stmt : Option Statement) (nc c2 : Nat) (hlt : c < tokens.length)
    (h1 : parseStatement tokens c (tokenFromSymbol (ascii ";")) = .ret (stmt, nc, true))
    (h2 : skipSemicolons tokens (tokens.length + 1) nc false = .ret (c2, true)) :
    ParseLoop tokens (fuel + 1) c stmts = ParseLoop tokens fuel c2 (stmts ++ [stmt]) := by
  simp only [ParseLoop]
  rw [if_pos hlt, h1]
  simp only
  rw [h2]
  simp

theorem getElem?_append_left' {α : Type} (A extra : List α) (i : Nat) (h : i < A.length) :
    A[i]? = (A ++ extra)[i]? := by
  rw [List.getElem?_append_left h]

/-- Semicolons after the tokens do not change what the loop of `Parse` returns, when it
returns a tree. -/
theorem ParseLoop_ext (A extra : List Token)
    (hextra : ∀ t ∈ extra, (tokenFromSymbol (ascii ";")).equals t = true) :
    ∀ (fuel c : Nat) (stmts : List (Option Statement)) (a : Ast), c < A.length →
      ParseLoop A fuel c stmts = .ret (.ast a) → ∀ fuel', fuel ≤ fuel' →
      ParseLoop (A ++ extra) fuel' c stmts = .ret (.ast a) := by
  intro fuel
  induction fuel with
  | zero => intro c stmts a _ h; cases h
  | succ n ih =>
    intro c stmts a hlt h fuel' hf
    obtain ⟨f', rfl⟩ : ∃ f', fuel' = f' + 1 := ⟨fuel' - 1, by omega⟩
    obtain ⟨stmt, nc, c2, h1, h2, h3⟩ := ParseLoop_inv A n c stmts a hlt h
    obtain ⟨hs1, hs2, hs3, hs4⟩ := skipSemicolons_inv _ _ _ _ _ _ h2
    have hnc : nc < c2 := by simpa using hs4.symm
    have hc2 : c2 ≤ A.length := by
      have := expectToken_lt _ _ _ (hs2 (c2 - 1) (by omega) (by omega))
      omega
    have hlenB : (A ++ extra).length = A.length + extra.length := List.length_append _ _
    have hagree : ∀ i, i < A.length → A[i]? = (A ++ extra)[i]? :=
      fun i hi => getElem?_append_left' A extra i hi
    obtain ⟨_, _, hloc, _⟩ := parseStatement_local A (A ++ extra) c _ _ _ h1
    have h1B := hloc (fun i _ hi2 => hagree i (by omega)) (by omega)
    by_cases hend : c2 < A.length
    · have h2B : skipSemicolons (A ++ extra) ((A ++ extra).length + 1) nc false =
          .ret (c2, true) := by
        have := skipSemicolons_run (A ++ extra) (c2 - nc) nc false ((A ++ extra).length + 1)
          (fun i hi1 hi2 => by
            rw [expectToken_agree A _ i _ (hagree i (by omega))]
            exact hs2 i hi1 (by omega))
          (by
            rw [show nc + (c2 - nc) = c2 by omega,
              expectToken_agree A _ c2 _ (hagree c2 hend)]
            exact hs3)
          (by omega)
        have hd : decide (0 < c2 - nc) = true := by simp; omega
        rw [this, show nc + (c2 - nc) = c2 by omega, hd]
        rfl
      rw [ParseLoop_run _ f' c stmts stmt nc c2 (by omega) h1B h2B]
      exact ih _ _ _ hend h3 f' (by omega)
    · have hc2' : c2 = A.length := by omega
      subst hc2'
      have h2B : skipSemicolons (A ++ extra) ((A ++ extra).length + 1) nc false =
          .ret ((A ++ extra).length, true) := by
        have := skipSemicolons_run (A ++ extra) ((A ++ extra).length - nc) nc false
          ((A ++ extra).length + 1)
          (fun i hi1 hi2 => by
            by_cases hi : i < A.length
            · rw [expectToken_agree A _ i _ (hagree i hi)]
              exact hs2 i hi1 hi
            · have hg : (A ++ extra)[i]? = extra[i - A.length]? :=
                List.getElem?_append_right (by omega)
              have hlt2 : i - A.length < extra.length := by omega
              rw [expectToken_get, hg, List.getElem?_eq_getElem hlt2]
              exact hextra _ (List.getElem_mem hlt2))
          (by
            rw [show nc + ((A ++ extra).length - nc) = (A ++ extra).length by omega]
            simp [expectToken])
          (by omega)
        have hd : decide (0 < (A ++ extra).length - nc) = true := by simp; omega
        rw [this, show nc + ((A ++ extra).length - nc) = (A ++ extra).length by omega, hd]
        rfl
      rw [ParseLoop_run _ f' c stmts stmt nc _ (by omega) h1B h2B]
      cases n with
      | zero => cases h3
      | succ m =>
        obtain ⟨g, rfl⟩ : ∃ g, f' = g + 1 := ⟨f' - 1, by omega⟩
        simp only [ParseLoop, lt_irrefl, if_false] at h3 ⊢
        exact h3

theorem lexLoop_semicolon (source : List Nat) (fuel : Nat) (cur : Cursor)
    (tokens : List Token) (rest : List Nat) (h : source.drop cur.Pointer = 59 :: rest) :
    lexLoop source (fuel + 1) cur tokens =
      lexLoop source fuel (cur.shift 1 1) (tokens ++ [⟨[59], .SymbolKind, cur.Loc⟩]) := by
  rw [lexLoop_step _ _ _ _ _ _ h, scanRef_sep 59 (Or.inr rfl)]
  rfl

theorem lexLoop_space (source : List Nat) (fuel : Nat) (cur : Cursor)
    (tokens : List Token) (rest : List Nat) (h : source.drop cur.Pointer = 32 :: rest) :
    lexLoop source (fuel + 1) cur tokens = lexLoop source fuel (cur.shift 1 1) tokens := by
  rw [lexLoop_step _ _ _ _ _ _ h, scanRef_sep 32 (Or.inl rfl)]
  simp [RefStep.token, RefStep.cursor]

/-- The loop of `lex` on a run of semicolons that ends the source adds semicolon tokens. -/
theorem lexLoop_semis (source : List Nat) : ∀ (m fuel : Nat) (cur : Cursor)
    (tokens : List Token), source.drop cur.Pointer = List.replicate m 59 → m < fuel →
    ∃ extra, lexLoop source fuel cur tokens = .ret (.tokens (tokens ++ extra)) ∧
      ∀ t ∈ extra, (tokenFromSymbol (ascii ";")).equals t = true := by
  intro m
  induction m with
  | zero =>
    intro fuel cur tokens h hf
    obtain ⟨f, rfl⟩ : ∃ f, fuel = f + 1 := ⟨fuel - 1, by omega⟩
    have hend : source.length ≤ cur.Pointer := by
      have := congrArg List.length h
      simp only [List.length_drop, List.replicate_zero, List.length_nil] at this
      omega
    exact ⟨[], by rw [lexLoop_end _ _ _ _ hend]; simp, fun t ht => by cases ht⟩
  | succ m ih =>
    intro fuel cur tokens h hf
    obtain ⟨f, rfl⟩ : ∃ f, fuel = f + 1 := ⟨fuel - 1, by omega⟩
    rw [List.replicate_succ] at h
    have h2 := (drop_eq_cons h).2.2
    rw [lexLoop_semicolon _ _ _ _ _ h]
    obtain ⟨extra, he, hall⟩ := ih f (cur.shift 1 1) (tokens ++ [⟨[59], .SymbolKind, cur.Loc⟩])
      h2 (by omega)
    refine ⟨⟨[59], .SymbolKind, cur.Loc⟩ :: extra, by rw [he]; simp, fun t ht => ?_⟩
    rcases List.mem_cons.1 ht with ht | ht
    · rw [ht]
      rfl
    · exact hall t ht

theorem Parse_tokens (source : List Nat) (r : ParseResult) (hr : ∀ h l, r ≠ .lexError h l)
    (h : Parse source = .ret r) :
    ∃ ts, lex source = .ret (.tokens ts) ∧ ParseLoop ts (ts.length + 1) 0 [] = .ret r := by
  simp only [Parse] at h
  split at h
  · cases h
  · cases h
  · cases h
    exact absurd rfl (hr _ _)
  · rename_i ts hl
    exact ⟨ts, hl, h⟩

theorem Parse_of_tokens (source : List Nat) (ts : List Token)
    (h : lex source = .ret (.tokens ts)) :
    Parse source = ParseLoop ts (ts.length + 1) 0 [] := by
  simp only [Parse, h]

/-- C16: for every source `S` such that `Parse` succeeds on `S` followed by one semicolon, and
every `n ≥ 1`, `Parse` succeeds on `S` followed by `n` semicolons and returns the same tree,
with the same statements, tokens and locations. -/
theorem semicolons_absorbed (S : List Nat) (a : Ast) (n : Nat) (hn : 1 ≤ n)
    (h : Parse (S ++ [59]) = .ret (.ast a)) :
    Parse (S ++ List.replicate n 59) = .ret (.ast a) := by
  obtain ⟨ts, hlex, hparse⟩ := Parse_tokens _ _ (fun _ _ hc => by cases hc) h
  obtain ⟨m, rfl⟩ : ∃ m, n = m + 1 := ⟨n - 1, by omega⟩
  rw [List.replicate_succ]
  unfold lex at hlex
  obtain ⟨curX, new, k, hp, hk, hts, hsim, _⟩ :=
    lexLoop_prefix S 59 59 (List.replicate m 59) (Or.inr rfl) (Or.inr rfl) _ _ _ _
      (Nat.zero_le _) hlex
  simp only [List.nil_append] at hts hsim
  have hk' : k ≤ S.length := by simpa using hk
  have hdrop : (S ++ 59 :: List.replicate m 59).drop curX.Pointer =
      59 :: List.replicate m 59 := by
    rw [hp, List.drop_left]
  obtain ⟨extra, he, hall⟩ := lexLoop_semis (S ++ 59 :: List.replicate m 59) m
    (S.length - k + m + 1) (curX.shift 1 1) (new ++ [⟨[59], .SymbolKind, curX.Loc⟩])
    (drop_eq_cons hdrop).2.2 (by omega)
  have hts' : ts = new ++ [⟨[59], .SymbolKind, curX.Loc⟩] := hts
  have hlex2 : lex (S ++ 59 :: List.replicate m 59) = .ret (.tokens (ts ++ extra)) := by
    unfold lex
    have hlen : (S ++ 59 :: List.replicate m 59).length + 1 =
        (S.length - k + m + 1 + 1) + k := by
      simp only [List.length_append, List.length_cons, List.length_replicate]
      omega
    rw [hlen, hsim, lexLoop_semicolon _ _ _ _ _ hdrop, he, hts']
  rw [Parse_of_tokens _ _ hlex2]
  have hpos : 0 < ts.length := by
    rw [hts']
    simp
  exact ParseLoop_ext ts extra hall _ _ _ _ hpos hparse _ (by simp)

/-- The tree of `SELECT 1;` is the tree of `SELECT 1;;;`. -/
theorem semicolons_absorbed_witness :
    Parse (ascii "SELECT 1" ++ List.replicate 3 59) =
      .ret (.ast ⟨[some ⟨some ⟨some [some ⟨literalOf ⟨ascii "1", .NumericKind, ⟨0, 7⟩⟩, false,
        none⟩], none⟩, none, none, .SelectKind⟩]⟩) :=
  semicolons_absorbed (ascii "SELECT 1") _ 3 (by decide) (by decide)

/-! ## Two statements without a semicolon between them -/

theorem token_toList_rel (st : RefStep) (l1 l2 : Location) :
    List.Forall₂ (fun (t1 t2 : Token) => t1.Value = t2.Value ∧ t1.Kind = t2.Kind)
      (st.token l1).toList (st.token l2).toList := by
  unfold RefStep.token
  cases st.tok with
  | none => exact List.Forall₂.nil
  | some p => exact List.Forall₂.cons ⟨rfl, rfl⟩ List.Forall₂.nil

/-- The loop of `lex` does on a text that stands after a prefix what it does on the text
alone: when it returns tokens for the text, it returns tokens of the same values and kinds,
in the same order, for the text after the prefix. -/
theorem lexLoop_shift (Y pre : List Nat) : ∀ (fuel1 : Nat) (cur1 : Cursor)
    (tokens1 ts : List Token), lexLoop Y fuel1 cur1 tokens1 = .ret (.tokens ts) →
    ∀ (cur2 : Cursor) (tokens2 : List Token) (fuel2 : Nat),
      cur2.Pointer = pre.length + cur1.Pointer → fuel1 ≤ fuel2 →
      ∃ new1 new2, ts = tokens1 ++ new1 ∧
        lexLoop (pre ++ Y) fuel2 cur2 tokens2 = .ret (.tokens (tokens2 ++ new2)) ∧
        List.Forall₂ (fun (t1 t2 : Token) => t1.Value = t2.Value ∧ t1.Kind = t2.Kind)
          new1 new2 := by
  intro fuel1
  induction fuel1 with
  | zero => intro cur1 tokens1 ts h; cases h
  | succ n ih =>
    intro cur1 tokens1 ts h cur2 tokens2 fuel2 hp hf
    obtain ⟨f2, rfl⟩ : ∃ f2, fuel2 = f2 + 1 := ⟨fuel2 - 1, by omega⟩
    by_cases hlt : cur1.Pointer < Y.length
    · obtain ⟨c, rest, hd1⟩ := drop_cons_of_lt Y cur1.Pointer hlt
      have hd2 : (pre ++ Y).drop cur2.Pointer = c :: rest := by
        rw [hp, ← List.drop_drop, List.drop_left, hd1]
      rw [lexLoop_step _ _ _ _ _ _ hd1] at h
      rw [lexLoop_step _ _ _ _ _ _ hd2]
      cases hs : scanRef (c :: rest) with
      | none => rw [hs] at h; cases h
      | some st =>
        rw [hs] at h
        simp only at h ⊢
        obtain ⟨new1, new2, h1, h2, h3⟩ := ih _ _ _ h (st.cursor cur2)
          (tokens2 ++ (st.token cur2.Loc).toList) f2
          (by rw [cursor_pointer, cursor_pointer]; omega) (by omega)
        refine ⟨(st.token cur1.Loc).toList ++ new1, (st.token cur2.Loc).toList ++ new2,
          by rw [h1]; simp, by rw [h2]; simp, ?_⟩
        exact List.rel_append (token_toList_rel st _ _) h3
    · rw [lexLoop_end _ _ _ _ (by omega)] at h
      rw [lexLoop_end _ _ _ _ (by simp only [List.length_append]; omega)]
      cases h
      exact ⟨[], [], by simp, by simp, List.Forall₂.nil⟩

theorem helpThenReturn_lt {α : Type} (tokens : List Token) (c : Nat) (r : α)
    (h : c < tokens.length) : helpThenReturn tokens c r = .ret r := by
  simp [helpThenReturn, helpMessage, h]

/-- The loop of `Parse` on tokens that start with an Insert or CreateTable statement which is
followed by a token that is no semicolon: the missing-semicolon error. -/
theorem ParseLoop_missing (ts1 ts2 : List Token) (fuel : Nat) (stmt : Option Statement)
    (nc : Nat) (h1 : parseStatement ts1 0 (tokenFromSymbol (ascii ";")) = .ret (stmt, nc, true))
    (hkind : ∀ st, stmt = some st → st.Kind ≠ .SelectKind)
    (hag : ∀ i, i < nc → ts1[i]? = ts2[i]?) (hlen : ts1.length ≤ ts2.length)
    (hnc : nc < ts2.length)
    (hns : expectToken ts2 nc (tokenFromSymbol (ascii ";")) = false) :
    ParseLoop ts2 (fuel + 1) 0 [] =
      .ret (.error "missing semi-colon between statements") := by
  obtain ⟨_, _, _, hloc⟩ := parseStatement_local ts1 ts2 0 _ _ _ h1
  have h1B := hloc hkind (fun i _ hi => hag i hi) hlen
  have h2B : skipSemicolons ts2 (ts2.length + 1) nc false = .ret (nc, false) := by
    simp only [skipSemicolons]
    rw [if_neg (by simpa using hns)]
  simp only [ParseLoop]
  rw [if_pos (by omega), h1B]
  simp only
  rw [h2B]
  simp only [if_true]
  exact helpThenReturn_lt _ _ _ hnc

/-- C15 as stated fails.  After a SELECT statement the error is the other one:
`SELECT 1 SELECT 2;` fails with "failed to parse, expected statement", while `SELECT 1;` and
`SELECT 2;` each parse to one statement.  And a text `A` that ends with a semicolon of its
own makes the joined source parse: for `A` = `INSERT INTO t VALUES (1);` and `B` =
`SELECT 2`, `Parse` of `A;` and of `B;` return one statement each, and `Parse` of `A B;`
returns a tree of two statements. -/
theorem missing_semicolon_counterexample :
    Parse (ascii "SELECT 1" ++ ascii ";") =
        .ret (.ast ⟨[some ⟨some ⟨some [some ⟨literalOf ⟨ascii "1", .NumericKind, ⟨0, 7⟩⟩,
          false, none⟩], none⟩, none, none, .SelectKind⟩]⟩) ∧
      Parse (ascii "SELECT 2" ++ ascii ";") =
        .ret (.ast ⟨[some ⟨some ⟨some [some ⟨literalOf ⟨ascii "2", .NumericKind, ⟨0, 7⟩⟩,
          false, none⟩], none⟩, none, none, .SelectKind⟩]⟩) ∧
      Parse (ascii "SELECT 1" ++ ascii " " ++ ascii "SELECT 2" ++ ascii ";") =
        .ret (.error "failed to parse, expected statement") ∧
      Parse (ascii "INSERT INTO t VALUES (1);" ++ ascii ";") =
        .ret (.ast ⟨[some ⟨none, none, some ⟨⟨ascii "t", .IdentifierKind, ⟨0, 12⟩⟩,
          some [literalOf ⟨ascii "1", .NumericKind, ⟨0, 22⟩⟩]⟩, .InsertKind⟩]⟩) ∧
      Parse (ascii "INSERT INTO t VALUES (1);" ++ ascii " " ++ ascii "SELECT 2" ++ ascii ";") =
        .ret (.ast ⟨[some ⟨none, none, some ⟨⟨ascii "t", .IdentifierKind, ⟨0, 12⟩⟩,
            some [literalOf ⟨ascii "1", .NumericKind, ⟨0, 22⟩⟩]⟩, .InsertKind⟩,
          some ⟨some ⟨some [some ⟨literalOf ⟨ascii "2", .NumericKind, ⟨0, 34⟩⟩,
            false, none⟩], none⟩, none, none, .SelectKind⟩]⟩) := by
  refine ⟨by decide, by decide, by decide, by decide, by decide⟩

/-- A successful run of the loop of `parseSelectItem` ends at a delimiter. -/
theorem parseSelectItemLoop_end (A : List Token) (c0 : Nat) (ds : List Token) (fuel : Nat) :
    ∀ (cursor : Nat) (s : List (Option selectItem)) (p : Option (List (Option selectItem)))
      (c' : Nat), parseSelectItemLoop A c0 ds fuel cursor s = .ret (p, c', true) →
      ∃ t, A[c']? = some t ∧ (ds.any fun delimiter => delimiter.equals t) = true := by
  induction fuel with
  | zero => intro cursor s p c' h; cases h
  | succ n ih =>
    intro cursor s p c' h
    simp only [parseSelectItemLoop] at h
    split at h
    · cases h
    rename_i hlt
    have hgA := loop_head A cursor hlt
    rw [hgA] at h
    simp only at h
    split at h
    · rename_i hd
      cases h
      exact ⟨_, hgA, hd⟩
    split at h
    · exact (helpThenReturn_ok _ _ _ _ _ h).elim
    generalize hc2 : (if s.length > 0 then cursor + 1 else cursor) = c2 at h
    split at h
    · exact ih _ _ _ _ h
    generalize hpe : parseExpression A _ _ = pe at h
    obtain ⟨exp, nc, ok⟩ := pe
    cases ok
    · exact (helpThenReturn_ok _ _ _ _ _ h).elim
    simp only at h
    split at h
    · generalize hpt : parseToken A _ _ = pt at h
      obtain ⟨id, nc2, ok2⟩ := pt
      cases ok2
      · exact (helpThenReturn_ok _ _ _ _ _ h).elim
      · exact ih _ _ _ _ h
    · exact ih _ _ _ _ h

/-- The loop of `parseSelectItem` fails on tokens that agree with a successful run up to its
final cursor and hold there, in place of the delimiter, a keyword that is neither `from` nor
`as` nor the delimiter. -/
theorem parseSelectItemLoop_stuck (A B : List Token) (c0 : Nat) (d t : Token)
    (hk : t.Kind = .KeywordKind)
    (hfrom : (tokenFromKeyword (ascii "from")).equals t = false)
    (has : (tokenFromKeyword (ascii "as")).equals t = false) (hd : d.equals t = false)
    (fuel : Nat) : ∀ (cursor : Nat) (s : List (Option selectItem))
      (p : Option (List (Option selectItem))) (c' : Nat),
      parseSelectItemLoop A c0 [tokenFromKeyword (ascii "from"), d] fuel cursor s =
        .ret (p, c', true) →
      (∀ i, cursor ≤ i → i < c' → A[i]? = B[i]?) → B[c']? = some t →
      ∀ fuel', fuel ≤ fuel' →
      parseSelectItemLoop B c0 [tokenFromKeyword (ascii "from"), d] fuel' cursor s =
        .ret (none, c0, false) := by
  have hc'B : ∀ c', B[c']? = some t → c' < B.length := fun c' ht => getElem?_lt _ _ _ ht
  have hcomma : ∀ c', B[c']? = some t →
      expectToken B c' (tokenFromSymbol (ascii ",")) = false := by
    intro c' ht
    rw [expectToken_get, ht]
    simp [Token.equals, tokenFromSymbol, hk]
  have hstarB : ∀ c', B[c']? = some t →
      expectToken B c' (tokenFromSymbol (ascii "*")) = false := by
    intro c' ht
    rw [expectToken_get, ht]
    simp [Token.equals, tokenFromSymbol, hk]
  have hasB : ∀ c', B[c']? = some t →
      expectToken B c' (tokenFromKeyword (ascii "as")) = false := by
    intro c' ht
    rw [expectToken_get, ht]
    exact has
  have hexpB : ∀ c', B[c']? = some t →
      parseExpression B c' (tokenFromSymbol (ascii ",")) = (none, c', false) := by
    intro c' ht
    simp [parseExpression, parseExpressionKinds, parseToken_get, ht, hk]
  have hdel : ([tokenFromKeyword (ascii "from"), d].any fun delimiter => delimiter.equals t) =
      false := by
    simp [hfrom, hd]
  induction fuel with
  | zero => intro cursor s p c' h; cases h
  | succ n ih =>
    intro cursor s p c' h hag ht fuel' hf
    obtain ⟨f', rfl⟩ : ∃ f', fuel' = f' + 1 := ⟨fuel' - 1, by omega⟩
    obtain ⟨hle, _⟩ := parseSelectItemLoop_le _ _ _ _ _ _ _ _ h
    obtain ⟨te, hte, htedel⟩ := parseSelectItemLoop_end _ _ _ _ _ _ _ _ h
    simp only [parseSelectItemLoop] at h ⊢
    split at h
    · cases h
    rename_i hlt
    have hgA := loop_head A cursor hlt
    rw [hgA] at h
    simp only at h
    split at h
    · cases h
      have hB := hc'B _ ht
      rw [if_neg (by omega), ht]
      simp only
      rw [hdel]
      simp only [Bool.false_eq_true, if_false]
      by_cases hs : s.length > 0
      · rw [if_pos ⟨hs, hcomma _ ht⟩]
        exact helpThenReturn_lt _ _ _ hB
      · rw [if_neg (fun hc => hs hc.1)]
        simp only [hs, if_false]
        rw [hstarB _ ht]
        simp only [Bool.false_eq_true, if_false]
        rw [hexpB _ ht]
        exact helpThenReturn_lt _ _ _ hB
    rename_i hdA
    have hcl : cursor < c' := by
      rcases Nat.lt_or_ge cursor c' with hlt' | hge
      · exact hlt'
      · exfalso
        have : cursor = c' := by omega
        subst this
        rw [hgA] at hte
        cases hte
        exact hdA htedel
    have hc := hag cursor (le_refl _) hcl
    have hltB : ¬ cursor ≥ B.length := by
      intro hge
      have hn : B[cursor]? = none := List.getElem?_eq_none (by omega)
      rw [hn, hgA] at hc
      cases hc
    rw [if_neg hltB, ← hc, hgA]
    simp only
    rw [if_neg hdA, expectToken_agree A B cursor _ hc]
    split at h
    · exact (helpThenReturn_ok _ _ _ _ _ h).elim
    rename_i hcm
    rw [if_neg hcm]
    generalize hc2 : (if s.length > 0 then cursor + 1 else cursor) = c2 at h ⊢
    have hc2le : cursor ≤ c2 := by rw [← hc2]; split <;> omega
    split at h
    · rename_i hstar
      obtain ⟨h1, _⟩ := parseSelectItemLoop_le _ _ _ _ _ _ _ _ h
      rw [expectToken_agree A B c2 _ (hag _ hc2le (by omega)), if_pos hstar]
      exact ih _ _ _ _ h (fun i hi1 hi2 => hag i (by omega) hi2) ht f' (by omega)
    rename_i hstar
    generalize hpe : parseExpression A _ _ = pe at h
    obtain ⟨exp, nc, ok⟩ := pe
    cases ok
    · exact (helpThenReturn_ok _ _ _ _ _ h).elim
    obtain ⟨h3, _⟩ := parseExpression_ok _ _ _ _ _ hpe
    simp only at h
    split at h
    · rename_i hasA
      generalize hpt : parseToken A _ _ = pt at h
      obtain ⟨id, nc2, ok2⟩ := pt
      cases ok2
      · exact (helpThenReturn_ok _ _ _ _ _ h).elim
      · obtain ⟨h4, _⟩ := parseToken_ok_lt _ _ _ _ _ hpt
        obtain ⟨h1, _⟩ := parseSelectItemLoop_le _ _ _ _ _ _ _ _ h
        simp only at h
        rw [expectToken_agree A B c2 _ (hag _ hc2le (by omega)), if_neg hstar,
          parseExpression_agree A B c2 _ (hag _ hc2le (by omega)), hpe]
        simp only
        rw [expectToken_agree A B nc _ (hag _ (by omega) (by omega)), if_pos hasA,
          parseToken_agree A B _ _ (hag _ (by omega) (by omega)), hpt]
        simp only
        exact ih _ _ _ _ h (fun i hi1 hi2 => hag i (by omega) hi2) ht f' (by omega)
    · rename_i hasA
      obtain ⟨h1, _⟩ := parseSelectItemLoop_le _ _ _ _ _ _ _ _ h
      rw [expectToken_agree A B c2 _ (hag _ hc2le (by omega)), if_neg hstar,
        parseExpression_agree A B c2 _ (hag _ hc2le (by omega)), hpe]
      simp only
      have hasBnc : ¬ expectToken B nc (tokenFromKeyword (ascii "as")) = true := by
        by_cases hnc : nc < c'
        · rw [expectToken_agree A B nc _ (hag _ (by omega) hnc)]
          exact hasA
        · have : nc = c' := by omega
          rw [this, hasB _ ht]
          simp
      rw [if_neg hasBnc]
      exact ih _ _ _ _ h (fun i hi1 hi2 => hag i (by omega) hi2) ht f' (by omega)

/-- Locality of `parseSelectStatement` for a statement with a FROM clause: the token at the
final cursor may differ. -/
theorem parseSelectStatement_from_local (A B : List Token) (c : Nat) (d : Token)
    (p : Option SelectStatement) (c' : Nat)
    (h : parseSelectStatement A c d = .ret (p, c', true))
    (hp : ∀ sel, p = some sel → sel.«from» ≠ none)
    (hag : ∀ i, c ≤ i → i < c' → A[i]? = B[i]?) (hlen : A.length ≤ B.length) :
    parseSelectStatement B c d = .ret (p, c', true) := by
  simp only [parseSelectStatement] at h ⊢
  split at h
  · cases h
  rename_i hsel
  generalize hps : parseSelectItem A _ _ = ps at h
  rcases ps with ⟨exps, nc, ok⟩ | _ | _
  · cases ok
    · cases h
    simp only at h
    obtain ⟨h1, h2⟩ := parseSelectItemLoop_le _ _ _ _ _ _ _ _ hps
    split at h
    · rename_i hfrom
      generalize hpf : parseFromItem A _ _ = pf at h
      obtain ⟨f, nc2, ok2⟩ := pf
      cases ok2
      · exact (helpThenReturn_ok _ _ _ _ _ h).elim
      · cases h
        have hnc2 : c' = nc + 1 + 1 := by
          simp only [parseFromItem] at hpf
          generalize hpt : parseToken A _ _ = pt at hpf
          obtain ⟨id, n3, ok3⟩ := pt
          cases ok3
          · cases hpf
          · cases hpf
            exact (parseToken_ok_lt _ _ _ _ _ hpt).1
        have e1 : expectToken B c (tokenFromKeyword (ascii "select")) =
            expectToken A c (tokenFromKeyword (ascii "select")) :=
          expectToken_agree A B c _ (hag c (le_refl _) (by omega))
        have e2 : expectToken B nc (tokenFromKeyword (ascii "from")) =
            expectToken A nc (tokenFromKeyword (ascii "from")) :=
          expectToken_agree A B nc _ (hag nc (by omega) (by omega))
        have e3 : parseFromItem B (nc + 1) d = parseFromItem A (nc + 1) d := by
          simp only [parseFromItem, parseToken_agree A B (nc + 1) _
            (hag (nc + 1) (by omega) (by omega))]
        have hps' : parseSelectItem B (c + 1) [tokenFromKeyword (ascii "from"), d] =
            .ret (exps, nc, true) :=
          parseSelectItemLoop_local A B _ _ _ _ _ _ _ hps
            (fun i hi1 hi2 => hag i (by omega) (by omega)) _ (by omega)
        rw [e1, if_neg hsel, hps']
        simp only
        rw [e2, if_pos hfrom, e3, hpf]
    · cases h
      exact absurd rfl (hp _ rfl)
  · cases h
  · cases h

theorem parseCreateTableStatement_fail (tokens : List Token) (c : Nat) (d : Token)
    (h : expectToken tokens c (tokenFromKeyword (ascii "create")) = false) :
    parseCreateTableStatement tokens c d = .ret (none, c, false) := by
  simp [parseCreateTableStatement, h]

/-- The statement `parseStatement` returns, by the function that made it. -/
theorem parseStatement_cases (A : List Token) (c : Nat) (d : Token) (p : Option Statement)
    (c' : Nat) (h : parseStatement A c d = .ret (p, c', true)) :
    (∃ x, parseSelectStatement A c d = .ret (x, c', true) ∧
        p = some ⟨x, none, none, .SelectKind⟩) ∨
      (∀ st, p = some st → st.Kind ≠ .SelectKind) := by
  simp only [parseStatement] at h
  generalize h1 : parseSelectStatement A _ _ = p1 at h
  rcases p1 with ⟨x1, n1, ok1⟩ | _ | _
  · cases ok1
    · simp only at h
      generalize h2 : parseInsertStatement A _ _ = p2 at h
      rcases p2 with ⟨x2, n2, ok2⟩ | _ | _
      · cases ok2
        · simp only at h
          generalize h3 : parseCreateTableStatement A _ _ = p3 at h
          rcases p3 with ⟨x3, n3, ok3⟩ | _ | _
          · cases ok3
            · cases h
            · cases h
              exact Or.inr (fun st hst => by cases hst; intro hk; cases hk)
          · cases h
          · cases h
        · cases h
          exact Or.inr (fun st hst => by cases hst; intro hk; cases hk)
      · cases h
      · cases h
    · cases h
      exact Or.inl ⟨x1, rfl, rfl⟩
  · cases h
  · cases h

/-- Locality of `parseStatement` for a statement that is not a SELECT without a FROM clause:
the token at the final cursor may differ. -/
theorem parseStatement_local_strict (A B : List Token) (c : Nat) (d : Token)
    (p : Option Statement) (c' : Nat) (h : parseStatement A c d = .ret (p, c', true))
    (hfrom : ∀ st sel, p = some st → st.SelectStatement = some sel → sel.«from» ≠ none)
    (hag : ∀ i, c ≤ i → i < c' → A[i]? = B[i]?) (hlen : A.length ≤ B.length) :
    parseStatement B c d = .ret (p, c', true) := by
  rcases parseStatement_cases A c d p c' h with ⟨x, hx, rfl⟩ | hk
  · have := parseSelectStatement_from_local A B c d x c' hx
      (fun sel hsel => hfrom _ sel rfl hsel) hag hlen
    simp only [parseStatement, this]
  · exact (parseStatement_local A B c d p c' h).2.2.2 hk hag hlen

/-- The first token of a statement is one of the keywords `select`, `insert`, `create`. -/
theorem parseStatement_head (A : List Token) (c : Nat) (d : Token) (p : Option Statement)
    (c' : Nat) (h : parseStatement A c d = .ret (p, c', true)) :
    ∃ t, A[c]? = some t ∧ t.Kind = .KeywordKind ∧
      (t.Value = ascii "select" ∨ t.Value = ascii "insert" ∨ t.Value = ascii "create") := by
  have key : ∀ k, expectToken A c (tokenFromKeyword k) = true →
      ∃ t, A[c]? = some t ∧ t.Kind = .KeywordKind ∧ t.Value = k := by
    intro k hk
    obtain ⟨t, ht, he⟩ := (expectToken_true _ _ _).1 hk
    simp only [Token.equals, tokenFromKeyword, Bool.and_eq_true, decide_eq_true_eq] at he
    exact ⟨t, ht, he.2.symm, he.1.symm⟩
  by_cases h1 : expectToken A c (tokenFromKeyword (ascii "select")) = true
  · obtain ⟨t, ht, hk, hv⟩ := key _ h1
    exact ⟨t, ht, hk, Or.inl hv⟩
  by_cases h2 : expectToken A c (tokenFromKeyword (ascii "insert")) = true
  · obtain ⟨t, ht, hk, hv⟩ := key _ h2
    exact ⟨t, ht, hk, Or.inr (Or.inl hv)⟩
  by_cases h3 : expectToken A c (tokenFromKeyword (ascii "create")) = true
  · obtain ⟨t, ht, hk, hv⟩ := key _ h3
    exact ⟨t, ht, hk, Or.inr (Or.inr hv)⟩
  · exfalso
    simp only [Bool.not_eq_true] at h1 h2 h3
    simp only [parseStatement, parseSelectStatement_fail A c d h1,
      parseInsertStatement_fail A c d h2, parseCreateTableStatement_fail A c d h3] at h
    cases h

/-- The function `parseStatement` fails on tokens that agree with a SELECT statement without a
FROM clause up to its final cursor and hold there, in place of the delimiter, the first token
of a statement. -/
theorem parseStatement_stuck (A B : List Token) (c : Nat) (d t : Token) (st : Statement)
    (sel : SelectStatement) (c' : Nat)
    (h : parseStatement A c d = .ret (some st, c', true))
    (hsel : st.SelectStatement = some sel) (hnf : sel.«from» = none)
    (hk : t.Kind = .KeywordKind)
    (hv : t.Value = ascii "select" ∨ t.Value = ascii "insert" ∨ t.Value = ascii "create")
    (hd : d.equals t = false)
    (hag : ∀ i, c ≤ i → i < c' → A[i]? = B[i]?) (ht : B[c']? = some t)
    (hlen : A.length ≤ B.length) :
    parseStatement B c d = .ret (none, c, false) := by
  have hne : ∀ k, k ≠ t.Value → (tokenFromKeyword k).equals t = false := by
    intro k hk'
    simp [Token.equals, tokenFromKeyword, hk']
  have hfrom : (tokenFromKeyword (ascii "from")).equals t = false :=
    hne _ (by rcases hv with hv | hv | hv <;> rw [hv] <;> decide)
  have has : (tokenFromKeyword (ascii "as")).equals t = false :=
    hne _ (by rcases hv with hv | hv | hv <;> rw [hv] <;> decide)
  have hx : parseSelectStatement A c d = .ret (some sel, c', true) := by
    rcases parseStatement_cases A c d _ c' h with ⟨x, hx, hst⟩ | hkind
    · cases hst
      simp only at hsel
      rw [← hsel]
      exact hx
    · exfalso
      obtain ⟨st', hst', hw⟩ := parseStatement_wellTagged A c d _ c' h
      cases hst'
      have hkd := hkind st rfl
      unfold Statement.WellTagged at hw
      cases hkk : st.Kind with
      | SelectKind => exact hkd hkk
      | InsertKind =>
        rw [hkk] at hw
        rw [hw.2.1] at hsel
        cases hsel
      | CreateTableKind =>
        rw [hkk] at hw
        rw [hw.2.1] at hsel
        cases hsel
  obtain ⟨hcl, he⟩ := parseSelectStatement_first A c d _ _ hx
  have hc := hag c (le_refl _) hcl
  have e1 : expectToken B c (tokenFromKeyword (ascii "insert")) = false := by
    rw [expectToken_agree A B c _ hc]
    exact expectToken_exclusive A c _ _ he (by decide)
  have e2 : expectToken B c (tokenFromKeyword (ascii "create")) = false := by
    rw [expectToken_agree A B c _ hc]
    exact expectToken_exclusive A c _ _ he (by decide)
  have e0 : parseSelectStatement B c d = .ret (none, c, false) := by
    simp only [parseSelectStatement] at hx ⊢
    rw [expectToken_agree A B c _ hc, he]
    rw [he] at hx
    simp only [Bool.true_eq_false, if_false] at hx ⊢
    generalize hps : parseSelectItem A _ _ = ps at hx
    rcases ps with ⟨exps, nc, ok⟩ | _ | _
    · cases ok
      · cases hx
      simp only at hx
      split at hx
      · generalize hpf : parseFromItem A _ _ = pf at hx
        obtain ⟨f, nc2, ok2⟩ := pf
        cases ok2
        · exact (helpThenReturn_ok _ _ _ _ _ hx).elim
        · cases hx
          simp only [parseFromItem] at hpf
          generalize hpt : parseToken A _ _ = pt at hpf
          obtain ⟨id, n3, ok3⟩ := pt
          cases ok3
          · cases hpf
          · cases hpf
            cases hnf
      · cases hx
        have := parseSelectItemLoop_stuck A B (c + 1) d t hk hfrom has hd _ _ _ _ _ hps
          (fun i hi1 hi2 => hag i (by omega) hi2) ht (B.length + 1) (by omega)
        simp only [parseSelectItem, this]
    · cases hx
    · cases hx
  simp only [parseStatement, e0, parseInsertStatement_fail B c d e1,
    parseCreateTableStatement_fail B c d e2]

/-- The loop of `Parse` on tokens that start with a statement, not a SELECT without a FROM
clause, which is followed by a token that is no semicolon: the missing-semicolon error. -/
theorem ParseLoop_missing_strict (ts1 ts2 : List Token) (fuel : Nat) (stmt : Option Statement)
    (nc : Nat) (h1 : parseStatement ts1 0 (tokenFromSymbol (ascii ";")) = .ret (stmt, nc, true))
    (hfrom : ∀ st sel, stmt = some st → st.SelectStatement = some sel → sel.«from» ≠ none)
    (hag : ∀ i, i < nc → ts1[i]? = ts2[i]?) (hlen : ts1.length ≤ ts2.length)
    (hnc : nc < ts2.length)
    (hns : expectToken ts2 nc (tokenFromSymbol (ascii ";")) = false) :
    ParseLoop ts2 (fuel + 1) 0 [] =
      .ret (.error "missing semi-colon between statements") := by
  have h1B := parseStatement_local_strict ts1 ts2 0 _ _ _ h1 hfrom (fun i _ hi => hag i hi) hlen
  have h2B : skipSemicolons ts2 (ts2.length + 1) nc false = .ret (nc, false) := by
    simp only [skipSemicolons]
    rw [if_neg (by simpa using hns)]
  simp only [ParseLoop]
  rw [if_pos (by omega), h1B]
  simp only
  rw [h2B]
  simp only [if_true]
  exact helpThenReturn_lt _ _ _ hnc

/-- The source `A B;` for two statement texts `A` and `B`, where no token of `A` is a
semicolon: its tokens are those of `A` followed by tokens with the values and kinds of the
tokens of `B;`, and the statement of `A;` ends where the tokens of `A` end. -/
theorem joined_tokens (A B : List Nat) (sA sB : Option Statement)
    (hA : Parse (A ++ [59]) = .ret (.ast ⟨[sA]⟩))
    (hB : Parse (B ++ [59]) = .ret (.ast ⟨[sB]⟩))
    (hsemi : ∀ t ∈ (lexTokens (A ++ [59])).dropLast,
      (tokenFromSymbol (ascii ";")).equals t = false) :
    ∃ (new : List Token) (last t2 : Token) (rest2 : List Token),
      parseStatement (new ++ [last]) 0 (tokenFromSymbol (ascii ";")) =
        .ret (sA, new.length, true) ∧
      lex (A ++ 32 :: (B ++ [59])) = .ret (.tokens (new ++ t2 :: rest2)) ∧
      t2.Kind = .KeywordKind ∧
      (t2.Value = ascii "select" ∨ t2.Value = ascii "insert" ∨ t2.Value = ascii "create") := by
  -- the tokens of `A;`
  obtain ⟨ts1, hlex1, hparse1⟩ := Parse_tokens _ _ (fun _ _ hc => by cases hc) hA
  have hlt1 : lexTokens (A ++ [59]) = ts1 := by simp only [lexTokens, hlex1]
  unfold lex at hlex1
  obtain ⟨curX, new, k, hp, hk, hts, hsim, -⟩ :=
    lexLoop_prefix A 59 32 (B ++ [59]) (Or.inr rfl) (Or.inl rfl) _ _ _ _ (Nat.zero_le _) hlex1
  simp only [List.nil_append] at hts hsim
  have hk' : k ≤ A.length := by simpa using hk
  have hts' : ts1 = new ++ [⟨[59], .SymbolKind, curX.Loc⟩] := hts
  have hnosemi' : ∀ t ∈ new, (tokenFromSymbol (ascii ";")).equals t = false := by
    intro t ht
    apply hsemi
    rw [hlt1, hts', List.dropLast_concat]
    exact ht
  have hlen1 : ts1.length = new.length + 1 := by rw [hts']; simp
  -- the statement of `A;` ends where the tokens of `A` end
  obtain ⟨stmt, nc, c2, hst, hskip, hrest⟩ :=
    ParseLoop_inv ts1 ts1.length 0 [] _ (by omega) hparse1
  obtain ⟨more, hmore, hne⟩ := ParseLoop_grows _ _ _ _ _ hrest
  simp only [List.nil_append, List.singleton_append, List.cons.injEq] at hmore
  obtain ⟨hstmt, hmore'⟩ := hmore
  subst hstmt
  have hc2 : ¬ c2 < ts1.length := fun hlt => hne hlt hmore'.symm
  obtain ⟨hs1, hs2, hs3, hs4⟩ := skipSemicolons_inv _ _ _ _ _ _ hskip
  have hnc : nc < c2 := by simpa using hs4.symm
  have hc2le : c2 ≤ ts1.length := by
    have := expectToken_lt _ _ _ (hs2 (c2 - 1) (by omega) (by omega))
    omega
  have hncnew : nc = new.length := by
    by_contra hne2
    have hlt : nc < new.length := by omega
    have hsem := hs2 nc (le_refl _) hnc
    rw [expectToken_get, hts', List.getElem?_append_left hlt,
      List.getElem?_eq_getElem hlt] at hsem
    have := hnosemi' _ (List.getElem_mem hlt)
    simp only at hsem
    rw [hsem] at this
    cases this
  -- the tokens of `B;` start with a keyword
  obtain ⟨tsB, hlexB, hparseB⟩ := Parse_tokens _ _ (fun _ _ hc => by cases hc) hB
  have hBpos : 0 < tsB.length := by
    by_contra hzero
    have : tsB = [] := List.length_eq_zero.1 (by omega)
    subst this
    simp [ParseLoop] at hparseB
  obtain ⟨stmtB, ncB, c2B, hstB, _, _⟩ :=
    ParseLoop_inv tsB tsB.length 0 [] _ hBpos hparseB
  obtain ⟨tB, htB, hkB, hvB⟩ := parseStatement_head tsB 0 _ _ _ hstB
  -- the tokens of `A B;`
  unfold lex at hlexB
  obtain ⟨new1, new2, hn1, hn2, hrel⟩ := lexLoop_shift (B ++ [59]) (A ++ [32]) _ _ _ _ hlexB
    (curX.shift 1 1) new ((B ++ [59]).length + 1 + (A.length - k))
    (by simp [Cursor.shift, hp]) (by omega)
  simp only [List.nil_append] at hn1
  subst hn1
  have hdropX : (A ++ 32 :: (B ++ [59])).drop curX.Pointer = 32 :: (B ++ [59]) := by
    rw [hp, List.drop_left]
  have hsrc2 : A ++ [32] ++ (B ++ [59]) = A ++ 32 :: (B ++ [59]) := by simp
  rw [hsrc2] at hn2
  have hlex2 : lex (A ++ 32 :: (B ++ [59])) = .ret (.tokens (new ++ new2)) := by
    unfold lex
    have hlen : (A ++ 32 :: (B ++ [59])).length + 1 =
        ((B ++ [59]).length + 1 + (A.length - k) + 1) + k := by
      simp only [List.length_append, List.length_cons, List.length_nil]
      omega
    rw [hlen, hsim, lexLoop_space _ _ _ _ _ hdropX, hn2]
  -- the first token after the statement
  obtain ⟨t2, rest2, hnew2, hk2, hv2⟩ : ∃ t2 rest2, new2 = t2 :: rest2 ∧
      t2.Kind = .KeywordKind ∧
      (t2.Value = ascii "select" ∨ t2.Value = ascii "insert" ∨ t2.Value = ascii "create") := by
    cases hlist : tsB with
    | nil => rw [hlist] at hBpos; simp at hBpos
    | cons a1 l1 =>
      rw [hlist] at hrel htB
      obtain ⟨b1, l2, hhead, _, hb⟩ := List.forall₂_cons_left_iff.1 hrel
      simp only [List.getElem?_cons_zero, Option.some.injEq] at htB
      refine ⟨b1, l2, hb, ?_, ?_⟩
      · rw [← hhead.2, htB, hkB]
      · rw [← hhead.1, htB]
        exact hvB
  subst hnew2
  refine ⟨new, ⟨[59], .SymbolKind, curX.Loc⟩, t2, rest2, ?_, hlex2, hk2, hv2⟩
  rw [← hts', ← hncnew]
  exact hst

/-- C15, amended: for all sources `A` and `B` such that `Parse` of `A;` and of `B;` each
succeed with exactly one statement, and no token of `A` is the symbol `;`, `Parse` of `A B;`
fails: with the error "missing semi-colon between statements" when the statement of `A` is not
a SELECT without a FROM clause, that is for an INSERT, a CREATE TABLE and a SELECT with FROM,
and with the error "failed to parse, expected statement" when it is a SELECT without a FROM
clause. -/
theorem missing_semicolon (A B : List Nat) (sA sB : Option Statement)
    (hA : Parse (A ++ ascii ";") = .ret (.ast ⟨[sA]⟩))
    (hB : Parse (B ++ ascii ";") = .ret (.ast ⟨[sB]⟩))
    (hsemi : ∀ t ∈ (lexTokens (A ++ ascii ";")).dropLast,
      (tokenFromSymbol (ascii ";")).equals t = false) :
    ((∀ st sel, sA = some st → st.SelectStatement = some sel → sel.«from» ≠ none) →
        Parse (A ++ ascii " " ++ B ++ ascii ";") =
          .ret (.error "missing semi-colon between statements")) ∧
      ((∃ st sel, sA = some st ∧ st.SelectStatement = some sel ∧ sel.«from» = none) →
        Parse (A ++ ascii " " ++ B ++ ascii ";") =
          .ret (.error "failed to parse, expected statement")) := by
  have e1 : ascii ";" = [59] := rfl
  have e2 : ascii " " = [32] := rfl
  rw [e1] at hA hB hsemi ⊢
  rw [e2]
  have hsrc : A ++ [32] ++ B ++ [59] = A ++ 32 :: (B ++ [59]) := by simp
  rw [hsrc]
  obtain ⟨new, last, t2, rest2, hst, hlex2, hk2, hv2⟩ := joined_tokens A B sA sB hA hB hsemi
  rw [Parse_of_tokens _ _ hlex2]
  have hd : (tokenFromSymbol [59]).equals t2 = false := by
    simp [Token.equals, tokenFromSymbol, hk2]
  have hag : ∀ i, i < new.length → (new ++ [last])[i]? = (new ++ t2 :: rest2)[i]? := by
    intro i hi
    rw [List.getElem?_append_left hi, List.getElem?_append_left hi]
  have hget : (new ++ t2 :: rest2)[new.length]? = some t2 := by
    rw [List.getElem?_append_right (le_refl _)]
    simp
  refine ⟨fun hfrom => ?_, fun hnofrom => ?_⟩
  · apply ParseLoop_missing_strict (new ++ [last]) (new ++ t2 :: rest2) _ sA new.length hst
      hfrom hag
    · simp
    · simp
    · rw [expectToken_get, hget]
      exact hd
  · obtain ⟨st, sel, rfl, hsel, hnf⟩ := hnofrom
    have hstuck := parseStatement_stuck (new ++ [last]) (new ++ t2 :: rest2) 0
      (tokenFromSymbol (ascii ";")) t2 st sel new.length hst hsel hnf hk2 hv2 hd
      (fun i _ hi => hag i hi) hget (by simp)
    simp only [List.length_append, List.length_cons, ParseLoop]
    rw [if_pos (by omega), hstuck]
    exact helpThenReturn_lt _ _ _ (by simp)

/-- The amended claim at work: `SELECT a FROM t SELECT 2;` and
`INSERT INTO t VALUES (';') SELECT 2;` fail with the missing-semicolon error, and
`SELECT 1 SELECT 2;` fails with the other error. -/
theorem missing_semicolon_witness :
    Parse (ascii "SELECT a FROM t" ++ ascii " " ++ ascii "SELECT 2" ++ ascii ";") =
        .ret (.error "missing semi-colon between statements") ∧
      Parse (ascii "INSERT INTO t VALUES (';')" ++ ascii " " ++ ascii "SELECT 2" ++ ascii ";") =
        .ret (.error "missing semi-colon between statements") ∧
      Parse (ascii "SELECT 1" ++ ascii " " ++ ascii "SELECT 2" ++ ascii ";") =
        .ret (.error "failed to parse, expected statement") :=
  ⟨(missing_semicolon (ascii "SELECT a FROM t") (ascii "SELECT 2")
      (some ⟨some ⟨some [some ⟨literalOf ⟨ascii "a", .IdentifierKind, ⟨0, 7⟩⟩, false, none⟩],
        some ⟨some ⟨ascii "t", .IdentifierKind, ⟨0, 14⟩⟩⟩⟩, none, none, .SelectKind⟩)
      (some ⟨some ⟨some [some ⟨literalOf ⟨ascii "2", .NumericKind, ⟨0, 7⟩⟩, false, none⟩],
        none⟩, none, none, .SelectKind⟩)
      (by decide) (by decide) (by decide)).1
      (by intro st sel h1 h2; cases h1; cases h2; decide),
    (missing_semicolon (ascii "INSERT INTO t VALUES (';')") (ascii "SELECT 2")
      (some ⟨none, none, some ⟨⟨ascii "t", .IdentifierKind, ⟨0, 12⟩⟩,
        some [literalOf ⟨ascii ";", .StringKind, ⟨0, 22⟩⟩]⟩, .InsertKind⟩)
      (some ⟨some ⟨some [some ⟨literalOf ⟨ascii "2", .NumericKind, ⟨0, 7⟩⟩, false, none⟩],
        none⟩, none, none, .SelectKind⟩)
      (by decide) (by decide) (by decide)).1
      (by intro st sel h1 h2; cases h1; cases h2),
    (missing_semicolon (ascii "SELECT 1") (ascii "SELECT 2")
      (some ⟨some ⟨some [some ⟨literalOf ⟨ascii "1", .NumericKind, ⟨0, 7⟩⟩, false, none⟩],
        none⟩, none, none, .SelectKind⟩)
      (some ⟨some ⟨some [some ⟨literalOf ⟨ascii "2", .NumericKind, ⟨0, 7⟩⟩, false, none⟩],
        none⟩, none, none, .SelectKind⟩)
      (by decide) (by decide) (by decide)).2 ⟨_, _, rfl, rfl, rfl⟩⟩

/-! ## The lexer and the parser return on every input -/

theorem helpThenReturn_le {α : Type} (tokens : List Token) (c : Nat) (r : α)
    (h0 : 0 < tokens.length) (h : c ≤ tokens.length) : helpThenReturn tokens c r = .ret r := by
  by_cases h1 : c < tokens.length
  · exact helpThenReturn_lt tokens c r h1
  · have h2 : c ≠ 0 := by omega
    have h3 : c - 1 < tokens.length := by omega
    simp [helpThenReturn, helpMessage, h1, h2, h3]

/-- The loop of `parseExpressions` returns: from a cursor inside the tokens, with an iteration
bound above the number of tokens left, it neither aborts nor reaches the bound. -/
theorem parseExpressionsLoop_total (tokens : List Token) (c0 : Nat) (ds : List Token)
    (fuel : Nat) : ∀ (cursor : Nat) (exps : List (Option expression)),
      cursor ≤ tokens.length → tokens.length < cursor + fuel →
      ∃ r, parseExpressionsLoop tokens c0 ds fuel cursor exps = .ret r := by
  induction fuel with
  | zero => intro cursor exps h1 h2; omega
  | succ n ih =>
    intro cursor exps h1 h2
    simp only [parseExpressionsLoop]
    split
    · exact ⟨_, rfl⟩
    rename_i hlt
    rw [loop_head tokens cursor hlt]
    simp only
    split
    · exact ⟨_, rfl⟩
    split
    · exact ⟨_, helpThenReturn_lt _ _ _ (by omega)⟩
    generalize hc2 : (if exps.length > 0 then cursor + 1 else cursor) = c2
    have hc2le : c2 ≤ tokens.length := by rw [← hc2]; split <;> omega
    have hc2ge : cursor ≤ c2 := by rw [← hc2]; split <;> omega
    generalize hpe : parseExpression tokens _ _ = pe
    obtain ⟨exp, nc, ok⟩ := pe
    cases ok
    · exact ⟨_, helpThenReturn_le _ _ _ (by omega) hc2le⟩
    · obtain ⟨h3, h4⟩ := parseExpression_ok _ _ _ _ _ hpe
      exact ih _ _ (by omega) (by omega)

theorem parseSelectItemLoop_total (tokens : List Token) (c0 : Nat) (ds : List Token)
    (fuel : Nat) : ∀ (cursor : Nat) (s : List (Option selectItem)),
      cursor ≤ tokens.length → tokens.length < cursor + fuel →
      ∃ r, parseSelectItemLoop tokens c0 ds fuel cursor s = .ret r := by
  induction fuel with
  | zero => intro cursor s h1 h2; omega
  | succ n ih =>
    intro cursor s h1 h2
    simp only [parseSelectItemLoop]
    split
    · exact ⟨_, rfl⟩
    rename_i hlt
    rw [loop_head tokens cursor hlt]
    simp only
    split
    · exact ⟨_, rfl⟩
    split
    · exact ⟨_, helpThenReturn_lt _ _ _ (by omega)⟩
    generalize hc2 : (if s.length > 0 then cursor + 1 else cursor) = c2
    have hc2le : c2 ≤ tokens.length := by rw [← hc2]; split <;> omega
    have hc2ge : cursor ≤ c2 := by rw [← hc2]; split <;> omega
    split
    · rename_i hstar
      have := expectToken_lt _ _ _ hstar
      exact ih _ _ (by omega) (by omega)
    generalize hpe : parseExpression tokens _ _ = pe
    obtain ⟨exp, nc, ok⟩ := pe
    cases ok
    · exact ⟨_, helpThenReturn_le _ _ _ (by omega) hc2le⟩
    · obtain ⟨h3, h4⟩ := parseExpression_ok _ _ _ _ _ hpe
      simp only
      split
      · rename_i has
        have := expectToken_lt _ _ _ has
        generalize hpt : parseToken tokens _ _ = pt
        obtain ⟨id, n3, ok3⟩ := pt
        cases ok3
        · exact ⟨_, helpThenReturn_le _ _ _ (by omega) (by omega)⟩
        · obtain ⟨h5, h6⟩ := parseToken_ok_lt _ _ _ _ _ hpt
          exact ih _ _ (by omega) (by omega)
      · exact ih _ _ (by omega) (by omega)

theorem parseColumnDefinitionsLoop_total (tokens : List Token) (c0 : Nat) (d : Token)
    (fuel : Nat) : ∀ (cursor : Nat) (cds : List (Option columnDefinition)),
      cursor ≤ tokens.length → tokens.length < cursor + fuel →
      ∃ r, parseColumnDefinitionsLoop tokens c0 d fuel cursor cds = .ret r := by
  induction fuel with
  | zero => intro cursor cds h1 h2; omega
  | succ n ih =>
    intro cursor cds h1 h2
    simp only [parseColumnDefinitionsLoop]
    split
    · exact ⟨_, rfl⟩
    rename_i hlt
    rw [loop_head tokens cursor hlt]
    simp only
    split
    · exact ⟨_, rfl⟩
    split
    · exact ⟨_, helpThenReturn_lt _ _ _ (by omega)⟩
    generalize hc2 : (if cds.length > 0 then cursor + 1 else cursor) = c2
    have hc2le : c2 ≤ tokens.length := by rw [← hc2]; split <;> omega
    have hc2ge : cursor ≤ c2 := by rw [← hc2]; split <;> omega
    generalize hpt : parseToken tokens c2 .IdentifierKind = pt
    obtain ⟨id, n3, ok3⟩ := pt
    cases ok3
    · exact ⟨_, helpThenReturn_le _ _ _ (by omega) hc2le⟩
    obtain ⟨h5, t1, rfl, _, _⟩ := parseToken_ok _ _ _ _ _ hpt
    have h6 := (parseToken_ok_lt _ _ _ _ _ hpt).2
    simp only
    generalize hpt2 : parseToken tokens n3 .KeywordKind = pt2
    obtain ⟨ty, n4, ok4⟩ := pt2
    cases ok4
    · exact ⟨_, helpThenReturn_le _ _ _ (by omega) (by omega)⟩
    obtain ⟨h7, t2, rfl, _, _⟩ := parseToken_ok _ _ _ _ _ hpt2
    have h8 := (parseToken_ok_lt _ _ _ _ _ hpt2).2
    simp only
    exact ih _ _ (by omega) (by omega)

/-- The function `parseSelectStatement` returns on every token sequence and cursor; when it
succeeds its cursor has moved forward and lies inside the tokens. -/
theorem parseSelectStatement_total (tokens : List Token) (c : Nat) (d : Token) :
    ∃ r, parseSelectStatement tokens c d = .ret r ∧
      (r.2.2 = true → c < r.2.1 ∧ r.2.1 ≤ tokens.length) := by
  simp only [parseSelectStatement]
  split
  · exact ⟨_, rfl, by simp⟩
  rename_i hsel
  have hlt : c < tokens.length := expectToken_lt _ _ _ (by simpa using hsel)
  obtain ⟨r, hr⟩ := parseSelectItemLoop_total tokens (c + 1)
    [tokenFromKeyword (ascii "from"), d] (tokens.length + 1) (c + 1) [] (by omega) (by omega)
  simp only [parseSelectItem]
  rw [hr]
  obtain ⟨exps, nc, ok⟩ := r
  cases ok
  · exact ⟨_, rfl, by simp⟩
  obtain ⟨h1, h2⟩ := parseSelectItemLoop_le _ _ _ _ _ _ _ _ hr
  simp only
  split
  · generalize hpf : parseFromItem tokens _ _ = pf
    obtain ⟨f, nc2, ok2⟩ := pf
    cases ok2
    · exact ⟨_, helpThenReturn_le _ _ _ (by omega) (by omega), by simp⟩
    · refine ⟨_, rfl, fun _ => ?_⟩
      simp only [parseFromItem] at hpf
      generalize hpt : parseToken tokens _ _ = pt at hpf
      obtain ⟨id, n3, ok3⟩ := pt
      cases ok3
      · cases hpf
      · cases hpf
        obtain ⟨h5, h6⟩ := parseToken_ok_lt _ _ _ _ _ hpt
        dsimp only
        omega
  · exact ⟨_, rfl, fun _ => by dsimp only; omega⟩

theorem parseInsertStatement_total (tokens : List Token) (c : Nat) (d : Token) :
    ∃ r, parseInsertStatement tokens c d = .ret r ∧
      (r.2.2 = true → c < r.2.1 ∧ r.2.1 ≤ tokens.length) := by
  simp only [parseInsertStatement]
  split
  · exact ⟨_, rfl, by simp⟩
  rename_i hins
  have hlt : c < tokens.length := expectToken_lt _ _ _ (by simpa using hins)
  split
  · exact ⟨_, helpThenReturn_le _ _ _ (by omega) (by omega), by simp⟩
  rename_i hinto
  have hlt1 : c + 1 < tokens.length := expectToken_lt _ _ _ (by simpa using hinto)
  generalize hpt : parseToken tokens _ _ = pt
  obtain ⟨tb, n3, ok3⟩ := pt
  cases ok3
  · exact ⟨_, helpThenReturn_le _ _ _ (by omega) (by omega), by simp⟩
  obtain ⟨h5, t1, rfl, _, _⟩ := parseToken_ok _ _ _ _ _ hpt
  have h6 := (parseToken_ok_lt _ _ _ _ _ hpt).2
  simp only
  split
  · exact ⟨_, helpThenReturn_le _ _ _ (by omega) (by omega), by simp⟩
  rename_i hval
  have hlt2 : n3 < tokens.length := expectToken_lt _ _ _ (by simpa using hval)
  split
  · exact ⟨_, helpThenReturn_le _ _ _ (by omega) (by omega), by simp⟩
  rename_i hpar
  have hlt3 : n3 + 1 < tokens.length := expectToken_lt _ _ _ (by simpa using hpar)
  obtain ⟨r, hr⟩ := parseExpressionsLoop_total tokens (n3 + 1 + 1)
    [tokenFromSymbol (ascii ")")] (tokens.length + 1) (n3 + 1 + 1) [] (by omega) (by omega)
  simp only [parseExpressions]
  rw [hr]
  obtain ⟨vals, nc, ok⟩ := r
  cases ok
  · exact ⟨_, rfl, by simp⟩
  obtain ⟨h1, h2⟩ := parseExpressionsLoop_le _ _ _ _ _ _ _ _ hr
  simp only
  split
  · exact ⟨_, helpThenReturn_le _ _ _ (by omega) (by omega), by simp⟩
  · exact ⟨_, rfl, fun _ => by dsimp only; omega⟩

theorem parseCreateTableStatement_total (tokens : List Token) (c : Nat) (d : Token) :
    ∃ r, parseCreateTableStatement tokens c d = .ret r ∧
      (r.2.2 = true → c < r.2.1 ∧ r.2.1 ≤ tokens.length) := by
  simp only [parseCreateTableStatement]
  split
  · exact ⟨_, rfl, by simp⟩
  rename_i hins
  have hlt : c < tokens.length := expectToken_lt _ _ _ (by simpa using hins)
  split
  · exact ⟨_, rfl, by simp⟩
  rename_i hinto
  have hlt1 : c + 1 < tokens.length := expectToken_lt _ _ _ (by simpa using hinto)
  generalize hpt : parseToken tokens _ _ = pt
  obtain ⟨tb, n3, ok3⟩ := pt
  cases ok3
  · exact ⟨_, helpThenReturn_le _ _ _ (by omega) (by omega), by simp⟩
  obtain ⟨h5, t1, rfl, _, _⟩ := parseToken_ok _ _ _ _ _ hpt
  have h6 := (parseToken_ok_lt _ _ _ _ _ hpt).2
  simp only
  split
  · exact ⟨_, helpThenReturn_le _ _ _ (by omega) (by omega), by simp⟩
  rename_i hpar
  have hlt3 : n3 < tokens.length := expectToken_lt _ _ _ (by simpa using hpar)
  obtain ⟨r, hr⟩ := parseColumnDefinitionsLoop_total tokens (n3 + 1)
    (tokenFromSymbol (ascii ")")) (tokens.length + 1) (n3 + 1) [] (by omega) (by omega)
  simp only [parseColumnDefinitions]
  rw [hr]
  obtain ⟨vals, nc, ok⟩ := r
  cases ok
  · exact ⟨_, rfl, by simp⟩
  obtain ⟨h1, h2⟩ := parseColumnDefinitionsLoop_le _ _ _ _ _ _ _ _ hr
  simp only
  split
  · exact ⟨_, helpThenReturn_le _ _ _ (by omega) (by omega), by simp⟩
  · exact ⟨_, rfl, fun _ => by dsimp only; omega⟩

/-- The function `parseStatement` returns on every token sequence and cursor; when it succeeds
its cursor has moved forward and lies inside the tokens. -/
theorem parseStatement_total (tokens : List Token) (c : Nat) (d : Token) :
    ∃ r, parseStatement tokens c d = .ret r ∧
      (r.2.2 = true → c < r.2.1 ∧ r.2.1 ≤ tokens.length) := by
  obtain ⟨⟨p1, n1, ok1⟩, h1, b1⟩ := parseSelectStatement_total tokens c d
  simp only [parseStatement, h1]
  cases ok1
  · obtain ⟨⟨p2, n2, ok2⟩, h2, b2⟩ := parseInsertStatement_total tokens c d
    simp only [h2]
    cases ok2
    · obtain ⟨⟨p3, n3, ok3⟩, h3, b3⟩ := parseCreateTableStatement_total tokens c d
      simp only [h3]
      cases ok3
      · exact ⟨_, rfl, by simp⟩
      · exact ⟨_, rfl, fun _ => b3 rfl⟩
    · exact ⟨_, rfl, fun _ => b2 rfl⟩
  · exact ⟨_, rfl, fun _ => b1 rfl⟩

theorem skipSemicolons_total (tokens : List Token) (fuel : Nat) : ∀ (c : Nat) (b : Bool),
    c ≤ tokens.length → tokens.length < c + fuel →
    ∃ c2 b2, skipSemicolons tokens fuel c b = .ret (c2, b2) ∧ c2 ≤ tokens.length := by
  induction fuel with
  | zero => intro c b h1 h2; omega
  | succ n ih =>
    intro c b h1 h2
    simp only [skipSemicolons]
    split
    · rename_i he
      have := expectToken_lt _ _ _ he
      exact ih _ _ (by omega) (by omega)
    · exact ⟨_, _, rfl, h1⟩

/-- The loop of `Parse` returns a tree or one of its two errors: from a cursor inside the
tokens, with an iteration bound above the number of tokens left, it neither aborts nor reaches
the bound. -/
theorem ParseLoop_total (tokens : List Token) (fuel : Nat) : ∀ (c : Nat)
    (stmts : List (Option Statement)), c ≤ tokens.length → tokens.length < c + fuel →
    (∃ a, ParseLoop tokens fuel c stmts = .ret (.ast a)) ∨
      ∃ msg, ParseLoop tokens fuel c stmts = .ret (.error msg) := by
  induction fuel with
  | zero => intro c stmts h1 h2; omega
  | succ n ih =>
    intro c stmts h1 h2
    simp only [ParseLoop]
    split
    · rename_i hlt
      obtain ⟨⟨p, nc, ok⟩, hp, hb⟩ := parseStatement_total tokens c (tokenFromSymbol (ascii ";"))
      rw [hp]
      cases ok
      · exact Or.inr ⟨_, helpThenReturn_lt _ _ _ hlt⟩
      · obtain ⟨hb1, hb2⟩ := hb rfl
        dsimp only at hb1 hb2
        obtain ⟨c2, b2, hs, hc2⟩ := skipSemicolons_total tokens (tokens.length + 1) nc false
          hb2 (by omega)
        simp only [hs]
        have hge := (skipSemicolons_ret _ _ _ _ _ hs).1
        dsimp only at hge
        cases b2
        · exact Or.inr ⟨_, helpThenReturn_le _ _ _ (by omega) hc2⟩
        · simp only [Bool.true_eq_false, if_false]
          exact ih _ _ hc2 (by omega)
    · exact Or.inl ⟨_, rfl⟩

theorem lexLoop_total (source : List Nat) (fuel : Nat) : ∀ (cur : Cursor) (tokens : List Token),
    cur.Pointer ≤ source.length → source.length < cur.Pointer + fuel →
    (∃ ts, lexLoop source fuel cur tokens = .ret (.tokens ts)) ∨
      ∃ hint loc, lexLoop source fuel cur tokens = .ret (.error hint loc) := by
  induction fuel with
  | zero =>
    intro cur tokens h0 h
    omega
  | succ n ih =>
    intro cur tokens h0 h
    by_cases hlt : cur.Pointer < source.length
    · obtain ⟨c, rest, hd⟩ := drop_cons_of_lt source cur.Pointer hlt
      rw [lexLoop_step source n cur tokens c rest hd]
      cases hs : scanRef (c :: rest) with
      | none => exact Or.inr ⟨_, _, rfl⟩
      | some st =>
        simp only
        obtain ⟨hb1, hb2, _⟩ := scanRef_bounds _ _ hs
        have hp := cursor_pointer st cur
        have hl := congrArg List.length hd
        simp only [List.length_drop] at hl
        exact ih _ _ (by omega) (by omega)
    · exact Or.inl ⟨_, lexLoop_end source n cur tokens (by omega)⟩

/-- The function `lex` returns on every source: the tokens or its error. -/
theorem lex_total (source : List Nat) :
    (∃ ts, lex source = .ret (.tokens ts)) ∨ ∃ hint loc, lex source = .ret (.error hint loc) :=
  lexLoop_total source (source.length + 1) ⟨0, ⟨0, 0⟩⟩ [] (Nat.zero_le _) (by simp)

/-- The function `Parse` returns on every source: a tree, the error of `lex`, or one of its
own two errors. -/
theorem Parse_total (source : List Nat) : ∃ r, Parse source = .ret r := by
  rcases lex_total source with ⟨ts, h⟩ | ⟨hint, loc, h⟩
  · rw [Parse_of_tokens source ts h]
    rcases ParseLoop_total ts (ts.length + 1) 0 [] (by omega) (by omega) with ⟨a, ha⟩ | ⟨m, hm⟩
    · exact ⟨_, ha⟩
    · exact ⟨_, hm⟩
  · exact ⟨.lexError hint loc, by simp only [Parse, h]⟩

/-! ## Progress of the scanners and of the parser -/

theorem lexKeyword_progress (source : List Nat) (ic : Cursor) (tok : Option Token)
    (cur : Cursor) (h : lexKeyword source ic = .ret (tok, cur, true)) :
    ic.Pointer < cur.Pointer ∧ cur.Pointer ≤ source.length := by
  rcases lexKeyword_cases source ic with h0 | ⟨k, hk, hm, he⟩
  · rw [h0] at h
    cases h
  · rw [he] at h
    cases h
    have h1 := matchesText_length hm
    have h2 := List.length_pos.2 (keywords_ascii k hk).1
    simp only [List.length_drop] at h1
    refine ⟨?_, ?_⟩ <;> dsimp only <;> omega

theorem lexSymbol_progress (source : List Nat) (ic : Cursor) (hlt : ic.Pointer < source.length)
    (tok : Option Token) (cur : Cursor) (h : lexSymbol source ic = .ret (tok, cur, true)) :
    ic.Pointer < cur.Pointer ∧ cur.Pointer ≤ source.length := by
  have hget : source[ic.Pointer]? = some (source.get ⟨ic.Pointer, hlt⟩) :=
    List.getElem?_eq_getElem hlt
  rcases lexSymbol_cases source ic _ hget with ⟨_, he⟩ | ⟨_, he⟩ | ⟨_, _, _, h0 | ⟨k, hk, hm, he⟩⟩
  · rw [he] at h
    cases h
    refine ⟨?_, ?_⟩ <;> dsimp only <;> omega
  · rw [he] at h
    cases h
    refine ⟨?_, ?_⟩ <;> simp only [Cursor.ptrInc, Cursor.colInc] <;> omega
  · rw [h0] at h
    cases h
  · rw [he] at h
    cases h
    have h1 := matchesText_length hm
    have h2 := List.length_pos.2 (symbols_ascii k hk).1
    simp only [List.length_drop] at h1
    refine ⟨?_, ?_⟩ <;> dsimp only <;> omega

theorem lexNumeric_progress (source : List Nat) (ic : Cursor) (tok : Option Token)
    (cur : Cursor) (h : lexNumeric source ic = .ret (tok, cur, true)) :
    ic.Pointer < cur.Pointer ∧ cur.Pointer ≤ source.length := by
  obtain ⟨v, k, hk, _, h1 | h1⟩ := lexNumeric_match source ic tok cur h
  · obtain ⟨rfl, h2⟩ := h1
    simp only [Cursor.advance]
    omega
  · obtain ⟨rfl, h2⟩ := h1
    simp only [Cursor.advance, Cursor.colInc]
    omega

theorem lexIdentifier_progress (source : List Nat) (ic : Cursor)
    (hlt : ic.Pointer < source.length) (tok : Option Token) (cur : Cursor)
    (h : lexIdentifier source ic = .ret (tok, cur, true)) :
    ic.Pointer < cur.Pointer ∧ cur.Pointer ≤ source.length := by
  obtain ⟨c, rest, hd⟩ := drop_cons_of_lt source ic.Pointer hlt
  have hl := congrArg List.length hd
  simp only [List.length_drop, List.length_cons] at hl
  rw [lexIdentifier_ref source ic c rest hd] at h
  cases hq : delimitedRef 34 (c :: rest) with
  | some p =>
    obtain ⟨v, m⟩ := p
    rw [hq] at h
    cases h
    have := delimitedRef_bound _ _ _ _ hq
    simp only [List.length_cons] at this
    simp only [Cursor.shift]
    omega
  | none =>
    rw [hq] at h
    simp only at h
    split at h
    · rename_i ha
      cases h
      have h1 := ( takeWhile_prefix (c :: rest) isIdentifierByte).2
      have h2 : 0 < ((c :: rest).takeWhile isIdentifierByte).length := by
        rw [List.takeWhile_cons, if_pos (isIdentifierByte_of_alpha c ha)]
        simp
      simp only [List.length_cons] at h1
      simp only [Cursor.shift]
      omega
    · cases h

/-- Every scanner of `lex` returns at a cursor inside the source, and a scanner that matches
returns a cursor further on, not beyond the end of the source. -/
theorem lexers_progress (source : List Nat) (ic : Cursor) (hlt : ic.Pointer < source.length)
    (l : List Nat → Cursor → Outcome ScanResult) (hl : l ∈ lexers) :
    (∃ r, l source ic = .ret r) ∧
      ∀ tok cur, l source ic = .ret (tok, cur, true) →
        ic.Pointer < cur.Pointer ∧ cur.Pointer ≤ source.length := by
  obtain ⟨c, rest, hd⟩ := drop_cons_of_lt source ic.Pointer hlt
  simp only [lexers, List.mem_cons, List.mem_singleton, List.mem_nil_iff, or_false] at hl
  rcases hl with rfl | rfl | rfl | rfl | rfl
  · refine ⟨?_, lexKeyword_progress source ic⟩
    rw [lexKeyword_ref]
    split <;> exact ⟨_, rfl⟩
  · refine ⟨?_, lexSymbol_progress source ic hlt⟩
    rw [lexSymbol_ref source ic c rest hd]
    repeat' split
    all_goals exact ⟨_, rfl⟩
  · refine ⟨?_, fun tok cur h => ?_⟩
    · unfold lexString
      rw [lexCharacterDelimited_ref source ic 39 _ hd (by omega)]
      split <;> exact ⟨_, rfl⟩
    · obtain ⟨_, _, h1, h2⟩ := lexCharacterDelimited_match source ic 39 tok cur h
      exact ⟨h1, h2⟩
  · refine ⟨?_, lexNumeric_progress source ic⟩
    rw [lexNumeric_ref source ic _ hd]
    split <;> exact ⟨_, rfl⟩
  · refine ⟨?_, lexIdentifier_progress source ic hlt⟩
    rw [lexIdentifier_ref source ic c rest hd]
    repeat' split
    all_goals exact ⟨_, rfl⟩

/-- C22: at every cursor inside the source each of the five scanners returns, and one that
matches returns a cursor whose `Pointer` is strictly greater than the one it was given and at
most `len(source)`; on every token sequence and cursor `parseStatement` returns, and when it
succeeds its cursor is strictly greater than the initial cursor and at most `len(tokens)`;
hence `lex` and `Parse` return on every source, without reaching an iteration bound. -/
theorem progress_terminates (source : List Nat) :
    (∀ (ic : Cursor) (l : List Nat → Cursor → Outcome ScanResult),
        ic.Pointer < source.length → l ∈ lexers →
        (∃ r, l source ic = .ret r) ∧
          ∀ tok cur, l source ic = .ret (tok, cur, true) →
            ic.Pointer < cur.Pointer ∧ cur.Pointer ≤ source.length) ∧
      (∀ (tokens : List Token) (c : Nat) (d : Token),
        (∃ r, parseStatement tokens c d = .ret r) ∧
          ∀ st c', parseStatement tokens c d = .ret (st, c', true) →
            c < c' ∧ c' ≤ tokens.length) ∧
      (∃ r, lex source = .ret r) ∧ ∃ r, Parse source = .ret r := by
  refine ⟨fun ic l hlt hl => lexers_progress source ic hlt l hl, fun tokens c d => ?_, ?_,
    Parse_total source⟩
  · obtain ⟨r, hr, hb⟩ := parseStatement_total tokens c d
    refine ⟨⟨r, hr⟩, fun st c' h => ?_⟩
    rw [hr] at h
    cases h
    exact hb rfl
  · rcases lex_total source with ⟨ts, h⟩ | ⟨hint, loc, h⟩
    · exact ⟨_, h⟩
    · exact ⟨_, h⟩

/-- C21: `Parse` returns on every source, with a tree or an error and without an index or a
slice out of range.  In particular the slice in `longestMatch` over the keywords and over the
symbols and the look-ahead in `lexNumeric` are in range at every cursor, the reads of
`lexSymbol` and `lexIdentifier` are in range at every cursor inside the source, which is where
`lex` calls them, and the read of `helpMessage` is in range for every cursor up to the length
of a non-empty token sequence. -/
theorem Parse_no_abort (source : List Nat) :
    ((∃ a, Parse source = .ret (.ast a)) ∨
        (∃ hint loc, Parse source = .ret (.lexError hint loc)) ∨
        ∃ msg, Parse source = .ret (.error msg)) ∧
      (∀ ic : Cursor, (∃ m, longestMatch source ic keywords = .ret m) ∧
        (∃ m, longestMatch source ic symbols = .ret m) ∧
        ∃ r, lexNumeric source ic = .ret r) ∧
      (∀ ic : Cursor, ic.Pointer < source.length →
        (∃ r, lexSymbol source ic = .ret r) ∧ ∃ r, lexIdentifier source ic = .ret r) ∧
      ∀ (tokens : List Token) (cursor : Nat), tokens ≠ [] → cursor ≤ tokens.length →
        helpMessage tokens cursor = .ret () := by
  refine ⟨?_, fun ic => ⟨?_, ?_, ?_⟩, fun ic hlt => ⟨?_, ?_⟩, fun tokens cursor hne hle => ?_⟩
  · obtain ⟨r, hr⟩ := Parse_total source
    cases r with
    | ast a => exact Or.inl ⟨a, hr⟩
    | lexError hint loc => exact Or.inr (Or.inl ⟨hint, loc, hr⟩)
    | error msg => exact Or.inr (Or.inr ⟨msg, hr⟩)
  · obtain ⟨m, hm, _⟩ := longestMatch_spec source ic keywords keywords_ascii
    exact ⟨m, hm⟩
  · obtain ⟨m, hm, _⟩ := longestMatch_spec source ic symbols symbols_ascii
    exact ⟨m, hm⟩
  · rw [lexNumeric_ref source ic _ rfl]
    split <;> exact ⟨_, rfl⟩
  · exact (lexers_progress source ic hlt lexSymbol (by simp [lexers])).1
  · exact (lexers_progress source ic hlt lexIdentifier (by simp [lexers])).1
  · have h0 : 0 < tokens.length := List.length_pos.2 hne
    by_cases h1 : cursor < tokens.length
    · simp [helpMessage, h1]
    · have h2 : cursor ≠ 0 := by omega
      have h3 : cursor - 1 < tokens.length := by omega
      simp [helpMessage, h1, h2, h3]

/-- A successful run of the loop of `Parse` that starts inside the tokens ends after a
semicolon that is the last token. -/
theorem ParseLoop_last (tokens : List Token) (fuel : Nat) : ∀ (c : Nat)
    (stmts : List (Option Statement)) (a : Ast), c < tokens.length →
    ParseLoop tokens fuel c stmts = .ret (.ast a) →
    ∃ t, tokens.getLast? = some t ∧ (tokenFromSymbol (ascii ";")).equals t = true := by
  induction fuel with
  | zero => intro c stmts a _ h; cases h
  | succ n ih =>
    intro c stmts a hlt h
    obtain ⟨stmt, nc, c2, h1, h2, h3⟩ := ParseLoop_inv tokens n c stmts a hlt h
    obtain ⟨hle, hall, _, hb⟩ := skipSemicolons_inv _ _ _ _ _ _ h2
    have hnc : nc < c2 := by simpa using hb.symm
    by_cases hc2 : c2 < tokens.length
    · exact ih _ _ _ hc2 h3
    · have he := hall (c2 - 1) (by omega) (by omega)
      have hl := expectToken_lt _ _ _ he
      obtain ⟨t, ht, heq⟩ := (expectToken_true _ _ _).1 he
      refine ⟨t, ?_, heq⟩
      rw [List.getLast?_eq_getElem?, ← ht]
      congr 1
      omega

theorem equals_semicolon (t : Token) (h : (tokenFromSymbol (ascii ";")).equals t = true) :
    t = ⟨ascii ";", .SymbolKind, t.Loc⟩ := by
  obtain ⟨v, k, loc⟩ := t
  simp only [Token.equals, tokenFromSymbol, Bool.and_eq_true, decide_eq_true_eq] at h
  obtain ⟨rfl, rfl⟩ := h
  rfl

/-- C28: for every source on which `lex` returns tokens: when there is no token, `Parse`
succeeds with zero statements; when there are tokens and `Parse` succeeds, the tree has at
least one statement and the last token is the symbol `;`.  So `INSERT INTO t VALUES (1)` and
`SELECT 1`, without a trailing semicolon, are rejected, although no token is left after the
statement. -/
theorem parse_ends_in_semicolon (source : List Nat) (ts : List Token)
    (hl : lex source = .ret (.tokens ts)) :
    (ts = [] → Parse source = .ret (.ast ⟨[]⟩)) ∧
      (∀ a, Parse source = .ret (.ast a) → ts ≠ [] →
        a.Statements ≠ [] ∧ ∃ loc, ts.getLast? = some ⟨ascii ";", .SymbolKind, loc⟩) ∧
      Parse (ascii "INSERT INTO t VALUES (1)") =
        .ret (.error "missing semi-colon between statements") ∧
      Parse (ascii "SELECT 1") = .ret (.error "failed to parse, expected statement") := by
  refine ⟨?_, ?_, by decide, by decide⟩
  · intro he
    subst he
    rw [Parse_of_tokens source [] hl]
    rfl
  · intro a ha hne
    rw [Parse_of_tokens source ts hl] at ha
    have h0 : 0 < ts.length := List.length_pos.2 hne
    obtain ⟨more, hm, hmore⟩ := ParseLoop_grows ts _ 0 [] a ha
    obtain ⟨t, ht, heq⟩ := ParseLoop_last ts _ 0 [] a h0 ha
    refine ⟨?_, t.Loc, ?_⟩
    · rw [hm]
      simpa using hmore h0
    · rw [ht, ← equals_semicolon t heq]

theorem parse_ends_in_semicolon_witness :
    (lexTokens (ascii "SELECT 1;") = [] → Parse (ascii "SELECT 1;") = .ret (.ast ⟨[]⟩)) ∧
      (∀ a, Parse (ascii "SELECT 1;") = .ret (.ast a) → lexTokens (ascii "SELECT 1;") ≠ [] →
        a.Statements ≠ [] ∧
          ∃ loc, (lexTokens (ascii "SELECT 1;")).getLast? =
            some ⟨ascii ";", .SymbolKind, loc⟩) ∧
      Parse (ascii "INSERT INTO t VALUES (1)") =
        .ret (.error "missing semi-colon between statements") ∧
      Parse (ascii "SELECT 1") = .ret (.error "failed to parse, expected statement") :=
  parse_ends_in_semicolon (ascii "SELECT 1;") (lexTokens (ascii "SELECT 1;")) (by decide)

/-! ## Whitespace -/

/-- A property of every token that a round of the loop of `lex` makes is a property of every
token that `lex` returns. -/
theorem lexLoop_forall (P : Token → Prop)
    (hP : ∀ c rest st loc t, scanRef (c :: rest) = some st → st.token loc = some t → P t)
    (source : List Nat) (fuel : Nat) : ∀ (cur : Cursor) (tokens ts : List Token),
      (∀ t ∈ tokens, P t) → lexLoop source fuel cur tokens = .ret (.tokens ts) →
      ∀ t ∈ ts, P t := by
  induction fuel with
  | zero => intro cur tokens ts _ h; cases h
  | succ n ih =>
    intro cur tokens ts hall h
    by_cases hlt : cur.Pointer < source.length
    · obtain ⟨c, rest, hd⟩ := drop_cons_of_lt source cur.Pointer hlt
      rw [lexLoop_step source n cur tokens c rest hd] at h
      cases hs : scanRef (c :: rest) with
      | none => rw [hs] at h; cases h
      | some st =>
        rw [hs] at h
        simp only at h
        refine ih _ _ _ ?_ h
        intro t ht
        rw [List.mem_append] at ht
        rcases ht with ht | ht
        · exact hall t ht
        · cases hq : st.token cur.Loc with
          | none => rw [hq] at ht; simp at ht
          | some t' =>
            rw [hq] at ht
            simp only [Option.toList_some, List.mem_singleton] at ht
            subst ht
            exact hP c rest st cur.Loc _ hs hq
    · rw [lexLoop_end source n cur tokens (by omega)] at h
      cases h
      exact hall

/-- The tokens of a round of the loop of `lex`, by kind: a keyword or a symbol that stands at
the cursor, a string, the bytes of a numeric run, or the lower-cased run of identifier bytes. -/
theorem scanRef_token_cases (c : Nat) (rest : List Nat) (st : RefStep) (loc : Location)
    (t : Token) (h : scanRef (c :: rest) = some st) (ht : st.token loc = some t) :
    (t.Kind = .KeywordKind ∧ t.Value ∈ keywords ∧ matchesText (c :: rest) t.Value) ∨
      (t.Kind = .SymbolKind ∧ t.Value ∈ symbols ∧ matchesText (c :: rest) t.Value) ∨
      t.Kind = .StringKind ∨
      (t.Kind = .NumericKind ∧ ∃ n k, numericRun (c :: rest) true false false = some (n, k) ∧
        t.Value = (c :: rest).take n) ∨
      (t.Kind = .IdentifierKind ∧ isAlphabetical c = true ∧
        t.Value = toLowerASCII ((c :: rest).takeWhile isIdentifierByte)) := by
  have hval : ∀ (v : List Nat) (k : TokenKind), st.tok = some (v, k) →
      t.Value = v ∧ t.Kind = k := by
    intro v k hst
    rw [RefStep.token, hst] at ht
    simp only [Option.map_some', Option.some.injEq] at ht
    rw [← ht]
    exact ⟨rfl, rfl⟩
  have hnone : st.tok = none → False := by
    intro hst
    rw [RefStep.token, hst] at ht
    cases ht
  simp only [scanRef] at h
  split at h
  · rename_i hne
    cases h
    obtain ⟨hv, hk⟩ := hval _ _ rfl
    rcases (bestOption_spec keywords (c :: rest)).1 with h0 | ⟨hin, hm⟩
    · exact absurd h0 hne
    · exact Or.inl ⟨hk, by rw [hv]; exact hin, by rw [hv]; exact hm⟩
  split at h
  · cases h; exact (hnone rfl).elim
  split at h
  · cases h; exact (hnone rfl).elim
  split at h
  · rename_i hne
    cases h
    obtain ⟨hv, hk⟩ := hval _ _ rfl
    rcases (bestOption_spec symbols (c :: rest)).1 with h0 | ⟨hin, hm⟩
    · exact absurd h0 hne
    · exact Or.inr (Or.inl ⟨hk, by rw [hv]; exact hin, by rw [hv]; exact hm⟩)
  split at h
  · cases h
    exact Or.inr (Or.inr (Or.inl (hval _ _ rfl).2))
  split at h
  · rename_i n k hq
    cases h
    obtain ⟨hv, hk⟩ := hval _ _ rfl
    exact Or.inr (Or.inr (Or.inr (Or.inl ⟨hk, n, k, hq, hv⟩)))
  split at h
  · cases h
    exact Or.inr (Or.inr (Or.inl (hval _ _ rfl).2))
  split at h
  · rename_i ha
    cases h
    obtain ⟨hv, hk⟩ := hval _ _ rfl
    exact Or.inr (Or.inr (Or.inr (Or.inr ⟨hk, ha, hv⟩)))
  · cases h

/-- The bytes of a numeric run are digits, periods, exponent markers and signs. -/
theorem numericRun_bytes : ∀ (m : Nat) (r : List Nat) (first pf ef : Bool) (n k : Nat),
    r.length ≤ m → numericRun r first pf ef = some (n, k) →
    ∀ b ∈ r.take n, (48 ≤ b ∧ b ≤ 57) ∨ b = 46 ∨ b = 101 ∨ b = 43 ∨ b = 45 := by
  intro m
  induction m with
  | zero =>
    intro r first pf ef n k hm h
    have : r = [] := List.length_eq_zero.1 (by omega)
    subst this
    intro b hb
    simp at hb
  | succ m ih =>
    intro r first pf ef n k hm h
    cases r with
    | nil =>
      intro b hb
      simp at hb
    | cons c rest =>
      simp only [List.length_cons] at hm
      have rec1 : ∀ (pf' ef' : Bool),
          ((48 ≤ c ∧ c ≤ 57) ∨ c = 46 ∨ c = 101 ∨ c = 43 ∨ c = 45) →
          (numericRun rest false pf' ef').map (fun p => (p.1 + 1, p.2 + 1)) = some (n, k) →
          ∀ b ∈ (c :: rest).take n,
            (48 ≤ b ∧ b ≤ 57) ∨ b = 46 ∨ b = 101 ∨ b = 43 ∨ b = 45 := by
        intro pf' ef' hc hr
        cases hq : numericRun rest false pf' ef' with
        | none => rw [hq] at hr; cases hr
        | some p =>
          obtain ⟨n', k'⟩ := p
          rw [hq] at hr
          simp only [Option.map_some', Option.some.injEq, Prod.mk.injEq] at hr
          obtain ⟨rfl, rfl⟩ := hr
          intro b hb
          rw [List.take_succ_cons, List.mem_cons] at hb
          rcases hb with rfl | hb
          · exact hc
          · exact ih rest false pf' ef' n' k' (by omega) hq b hb
      rw [numericRun_cons] at h
      split at h
      · split at h
        · cases h
        · rename_i hc
          exact rec1 _ _ (by omega) h
      · split at h
        · split at h
          · cases h
          · rename_i hc _
            exact rec1 _ _ (by omega) h
        · split at h
          · rename_i hc
            split at h
            · cases h
            · cases rest with
              | nil => cases h
              | cons cNext rest2 =>
                simp only at h
                split at h
                · rename_i hsign
                  cases hq : numericRun rest2 false true true with
                  | none => rw [hq] at h; cases h
                  | some p =>
                    obtain ⟨n', k'⟩ := p
                    rw [hq] at h
                    simp only [Option.map_some', Option.some.injEq, Prod.mk.injEq] at h
                    obtain ⟨rfl, rfl⟩ := h
                    intro b hb
                    rw [List.take_succ_cons, List.take_succ_cons, List.mem_cons,
                      List.mem_cons] at hb
                    rcases hb with rfl | rfl | hb
                    · omega
                    · omega
                    · exact ih rest2 false true true n' k'
                        (by simp only [List.length_cons] at hm; omega) hq b hb
                · exact rec1 _ _ (by omega) h
          · split at h
            · cases h
              intro b hb
              simp at hb
            · rename_i hc
              exact rec1 _ _ (by omega) h

theorem keywords_clean : ∀ o ∈ keywords, ∀ b ∈ o, b ≠ 32 ∧ b ≠ 9 ∧ b ≠ 10 := by decide

theorem symbols_clean : ∀ o ∈ symbols, ∀ b ∈ o, b ≠ 32 ∧ b ≠ 9 ∧ b ≠ 10 := by decide

/-- A token of a round of the loop of `lex` that is not a string holds no space, tab or
newline. -/
theorem scanRef_clean (c : Nat) (rest : List Nat) (st : RefStep) (loc : Location) (t : Token)
    (h : scanRef (c :: rest) = some st) (ht : st.token loc = some t)
    (hk : t.Kind ≠ .StringKind) : ∀ b ∈ t.Value, b ≠ 32 ∧ b ≠ 9 ∧ b ≠ 10 := by
  rcases scanRef_token_cases c rest st loc t h ht with
    ⟨_, hin, _⟩ | ⟨_, hin, _⟩ | hs | ⟨_, n, k, hq, hv⟩ | ⟨_, _, hv⟩
  · exact keywords_clean _ hin
  · exact symbols_clean _ hin
  · exact absurd hs hk
  · intro b hb
    rw [hv] at hb
    have := numericRun_bytes _ _ true false false n k (le_refl _) hq b hb
    omega
  · intro b hb
    rw [hv] at hb
    simp only [toLowerASCII, List.mem_map] at hb
    obtain ⟨b', hb', rfl⟩ := hb
    have hid := (List.mem_takeWhile_imp hb')
    simp only [isIdentifierByte, isAlphabetical, Bool.or_eq_true, Bool.and_eq_true,
      decide_eq_true_eq] at hid
    unfold asciiLower
    split <;> omega

/-- A round of the loop of `lex` at a space, a tab or a newline: no token, one byte. -/
theorem scanRef_whitespace (c : Nat) (rest : List Nat) (hc : c = 32 ∨ c = 9 ∨ c = 10) :
    scanRef (c :: rest) = some ⟨none, 1, 1, decide (c = 10)⟩ := by
  have hK : bestOption keywords (c :: rest) = bestOption keywords [c] :=
    bestOption_head keywords c rest (by rcases hc with rfl | rfl | rfl <;> decide)
  simp only [scanRef, hK]
  rcases hc with rfl | rfl | rfl
  · have h0 : bestOption keywords [32] = [] := by decide
    simp [h0]
  · have h0 : bestOption keywords [9] = [] := by decide
    simp [h0]
  · have h0 : bestOption keywords [10] = [] := by decide
    simp [h0]

/-- The loop of `lex` on a source of spaces, tabs and newlines adds no token. -/
theorem lexLoop_whitespace (source : List Nat) (hws : ∀ b ∈ source, b = 32 ∨ b = 9 ∨ b = 10)
    (fuel : Nat) : ∀ (cur : Cursor) (tokens : List Token),
      cur.Pointer ≤ source.length → source.length < cur.Pointer + fuel →
      lexLoop source fuel cur tokens = .ret (.tokens tokens) := by
  induction fuel with
  | zero => intro cur tokens h1 h2; omega
  | succ n ih =>
    intro cur tokens h1 h2
    by_cases hlt : cur.Pointer < source.length
    · obtain ⟨c, rest, hd⟩ := drop_cons_of_lt source cur.Pointer hlt
      have hc : c ∈ source := List.mem_of_mem_drop (by rw [hd]; exact List.mem_cons_self _ _)
      rw [lexLoop_step source n cur tokens c rest hd, scanRef_whitespace c rest (hws c hc)]
      simp only [RefStep.token, Option.map_none', Option.toList_none, List.append_nil]
      have hp := cursor_pointer ⟨none, 1, 1, decide (c = 10)⟩ cur
      exact ih _ _ (by rw [hp]; dsimp only; omega) (by rw [hp]; dsimp only; omega)
    · exact lexLoop_end source n cur tokens (by omega)

/-- C23, evaluated on a string literal that holds one space: `lex` returns a token whose value
is the space. -/
theorem lexSymbol_whitespace_counterexample :
    lex (ascii "' '") = .ret (.tokens [⟨ascii " ", .StringKind, ⟨0, 0⟩⟩]) := by
  decide

/-- C23, amended: at a newline `lexSymbol` returns no token, the flag, and the cursor with
`Pointer + 1`, `Line + 1` and `Col = 0`; at a space or a tab it returns no token, the flag, and
the cursor with `Pointer + 1`, the same line and `Col + 1` (line and column in `uint`
arithmetic).  So `lex` of a source made of spaces, tabs and newlines only succeeds with no
token, and no Keyword, Symbol, Identifier or Numeric token that `lex` returns holds a space, a
tab or a newline; a String token may. -/
theorem lexSymbol_whitespace (source : List Nat) :
    (∀ (ic : Cursor) (c : Nat), source[ic.Pointer]? = some c →
        (c = 10 → lexSymbol source ic =
          .ret (none, ⟨ic.Pointer + 1, ⟨uintSucc ic.Loc.Line, 0⟩⟩, true)) ∧
        (c = 32 ∨ c = 9 → lexSymbol source ic =
          .ret (none, ⟨ic.Pointer + 1, ⟨ic.Loc.Line, uintSucc ic.Loc.Col⟩⟩, true))) ∧
      ((∀ b ∈ source, b = 32 ∨ b = 9 ∨ b = 10) → lex source = .ret (.tokens [])) ∧
      ∀ ts, lex source = .ret (.tokens ts) → ∀ t ∈ ts, t.Kind ≠ .StringKind →
        ∀ b ∈ t.Value, b ≠ 32 ∧ b ≠ 9 ∧ b ≠ 10 := by
  refine ⟨fun ic c hget => ⟨fun h10 => ?_, fun hws => ?_⟩, fun hws => ?_, fun ts h t ht hk => ?_⟩
  · rcases lexSymbol_cases source ic c hget with ⟨_, he⟩ | ⟨h, _⟩ | ⟨h, _⟩
    · exact he
    · omega
    · exact absurd h10 h
  · rcases lexSymbol_cases source ic c hget with ⟨h, _⟩ | ⟨_, he⟩ | ⟨_, h9, h32, _⟩
    · omega
    · exact he
    · omega
  · exact lexLoop_whitespace source hws _ _ _ (Nat.zero_le _) (by simp)
  · exact lexLoop_forall (fun t => t.Kind ≠ .StringKind → ∀ b ∈ t.Value, b ≠ 32 ∧ b ≠ 9 ∧ b ≠ 10)
      (fun c rest st loc t hs hq => scanRef_clean c rest st loc t hs hq) source _ _ [] ts
      (fun t ht => by simp at ht) h t ht hk

theorem lexSymbol_whitespace_witness :
    (∀ (ic : Cursor) (c : Nat), [97, 32, 9, 10, 49][ic.Pointer]? = some c →
        (c = 10 → lexSymbol [97, 32, 9, 10, 49] ic =
          .ret (none, ⟨ic.Pointer + 1, ⟨uintSucc ic.Loc.Line, 0⟩⟩, true)) ∧
        (c = 32 ∨ c = 9 → lexSymbol [97, 32, 9, 10, 49] ic =
          .ret (none, ⟨ic.Pointer + 1, ⟨ic.Loc.Line, uintSucc ic.Loc.Col⟩⟩, true))) ∧
      ((∀ b ∈ [97, 32, 9, 10, 49], b = 32 ∨ b = 9 ∨ b = 10) →
        lex [97, 32, 9, 10, 49] = .ret (.tokens [])) ∧
      ∀ ts, lex [97, 32, 9, 10, 49] = .ret (.tokens ts) → ∀ t ∈ ts, t.Kind ≠ .StringKind →
        ∀ b ∈ t.Value, b ≠ 32 ∧ b ≠ 9 ∧ b ≠ 10 :=
  lexSymbol_whitespace [97, 32, 9, 10, 49]

/-! ## Words, numbers and the exponent marker -/

theorem bestOption_nil (opts : List (List Nat)) (r : List Nat)
    (h : ∀ o ∈ opts, ¬ matchesText r o) : bestOption opts r = [] := by
  rcases (bestOption_spec opts r).1 with h0 | ⟨hin, hm⟩
  · exact h0
  · exact absurd hm (h _ hin)

theorem symbols_single :
    ∀ o ∈ symbols, o = [44] ∨ o = [40] ∨ o = [41] ∨ o = [59] ∨ o = [42] := by
  decide

theorem isAlphabetical_range (c : Nat) (hc : isAlphabetical c = true) :
    (65 ≤ c ∧ c ≤ 90) ∨ (97 ≤ c ∧ c ≤ 122) := by
  simpa [isAlphabetical] using hc

theorem bestOption_symbols_alpha (c : Nat) (rest : List Nat) (hc : isAlphabetical c = true) :
    bestOption symbols (c :: rest) = [] := by
  apply bestOption_nil
  intro o ho hm
  have hr := isAlphabetical_range c hc
  rcases symbols_single o ho with rfl | rfl | rfl | rfl | rfl <;>
  · simp only [matchesText, List.length_singleton, List.take_succ_cons, List.take_zero,
      List.map_cons, List.map_nil, List.cons.injEq, and_true] at hm
    unfold asciiLower at hm
    split at hm <;> omega

/-- A round of the loop of `lex` at a letter: the longest keyword that stands there, and when
there is none the run of identifier bytes as an identifier. -/
theorem scanRef_alpha (c : Nat) (rest : List Nat) (hc : isAlphabetical c = true) :
    scanRef (c :: rest) =
      if bestOption keywords (c :: rest) ≠ [] then
        some ⟨some (bestOption keywords (c :: rest), .KeywordKind),
          (bestOption keywords (c :: rest)).length, (bestOption keywords (c :: rest)).length,
          false⟩
      else
        some ⟨some (toLowerASCII ((c :: rest).takeWhile isIdentifierByte), .IdentifierKind),
          ((c :: rest).takeWhile isIdentifierByte).length,
          ((c :: rest).takeWhile isIdentifierByte).length, false⟩ := by
  have hr := isAlphabetical_range c hc
  have h10 : c ≠ 10 := by omega
  have h9 : ¬ (c = 9 ∨ c = 32) := by omega
  have hS := bestOption_symbols_alpha c rest hc
  have h39 : delimitedRef 39 (c :: rest) = none := by
    simp only [delimitedRef]
    rw [if_neg (by omega)]
  have h34 : delimitedRef 34 (c :: rest) = none := by
    simp only [delimitedRef]
    rw [if_neg (by omega)]
  have hnum : numericRun (c :: rest) true false false = none := by
    rw [numericRun_cons]
    simp only [if_true]
    rw [if_pos (by omega)]
  simp only [scanRef, h10, h9, hS, h39, h34, hnum, hc, if_true, if_false, ne_eq,
    not_true_eq_false]

theorem takeWhile_all (p : Nat → Bool) : ∀ (l : List Nat), (∀ b ∈ l, p b = true) →
    l.takeWhile p = l
  | [], _ => rfl
  | c :: rest, h => by
    rw [List.takeWhile_cons_of_pos (h c (List.mem_cons_self _ _)),
      takeWhile_all p rest (fun b hb => h b (List.mem_cons_of_mem _ hb))]

/-- The loop of `lex` succeeds on a source on which a round makes a step at every offset; the
tokens it has are kept in front. -/
theorem lexLoop_succeeds (source : List Nat)
    (hs : ∀ p c rest, source.drop p = c :: rest → scanRef (c :: rest) ≠ none) (fuel : Nat) :
    ∀ (cur : Cursor) (tokens : List Token), cur.Pointer ≤ source.length →
      source.length < cur.Pointer + fuel →
      ∃ new, lexLoop source fuel cur tokens = .ret (.tokens (tokens ++ new)) := by
  induction fuel with
  | zero => intro cur tokens h1 h2; omega
  | succ n ih =>
    intro cur tokens h1 h2
    by_cases hlt : cur.Pointer < source.length
    · obtain ⟨c, rest, hd⟩ := drop_cons_of_lt source cur.Pointer hlt
      rw [lexLoop_step source n cur tokens c rest hd]
      cases hq : scanRef (c :: rest) with
      | none => exact absurd hq (hs _ c rest hd)
      | some st =>
        simp only
        obtain ⟨hb1, hb2, _⟩ := scanRef_bounds _ _ hq
        have hp := cursor_pointer st cur
        have hl := congrArg List.length hd
        simp only [List.length_drop, List.length_cons] at hl
        simp only [List.length_cons] at hb2
        obtain ⟨new, hnew⟩ := ih (st.cursor cur) (tokens ++ (st.token cur.Loc).toList)
          (by omega) (by omega)
        exact ⟨(st.token cur.Loc).toList ++ new, by rw [hnew, List.append_assoc]⟩
    · exact ⟨[], by rw [lexLoop_end source n cur tokens (by omega), List.append_nil]⟩

/-- C26, evaluated on the three words of the claim: `lex` splits each of them into the keyword
it begins with and an identifier for the rest; none of them is a keyword. -/
theorem keyword_prefixed_words_counterexample :
    lex (ascii "integer") = .ret (.tokens [⟨ascii "int", .KeywordKind, ⟨0, 0⟩⟩,
        ⟨ascii "eger", .IdentifierKind, ⟨0, 3⟩⟩]) ∧
      lex (ascii "asdf") = .ret (.tokens [⟨ascii "as", .KeywordKind, ⟨0, 0⟩⟩,
        ⟨ascii "df", .IdentifierKind, ⟨0, 2⟩⟩]) ∧
      lex (ascii "fromage") = .ret (.tokens [⟨ascii "from", .KeywordKind, ⟨0, 0⟩⟩,
        ⟨ascii "age", .IdentifierKind, ⟨0, 4⟩⟩]) ∧
      (∀ b ∈ ascii "integer" ++ ascii "asdf" ++ ascii "fromage", isAlphabetical b = true) ∧
      toLowerASCII (ascii "integer") ∉ keywords ∧ toLowerASCII (ascii "asdf") ∉ keywords ∧
      toLowerASCII (ascii "fromage") ∉ keywords := by
  decide

/-- C26, amended: for every non-empty source of ASCII letters only: when no keyword stands at
its head, case-insensitively, `lex` returns exactly one token, of kind Identifier, whose value
is the lower-cased source; when a keyword stands at its head, `lex` succeeds and its first
token is a keyword, the longest one that stands there, so that a longer word is split. -/
theorem keyword_prefixed_words (source : List Nat) (hne : source ≠ [])
    (hletters : ∀ b ∈ source, isAlphabetical b = true) :
    ((∀ k ∈ keywords, ¬ matchesText source k) →
        lex source = .ret (.tokens [⟨toLowerASCII source, .IdentifierKind, ⟨0, 0⟩⟩])) ∧
      ∀ k ∈ keywords, matchesText source k →
        ∃ k' ts, lex source = .ret (.tokens (⟨k', .KeywordKind, ⟨0, 0⟩⟩ :: ts)) ∧
          k' ∈ keywords ∧ matchesText source k' ∧ k.length ≤ k'.length := by
  obtain ⟨c, rest, rfl⟩ : ∃ c rest, source = c :: rest := by
    cases source with
    | nil => exact absurd rfl hne
    | cons c rest => exact ⟨c, rest, rfl⟩
  have hc := hletters c (List.mem_cons_self _ _)
  have hstep := lexLoop_step (c :: rest) (rest.length + 1) ⟨0, ⟨0, 0⟩⟩ [] c rest rfl
  have hlex : lex (c :: rest) = lexLoop (c :: rest) (rest.length + 1 + 1) ⟨0, ⟨0, 0⟩⟩ [] := rfl
  refine ⟨fun hno => ?_, fun k hk hm => ?_⟩
  · have hK := bestOption_nil keywords (c :: rest) hno
    have hT : (c :: rest).takeWhile isIdentifierByte = c :: rest :=
      takeWhile_all _ _ (fun b hb => isIdentifierByte_of_alpha b (hletters b hb))
    rw [hlex, hstep, scanRef_alpha c rest hc, hK, hT]
    simp only [ne_eq, not_true_eq_false, if_false]
    rw [lexLoop_end]
    · rfl
    · rw [cursor_pointer]
      simp only [List.length_cons]
      omega
  · obtain ⟨hsp1, hsp2⟩ := bestOption_spec keywords (c :: rest)
    have hlen := hsp2 k hk hm
    have hkpos := List.length_pos.2 (keywords_ascii k hk).1
    have hbne : bestOption keywords (c :: rest) ≠ [] := by
      intro h0
      rw [h0] at hlen
      simp only [List.length_nil] at hlen
      omega
    rcases hsp1 with h0 | ⟨hin, hbm⟩
    · exact absurd h0 hbne
    have hble := matchesText_length hbm
    simp only [List.length_cons] at hble
    have hsucc := lexLoop_succeeds (c :: rest) (fun p c' rest' hd => by
      have hc' : isAlphabetical c' = true :=
        hletters c' (List.mem_of_mem_drop (by rw [hd]; exact List.mem_cons_self _ _))
      rw [scanRef_alpha c' rest' hc']
      split <;> simp)
    rw [hlex, hstep, scanRef_alpha c rest hc, if_pos hbne]
    simp only
    obtain ⟨new, hnew⟩ := hsucc (rest.length + 1)
      (RefStep.cursor ⟨some (bestOption keywords (c :: rest), .KeywordKind),
        (bestOption keywords (c :: rest)).length, (bestOption keywords (c :: rest)).length,
        false⟩ ⟨0, ⟨0, 0⟩⟩)
      ([] ++ (RefStep.token ⟨some (bestOption keywords (c :: rest), .KeywordKind),
        (bestOption keywords (c :: rest)).length, (bestOption keywords (c :: rest)).length,
        false⟩ (⟨0, 0⟩ : Location)).toList)
      (by rw [cursor_pointer]; simp only [List.length_cons]; omega)
      (by rw [cursor_pointer]; simp only [List.length_cons]; omega)
    exact ⟨_, new, hnew, hin, hbm, hlen⟩

theorem keyword_prefixed_words_witness :
    ((∀ k ∈ keywords, ¬ matchesText (ascii "userName") k) →
        lex (ascii "userName") =
          .ret (.tokens [⟨toLowerASCII (ascii "userName"), .IdentifierKind, ⟨0, 0⟩⟩])) ∧
      ∀ k ∈ keywords, matchesText (ascii "userName") k →
        ∃ k' ts, lex (ascii "userName") = .ret (.tokens (⟨k', .KeywordKind, ⟨0, 0⟩⟩ :: ts)) ∧
          k' ∈ keywords ∧ matchesText (ascii "userName") k' ∧ k.length ≤ k'.length :=
  keyword_prefixed_words (ascii "userName") (by decide) (by decide)

/-- After the exponent marker a numeric run without a digit is empty. -/
theorem numericRun_exponent_nodigit (x : List Nat) (m k : Nat)
    (h : numericRun x false true true = some (m, k))
    (hd : ∀ b ∈ x.take m, ¬ (48 ≤ b ∧ b ≤ 57)) : m = 0 := by
  cases x with
  | nil =>
    simp only [numericRun, Bool.false_eq_true, if_false, Option.some.injEq,
      Prod.mk.injEq] at h
    omega
  | cons c rest =>
    rw [numericRun_cons] at h
    simp only [Bool.false_eq_true, if_false, if_true] at h
    split at h
    · cases h
    split at h
    · cases h
    split at h
    · cases h
      rfl
    · rename_i hdig
      cases hq : numericRun rest false true true with
      | none => rw [hq] at h; cases h
      | some p =>
        obtain ⟨n', k'⟩ := p
        rw [hq] at h
        simp only [Option.map_some', Option.some.injEq, Prod.mk.injEq] at h
        obtain ⟨rfl, rfl⟩ := h
        exact absurd (by omega) (hd c (by simp))

/-- After a leading period a numeric run without a digit is empty, or the exponent marker
with or without a sign. -/
theorem numericRun_period_nodigit (x : List Nat) (m k : Nat)
    (h : numericRun x false true false = some (m, k))
    (hd : ∀ b ∈ x.take m, ¬ (48 ≤ b ∧ b ≤ 57)) :
    x.take m = [] ∨ x.take m = [101] ∨ x.take m = [101, 43] ∨ x.take m = [101, 45] := by
  cases x with
  | nil => simp
  | cons c rest =>
    rw [numericRun_cons] at h
    simp only [Bool.false_eq_true, if_false, if_true] at h
    split at h
    · cases h
    split at h
    · rename_i h101
      subst h101
      cases rest with
      | nil => cases h
      | cons cNext rest2 =>
        simp only at h
        split at h
        · rename_i hsign
          cases hq : numericRun rest2 false true true with
          | none => rw [hq] at h; cases h
          | some p =>
            obtain ⟨n', k'⟩ := p
            rw [hq] at h
            simp only [Option.map_some', Option.some.injEq, Prod.mk.injEq] at h
            obtain ⟨rfl, rfl⟩ := h
            have h0 := numericRun_exponent_nodigit rest2 n' k' hq (fun b hb =>
              hd b (by simp only [List.take_succ_cons]; simp [hb]))
            subst h0
            rcases hsign with rfl | rfl
            · exact Or.inr (Or.inr (Or.inr rfl))
            · exact Or.inr (Or.inr (Or.inl rfl))
        · cases hq : numericRun (cNext :: rest2) false true true with
          | none => rw [hq] at h; cases h
          | some p =>
            obtain ⟨n', k'⟩ := p
            rw [hq] at h
            simp only [Option.map_some', Option.some.injEq, Prod.mk.injEq] at h
            obtain ⟨rfl, rfl⟩ := h
            have h0 := numericRun_exponent_nodigit (cNext :: rest2) n' k' hq (fun b hb =>
              hd b (by simp only [List.take_succ_cons]; exact List.mem_cons_of_mem _ hb))
            subst h0
            exact Or.inr (Or.inl rfl)
    split at h
    · cases h
      simp
    · rename_i hdig
      cases hq : numericRun rest false true false with
      | none => rw [hq] at h; cases h
      | some p =>
        obtain ⟨n', k'⟩ := p
        rw [hq] at h
        simp only [Option.map_some', Option.some.injEq, Prod.mk.injEq] at h
        obtain ⟨rfl, rfl⟩ := h
        exact absurd (by omega) (hd c (by simp))

/-- A numeric run starts with a digit or a period, and one without a digit is a period, alone
or followed by the exponent marker with or without a sign. -/
theorem numericRun_value (r : List Nat) (n k : Nat)
    (h : numericRun r true false false = some (n, k)) :
    (∃ c rest, r.take n = c :: rest ∧ ((48 ≤ c ∧ c ≤ 57) ∨ c = 46)) ∧
      ((∀ b ∈ r.take n, ¬ (48 ≤ b ∧ b ≤ 57)) →
        r.take n = [46] ∨ r.take n = [46, 101] ∨ r.take n = [46, 101, 43] ∨
          r.take n = [46, 101, 45]) := by
  cases r with
  | nil => simp [numericRun] at h
  | cons c rest =>
    rw [numericRun_cons] at h
    simp only [if_true] at h
    split at h
    · cases h
    rename_i hc
    cases hq : numericRun rest false (decide (c = 46)) false with
    | none => rw [hq] at h; cases h
    | some p =>
      obtain ⟨n', k'⟩ := p
      rw [hq] at h
      simp only [Option.map_some', Option.some.injEq, Prod.mk.injEq] at h
      obtain ⟨rfl, rfl⟩ := h
      refine ⟨⟨c, rest.take n', by rw [List.take_succ_cons], by omega⟩, fun hd => ?_⟩
      have hcd := hd c (by simp)
      have h46 : c = 46 := by omega
      subst h46
      simp only [decide_True] at hq
      have := numericRun_period_nodigit rest n' k' hq (fun b hb =>
        hd b (by simp only [List.take_succ_cons]; exact List.mem_cons_of_mem _ hb))
      rw [List.take_succ_cons]
      rcases this with h0 | h0 | h0 | h0 <;> rw [h0] <;> simp

/-- C27, evaluated on a lone period: `lexNumeric` matches and the token value `.` holds no
digit; `lex` and `Parse` take it for a number. -/
theorem lexNumeric_digit_counterexample :
    lexNumeric (ascii ".") ⟨0, ⟨0, 0⟩⟩ =
        .ret (some ⟨ascii ".", .NumericKind, ⟨0, 0⟩⟩, ⟨1, ⟨0, 1⟩⟩, true) ∧
      (∀ b ∈ ascii ".", ¬ (48 ≤ b ∧ b ≤ 57)) ∧
      lex (ascii ".") = .ret (.tokens [⟨ascii ".", .NumericKind, ⟨0, 0⟩⟩]) ∧
      Parse (ascii "SELECT .;") = .ret (.ast ⟨[some ⟨some ⟨some [some
        ⟨some ⟨some ⟨ascii ".", .NumericKind, ⟨0, 7⟩⟩, .literalKind⟩, false, none⟩], none⟩,
        none, none, .SelectKind⟩]⟩) := by
  decide

/-- C27, amended: for every source and cursor at which `lexNumeric` matches, the token is a
Numeric token whose value starts with a digit or a period, and the value holds a digit unless
it is one of `.`, `.e`, `.e+` and `.e-`; a lone `.` is accepted as a number. -/
theorem lexNumeric_digit (source : List Nat) (ic : Cursor) (tok : Option Token) (cur : Cursor)
    (h : lexNumeric source ic = .ret (tok, cur, true)) :
    (∃ v, tok = some ⟨v, .NumericKind, ic.Loc⟩ ∧
        (∃ c rest, v = c :: rest ∧ ((48 ≤ c ∧ c ≤ 57) ∨ c = 46)) ∧
        ((∃ d ∈ v, 48 ≤ d ∧ d ≤ 57) ∨ v = ascii "." ∨ v = ascii ".e" ∨ v = ascii ".e+" ∨
          v = ascii ".e-")) ∧
      lexNumeric (ascii ".") ⟨0, ⟨0, 0⟩⟩ =
        .ret (some ⟨ascii ".", .NumericKind, ⟨0, 0⟩⟩, ⟨1, ⟨0, 1⟩⟩, true) := by
  refine ⟨?_, by decide⟩
  rw [lexNumeric_ref source ic _ rfl] at h
  cases hq : numericRun (source.drop ic.Pointer) true false false with
  | none => rw [hq] at h; cases h
  | some p =>
    obtain ⟨n, k⟩ := p
    rw [hq] at h
    cases h
    obtain ⟨h1, h2⟩ := numericRun_value _ n k hq
    refine ⟨_, rfl, h1, ?_⟩
    by_cases hd : ∃ d ∈ (source.drop ic.Pointer).take n, 48 ≤ d ∧ d ≤ 57
    · exact Or.inl hd
    · right
      have := h2 (fun b hb hb' => hd ⟨b, hb, hb'⟩)
      rcases this with h0 | h0 | h0 | h0
      · exact Or.inl h0
      · exact Or.inr (Or.inl h0)
      · exact Or.inr (Or.inr (Or.inl h0))
      · exact Or.inr (Or.inr (Or.inr h0))

theorem lexNumeric_digit_witness :
    (∃ v, some (⟨ascii "4.", .NumericKind, ⟨0, 7⟩⟩ : Token) =
          some ⟨v, .NumericKind, (⟨7, ⟨0, 7⟩⟩ : Cursor).Loc⟩ ∧
        (∃ c rest, v = c :: rest ∧ ((48 ≤ c ∧ c ≤ 57) ∨ c = 46)) ∧
        ((∃ d ∈ v, 48 ≤ d ∧ d ≤ 57) ∨ v = ascii "." ∨ v = ascii ".e" ∨ v = ascii ".e+" ∨
          v = ascii ".e-")) ∧
      lexNumeric (ascii ".") ⟨0, ⟨0, 0⟩⟩ =
        .ret (some ⟨ascii ".", .NumericKind, ⟨0, 0⟩⟩, ⟨1, ⟨0, 1⟩⟩, true) :=
  lexNumeric_digit (ascii "SELECT 4.;") ⟨7, ⟨0, 7⟩⟩
    (some ⟨ascii "4.", .NumericKind, ⟨0, 7⟩⟩) ⟨9, ⟨0, 10⟩⟩ (by decide)

/-- A non-empty run of digits at the head of a text is consumed by the numeric run. -/
theorem numericRun_digits (x : List Nat) : ∀ (I : List Nat) (first : Bool), I ≠ [] →
    IsDigits I →
    numericRun (I ++ x) first false false =
      (numericRun x false false false).map (fun p => (p.1 + I.length, p.2 + I.length))
  | [], _, h, _ => absurd rfl h
  | d :: I, first, _, hd => by
    have hdig : 48 ≤ d ∧ d ≤ 57 := hd d (List.mem_cons_self _ _)
    have hI : IsDigits I := fun b hb => hd b (List.mem_cons_of_mem _ hb)
    have h46 : d ≠ 46 := by omega
    have h101 : d ≠ 101 := by omega
    have hstep : numericRun (d :: (I ++ x)) first false false =
        (numericRun (I ++ x) false false false).map (fun p => (p.1 + 1, p.2 + 1)) := by
      rw [numericRun_cons]
      cases first
      · simp only [Bool.false_eq_true, if_false, h46, h101, hdig, and_self, not_true_eq_false]
      · simp only [if_true, hdig, and_self, not_true_eq_false, false_and, if_false, h46,
          decide_False]
    rw [List.cons_append, hstep]
    cases I with
    | nil =>
      simp only [List.nil_append, List.length_singleton]
    | cons d2 I2 =>
      rw [numericRun_digits x (d2 :: I2) false (by simp) hI]
      cases numericRun x false false false with
      | none => rfl
      | some p => simp [Nat.add_assoc]

/-- The exponent marker after a run of digits, followed by a byte that is no digit, period,
exponent marker or sign: `lexNumeric` matches, and the value ends with the exponent marker. -/
theorem lexNumeric_exponent_general (I : List Nat) (t : Nat) (rest : List Nat) (loc : Location)
    (hI : I ≠ []) (hd : IsDigits I) (ht : endsNumber t) (hs : t ≠ 43 ∧ t ≠ 45) :
    lexNumeric (I ++ 101 :: t :: rest) ⟨0, loc⟩ =
      .ret (some ⟨I ++ [101], .NumericKind, loc⟩,
        Cursor.shift ⟨0, loc⟩ (I.length + 1) (I.length + 2), true) := by
  obtain ⟨ht1, ht2, ht3⟩ := ht
  have hsign : ¬ (t = 45 ∨ t = 43) := by omega
  have htail : numericRun (101 :: t :: rest) false false false = some (1, 2) := by
    rw [numericRun_cons]
    simp only [Bool.false_eq_true, if_false, if_true, hsign]
    rw [if_neg (by omega), numericRun_cons]
    simp only [Bool.false_eq_true, if_false, if_true]
    rw [if_neg ht2, if_neg ht3, if_pos ht1]
    rfl
  rw [lexNumeric_ref (I ++ 101 :: t :: rest) ⟨0, loc⟩ _ rfl]
  simp only [List.drop_zero]
  rw [numericRun_digits _ I true hI hd, htail]
  simp only [Option.map_some']
  have : (I ++ 101 :: t :: rest).take (1 + I.length) = I ++ [101] := by
    rw [show 1 + I.length = I.length + 1 by omega, List.take_append]
    rfl
  rw [this, show 1 + I.length = I.length + 1 by omega, show 2 + I.length = I.length + 2 by omega]

/-- C25, evaluated: on the text `1e` followed by a space `lexNumeric` matches with the value
`1e`, and on the text `1e+` with the value `1e+`: the exponent marker is followed by no digit
inside the value.  The only exponent marker without digits that `lexNumeric` rejects is the one
that is the last byte of the source.  `Parse` takes both values for numbers. -/
theorem lexNumeric_exponent_without_digits :
    lexNumeric (ascii "1e ") ⟨0, ⟨0, 0⟩⟩ =
        .ret (some ⟨ascii "1e", .NumericKind, ⟨0, 0⟩⟩, ⟨2, ⟨0, 3⟩⟩, true) ∧
      lexNumeric (ascii "1e+") ⟨0, ⟨0, 0⟩⟩ =
        .ret (some ⟨ascii "1e+", .NumericKind, ⟨0, 0⟩⟩, ⟨3, ⟨0, 3⟩⟩, true) ∧
      lexNumeric (ascii "1e") ⟨0, ⟨0, 0⟩⟩ = .ret (none, ⟨0, ⟨0, 0⟩⟩, false) ∧
      lex (ascii "1e ") = .ret (.tokens [⟨ascii "1e", .NumericKind, ⟨0, 0⟩⟩]) ∧
      lex (ascii "1e+") = .ret (.tokens [⟨ascii "1e+", .NumericKind, ⟨0, 0⟩⟩]) ∧
      Parse (ascii "SELECT 1e ;") = .ret (.ast ⟨[some ⟨some ⟨some [some
        ⟨some ⟨some ⟨ascii "1e", .NumericKind, ⟨0, 7⟩⟩, .literalKind⟩, false, none⟩], none⟩,
        none, none, .SelectKind⟩]⟩) := by
  decide

/-! ## The memory backend: CreateTable -/

theorem get_set_same (mb : MemoryBackend) (name : List Nat) (t : table) :
    (mb.set name t).get name = some t := by
  simp [MemoryBackend.get, MemoryBackend.set]

theorem get_set_other (mb : MemoryBackend) (name other : List Nat) (t : table)
    (h : other ≠ name) : (mb.set name t).get other = mb.get other := by
  simp only [MemoryBackend.get, MemoryBackend.set]
  rw [List.find?_cons_of_neg _ (by simpa using fun e => h e.symm)]
  congr 1
  induction mb.tables with
  | nil => rfl
  | cons p ps ih =>
    by_cases hp : p.1 = name
    · rw [List.filter_cons_of_neg (by simpa using hp),
        List.find?_cons_of_neg _ (by simpa using fun e => h (e.symm.trans hp)), ih]
    · rw [List.filter_cons_of_pos (by simpa using hp)]
      by_cases hq : p.1 = other
      · rw [List.find?_cons_of_pos _ (by simpa using hq),
          List.find?_cons_of_pos _ (by simpa using hq)]
      · rw [List.find?_cons_of_neg _ (by simpa using hq),
          List.find?_cons_of_neg _ (by simpa using hq), ih]

/-- The loop of `CreateTable` on columns that are not nil returns.  It keeps the rows.  It
appends the types of the columns of known datatype that stand before the first other column.
Without such a column it returns no error and has appended the names of all columns; with one
it returns the invalid-datatype error and has appended the names up to and with that column. -/
theorem createTableLoop_spec : ∀ (defs : List columnDefinition) (t : table),
    ∃ t' err pre, createTableLoop (defs.map some) t = .ret (t', err) ∧ t'.rows = t.rows ∧
      (∀ d ∈ pre, knownDatatype d) ∧ t'.columnTypes = t.columnTypes ++ pre.map columnTypeOf ∧
      ((err = none ∧ defs = pre ∧
          t'.columns = t.columns ++ pre.map (fun d => d.name.Value)) ∨
        (err = some .ErrInvalidDatatype ∧ ∃ bad post, defs = pre ++ bad :: post ∧
          ¬ knownDatatype bad ∧
          t'.columns = t.columns ++ (pre ++ [bad]).map (fun d => d.name.Value)))
  | [], t => ⟨t, none, [], rfl, rfl, fun _ h => absurd h (List.not_mem_nil _), by simp, Or.inl ⟨rfl, rfl, by simp⟩⟩
  | d :: rest, t => by
    simp only [List.map_cons, createTableLoop]
    split
    · rename_i hint
      obtain ⟨t', err, pre, h1, h2, h3, h4, h5⟩ := createTableLoop_spec rest
        ⟨t.columns ++ [d.name.Value], t.columnTypes ++ [.IntType], t.rows⟩
      refine ⟨t', err, d :: pre, h1, h2, ?_, ?_, ?_⟩
      · intro x hx
        rcases List.mem_cons.1 hx with rfl | hx
        · exact Or.inl hint
        · exact h3 x hx
      · rw [h4]
        simp [columnTypeOf, hint]
      · rcases h5 with ⟨he, hd, hc⟩ | ⟨he, bad, post, hd, hb, hc⟩
        · exact Or.inl ⟨he, by rw [hd], by rw [hc]; simp⟩
        · exact Or.inr ⟨he, bad, post, by rw [hd]; rfl, hb, by rw [hc]; simp⟩
    rename_i hint
    split
    · rename_i htext
      obtain ⟨t', err, pre, h1, h2, h3, h4, h5⟩ := createTableLoop_spec rest
        ⟨t.columns ++ [d.name.Value], t.columnTypes ++ [.TextType], t.rows⟩
      refine ⟨t', err, d :: pre, h1, h2, ?_, ?_, ?_⟩
      · intro x hx
        rcases List.mem_cons.1 hx with rfl | hx
        · exact Or.inr htext
        · exact h3 x hx
      · rw [h4]
        simp [columnTypeOf, hint]
      · rcases h5 with ⟨he, hd, hc⟩ | ⟨he, bad, post, hd, hb, hc⟩
        · exact Or.inl ⟨he, by rw [hd], by rw [hc]; simp⟩
        · exact Or.inr ⟨he, bad, post, by rw [hd]; rfl, hb, by rw [hc]; simp⟩
    · rename_i htext
      refine ⟨_, _, [], rfl, rfl, fun _ h => absurd h (List.not_mem_nil _), by simp,
        Or.inr ⟨rfl, d, rest, rfl, ?_, by simp⟩⟩
      rintro (h | h)
      · exact hint h
      · exact htext h

/-- C24, evaluated on a backend that holds the table `t` with the column `a` and one row:
`CreateTable` for the name `t` with the column `b` returns no error, and the backend then holds
for `t` a table with the column `b` and no row.  The same from a new backend: after
`CreateTable` for `t` with the column `a`, a second `CreateTable` for `t` with the column `b`
returns no error and replaces the column. -/
theorem CreateTable_existing_counterexample :
    (MemoryBackend.mk [(ascii "t", ⟨[ascii "a"], [.IntType], [[[0, 0, 0, 1]]]⟩)]).CreateTable
        (some ⟨⟨ascii "t", .IdentifierKind, ⟨0, 13⟩⟩,
          some [some ⟨⟨ascii "b", .IdentifierKind, ⟨0, 16⟩⟩,
            ⟨ascii "text", .KeywordKind, ⟨0, 18⟩⟩⟩]⟩) =
        .ret (⟨[(ascii "t", ⟨[ascii "b"], [.TextType], []⟩)]⟩, none) ∧
      NewMemoryBackend.CreateTable (some ⟨⟨ascii "t", .IdentifierKind, ⟨0, 13⟩⟩,
          some [some ⟨⟨ascii "a", .IdentifierKind, ⟨0, 16⟩⟩,
            ⟨ascii "int", .KeywordKind, ⟨0, 18⟩⟩⟩]⟩) =
        .ret (⟨[(ascii "t", ⟨[ascii "a"], [.IntType], []⟩)]⟩, none) ∧
      (MemoryBackend.mk [(ascii "t", ⟨[ascii "a"], [.IntType], []⟩)]).CreateTable
          (some ⟨⟨ascii "t", .IdentifierKind, ⟨0, 13⟩⟩,
            some [some ⟨⟨ascii "b", .IdentifierKind, ⟨0, 16⟩⟩,
              ⟨ascii "text", .KeywordKind, ⟨0, 18⟩⟩⟩]⟩) =
        .ret (⟨[(ascii "t", ⟨[ascii "b"], [.TextType], []⟩)]⟩, none) := by
  decide

/-- C24, amended: `CreateTable` called with a table name that already exists in the backend,
for a statement whose columns are not nil, returns, and never with an error for the existing
table: it returns no error exactly when the datatype of every column is `int` or `text`, and
the invalid-datatype error otherwise.  The backend then holds for the name a new table without
rows, which replaces the existing table and its rows, and the tables of the other names are
unchanged.  Without an error the new table holds the names of the columns of the statement, in
their order, and for each the type of its datatype, `IntType` for `int` and `TextType` for
`text`.  With the error it holds the names of the columns up to and with the first one of
another datatype, and the types of the columns before that one. -/
theorem CreateTable_existing (mb : MemoryBackend) (crt : CreateTableStatement) (old : table)
    (defs : List columnDefinition) (hex : mb.get crt.name.Value = some old)
    (hcols : (crt.cols = none ∧ defs = []) ∨ crt.cols = some (defs.map some)) :
    ∃ mb' err t, mb.CreateTable (some crt) = .ret (mb', err) ∧
      (err = none ∨ err = some .ErrInvalidDatatype) ∧
      (err = none ↔ ∀ d ∈ defs, knownDatatype d) ∧
      mb'.get crt.name.Value = some t ∧ t.rows = [] ∧
      (old.rows ≠ [] → mb'.get crt.name.Value ≠ mb.get crt.name.Value) ∧
      (∀ name, name ≠ crt.name.Value → mb'.get name = mb.get name) ∧
      (err = none → t.columns = defs.map (fun d => d.name.Value) ∧
        t.columnTypes = defs.map columnTypeOf) ∧
      (err = some .ErrInvalidDatatype → ∃ pre bad post, defs = pre ++ bad :: post ∧
        (∀ d ∈ pre, knownDatatype d) ∧ ¬ knownDatatype bad ∧
        t.columns = (pre ++ [bad]).map (fun d => d.name.Value) ∧
        t.columnTypes = pre.map columnTypeOf) := by
  have key : ∃ err t pre, mb.CreateTable (some crt) = .ret (mb.set crt.name.Value t, err) ∧
      t.rows = [] ∧ (∀ d ∈ pre, knownDatatype d) ∧ t.columnTypes = pre.map columnTypeOf ∧
      ((err = none ∧ defs = pre ∧ t.columns = pre.map (fun d => d.name.Value)) ∨
        (err = some .ErrInvalidDatatype ∧ ∃ bad post, defs = pre ++ bad :: post ∧
          ¬ knownDatatype bad ∧ t.columns = (pre ++ [bad]).map (fun d => d.name.Value))) := by
    rcases hcols with ⟨hc, rfl⟩ | hc
    · refine ⟨none, ⟨[], [], []⟩, [], ?_, rfl, fun _ h => absurd h (List.not_mem_nil _), rfl,
        Or.inl ⟨rfl, rfl, rfl⟩⟩
      simp only [MemoryBackend.CreateTable, hc]
    · obtain ⟨t', err, pre, h1, h2, h3, h4, h5⟩ := createTableLoop_spec defs ⟨[], [], []⟩
      refine ⟨err, t', pre, ?_, h2, h3, by simpa using h4, by simpa using h5⟩
      simp only [MemoryBackend.CreateTable, hc, h1]
  obtain ⟨err, t, pre, h1, h2, h3, h4, h5⟩ := key
  refine ⟨_, err, t, h1, ?_, ?_, get_set_same mb _ t, h2, fun hrows => ?_,
    fun name hn => get_set_other mb _ name t hn, fun he => ?_, fun he => ?_⟩
  · rcases h5 with ⟨he, _⟩ | ⟨he, _⟩
    · exact Or.inl he
    · exact Or.inr he
  · rcases h5 with ⟨he, hd, _⟩ | ⟨he, bad, post, hd, hb, _⟩
    · exact ⟨fun _ => by rw [hd]; exact h3, fun _ => he⟩
    · refine ⟨fun hn => ?_, fun hall => ?_⟩
      · rw [hn] at he
        cases he
      · exact absurd (hall bad (by rw [hd]; simp)) hb
  · rw [get_set_same, hex]
    intro he
    cases he
    exact hrows h2
  · rcases h5 with ⟨_, hd, hc⟩ | ⟨he', _⟩
    · rw [hd]
      exact ⟨hc, h4⟩
    · rw [he] at he'
      cases he'
  · rcases h5 with ⟨he', _⟩ | ⟨_, bad, post, hd, hb, hc⟩
    · rw [he] at he'
      cases he'
    · exact ⟨pre, bad, post, hd, h3, hb, hc, h4⟩

/-- The amended claim at work on a backend that holds the table `t` with a row: `CreateTable`
for `t` with the columns `b text, c as`. -/
theorem CreateTable_existing_witness :
    ∃ mb' err t,
      (MemoryBackend.mk [(ascii "t", ⟨[ascii "a"], [.IntType], [[[0, 0, 0, 1]]]⟩)]).CreateTable
          (some ⟨⟨ascii "t", .IdentifierKind, ⟨0, 13⟩⟩,
            some ([⟨⟨ascii "b", .IdentifierKind, ⟨0, 16⟩⟩, ⟨ascii "text", .KeywordKind, ⟨0, 18⟩⟩⟩,
              ⟨⟨ascii "c", .IdentifierKind, ⟨0, 24⟩⟩,
                ⟨ascii "as", .KeywordKind, ⟨0, 26⟩⟩⟩].map some)⟩) = .ret (mb', err) ∧
        (err = none ∨ err = some .ErrInvalidDatatype) ∧
        (err = none ↔ ∀ d ∈ ([⟨⟨ascii "b", .IdentifierKind, ⟨0, 16⟩⟩,
            ⟨ascii "text", .KeywordKind, ⟨0, 18⟩⟩⟩,
          ⟨⟨ascii "c", .IdentifierKind, ⟨0, 24⟩⟩, ⟨ascii "as", .KeywordKind, ⟨0, 26⟩⟩⟩] :
            List columnDefinition), knownDatatype d) ∧
        mb'.get (ascii "t") = some t ∧ t.rows = [] ∧
        ((⟨[ascii "a"], [.IntType], [[[0, 0, 0, 1]]]⟩ : table).rows ≠ [] →
          mb'.get (ascii "t") ≠
            (MemoryBackend.mk
              [(ascii "t", ⟨[ascii "a"], [.IntType], [[[0, 0, 0, 1]]]⟩)]).get (ascii "t")) ∧
        (∀ name, name ≠ ascii "t" →
          mb'.get name =
            (MemoryBackend.mk
              [(ascii "t", ⟨[ascii "a"], [.IntType], [[[0, 0, 0, 1]]]⟩)]).get name) ∧
        (err = none →
          t.columns = ([⟨⟨ascii "b", .IdentifierKind, ⟨0, 16⟩⟩,
              ⟨ascii "text", .KeywordKind, ⟨0, 18⟩⟩⟩,
            ⟨⟨ascii "c", .IdentifierKind, ⟨0, 24⟩⟩, ⟨ascii "as", .KeywordKind, ⟨0, 26⟩⟩⟩] :
              List columnDefinition).map (fun d => d.name.Value) ∧
          t.columnTypes = ([⟨⟨ascii "b", .IdentifierKind, ⟨0, 16⟩⟩,
              ⟨ascii "text", .KeywordKind, ⟨0, 18⟩⟩⟩,
            ⟨⟨ascii "c", .IdentifierKind, ⟨0, 24⟩⟩, ⟨ascii "as", .KeywordKind, ⟨0, 26⟩⟩⟩] :
              List columnDefinition).map columnTypeOf) ∧
        (err = some .ErrInvalidDatatype → ∃ pre bad post,
          ([⟨⟨ascii "b", .IdentifierKind, ⟨0, 16⟩⟩, ⟨ascii "text", .KeywordKind, ⟨0, 18⟩⟩⟩,
            ⟨⟨ascii "c", .IdentifierKind, ⟨0, 24⟩⟩, ⟨ascii "as", .KeywordKind, ⟨0, 26⟩⟩⟩] :
              List columnDefinition) = pre ++ bad :: post ∧
          (∀ d ∈ pre, knownDatatype d) ∧ ¬ knownDatatype bad ∧
          t.columns = (pre ++ [bad]).map (fun d => d.name.Value) ∧
          t.columnTypes = pre.map columnTypeOf) :=
  CreateTable_existing ⟨[(ascii "t", ⟨[ascii "a"], [.IntType], [[[0, 0, 0, 1]]]⟩)]⟩
    ⟨⟨ascii "t", .IdentifierKind, ⟨0, 13⟩⟩,
      some ([⟨⟨ascii "b", .IdentifierKind, ⟨0, 16⟩⟩, ⟨ascii "text", .KeywordKind, ⟨0, 18⟩⟩⟩,
        ⟨⟨ascii "c", .IdentifierKind, ⟨0, 24⟩⟩, ⟨ascii "as", .KeywordKind, ⟨0, 26⟩⟩⟩].map some)⟩
    ⟨[ascii "a"], [.IntType], [[[0, 0, 0, 1]]]⟩
    [⟨⟨ascii "b", .IdentifierKind, ⟨0, 16⟩⟩, ⟨ascii "text", .KeywordKind, ⟨0, 18⟩⟩⟩,
      ⟨⟨ascii "c", .IdentifierKind, ⟨0, 24⟩⟩, ⟨ascii "as", .KeywordKind, ⟨0, 26⟩⟩⟩]
    (by decide) (Or.inr rfl)

end Ashudb
